import Mathlib

/-!
# go-apidocs: schema resolution and projection engine

A shallow embedding of `apidocs/tools/tools.go`, `apidocs/render/render.go`,
`apidocs/render/examples.go`, and of parts of `apidocs/render/html.go`,
`apidocs/config/config.go` and `apidocs/source/source.go`, and theorems about
it.

Conventions of the embedding.

* A decoded JSON value is a `Json`.  A Go `*gjson.Json` is an `Option Json`:
  `none` is the nil pointer, `some v` a handle on the value `v` (which may be
  `Json.null`).
* A Go `map[string]T` is a `GoMap T`: `none` is the nil map, `some kvs` an
  allocated map.  An association list stands for the map that sends a key to
  its first entry; `mapKeys` lists each key once.
* Go code that can panic or recurse without bound returns `Except Stop _`:
  `Stop.panic` is a runtime panic, `Stop.outOfFuel` the exhaustion of the
  recursion budget `fuel` of the fuelled functions.
* The conversions of the `gjson`/`gconv` library on values of an unexpected
  JSON kind (the text of a number, the map made from an array, the document
  loaded from a string, ...) are not fixed here: they are the fields of a
  `Gconv`, over which every definition and theorem is parametric.
-/

namespace ApiDocs

/-! ## JSON values and the gjson accessors -/

/-- A decoded JSON value.  A number keeps its literal text. -/
inductive Json where
  | null
  | bool (b : Bool)
  | num (lit : String)
  | str (s : String)
  | arr (xs : List Json)
  | obj (kvs : List (String × Json))

/-- A Go map with string keys; `none` is the nil map. -/
abbrev GoMap (α : Type) := Option (List (String × α))

/-- Why a Go computation did not return. -/
inductive Stop where
  | panic
  | outOfFuel
deriving DecidableEq, Repr

/-- The conversions of gconv/gjson on values of an unexpected kind. -/
structure Gconv where
  /-- gconv.String on a boolean, number, array or object. -/
  str : Json → String
  /-- gconv.Interfaces on a value that is neither null nor an array. -/
  arr : Json → List Json
  /-- gconv.Map on a value that is neither null nor an object. -/
  map : Json → List (String × Json)
  /-- gjson.New on a string: the content loaded from it, or the string itself. -/
  load : String → Json

/-- A conversion table for closed examples: numbers and booleans print as
their text, and no other conversion yields anything. -/
def Gconv.plain : Gconv where
  str := fun v => match v with
    | .bool true => "true"
    | .bool false => "false"
    | .num lit => lit
    | _ => ""
  arr := fun v => [v]
  map := fun _ => []
  load := fun s => .str s

/-- The value of key `k` in an association list: its first entry. -/
def lookup {α : Type} (k : String) : List (String × α) → Option α
  | [] => none
  | (k', v) :: rest => if k' = k then some v else lookup k rest

/-- The keys of an association list, each once, in order of first entry. -/
def mapKeys {α : Type} : List (String × α) → List String
  | [] => []
  | (k, _) :: rest => k :: (mapKeys rest).filter (fun k' => decide (k' ≠ k))

/-- Number of keys of a Go map, `len(m)`; zero for the nil map. -/
def GoMap.len {α : Type} (m : GoMap α) : Nat :=
  match m with
  | none => 0
  | some kvs => (mapKeys kvs).length

/-- Reading `m[k]`; a nil map reads as empty. -/
def GoMap.get {α : Type} (m : GoMap α) (k : String) : Option α :=
  match m with
  | none => none
  | some kvs => lookup k kvs

/-- The keys of a Go map (`for k := range m`), each once. -/
def GoMap.keys {α : Type} (m : GoMap α) : List String :=
  match m with
  | none => []
  | some kvs => mapKeys kvs

/-- The entries of a Go map (`for k, v := range m`), one per key. -/
def GoMap.entries {α : Type} (m : GoMap α) : List (String × α) :=
  match m with
  | none => []
  | some kvs => (mapKeys kvs).filterMap (fun k => (lookup k kvs).map (fun v => (k, v)))

/-- Replace the entry of `k`, or add one at the end. -/
def insertKey {α : Type} (k : String) (v : α) : List (String × α) → List (String × α)
  | [] => [(k, v)]
  | (k', v') :: rest => if k' = k then (k, v) :: rest else (k', v') :: insertKey k v rest

/-- The assignment `m[k] = v`: a panic on the nil map. -/
def GoMap.assign {α : Type} (m : GoMap α) (k : String) (v : α) : Except Stop (GoMap α) :=
  match m with
  | none => .error .panic
  | some kvs => .ok (some (insertKey k v kvs))

/-- The loop `for k, v := range src { dst[k] = v }`. -/
def GoMap.assignAll {α : Type} (dst src : GoMap α) : Except Stop (GoMap α) :=
  src.entries.foldlM (fun m kv => GoMap.assign m kv.1 kv.2) dst

/-- One step of `Json.Get`: the member `k` of an object.  The keys used by the
program are never numeric, so an array has no such member. -/
def Json.member (v : Json) (k : String) : Option Json :=
  match v with
  | .obj kvs => lookup k kvs
  | _ => none

/-- The call `j.Get(k).Val()` for a pattern without a dot, on a possibly nil
handle: `Json.null` when there is nothing there. -/
def Get (j : Option Json) (k : String) : Json :=
  match j with
  | none => .null
  | some v => (v.member k).getD .null

/-- The call `j.Get("a.b").Val()` for a pattern of two segments. -/
def Get2 (j : Option Json) (a b : String) : Json :=
  match j with
  | none => .null
  | some v =>
    match v.member a with
    | none => .null
    | some w => (w.member b).getD .null

/-- The method `Var.String`. -/
def varString (G : Gconv) (v : Json) : String :=
  match v with
  | .null => ""
  | .str s => s
  | other => G.str other

/-- The method `Var.Array`. -/
def varArray (G : Gconv) (v : Json) : List Json :=
  match v with
  | .null => []
  | .arr xs => xs
  | other => G.arr other

/-- The method `Var.Map`. -/
def varMap (G : Gconv) (v : Json) : List (String × Json) :=
  match v with
  | .null => []
  | .obj kvs => kvs
  | other => G.map other

/-- The data held by `gjson.New(v)`: a string is loaded as content, any other
decoded value is kept. -/
def New (G : Gconv) (v : Json) : Json :=
  match v with
  | .str s => G.load s
  | other => other

/-- The result of `GetJsonMap` on the value found: the nil map unless the value
converts to a map with at least one key, else each entry wrapped by `New`. -/
def jsonMapOf (G : Gconv) (v : Json) : GoMap Json :=
  let m := varMap G v
  if (mapKeys m).length > 0 then some (m.map (fun kv => (kv.1, New G kv.2))) else none

/-- The call `j.GetJsonMap(k)`. -/
def GetJsonMap (G : Gconv) (j : Option Json) (k : String) : GoMap Json :=
  jsonMapOf G (Get j k)

/-- The call `j.GetJson(k)`: never a nil pointer, it wraps whatever `Get`
found, `Json.null` included. -/
def GetJson (G : Gconv) (j : Option Json) (k : String) : Option Json :=
  some (New G (Get j k))

/-- The call `j.Get(k).String()`. -/
def getString (G : Gconv) (j : Option Json) (k : String) : String :=
  varString G (Get j k)

/-- The call `j.Get(k).Array()`. -/
def getArray (G : Gconv) (j : Option Json) (k : String) : List Json :=
  varArray G (Get j k)

/-! ## apidocs/tools/tools.go -/

/-- Go `strings.HasPrefix`. -/
def hasPrefix (s p : String) : Bool := p.data.isPrefixOf s.data

/-- The characters after the last `/` of a list, and whether there is one. -/
def afterLastSlash : List Char → Option (List Char)
  | [] => none
  | c :: rest =>
    match afterLastSlash rest with
    | some tail => some tail
    | none => if c = '/' then some rest else none

/-- ComponentNameFromRef: the text after the last `/`, or "" without one. -/
def ComponentNameFromRef (ref : String) : String :=
  match afterLastSlash ref.data with
  | none => ""
  | some tail => String.mk tail

/-- GetSchema: the entry `name` of `components.schemas`. -/
def GetSchema (G : Gconv) (j : Option Json) (name : String) : Option Json :=
  match j with
  | none => none
  | some _ => (jsonMapOf G (Get2 j "components" "schemas")).get name

/-- GetRefJSON: resolve a `$ref` into `components.schemas` or
`components.parameters`. -/
def GetRefJSON (G : Gconv) (j : Option Json) (ref : String) : Option Json :=
  if hasPrefix ref "#/components/schemas/" then
    match j with
    | none => none
    | some _ => GetSchema G j (ComponentNameFromRef ref)
  else if hasPrefix ref "#/components/parameters/" then
    match j with
    | none => none
    | some _ => (jsonMapOf G (Get2 j "components" "parameters")).get (ComponentNameFromRef ref)
  else none

/-- The string members of an array, as SetFromArray collects them. -/
def SetFromArray (arr : List Json) : List String :=
  arr.filterMap (fun v => match v with
    | .str s => some s
    | _ => none)

/-- Reading `set[k]` in the `map[string]bool` built by SetFromArray. -/
def setHas (set : List String) (k : String) : Bool := set.contains k

/-- Go's `a > b` on strings: byte-wise order, which on UTF-8 text is the
order of the code points. -/
def strGt : List Char → List Char → Bool
  | [], _ => false
  | _ :: _, [] => true
  | a :: as, b :: bs => if b.val < a.val then true else if a.val < b.val then false else strGt as bs

/-- The inner loop of SortStrings: `rev` is the sorted part `a[0..i)` read from
its end; the elements greater than `v` are shifted and `v` put below them. -/
def sortInsert (v : String) : List String → List String
  | [] => [v]
  | x :: rest => if strGt x.data v.data then x :: sortInsert v rest else v :: x :: rest

/-- SortStrings: insertion sort, ascending. -/
def SortStrings (a : List String) : List String :=
  (a.foldl (fun rev v => sortInsert v rev) []).reverse

/-! ## apidocs/render/render.go -/

/-- FieldInfo: one row of the flattened field table. -/
structure FieldInfo where
  Path : String
  Required : Bool
  Typ : String
  Desc : String
deriving DecidableEq, Repr

/-- Go `unicode.IsSpace`. -/
def isSpace (c : Char) : Bool :=
  let n := c.toNat
  (9 ≤ n && n ≤ 13) || n = 32 || n = 133 || n = 160 || n = 5760 ||
    (8192 ≤ n && n ≤ 8202) || n = 8232 || n = 8233 || n = 8239 || n = 8287 || n = 12288

/-- Go `strings.TrimSpace`. -/
def trimSpace (s : String) : String :=
  String.mk ((s.data.dropWhile isSpace).reverse.dropWhile isSpace).reverse

/-- The function titleDescription: the trimmed title and description of a node,
joined by one blank when both are there. -/
def titleDescription (G : Gconv) (s : Option Json) : String :=
  match s with
  | none => ""
  | some _ =>
    let t := trimSpace (getString G s "title")
    let d := trimSpace (getString G s "description")
    if t ≠ "" ∧ d ≠ "" then t ++ " " ++ d
    else if t ≠ "" then t
    else d

/-- The body of the member loop of mergedProperties: the properties of one
member of a composition are assigned into `props`. -/
def mergeMember (G : Gconv) (j : Option Json) (props : GoMap Json) (it : Json) :
    Except Stop (GoMap Json) :=
  let elem : Option Json := some (New G it)
  let r := getString G elem "$ref"
  if r ≠ "" then
    match GetRefJSON G j r with
    | some sub => props.assignAll (GetJsonMap G (some sub) "properties")
    | none => .ok props
  else props.assignAll (GetJsonMap G elem "properties")

/-- The two nested loops of mergedProperties, over allOf, oneOf, anyOf and
over the members of each. -/
def mergeCompositions (G : Gconv) (j s : Option Json) (props : GoMap Json) :
    Except Stop (GoMap Json) :=
  ["allOf", "oneOf", "anyOf"].foldlM
    (fun p arrName => (getArray G s arrName).foldlM (mergeMember G j) p) props

/-- The function mergedProperties. -/
def mergedProperties (G : Gconv) (j s : Option Json) : Except Stop (GoMap Json) :=
  let props := GetJsonMap G s "properties"
  if props.len = 0 then mergeCompositions G j s props else .ok props

/-- The test `inlineObj` of the flatteners on the items of an array. -/
def inlineObj (G : Gconv) (it : Option Json) : Bool :=
  decide (getString G it "type" = "object") ||
    decide ((GetJsonMap G it "properties").len > 0) ||
    decide ((getArray G it "allOf").length > 0) ||
    decide ((getArray G it "oneOf").length > 0) ||
    decide ((getArray G it "anyOf").length > 0)

/-- The type label that the loop over the properties of inline array items
gives to the property `sp`. -/
def itemType (G : Gconv) (sp : Option Json) : String :=
  let st := getString G sp "type"
  let st := if getString G sp "$ref" ≠ "" then "object" else st
  if st = "array" then
    match GetJson G sp "items" with
    | some it3 =>
      if getString G (some it3) "$ref" ≠ "" then "array(object)"
      else if getString G (some it3) "type" ≠ "" then
        "array(" ++ getString G (some it3) "type" ++ ")"
      else "array"
    | none => "array"
  else if st = "" then "object"
  else st

/-- The rows for the properties of inline array items `it` of the array at
`curPath`: the loop over `k2` of both flatteners. -/
def itemRows (G : Gconv) (j : Option Json) (curPath : String) (it : Option Json) :
    Except Stop (List FieldInfo) := do
  let props2 ← mergedProperties G j it
  let itemReq := SetFromArray (getArray G it "required")
  let k2 := SortStrings props2.keys
  pure (k2.map (fun kk =>
    { Path := curPath ++ "[]." ++ kk, Required := setHas itemReq kk,
      Typ := itemType G (props2.get kk), Desc := titleDescription G (props2.get kk) }))

/-- The path of property `k` under `pre`: `k` itself under the empty prefix. -/
def joinPath (pre k : String) : String :=
  if pre ≠ "" then pre ++ "." ++ k else k

/-- Run the loop body `f` for each key in turn; `fields` gets what each run
emits, in order. -/
def appendRows (keys : List String) (f : String → Except Stop (List FieldInfo)) :
    Except Stop (List FieldInfo) :=
  match keys with
  | [] => pure []
  | k :: rest => do
    let rows ← f k
    let more ← appendRows rest f
    pure (rows ++ more)

/-- The body of the loop over `nkeys` in flattenSchemaFields: the rows for
property `nk` (node `np`) of an inline object at `curPath`. -/
def nestedRows (G : Gconv) (recur : String → String → Except Stop (List FieldInfo))
    (nestedReq : List String) (curPath nk : String) (np : Option Json) :
    Except Stop (List FieldInfo) :=
  let nreq := setHas nestedReq nk
  let ntyp := getString G np "type"
  let ndesc := titleDescription G np
  let nref := getString G np "$ref"
  let npath := curPath ++ "." ++ nk
  if ntyp = "array" then
    match GetJson G np "items" with
    | some it =>
      let r := getString G (some it) "$ref"
      if r ≠ "" then do
        let sub ← recur r (npath ++ "[]")
        pure ({ Path := npath ++ "[]", Required := nreq, Typ := "array(object)", Desc := ndesc }
          :: sub)
      else
        pure [{ Path := npath ++ "[]", Required := nreq,
                Typ := "array(" ++ getString G (some it) "type" ++ ")", Desc := ndesc }]
    | none => pure [{ Path := npath ++ "[]", Required := nreq, Typ := "array", Desc := ndesc }]
  else if nref ≠ "" then do
    let sub ← recur nref npath
    pure ({ Path := npath, Required := nreq, Typ := "object", Desc := ndesc } :: sub)
  else pure [{ Path := npath, Required := nreq, Typ := ntyp, Desc := ndesc }]

/-- The rows for the properties of the inline object `pj` at `curPath`: the
block of flattenSchemaFields guarded by `len(nestedProps) > 0`. -/
def nestedObjectRows (G : Gconv) (recur : String → String → Except Stop (List FieldInfo))
    (curPath : String) (pj : Option Json) : Except Stop (List FieldInfo) :=
  let nestedProps := GetJsonMap G pj "properties"
  if nestedProps.len > 0 then
    let nestedReq := SetFromArray (getArray G pj "required")
    appendRows (SortStrings nestedProps.keys)
      (fun nk => nestedRows G recur nestedReq curPath nk (nestedProps.get nk))
  else pure []

/-- The body of the loop over `keys` in flattenSchemaFields: the rows for
property `k` (node `pj`); `recur` is the recursive call on a reference. -/
def fieldRows (G : Gconv) (j : Option Json)
    (recur : String → String → Except Stop (List FieldInfo))
    (requiredSet : List String) (pre k : String) (pj : Option Json) :
    Except Stop (List FieldInfo) :=
  let req := setHas requiredSet k
  let typ := getString G pj "type"
  let desc := titleDescription G pj
  let ref2 := getString G pj "$ref"
  let curPath := joinPath pre k
  if typ = "array" then
    match GetJson G pj "items" with
    | some it =>
      let r := getString G (some it) "$ref"
      if r ≠ "" then do
        let sub ← recur r (curPath ++ "[]")
        pure ({ Path := curPath ++ "[]", Required := req, Typ := "array(object)", Desc := desc }
          :: sub)
      else if inlineObj G (some it) then do
        let rows ← itemRows G j curPath (some it)
        pure ({ Path := curPath ++ "[]", Required := req, Typ := "array(object)", Desc := desc }
          :: rows)
      else
        pure [{ Path := curPath ++ "[]", Required := req,
                Typ := "array(" ++ getString G (some it) "type" ++ ")", Desc := desc }]
    | none => pure [{ Path := curPath ++ "[]", Required := req, Typ := "array", Desc := desc }]
  else if ref2 ≠ "" then do
    let sub ← recur ref2 curPath
    pure ({ Path := curPath, Required := req, Typ := "object", Desc := desc } :: sub)
  else if typ = "object" then do
    let nested ← nestedObjectRows G recur curPath pj
    pure ({ Path := curPath, Required := req, Typ := "object", Desc := desc } :: nested)
  else pure [{ Path := curPath, Required := req, Typ := typ, Desc := desc }]

/-- The function flattenSchemaFields, with a budget of `fuel` nested calls. -/
def flattenSchemaFields (G : Gconv) (fuel : Nat) (j : Option Json) (ref pre : String) :
    Except Stop (List FieldInfo) :=
  match fuel with
  | 0 => .error .outOfFuel
  | fuel + 1 =>
    let name := ComponentNameFromRef ref
    match GetSchema G j name with
    | none => .ok []
    | some sj =>
      let props := GetJsonMap G (some sj) "properties"
      let requiredSet := SetFromArray (getArray G (some sj) "required")
      let keys := SortStrings props.keys
      appendRows keys (fun k =>
        fieldRows G j (fun r p => flattenSchemaFields G fuel j r p) requiredSet pre k (props.get k))

/-- The body of the loop over `keys` in flattenSchemaFieldsFromJson: the rows
for property `k` (node `pj`); `recur` is the recursive call on a node. -/
def fieldRowsFromJson (G : Gconv) (j : Option Json)
    (recur : Option Json → String → Except Stop (List FieldInfo))
    (requiredSet : List String) (pre k : String) (pj : Option Json) :
    Except Stop (List FieldInfo) :=
  let req := setHas requiredSet k
  let typ := getString G pj "type"
  let desc := titleDescription G pj
  let ref2 := getString G pj "$ref"
  let curPath := joinPath pre k
  if typ = "array" then
    match GetJson G pj "items" with
    | some it =>
      let r := getString G (some it) "$ref"
      if r ≠ "" then do
        let sub ←
          match GetRefJSON G j r with
          | some s => recur (some s) (curPath ++ "[]")
          | none => pure []
        pure ({ Path := curPath ++ "[]", Required := req, Typ := "array(object)", Desc := desc }
          :: sub)
      else if inlineObj G (some it) then do
        let rows ← itemRows G j curPath (some it)
        pure ({ Path := curPath ++ "[]", Required := req, Typ := "array(object)", Desc := desc }
          :: rows)
      else
        pure [{ Path := curPath ++ "[]", Required := req,
                Typ := "array(" ++ getString G (some it) "type" ++ ")", Desc := desc }]
    | none => pure [{ Path := curPath ++ "[]", Required := req, Typ := "array", Desc := desc }]
  else if ref2 ≠ "" then do
    let sub ←
      match GetRefJSON G j ref2 with
      | some s => recur (some s) curPath
      | none => pure []
    pure ({ Path := curPath, Required := req, Typ := "object", Desc := desc } :: sub)
  else if typ = "object" then do
    let sub ← recur pj curPath
    pure ({ Path := curPath, Required := req, Typ := "object", Desc := desc } :: sub)
  else pure [{ Path := curPath, Required := req, Typ := typ, Desc := desc }]

/-- The function flattenSchemaFieldsFromJson, with a budget of `fuel` nested
calls.  Its opening loops over allOf, oneOf and anyOf are, statement for
statement, the body of mergedProperties. -/
def flattenSchemaFieldsFromJson (G : Gconv) (fuel : Nat) (j sj : Option Json) (pre : String) :
    Except Stop (List FieldInfo) :=
  match fuel with
  | 0 => .error .outOfFuel
  | fuel + 1 =>
    match sj with
    | none => .ok []
    | some _ => do
      let props ← mergedProperties G j sj
      let requiredSet := SetFromArray (getArray G sj "required")
      let keys := SortStrings props.keys
      appendRows keys (fun k =>
        fieldRowsFromJson G j (fun s p => flattenSchemaFieldsFromJson G fuel j s p)
          requiredSet pre k (props.get k))

/-! ## apidocs/render/examples.go -/

/-- An example value: what the example builders return as `interface{}`. -/
inductive Ex where
  | null
  | str (s : String)
  | int (n : Int)
  | bool (b : Bool)
  | arr (xs : List Ex)
  | map (kvs : List (String × Ex))

/-- The closing `switch` of the example builders on the type of a scalar. -/
def scalarExample (typ : String) : Ex :=
  if typ = "string" then .str "string"
  else if typ = "integer" then .int 0
  else if typ = "number" then .int 0
  else if typ = "boolean" then .bool false
  else .null

/-- Fill the map `m`: one entry per key of `props`, its value computed by `f`
from the property node. -/
def buildMap (f : Option Json → Except Stop Ex) :
    List (String × Json) → Except Stop (List (String × Ex))
  | [] => pure []
  | (k, pj) :: rest => do
    let v ← f (some pj)
    let more ← buildMap f rest
    pure ((k, v) :: more)

/-- The function exampleValue, with a budget of `fuel` nested calls. -/
def exampleValue (G : Gconv) (fuel : Nat) (j : Option Json) (ref : String) : Except Stop Ex :=
  match fuel with
  | 0 => .error .outOfFuel
  | fuel + 1 =>
    let name := ComponentNameFromRef ref
    match GetSchema G j name with
    | none => .ok .null
    | some sj =>
      if getString G (some sj) "type" = "object" ∨ (GetJsonMap G (some sj) "properties").len > 0 then do
        let props := GetJsonMap G (some sj) "properties"
        let m ← buildMap (fun pj =>
          let rr := getString G pj "$ref"
          if rr ≠ "" then exampleValue G fuel j rr
          else pure (scalarExample (getString G pj "type"))) props.entries
        pure (.map m)
      else .ok (scalarExample (getString G (some sj) "type"))

/-- The array rule of exampleValueFromSchema, written out twice in the source
(for the schema itself and for a property): one example of the items when they
are a reference or have type object, else no element. -/
def arrayExample (G : Gconv) (j : Option Json) (recur : Option Json → Except Stop Ex)
    (node : Option Json) : Except Stop Ex :=
  match GetJson G node "items" with
  | some it =>
    let r2 := getString G (some it) "$ref"
    if r2 ≠ "" then do
      let v ← recur (GetRefJSON G j r2)
      pure (.arr [v])
    else if getString G (some it) "type" = "object" then do
      let v ← recur (some it)
      pure (.arr [v])
    else pure (.arr [])
  | none => pure (.arr [])

/-- The body of the loop over the properties in exampleValueFromSchema: the
value stored under the key of property node `pj`. -/
def propExample (G : Gconv) (j : Option Json) (recur : Option Json → Except Stop Ex)
    (pj : Option Json) : Except Stop Ex :=
  let rr := getString G pj "$ref"
  if rr ≠ "" then recur (GetRefJSON G j rr)
  else
    let typ := getString G pj "type"
    if typ = "string" then pure (.str "string")
    else if typ = "integer" then pure (.int 0)
    else if typ = "number" then pure (.int 0)
    else if typ = "boolean" then pure (.bool false)
    else if typ = "object" then recur pj
    else if typ = "array" then arrayExample G j recur pj
    else pure .null

/-- The function exampleValueFromSchema, with a budget of `fuel` nested calls. -/
def exampleValueFromSchema (G : Gconv) (fuel : Nat) (j sj : Option Json) : Except Stop Ex :=
  match fuel with
  | 0 => .error .outOfFuel
  | fuel + 1 =>
    match sj with
    | none => .ok .null
    | some _ =>
      let rr := getString G sj "$ref"
      if rr ≠ "" then exampleValueFromSchema G fuel j (GetRefJSON G j rr)
      else if getString G sj "type" = "array" then
        arrayExample G j (fun s => exampleValueFromSchema G fuel j s) sj
      else if getString G sj "type" = "object" ∨ (GetJsonMap G sj "properties").len > 0 then do
        let props := GetJsonMap G sj "properties"
        let m ← buildMap (propExample G j (fun s => exampleValueFromSchema G fuel j s))
          props.entries
        pure (.map m)
      else .ok (scalarExample (getString G sj "type"))

mutual
/-- Whether every array of an example value has at most one element. -/
def Ex.small : Ex → Bool
  | .arr xs => decide (xs.length ≤ 1) && Ex.smallList xs
  | .map kvs => Ex.smallEntries kvs
  | _ => true
/-- The values of a list are all `small`. -/
def Ex.smallList : List Ex → Bool
  | [] => true
  | x :: xs => Ex.small x && Ex.smallList xs
/-- The values of the entries are all `small`. -/
def Ex.smallEntries : List (String × Ex) → Bool
  | [] => true
  | (_, v) :: rest => Ex.small v && Ex.smallEntries rest
end

/-! ## What the fuelled functions return, and what the claims ask -/

/-- The call flattenSchemaFields(j, ref, pre) returns `out`. -/
def FlattensTo (G : Gconv) (j : Option Json) (ref pre : String) (out : List FieldInfo) : Prop :=
  ∃ fuel, flattenSchemaFields G fuel j ref pre = .ok out

/-- The call flattenSchemaFieldsFromJson(j, sj, pre) returns `out`. -/
def FlattensJsonTo (G : Gconv) (j sj : Option Json) (pre : String) (out : List FieldInfo) :
    Prop :=
  ∃ fuel, flattenSchemaFieldsFromJson G fuel j sj pre = .ok out

/-- The call exampleValueFromSchema(j, s) returns `v`. -/
def ExampleOf (G : Gconv) (j s : Option Json) (v : Ex) : Prop :=
  ∃ fuel, exampleValueFromSchema G fuel j s = .ok v

/-- What C6 asks of the flag `b` of a row for property `k` of node `n`: with a
`required` array, `b` says whether the string `k` is one of its members;
without a `required` entry, `b` is false. -/
def RequiredAt (n : Option Json) (k : String) (b : Bool) : Prop :=
  (∀ xs, Get n "required" = .arr xs → (b = true ↔ Json.str k ∈ xs)) ∧
  (Get n "required" = .null → b = false)

/-- The value that C9 gives to a property node `pj` of an object schema: the
example of the referenced schema for a `$ref`, the placeholder of a scalar
type, the example of the node itself for an object or an array, else null. -/
def PropExample (G : Gconv) (j pj : Option Json) (v : Ex) : Prop :=
  if getString G pj "$ref" ≠ "" then ExampleOf G j (GetRefJSON G j (getString G pj "$ref")) v
  else if getString G pj "type" = "string" then v = .str "string"
  else if getString G pj "type" = "integer" ∨ getString G pj "type" = "number" then v = .int 0
  else if getString G pj "type" = "boolean" then v = .bool false
  else if getString G pj "type" = "object" ∨ getString G pj "type" = "array" then
    ExampleOf G j pj v
  else v = .null

/-! ## Documents and schemas used in closed examples -/

/-- The schema `Foo = {type: object, properties: {a: {type: string}}}`. -/
def fooSchema : Json :=
  .obj [("type", .str "object"), ("properties", .obj [("a", .obj [("type", .str "string")])])]

/-- A document whose only component schema is `Foo`. -/
def fooDoc : Json :=
  .obj [("components", .obj [("schemas", .obj [("Foo", fooSchema)])])]

/-- The schema `{type: object, properties: {xs: {type: array, items: {$ref: Foo}}}}`. -/
def listOfFoo : Json :=
  .obj [("type", .str "object"), ("properties", .obj [
    ("xs", .obj [("type", .str "array"),
                 ("items", .obj [("$ref", .str "#/components/schemas/Foo")])])])]

/-- A document with the component schemas `Foo` and `Bar = listOfFoo`. -/
def listDoc : Json :=
  .obj [("components", .obj [("schemas", .obj [("Foo", fooSchema), ("Bar", listOfFoo)])])]

/-- A schema whose property `f` carries both a `$ref` to `Foo` and the type
`array`, with string items. -/
def oddSchema : Json :=
  .obj [("type", .str "object"), ("properties", .obj [
    ("f", .obj [("$ref", .str "#/components/schemas/Foo"), ("type", .str "array"),
                ("items", .obj [("type", .str "string")])])])]

/-- A document with `Foo`, a schema `Holder` whose property `f` is a reference
to `Foo`, and the schema `Odd = oddSchema`. -/
def holderDoc : Json :=
  .obj [("components", .obj [("schemas", .obj [
    ("Foo", fooSchema),
    ("Holder", .obj [("type", .str "object"), ("properties", .obj [
      ("f", .obj [("$ref", .str "#/components/schemas/Foo")])])]),
    ("Odd", oddSchema)])])]

/-- A schema whose property `xs` is an array of inline objects with the one
property `name`, the node `node`. -/
def outerOf (name : String) (node : Json) : Json :=
  .obj [("type", .str "object"), ("properties", .obj [
    ("xs", .obj [("type", .str "array"),
      ("items", .obj [("type", .str "object"), ("properties", .obj [(name, node)])])])])]

/-- A document with the component schemas `Foo` and `Outer = outerOf name node`. -/
def inItems (name : String) (node : Json) : Json :=
  .obj [("components", .obj [("schemas", .obj [
    ("Foo", fooSchema), ("Outer", outerOf name node)])])]

/-- A document whose schema `Tags` has one property, `tags`, an array of
strings. -/
def stringsDoc : Json :=
  .obj [("components", .obj [("schemas", .obj [
    ("Tags", .obj [("type", .str "object"), ("properties", .obj [
      ("tags", .obj [("type", .str "array"), ("items", .obj [("type", .str "string")])])])])])])]

/-- A document whose schema `Tags` has one property, `tags`, of type array
without `items`. -/
def tagsDoc : Json :=
  .obj [("components", .obj [("schemas", .obj [
    ("Tags", .obj [("type", .str "object"), ("properties", .obj [
      ("tags", .obj [("type", .str "array")])])])])])]

/-- A schema that names `b` as required at the top level, `d` inside the
nested object `o` and `f` inside the items of the array `xs`. -/
def reqSchema : Json :=
  .obj [("type", .str "object"), ("required", .arr [.str "b"]),
    ("properties", .obj [
      ("a", .obj [("type", .str "string")]),
      ("b", .obj [("type", .str "string")]),
      ("o", .obj [("type", .str "object"), ("required", .arr [.str "d"]),
        ("properties", .obj [
          ("c", .obj [("type", .str "string")]),
          ("d", .obj [("type", .str "string")])])]),
      ("xs", .obj [("type", .str "array"),
        ("items", .obj [("type", .str "object"), ("required", .arr [.str "f"]),
          ("properties", .obj [
            ("e", .obj [("type", .str "string")]),
            ("f", .obj [("type", .str "string")])])])])])]

/-- A document whose only component schema is `Req = reqSchema`. -/
def reqDoc : Json :=
  .obj [("components", .obj [("schemas", .obj [("Req", reqSchema)])])]

/-- A schema with own properties and an `allOf` member. -/
def ownAndAllOf : Json :=
  .obj [("properties", .obj [("a", .obj [("type", .str "string")])]),
        ("allOf", .arr [.obj [("properties", .obj [("b", .obj [("type", .str "integer")])])]])]

/-- A schema without own properties whose `allOf` has one inline member with
the property `a`. -/
def allOfInline : Json :=
  .obj [("allOf", .arr [.obj [("properties", .obj [("a", .obj [("type", .str "string")])])]])]

/-- A schema without own properties whose `allOf` has one member, a reference
to `Foo`. -/
def allOfRef : Json :=
  .obj [("allOf", .arr [.obj [("$ref", .str "#/components/schemas/Foo")]])]

/-- A schema without own properties whose only `allOf` member has none. -/
def allOfEmpty : Json :=
  .obj [("type", .str "object"), ("allOf", .arr [.obj [("type", .str "object")]])]

/-- A schema of type array that also has properties. -/
def arrayWithProps : Json :=
  .obj [("type", .str "array"), ("properties", .obj [("b", .obj [("type", .str "string")])])]

/-- A schema of type object with the property `b` and a `$ref` to `Foo`. -/
def refWithProps : Json :=
  .obj [("$ref", .str "#/components/schemas/Foo"), ("type", .str "object"),
        ("properties", .obj [("b", .obj [("type", .str "string")])])]

/-- The schema `{type: array, items: {$ref: Foo}}`. -/
def arrayOfFoo : Json :=
  .obj [("type", .str "array"), ("items", .obj [("$ref", .str "#/components/schemas/Foo")])]

/-- An array schema whose items are an inline object written without a type:
`{type: array, items: {properties: {a: {type: string}}}}`. -/
def arrayOfUntyped : Json :=
  .obj [("type", .str "array"),
        ("items", .obj [("properties", .obj [("a", .obj [("type", .str "string")])])])]

/-- An array schema that also carries a `$ref`, to `Foo`. -/
def arrayWithRef : Json :=
  .obj [("$ref", .str "#/components/schemas/Foo"), ("type", .str "array"),
        ("items", .obj [("type", .str "string")])]

/-! ## Go string functions -/

/-- The scan of `strings.ReplaceAll` for a non-empty `old`: `skip` counts the
characters of a match that are still to be passed over. -/
def replaceScan (old new : List Char) : Nat → List Char → List Char
  | _, [] => []
  | skip + 1, _ :: rest => replaceScan old new skip rest
  | 0, c :: rest =>
    if old.isPrefixOf (c :: rest) then new ++ replaceScan old new (old.length - 1) rest
    else c :: replaceScan old new 0 rest

/-- Go `strings.ReplaceAll(s, old, new)` for a non-empty `old`: the matches are
taken from the left and do not overlap. -/
def ReplaceAll (s old new : String) : String :=
  String.mk (replaceScan old.data new.data 0 s.data)

/-- Whether `pat` occurs in a list of characters. -/
def containsChars (pat : List Char) : List Char → Bool
  | [] => pat.isEmpty
  | c :: rest => pat.isPrefixOf (c :: rest) || containsChars pat rest

/-- Go `strings.Contains`. -/
def Contains (s sub : String) : Bool := containsChars sub.data s.data

/-- Go `strings.ContainsAny(s, chars)`. -/
def ContainsAny (s chars : String) : Bool := s.data.any (fun c => chars.data.contains c)

/-- The characters after the last `.` of a list, the whole list without one. -/
def lastSegmentChars : List Char → List Char
  | [] => []
  | c :: rest =>
    if rest.contains '.' then lastSegmentChars rest
    else if c = '.' then rest
    else c :: rest

/-- The last element of `strings.Split(s, ".")`. -/
def lastSegment (s : String) : String := String.mk (lastSegmentChars s.data)

/-! ## The whitelist filter of render.go -/

/-- The loop `for strings.Contains(a, "[][]")` of the normalisation, run at
most `fuel` times: each pass replaces `[][]` by `[]`. -/
def collapseBrackets : Nat → String → String
  | 0, a => a
  | fuel + 1, a =>
    if Contains a "[][]" then collapseBrackets fuel (ReplaceAll a "[][]" "[]") else a

/-- The normal form of one non-empty pattern of an allow-list: `.items` is
removed, then runs of `[]` are collapsed (every pass of the loop shortens the
pattern, so its length bounds the number of passes). -/
def normalizePattern (a : String) : String :=
  let a1 := ReplaceAll a ".items" ""
  collapseBrackets a1.length a1

/-- The list `norm` of filterFieldInfos: the normal forms of the non-empty
patterns, in order. -/
def normalizeAllowed (allowed : List String) : List String :=
  allowed.filterMap (fun a => if a = "" then none else some (normalizePattern a))

/-- The first test of the inner loop of filterFieldInfos: the path is the
pattern or continues it by `.` or `[]`. -/
def matchesPath (path a : String) : Bool :=
  decide (path = a) || hasPrefix path (a ++ ".") || hasPrefix path (a ++ "[]") ||
    hasPrefix path (a ++ "[].")

/-- The second test of the inner loop of filterFieldInfos, the leaf-name
shorthand: under `data`, a pattern without `.`, `[`, `]` that is the last
segment of the path, for a type that is not `object` nor `object(...)`. -/
def matchesLeaf (f : FieldInfo) (a : String) : Bool :=
  hasPrefix f.Path "data" && !ContainsAny a ".[]" &&
    decide (lastSegment (ReplaceAll f.Path "[]" "") = a) &&
    decide (f.Typ ≠ "object") && !hasPrefix f.Typ "object("

/-- The flag `keep` after the inner loop of filterFieldInfos over `norm`. -/
def keepField (norm : List String) (f : FieldInfo) : Bool :=
  norm.any (fun a => decide (a ≠ "") && (matchesPath f.Path a || matchesLeaf f a))

/-- The first test of the outer loop: the three envelope paths. -/
def isEnvelope (f : FieldInfo) : Bool :=
  decide (f.Path = "code") || decide (f.Path = "message") || decide (f.Path = "data")

/-- The function filterFieldInfos. -/
def filterFieldInfos (fields : List FieldInfo) (allowed : List String) : List FieldInfo :=
  if allowed.length = 0 then fields
  else fields.filter (fun f => isEnvelope f || keepField (normalizeAllowed allowed) f)
/-! ## The whitelist filter of examples.go -/

/-- The function pathJoin. -/
def pathJoin (pre key : String) : String :=
  if pre = "" then key else pre ++ "." ++ key

/-- The function matchAllowedPath; the set `aset` is the list of its keys. -/
def matchAllowedPath (aset : List String) (path : String) : Bool :=
  aset.contains path || aset.contains (ReplaceAll path "[]." "[]") ||
    aset.contains (ReplaceAll path "[]" "")

/-- The function isNonEmpty; `Ex.null` is the nil interface value. -/
def isNonEmpty : Ex → Bool
  | .map kvs => decide (kvs.length > 0)
  | .arr xs => decide (xs.length > 0)
  | .null => false
  | _ => true

mutual
/-- The function filterValueLeaves. -/
def filterValueLeaves (aset : List String) : Ex → String → Ex
  | .map kvs, pre => .map (filterMapLeaves aset kvs pre)
  | .arr xs, pre => .arr (filterArrayLeaves aset xs pre)
  | v, _ => v
/-- The `[]interface{}` case of filterValueLeaves: only the first element is
looked at, under the prefix extended by `[]`. -/
def filterArrayLeaves (aset : List String) : List Ex → String → List Ex
  | [], _ => []
  | x :: _, pre =>
    let pr := filterValueLeaves aset x (pre ++ "[]")
    if isNonEmpty pr then [pr] else []
/-- The loop of filterValueLeaves over the entries of a map. -/
def filterMapLeaves (aset : List String) : List (String × Ex) → String → List (String × Ex)
  | [], _ => []
  | (k, .map kvs) :: rest, pre =>
    let pr := Ex.map (filterMapLeaves aset kvs (pathJoin pre k))
    if isNonEmpty pr then (k, pr) :: filterMapLeaves aset rest pre
    else filterMapLeaves aset rest pre
  | (k, .arr xs) :: rest, pre =>
    let pr := Ex.arr (filterArrayLeaves aset xs (pathJoin pre k))
    if isNonEmpty pr then (k, pr) :: filterMapLeaves aset rest pre
    else filterMapLeaves aset rest pre
  | (k, vv) :: rest, pre =>
    if aset.contains k || matchAllowedPath aset (pathJoin pre k) then
      (k, vv) :: filterMapLeaves aset rest pre
    else filterMapLeaves aset rest pre
end

/-- The top loop of filterExampleDataLeaves on one entry of the example. -/
def filterTopEntry (aset : List String) (kv : String × Ex) : String × Ex :=
  if kv.1 = "code" ∨ kv.1 = "message" then kv
  else if kv.1 = "data" then (kv.1, filterValueLeaves aset kv.2 "data")
  else kv

/-- The function filterExampleDataLeaves: the set `aset` holds the normal
forms of the non-empty patterns; an example that is not a map is returned as
it is. -/
def filterExampleDataLeaves (ex : Ex) (allowed : List String) : Ex :=
  match ex with
  | .map m => .map (m.map (filterTopEntry (normalizeAllowed allowed)))
  | _ => ex

/-- A document with one parameter component, `P`, and no schema component. -/
def paramDoc : Json :=
  .obj [("components", .obj [("parameters", .obj [("P", .obj [("type", .str "string")])])])]

/-- An object schema whose property `p` refers to a schema that no document of
the examples has. -/
def danglingHolder : Json :=
  .obj [("type", .str "object"),
        ("properties", .obj [("p", .obj [("$ref", .str "#/components/schemas/DoesNotExist")])])]

/-- `{"components": {"schemas": {"Holder": danglingHolder}}}`. -/
def danglingDoc : Json :=
  .obj [("components", .obj [("schemas", .obj [("Holder", danglingHolder)])])]

/-- A property node with both a `$ref` that does not resolve and the type
`array`. -/
def danglingArray : Json :=
  .obj [("$ref", .str "#/components/schemas/DoesNotExist"), ("type", .str "array")]

/-! ## Property names -/

/-- A property name that is not empty and has no `.` and no `[`. -/
def cleanName (k : String) : Bool := decide (k ≠ "") && !ContainsAny k ".["

/-- The keys of an object are clean names; nothing is asked of another value. -/
def propNamesClean : Json → Bool
  | .obj kvs => kvs.all (fun kv => cleanName kv.1)
  | _ => true

mutual
/-- Every `properties` object inside the value has clean names only. -/
def Json.cleanNames : Json → Bool
  | .obj kvs => cleanEntries kvs
  | _ => true
/-- The entries of an object: each value has clean names, and the keys of the
value of `properties` are clean. -/
def cleanEntries : List (String × Json) → Bool
  | [] => true
  | (k, v) :: rest =>
    v.cleanNames && (decide (k ≠ "properties") || propNamesClean v) && cleanEntries rest
end

/-- A possibly nil handle on a value with clean names. -/
def cleanNode (n : Option Json) : Bool :=
  match n with
  | none => true
  | some v => v.cleanNames

/-- The conversions of ill-kinded values bring in no other property names:
loaded content has clean names, and a converted map has clean keys and
values with clean names. -/
def Gconv.CleanNames (G : Gconv) : Prop :=
  (∀ s, (G.load s).cleanNames = true) ∧
  (∀ v, ∀ kv ∈ G.map v, cleanName kv.1 = true ∧ kv.2.cleanNames = true)

/-- A schema with the property `a`, an object with the property `b`, and the
property named `a.b`. -/
def dottedSchema : Json :=
  .obj [("type", .str "object"),
        ("properties", .obj [
          ("a", .obj [("type", .str "object"),
                      ("properties", .obj [("b", .obj [("type", .str "string")])])]),
          ("a.b", .obj [("type", .str "string")])])]

/-- `{"components": {"schemas": {"Dotted": dottedSchema}}}`. -/
def dottedDoc : Json :=
  .obj [("components", .obj [("schemas", .obj [("Dotted", dottedSchema)])])]
/-- What may follow a property name in a path: nothing, or a text opening with
`.` or `[`. -/
def tailOk : List Char → Bool
  | [] => true
  | c :: _ => decide (c = '.') || decide (c = '[')

/-- The rows of one property at path `cur`: their paths differ from each other,
and each is `cur`, possibly followed by `.` or `[` and more. -/
def RowsAt (cur : String) (rows : List FieldInfo) : Prop :=
  (rows.map (fun f => f.Path)).Nodup ∧
  ∀ f ∈ rows, ∃ t : String, f.Path = cur ++ t ∧ tailOk t.data = true

/-- The rows of one call with prefix `pre`: their paths differ from each other
and, under a non-empty prefix, each is the prefix, a `.` and more. -/
def RowsUnder (pre : String) (rows : List FieldInfo) : Prop :=
  (rows.map (fun f => f.Path)).Nodup ∧
  (pre ≠ "" → ∀ f ∈ rows, ∃ t : String, f.Path = pre ++ "." ++ t)

/-- The schema `{type: object, properties: {p: {$ref: "#/components/parameters/Foo"}}}`:
its property refers to the parameter `Foo`. -/
def paramRefSchema : Json :=
  .obj [("type", .str "object"),
        ("properties", .obj [("p", .obj [("$ref", .str "#/components/parameters/Foo")])])]

/-- A document with the schema `Foo = paramRefSchema` and the parameter
`Foo = {type: string}`: no schema refers to a schema. -/
def paramRefDoc : Json :=
  .obj [("components", .obj [
    ("schemas", .obj [("Foo", paramRefSchema)]),
    ("parameters", .obj [("Foo", .obj [("type", .str "string")])])])]

/-! ## The same document under another enumeration of its maps -/

/-- Two decoded values that differ only in the order in which the entries of
their objects are enumerated. -/
inductive SameJson : Json → Json → Prop
  | refl (v : Json) : SameJson v v
  | arr (xs ys : List Json) : xs.length = ys.length →
      (∀ (i : Nat) (x y : Json), xs.get? i = some x → ys.get? i = some y → SameJson x y) →
      SameJson (.arr xs) (.arr ys)
  | obj (kvs kvs' : List (String × Json)) : (mapKeys kvs).Perm (mapKeys kvs') →
      (∀ (k : String) (v v' : Json), lookup k kvs = some v → lookup k kvs' = some v' →
        SameJson v v') →
      SameJson (.obj kvs) (.obj kvs')

/-- Two enumerations of the entries of one map: the same keys, and under each
key the same value. -/
def SameEntries (kvs kvs' : List (String × Json)) : Prop :=
  (mapKeys kvs).Perm (mapKeys kvs') ∧
  ∀ (k : String) (v v' : Json), lookup k kvs = some v → lookup k kvs' = some v' → SameJson v v'

/-- The relation `SameJson` on possibly nil handles. -/
def SameNode (n n' : Option Json) : Prop :=
  match n, n' with
  | none, none => True
  | some v, some v' => SameJson v v'
  | _, _ => False

/-- The relation `SameEntries` on Go maps; a nil map only matches a nil map. -/
def SameMap (m m' : GoMap Json) : Prop :=
  match m, m' with
  | none, none => True
  | some kvs, some kvs' => SameEntries kvs kvs'
  | _, _ => False

/-- The conversions of ill-kinded values do not look at the order of
enumeration. -/
def Gconv.Respects (G : Gconv) : Prop :=
  (∀ v v', SameJson v v' → G.str v = G.str v') ∧
  (∀ v v', SameJson v v' → List.Forall₂ SameJson (G.arr v) (G.arr v')) ∧
  (∀ v v', SameJson v v' → SameEntries (G.map v) (G.map v'))

/-- Two example values that are equal as Go values: maps with the same keys
and, under each key, the same value, whatever the order of their entries. -/
inductive SameEx : Ex → Ex → Prop
  | refl (v : Ex) : SameEx v v
  | arr (xs ys : List Ex) : xs.length = ys.length →
      (∀ (i : Nat) (x y : Ex), xs.get? i = some x → ys.get? i = some y → SameEx x y) →
      SameEx (.arr xs) (.arr ys)
  | map (kvs kvs' : List (String × Ex)) :
      (kvs.map Prod.fst).Perm (kvs'.map Prod.fst) →
      (∀ (k : String) (v v' : Ex), lookup k kvs = some v → lookup k kvs' = some v' →
        SameEx v v') →
      SameEx (.map kvs) (.map kvs')
/-- A document whose schema `Foo` has the properties `a` (string) and `b`
(integer), enumerated in this order. -/
def abDoc : Json :=
  .obj [("components", .obj [("schemas", .obj [("Foo", .obj [("properties", .obj [
    ("a", .obj [("type", .str "string")]), ("b", .obj [("type", .str "integer")])])])])])]

/-- The document `abDoc` with the properties of `Foo` enumerated as `b`, `a`. -/
def baDoc : Json :=
  .obj [("components", .obj [("schemas", .obj [("Foo", .obj [("properties", .obj [
    ("b", .obj [("type", .str "integer")]), ("a", .obj [("type", .str "string")])])])])])]

/-! ## Leaves of an example value -/

/-- A value that is neither a map nor an array: a leaf for filterValueLeaves
(the `default` case of its type switches), nil included. -/
def isLeaf : Ex → Bool
  | .map _ => false
  | .arr _ => false
  | _ => true

/-- The leaf `v` stands at key `k` with dotted path `P` in the value `t` read
under the prefix `pre`: a map adds `.` and the key to the prefix (pathJoin),
an array adds `[]` and is read through its first element, the one
filterValueLeaves looks at. -/
inductive LeafAt : Ex → String → String → String → Ex → Prop
  | leaf (kvs : List (String × Ex)) (pre k : String) (v : Ex) :
      (k, v) ∈ kvs → isLeaf v = true → LeafAt (.map kvs) pre k (pathJoin pre k) v
  | inMap (kvs : List (String × Ex)) (pre k0 : String) (sub : Ex) (k P : String) (v : Ex) :
      (k0, sub) ∈ kvs → isLeaf sub = false → LeafAt sub (pathJoin pre k0) k P v →
      LeafAt (.map kvs) pre k P v
  | inArr (x : Ex) (rest : List Ex) (pre k P : String) (v : Ex) :
      LeafAt x (pre ++ "[]") k P v → LeafAt (.arr (x :: rest)) pre k P v

/-! ## apidocs/tools/tools.go: HTMLEscape -/

/-- The function HTMLEscape: four replacements one after the other, `&` first. -/
def HTMLEscape (s : String) : String :=
  ReplaceAll (ReplaceAll (ReplaceAll (ReplaceAll s "&" "&amp;") "<" "&lt;") ">" "&gt;")
    "\"" "&quot;"

/-- What HTMLEscape makes of one character. -/
def escapeChar (c : Char) : List Char :=
  if c = '&' then "&amp;".data
  else if c = '<' then "&lt;".data
  else if c = '>' then "&gt;".data
  else if c = '"' then "&quot;".data
  else [c]

/-- Every `&` of the text is followed by `amp;`, `lt;`, `gt;` or `quot;`. -/
def entitiesOnly : List Char → Bool
  | [] => true
  | c :: rest =>
    (decide (c ≠ '&') || "amp;".data.isPrefixOf rest || "lt;".data.isPrefixOf rest ||
      "gt;".data.isPrefixOf rest || "quot;".data.isPrefixOf rest) && entitiesOnly rest

/-- Decoding of the four entities in one pass from the left; `skip` counts the
characters of an entity still to be passed over. -/
def unescapeScan : Nat → List Char → List Char
  | _, [] => []
  | skip + 1, _ :: rest => unescapeScan skip rest
  | 0, c :: rest =>
    if "&amp;".data.isPrefixOf (c :: rest) then '&' :: unescapeScan 4 rest
    else if "&lt;".data.isPrefixOf (c :: rest) then '<' :: unescapeScan 3 rest
    else if "&gt;".data.isPrefixOf (c :: rest) then '>' :: unescapeScan 3 rest
    else if "&quot;".data.isPrefixOf (c :: rest) then '"' :: unescapeScan 5 rest
    else c :: unescapeScan 0 rest

/-- The text with its entities `&amp;`, `&lt;`, `&gt;`, `&quot;` decoded. -/
def HTMLUnescape (s : String) : String := String.mk (unescapeScan 0 s.data)
/-! ## apidocs/render/html.go: parseHeaderSpec -/

/-- Go `strings.Split(s, sep)` for a separator of one character: the pieces
between the separators, empty ones included. -/
def splitChars (sep : Char) : List Char → List (List Char)
  | [] => [[]]
  | c :: rest =>
    if c = sep then [] :: splitChars sep rest
    else
      match splitChars sep rest with
      | [] => [[c]]
      | seg :: segs => (c :: seg) :: segs

/-- Go `strings.Split(s, sep)` for a separator of one character. -/
def Split (s : String) (sep : Char) : List String :=
  (splitChars sep s.data).map String.mk

/-- Go `strings.ToLower`: character by character; the upper-case letters of
ASCII are lowered here, `lowerRune` is `unicode.ToLower` outside ASCII. -/
def ToLower (lowerRune : Char → Char) (s : String) : String :=
  String.mk (s.data.map (fun c =>
    if c.toNat < 128 then (if 65 ≤ c.toNat ∧ c.toNat ≤ 90 then Char.ofNat (c.toNat + 32) else c)
    else lowerRune c))

/-- The function parseHeaderSpec: type, required mark and description of a
header given as `type#required#desc` or `type#desc`. -/
def parseHeaderSpec (lowerRune : Char → Char) (spec : String) : String × String × String :=
  let parts := Split spec '#'
  let typ := if parts.length > 0 then parts.getD 0 "" else ""
  let rd : String × String :=
    if parts.length ≥ 2 then
      let p1 := ToLower lowerRune (trimSpace (parts.getD 1 ""))
      if p1 = "required" ∨ p1 = "必选" then
        ("是", if parts.length ≥ 3 then parts.getD 2 "" else "")
      else if p1 = "optional" ∨ p1 = "可选" then
        ("否", if parts.length ≥ 3 then parts.getD 2 "" else parts.getD 1 "")
      else ("否", parts.getD 1 "")
    else ("否", "")
  let desc := if parts.length ≥ 3 ∧ rd.2 = "" then parts.getD 2 "" else rd.2
  (typ, rd.1, desc)
/-! ## apidocs/config/config.go -/

/-- The struct CustomizeReqAndRes; a nil slice is `none`. -/
structure CustomizeReqAndRes where
  Headers : GoMap String
  Request : Option (List String)
  Response : Option (List String)
deriving DecidableEq

/-- The struct Config; `F` is the type of the hook functions and `none` the
nil function. -/
structure Config (F : Type) where
  RouteDocs : String
  RouteMarkdown : String
  Preprocess : Option F
  Domain : String
  Port : Int
  Path : String
  Customize : GoMap CustomizeReqAndRes
  TemplateDir : String
deriving DecidableEq

/-- The method customize: a fresh map with the one rule written in the source;
it does not read its receiver. -/
def Config.customize {F : Type} (_c : Config F) : GoMap CustomizeReqAndRes :=
  some [("/v1/record/record/*",
    { Headers := some [("accessToken", "string#required#登录获取的accessToken")],
      Request := none, Response := none })]

/-- The method WithDefaults. -/
def Config.WithDefaults {F : Type} (c : Config F) : Config F :=
  let d := c
  let d := if d.RouteDocs = "" then { d with RouteDocs := "/docs" } else d
  let d := if d.RouteMarkdown = "" then { d with RouteMarkdown := "/docs.md" } else d
  { d with Customize := d.customize }

/-- A configuration with its own rule for `/mine` and nothing else set. -/
def ownRuleConfig : Config Unit :=
  { RouteDocs := "", RouteMarkdown := "/md", Preprocess := none, Domain := "", Port := 0,
    Path := "",
    Customize := some [("/mine", { Headers := none, Request := some ["data.a"],
                                   Response := none })],
    TemplateDir := "" }

/-! ## apidocs/tools/tools.go: StripComponentTypeDecorations -/

/-- Go `strings.Index` on characters: the place of the first occurrence of
`sub`, `none` for -1. -/
def indexChars (sub : List Char) : List Char → Option Nat
  | [] => if sub.isEmpty then some 0 else none
  | c :: rest =>
    if sub.isPrefixOf (c :: rest) then some 0 else (indexChars sub rest).map (fun i => i + 1)

/-- One of the two loops of StripComponentTypeDecorations, run at most `fuel`
times: the first `opening` and what follows it up to the next `)` are
replaced by `label`. -/
def stripLoop (opening label : List Char) : Nat → List Char → List Char
  | 0, s => s
  | fuel + 1, s =>
    match indexChars opening s with
    | none => s
    | some i =>
      match indexChars [')'] (s.drop (i + opening.length)) with
      | none => s
      | some j =>
        stripLoop opening label fuel
          (s.take i ++ label ++ s.drop (i + opening.length + j + 1))

/-- The function StripComponentTypeDecorations: the loop for `array(object(`,
then the loop for `object(`; every pass shortens the string, so its length
bounds the number of passes. -/
def StripComponentTypeDecorations (s : String) : String :=
  let s1 := stripLoop "array(object(".data "array(object)".data (s.length + 1) s.data
  String.mk (stripLoop "object(".data "object".data (s1.length + 1) s1)

/-! ## apidocs/render/html.go: pathLikeMatch -/

/-- The loop of pathLikeMatch over the pieces of the pattern: `i` is the place
in `path` after the pieces found so far. -/
def matchSegs (path : List Char) : List (List Char) → Nat → Bool
  | [], _ => true
  | s :: rest, i =>
    if s = [] then matchSegs path rest i
    else
      match indexChars s (path.drop i) with
      | none => false
      | some idx => matchSegs path rest (i + idx + s.length)

/-- The function pathLikeMatch. -/
def pathLikeMatch (pattern path : String) : Bool :=
  if pattern = "" then false
  else if !Contains pattern "*" then decide (pattern = path)
  else matchSegs path.data (splitChars '*' pattern.data) 0

/-- The text `t` is made of the pieces in turn, each after some text standing
for the star before it, and nothing after the last piece. -/
def Gaps : List (List Char) → List Char → Prop
  | [], t => t = []
  | s :: rest, t => ∃ g t', t = g ++ s ++ t' ∧ Gaps rest t'

/-- The path is the pattern with each `*` replaced by some text, possibly
empty. -/
def Expands (pattern path : List Char) : Prop :=
  match splitChars '*' pattern with
  | [] => False
  | s :: rest => ∃ t, path = s ++ t ∧ Gaps rest t

/-- The pieces occur in the text in turn, one after the end of the other,
whatever stands before, between and after them. -/
def Loose : List (List Char) → List Char → Prop
  | [], _ => True
  | s :: rest, t => ∃ g t', t = g ++ s ++ t' ∧ Loose rest t'

/-! ## encoding/json: the token interface of a Decoder

The package is not part of the repository.  The text handed to the decoder is
taken as the sequence of its lexical elements: white space, the escapes of a
string and the spelling of a number are the business of the scanner.  Two
limits of the package show at this level and are kept: a number that
`strconv.ParseFloat` rejects makes `Token` fail, and the scanner gives up
beyond `maxNestingDepth` open brackets. -/

/-- A lexical element of a JSON text: `lit` is `true`, `false` or `null`,
`num` a number with its text, `bad` a byte that begins no element, or an
element that is cut short. -/
inductive Lex where
  | lbrace
  | rbrace
  | lbrack
  | rbrack
  | colon
  | comma
  | str (s : String)
  | num (text : String)
  | lit (text : String)
  | bad
deriving DecidableEq, Repr

/-- The field tokenState of a Decoder. -/
inductive TokState where
  | topValue
  | arrayStart
  | arrayValue
  | arrayComma
  | objectStart
  | objectKey
  | objectColon
  | objectValue
  | objectComma
deriving DecidableEq, Repr

/-- The four delimiters that Token returns as `json.Delim`. -/
inductive Delim where
  | beginArray
  | endArray
  | beginObject
  | endObject
deriving DecidableEq, Repr

/-- A value of type `json.Token`: a delimiter, a string, or a number, boolean
or nil. -/
inductive Token where
  | delim (d : Delim)
  | str (s : String)
  | other
deriving DecidableEq, Repr

/-- A `json.Decoder`: the input not yet read, and the state of the token
interface. -/
structure Decoder where
  input : List Lex
  tokenState : TokState
  tokenStack : List TokState
deriving DecidableEq, Repr

/-- The constant maxNestingDepth of the scanner. -/
def maxNestingDepth : Nat := 10000

/-- The method tokenValueAllowed. -/
def tokenValueAllowed (s : TokState) : Bool :=
  match s with
  | .topValue => true
  | .arrayStart => true
  | .arrayValue => true
  | .objectValue => true
  | _ => false

/-- The method tokenValueEnd. -/
def tokenValueEnd (s : TokState) : TokState :=
  match s with
  | .arrayStart => .arrayComma
  | .arrayValue => .arrayComma
  | .objectValue => .objectComma
  | other => other

/-- The method Token on the input in state `s` with stack `st`; `none` is an
error: a syntax error, the end of the input, or a number that `parseFloatOk`
rejects.  A colon or a comma in its place is passed over.  A closing
delimiter is only accepted in a state that an opening one has set, with its
entry on the stack. -/
def tokenFrom (parseFloatOk : String → Bool) :
    List Lex → TokState → List TokState → Option (Token × Decoder)
  | [], _, _ => none
  | .bad :: _, _, _ => none
  | .lbrack :: rest, s, st =>
    if tokenValueAllowed s then some (.delim .beginArray, ⟨rest, .arrayStart, s :: st⟩) else none
  | .rbrack :: rest, s, st =>
    if s ≠ .arrayStart ∧ s ≠ .arrayComma then none
    else
      match st with
      | [] => none
      | top :: st' => some (.delim .endArray, ⟨rest, tokenValueEnd top, st'⟩)
  | .lbrace :: rest, s, st =>
    if tokenValueAllowed s then some (.delim .beginObject, ⟨rest, .objectStart, s :: st⟩)
    else none
  | .rbrace :: rest, s, st =>
    if s ≠ .objectStart ∧ s ≠ .objectComma then none
    else
      match st with
      | [] => none
      | top :: st' => some (.delim .endObject, ⟨rest, tokenValueEnd top, st'⟩)
  | .colon :: rest, s, st =>
    if s = .objectColon then tokenFrom parseFloatOk rest .objectValue st else none
  | .comma :: rest, s, st =>
    if s = .arrayComma then tokenFrom parseFloatOk rest .arrayValue st
    else if s = .objectComma then tokenFrom parseFloatOk rest .objectKey st
    else none
  | .str x :: rest, s, st =>
    if s = .objectStart ∨ s = .objectKey then some (.str x, ⟨rest, .objectColon, st⟩)
    else if tokenValueAllowed s then some (.str x, ⟨rest, tokenValueEnd s, st⟩)
    else none
  | .num text :: rest, s, st =>
    if tokenValueAllowed s && parseFloatOk text then some (.other, ⟨rest, tokenValueEnd s, st⟩)
    else none
  | .lit _ :: rest, s, st =>
    if tokenValueAllowed s then some (.other, ⟨rest, tokenValueEnd s, st⟩) else none

/-- The method Token. -/
def Decoder.Token (parseFloatOk : String → Bool) (d : Decoder) : Option (Token × Decoder) :=
  tokenFrom parseFloatOk d.input d.tokenState d.tokenStack

/-- The method More: there is a next byte and it is not `]` or `}`. -/
def Decoder.More (d : Decoder) : Bool :=
  match d.input with
  | [] => false
  | .rbrack :: _ => false
  | .rbrace :: _ => false
  | _ => true

/-- What the scanner is inside of (its parseState). -/
inductive ScanCtx where
  | objectKey
  | objectValue
  | arrayValue
deriving DecidableEq, Repr

/-- What the scanner expects next (its step). -/
inductive ScanStep where
  | beginValue
  | beginValueOrEmpty
  | beginStringOrEmpty
  | beginString
  | endValue
deriving DecidableEq, Repr

/-- The scanner as readValue runs it, on lexical elements: the input left
after one complete value, `none` for a syntax error, for more than
`maxNestingDepth` open brackets, or for an input that ends too soon. -/
def scanValue : ScanStep → List ScanCtx → List Lex → Option (List Lex)
  | _, _, [] => none
  | .endValue, ctx, x :: rest =>
    match ctx, x with
    | .objectKey :: c, .colon => scanValue .beginValue (.objectValue :: c) rest
    | .objectValue :: c, .comma => scanValue .beginString (.objectKey :: c) rest
    | .objectValue :: c, .rbrace => if c = [] then some rest else scanValue .endValue c rest
    | .arrayValue :: c, .comma => scanValue .beginValue (.arrayValue :: c) rest
    | .arrayValue :: c, .rbrack => if c = [] then some rest else scanValue .endValue c rest
    | _, _ => none
  | .beginString, ctx, x :: rest =>
    match x with
    | .str _ => scanValue .endValue ctx rest
    | _ => none
  | .beginStringOrEmpty, ctx, x :: rest =>
    match x, ctx with
    | .str _, _ => scanValue .endValue ctx rest
    | .rbrace, _ :: c => if c = [] then some rest else scanValue .endValue c rest
    | _, _ => none
  | .beginValueOrEmpty, ctx, x :: rest =>
    match x, ctx with
    | .rbrack, _ :: c => if c = [] then some rest else scanValue .endValue c rest
    | .str _, _ => if ctx = [] then some rest else scanValue .endValue ctx rest
    | .num _, _ => if ctx = [] then some rest else scanValue .endValue ctx rest
    | .lit _, _ => if ctx = [] then some rest else scanValue .endValue ctx rest
    | .lbrack, _ =>
      if ctx.length < maxNestingDepth then scanValue .beginValueOrEmpty (.arrayValue :: ctx) rest
      else none
    | .lbrace, _ =>
      if ctx.length < maxNestingDepth then scanValue .beginStringOrEmpty (.objectKey :: ctx) rest
      else none
    | _, _ => none
  | .beginValue, ctx, x :: rest =>
    match x with
    | .str _ => if ctx = [] then some rest else scanValue .endValue ctx rest
    | .num _ => if ctx = [] then some rest else scanValue .endValue ctx rest
    | .lit _ => if ctx = [] then some rest else scanValue .endValue ctx rest
    | .lbrack =>
      if ctx.length < maxNestingDepth then scanValue .beginValueOrEmpty (.arrayValue :: ctx) rest
      else none
    | .lbrace =>
      if ctx.length < maxNestingDepth then scanValue .beginStringOrEmpty (.objectKey :: ctx) rest
      else none
    | _ => none

/-- The method Decode into a `json.RawMessage`: tokenPrepareForDecode, the
test tokenValueAllowed, readValue, then tokenValueEnd; `none` is an error. -/
def Decoder.Decode (d : Decoder) : Option Decoder :=
  let prepared : Option (List Lex × TokState) :=
    match d.tokenState, d.input with
    | .arrayComma, .comma :: rest => some (rest, .arrayValue)
    | .arrayComma, _ => none
    | .objectColon, .colon :: rest => some (rest, .objectValue)
    | .objectColon, _ => none
    | s, inp => some (inp, s)
  match prepared with
  | none => none
  | some (inp, s) =>
    if tokenValueAllowed s then
      match scanValue .beginValue [] inp with
      | none => none
      | some rest => some ⟨rest, tokenValueEnd s, d.tokenStack⟩
    else none

/-! ## apidocs/source/source.go: OrderedPathsFromContent -/

/-- The first loop of OrderedPathsFromContent, with a budget of `fuel` tokens:
the decoder after the first string token equal to `paths`, `none` when Token
reports an error before. -/
def findPaths (parseFloatOk : String → Bool) : Nat → Decoder → Except Stop (Option Decoder)
  | 0, _ => .error .outOfFuel
  | fuel + 1, d =>
    match d.Token parseFloatOk with
    | none => .ok none
    | some (tok, d') =>
      if tok = .str "paths" then .ok (some d') else findPaths parseFloatOk fuel d'

/-- The second loop of OrderedPathsFromContent, with a budget of `fuel`
passes: the keys collected when the loop is left, by `More` or by a `break`. -/
def collectKeys (parseFloatOk : String → Bool) :
    Nat → Decoder → List String → Except Stop (List String)
  | 0, _, _ => .error .outOfFuel
  | fuel + 1, d, keys =>
    if d.More then
      match d.Token parseFloatOk with
      | none => .ok keys
      | some (t, d1) =>
        let k := match t with
          | .str s => s
          | _ => ""
        let keys := keys ++ [k]
        match d1.Decode with
        | none => .ok keys
        | some d2 => collectKeys parseFloatOk fuel d2 keys
    else .ok keys

/-- The function OrderedPathsFromContent on the lexical elements of the text.
Each pass of a loop reads at least one element, so their number bounds the
passes. -/
def OrderedPathsFromContent (parseFloatOk : String → Bool) (content : List Lex) :
    Except Stop (List String) :=
  match findPaths parseFloatOk (content.length + 1) ⟨content, .topValue, []⟩ with
  | .error e => .error e
  | .ok none => .ok []
  | .ok (some d1) =>
    match d1.Token parseFloatOk with
    | none => .ok []
    | some (_, d2) => collectKeys parseFloatOk (content.length + 1) d2 []

mutual
/-- The lexical elements of the text of a value. -/
def Json.lexemes : Json → List Lex
  | .null => [.lit "null"]
  | .bool b => [.lit (if b then "true" else "false")]
  | .num l => [.num l]
  | .str s => [.str s]
  | .arr [] => [.lbrack, .rbrack]
  | .arr (x :: rest) => .lbrack :: (x.lexemes ++ elementsTail rest)
  | .obj [] => [.lbrace, .rbrace]
  | .obj ((k, v) :: rest) => .lbrace :: .str k :: .colon :: (v.lexemes ++ membersTail rest)
/-- The further elements of an array, each after a comma, and the `]`. -/
def elementsTail : List Json → List Lex
  | [] => [.rbrack]
  | x :: rest => .comma :: (x.lexemes ++ elementsTail rest)
/-- The further members of an object, each after a comma, and the closing
brace. -/
def membersTail : List (String × Json) → List Lex
  | [] => [.rbrace]
  | (k, v) :: rest => .comma :: .str k :: .colon :: (v.lexemes ++ membersTail rest)
end

mutual
/-- The value can be read token by token without meeting `paths`: no string
of it, key or text, is `paths`, and `parseFloatOk` accepts its numbers. -/
def Json.passes (parseFloatOk : String → Bool) : Json → Bool
  | .str s => decide (s ≠ "paths")
  | .num l => parseFloatOk l
  | .arr xs => passesList parseFloatOk xs
  | .obj kvs => passesMembers parseFloatOk kvs
  | _ => true
/-- Each of the values passes. -/
def passesList (parseFloatOk : String → Bool) : List Json → Bool
  | [] => true
  | x :: rest => x.passes parseFloatOk && passesList parseFloatOk rest
/-- No key is `paths` and each value passes. -/
def passesMembers (parseFloatOk : String → Bool) : List (String × Json) → Bool
  | [] => true
  | (k, v) :: rest =>
    decide (k ≠ "paths") && v.passes parseFloatOk && passesMembers parseFloatOk rest
end

mutual
/-- How many brackets are open at the deepest place of the value. -/
def Json.depth : Json → Nat
  | .arr xs => depthList xs + 1
  | .obj kvs => depthMembers kvs + 1
  | _ => 0
/-- The greatest depth of the values. -/
def depthList : List Json → Nat
  | [] => 0
  | x :: rest => max x.depth (depthList rest)
/-- The greatest depth of the values of the members. -/
def depthMembers : List (String × Json) → Nat
  | [] => 0
  | (_, v) :: rest => max v.depth (depthMembers rest)
end

/-- An array inside an array, `n` times, around the empty array. -/
def nest : Nat → Json
  | 0 => .arr []
  | n + 1 => .arr [nest n]

/-! ## Descriptions -/

/-- What C31 asks of the description `desc` of the row of a property node `n`:
with `t` the title and `d` the description of the node, both trimmed, it is
`t`, a blank and `d` when neither is empty, the one that is not empty when
only one is, and empty when both are. -/
def DescAt (G : Gconv) (n : Option Json) (desc : String) : Prop :=
  (trimSpace (getString G n "title") ≠ "" → trimSpace (getString G n "description") ≠ "" →
    desc = trimSpace (getString G n "title") ++ " " ++ trimSpace (getString G n "description")) ∧
  (trimSpace (getString G n "title") ≠ "" → trimSpace (getString G n "description") = "" →
    desc = trimSpace (getString G n "title")) ∧
  (trimSpace (getString G n "title") = "" → trimSpace (getString G n "description") ≠ "" →
    desc = trimSpace (getString G n "description")) ∧
  (trimSpace (getString G n "title") = "" → trimSpace (getString G n "description") = "" →
    desc = "")

/-- A schema whose properties have a title and a description (`a`, with blanks
around the title), a title only (`b`), a description only (`c`), neither
(`d`). -/
def titledSchema : Json :=
  .obj [("type", .str "object"), ("properties", .obj [
    ("a", .obj [("type", .str "string"), ("title", .str " Name "),
                ("description", .str "of the user")]),
    ("b", .obj [("type", .str "string"), ("title", .str "Only")]),
    ("c", .obj [("type", .str "string"), ("description", .str "alone\n")]),
    ("d", .obj [("type", .str "string")])])]

/-- A document whose only component schema is `Titled = titledSchema`. -/
def titledDoc : Json :=
  .obj [("components", .obj [("schemas", .obj [("Titled", titledSchema)])])]

/-! ## Entries and leaves inside an example value -/

mutual
/-- The value holds a leaf: it is a string, number or boolean, or a map with
an entry that is a leaf or holds one, or an array with an element that holds
one.  The nil value holds none. -/
def Ex.holdsLeaf : Ex → Bool
  | .null => false
  | .map kvs => holdsLeafEntries kvs
  | .arr xs => holdsLeafList xs
  | _ => true
/-- One of the entries is a leaf or holds one. -/
def holdsLeafEntries : List (String × Ex) → Bool
  | [] => false
  | (_, v) :: rest => isLeaf v || v.holdsLeaf || holdsLeafEntries rest
/-- One of the elements holds a leaf. -/
def holdsLeafList : List Ex → Bool
  | [] => false
  | x :: rest => x.holdsLeaf || holdsLeafList rest
end

/-- The entry of key `k` and value `v` stands somewhere in the value `t`: in
the map `t`, or in a map or array further down. -/
inductive EntryIn : Ex → String → Ex → Prop
  | here (kvs : List (String × Ex)) (k : String) (v : Ex) :
      (k, v) ∈ kvs → EntryIn (.map kvs) k v
  | inMap (kvs : List (String × Ex)) (k0 : String) (sub : Ex) (k : String) (v : Ex) :
      (k0, sub) ∈ kvs → EntryIn sub k v → EntryIn (.map kvs) k v
  | inArr (xs : List Ex) (x : Ex) (k : String) (v : Ex) :
      x ∈ xs → EntryIn x k v → EntryIn (.arr xs) k v

/-- An example with the empty array `tags` under `data` and under `data.o`. -/
def tagsExample : Ex :=
  .map [("code", .int 0),
        ("data", .map [("name", .str "string"), ("tags", .arr []),
                       ("o", .map [("tags", .arr [])])])]

/-! ## apidocs/render/html.go: the rules of a path -/

/-- The struct RenderConfig; the struct CustomizeReqAndRes of the package
render has the fields of the one of the package config. -/
structure RenderConfig where
  RouteMarkdown : String
  Customize : GoMap CustomizeReqAndRes
  TemplateDir : String
deriving DecidableEq

/-- The second loop of uniqueMerge: `seen` holds the keys of the map `m`. -/
def uniqueMergeLoop : List String → Option (List String) → List String → Option (List String)
  | _, a, [] => a
  | seen, a, x :: rest =>
    if x = "" then uniqueMergeLoop seen a rest
    else if seen.contains x then uniqueMergeLoop seen a rest
    else uniqueMergeLoop (x :: seen) (some (a.getD [] ++ [x])) rest

/-- The function uniqueMerge; a nil slice is `none`. -/
def uniqueMerge (a b : Option (List String)) : Option (List String) :=
  if (b.getD []).length = 0 then a
  else uniqueMergeLoop ((a.getD []).filter (fun x => decide (x ≠ ""))) a (b.getD [])

/-- The body of the loop of customizeForPath for a rule `r` whose pattern
matches: headers not yet there are added, the lists are merged. -/
def mergeRule (res r : CustomizeReqAndRes) : CustomizeReqAndRes :=
  let headers : GoMap String :=
    match r.Headers with
    | none => res.Headers
    | some _ =>
      r.Headers.entries.foldl
        (fun h kv => if (GoMap.get h kv.1).isSome then h
          else some (insertKey kv.1 kv.2 (h.getD []))) res.Headers
  let request := match r.Request with
    | none => res.Request
    | some _ => uniqueMerge res.Request r.Request
  let response := match r.Response with
    | none => res.Response
    | some _ => uniqueMerge res.Response r.Response
  { Headers := headers, Request := request, Response := response }

/-- The function customizeForPath: the rules whose pattern matches the path,
merged in the order in which the map is enumerated. -/
def customizeForPath (path : String) (cfg : RenderConfig) : CustomizeReqAndRes :=
  cfg.Customize.entries.foldl
    (fun res e => if pathLikeMatch e.1 path then mergeRule res e.2 else res)
    { Headers := some [], Request := none, Response := none }

/-- The allow-list `allowedReq` of GenerateHTMLWithConfig and of
GenerateMarkdownWithConfig for the operation at path `p`, the expression
`cfg.Customize[p].Request`: a key that is not in the map reads as the zero
rule, whose lists are nil. -/
def allowedReq (cfg : RenderConfig) (p : String) : Option (List String) :=
  match cfg.Customize.get p with
  | none => none
  | some r => r.Request

/-- The allow-list `allowedRes` of the same functions, the expression
`cfg.Customize[p].Response`. -/
def allowedRes (cfg : RenderConfig) (p : String) : Option (List String) :=
  match cfg.Customize.get p with
  | none => none
  | some r => r.Response

/-- A configuration with one rule, for the pattern `/v1/record/record/*`: the
header `accessToken` and an allow-list for the request and for the response. -/
def recordConfig : RenderConfig :=
  { RouteMarkdown := "/docs.md",
    Customize := some [("/v1/record/record/*",
      { Headers := some [("accessToken", "string#required#token")],
        Request := some ["data.a"], Response := some ["data.b"] })],
    TemplateDir := "" }

/-- A schema with an inline object three levels deep, `o.p.q`, and an array of
strings `xs`. -/
def deepSchema : Json :=
  .obj [("type", .str "object"), ("properties", .obj [
    ("o", .obj [("type", .str "object"), ("properties", .obj [
      ("p", .obj [("type", .str "object"), ("properties", .obj [
        ("q", .obj [("type", .str "string")])])])])]),
    ("xs", .obj [("type", .str "array"), ("items", .obj [("type", .str "string")])])])]

/-- A document whose only component schema is `Deep = deepSchema`. -/
def deepDoc : Json :=
  .obj [("components", .obj [("schemas", .obj [("Deep", deepSchema)])])]

/-! ## Rows under another prefix -/

/-- The row with the prefix `P` and a `.` put before its path. -/
def rebase (P : String) (f : FieldInfo) : FieldInfo :=
  { f with Path := P ++ "." ++ f.Path }

/-- What a call returns, with every row of a result put under the prefix `P`;
a call that does not return stays what it is. -/
def rebaseAll (P : String) (r : Except Stop (List FieldInfo)) : Except Stop (List FieldInfo) :=
  match r with
  | .ok rows => .ok (rows.map (rebase P))
  | .error e => .error e

/-- A schema whose property with the empty name is an object with the
property `a`. -/
def emptyNameSchema : Json :=
  .obj [("type", .str "object"), ("properties", .obj [
    ("", .obj [("type", .str "object"),
               ("properties", .obj [("a", .obj [("type", .str "string")])])])])]

/-- A document with the schemas `Foo` and `Holder`, whose property with the
empty name refers to `Foo`. -/
def emptyNameDoc : Json :=
  .obj [("components", .obj [("schemas", .obj [
    ("Foo", fooSchema),
    ("Holder", .obj [("type", .str "object"), ("properties", .obj [
      ("", .obj [("$ref", .str "#/components/schemas/Foo")])])])])])]

/-! ## Map trees -/

/-- A key that is not empty and has none of `.`, `[`, `]`. -/
def plainKey (k : String) : Bool := decide (k ≠ "") && !ContainsAny k ".[]"

mutual
/-- A value without arrays in which every key is a plain key: maps inside
maps, down to the leaves. -/
def Ex.mapTree : Ex → Bool
  | .map kvs => mapTreeEntries kvs
  | .arr _ => false
  | _ => true
/-- The entries of a map tree. -/
def mapTreeEntries : List (String × Ex) → Bool
  | [] => true
  | (k, v) :: rest => plainKey k && v.mapTree && mapTreeEntries rest
end

/-- The leaf `v` stands at key `k` and path `P` under the entry `data` of the
example `ex`. -/
def LeafIn (ex : Ex) (k P : String) (v : Ex) : Prop :=
  ∃ m d, ex = .map m ∧ lookup "data" m = some d ∧ LeafAt d "data" k P v

/-! # Theorems -/

/-! ## Association lists and strings -/

theorem lookup_map {α β : Type} (f : α → β) (k : String) (kvs : List (String × α)) :
    lookup k (kvs.map (fun kv => (kv.1, f kv.2))) = (lookup k kvs).map f := by
  induction kvs with
  | nil => rfl
  | cons kv rest ih =>
    obtain ⟨k', v⟩ := kv
    by_cases h : k' = k <;> simp [lookup, h, ih]

theorem mapKeys_map {α β : Type} (f : α → β) (kvs : List (String × α)) :
    mapKeys (kvs.map (fun kv => (kv.1, f kv.2))) = mapKeys kvs := by
  induction kvs with
  | nil => rfl
  | cons kv rest ih =>
    obtain ⟨k', v⟩ := kv
    simp [mapKeys, ih]

theorem mapKeys_eq_nil {α : Type} (kvs : List (String × α)) :
    mapKeys kvs = [] ↔ kvs = [] := by
  cases kvs with
  | nil => simp [mapKeys]
  | cons kv rest => obtain ⟨k', v⟩ := kv; simp [mapKeys]

theorem jsonMapOf_get (G : Gconv) (v : Json) (k : String) :
    (jsonMapOf G v).get k = (lookup k (varMap G v)).map (New G) := by
  unfold jsonMapOf
  by_cases h : (mapKeys (varMap G v)).length > 0
  · simp [h, GoMap.get, lookup_map]
  · have h0 : varMap G v = [] := by
      have : mapKeys (varMap G v) = [] := by
        cases hk : mapKeys (varMap G v) with
        | nil => rfl
        | cons a b => simp [hk] at h
      exact (mapKeys_eq_nil _).1 this
    simp [h0, GoMap.get, lookup, mapKeys]

theorem hasPrefix_iff (s p : String) : hasPrefix s p = true ↔ ∃ rest : String, s = p ++ rest := by
  unfold hasPrefix
  rw [List.isPrefixOf_iff_prefix]
  constructor
  · rintro ⟨t, ht⟩
    refine ⟨String.mk t, ?_⟩
    apply String.ext
    simp [ht]
  · rintro ⟨rest, rfl⟩
    exact ⟨rest.data, by simp⟩

theorem afterLastSlash_none (n : List Char) (h : '/' ∉ n) : afterLastSlash n = none := by
  induction n with
  | nil => rfl
  | cons c rest ih =>
    have hc : c ≠ '/' := fun e => h (by simp [e])
    have hr : '/' ∉ rest := fun e => h (by simp [e])
    simp [afterLastSlash, ih hr, hc]

theorem afterLastSlash_append (p n : List Char) (h : '/' ∉ n) :
    afterLastSlash (p ++ '/' :: n) = some n := by
  induction p with
  | nil => simp [afterLastSlash, afterLastSlash_none n h]
  | cons c rest ih => simp [afterLastSlash, ih]

theorem ComponentNameFromRef_append (p n : String) (h : '/' ∉ n.data) :
    ComponentNameFromRef (p ++ "/" ++ n) = n := by
  unfold ComponentNameFromRef
  have : (p ++ "/" ++ n).data = p.data ++ '/' :: n.data := by simp
  rw [this, afterLastSlash_append _ _ h]

/-! ## ReferenceResolver -/

/-- C1. GetRefJSON returns the entry of `components.schemas` (resp.
`components.parameters`) under the name that follows the last `/` of the
reference when the reference starts with the prefix of that registry; it
returns nil when the document is nil, when the reference has neither prefix,
and when the name is not a key of the registry. -/
theorem GetRefJSON_spec (G : Gconv) (j : Option Json) (ref : String) :
    (j = none → GetRefJSON G j ref = none) ∧
    ((¬ ∃ rest : String, ref = "#/components/schemas/" ++ rest) →
      (¬ ∃ rest : String, ref = "#/components/parameters/" ++ rest) →
      GetRefJSON G j ref = none) ∧
    (∀ (d : Json) (p name : String), j = some d → ref = p ++ "/" ++ name → '/' ∉ name.data →
      ((∃ rest : String, ref = "#/components/schemas/" ++ rest) →
        GetRefJSON G j ref =
            (lookup name (varMap G (Get2 j "components" "schemas"))).map (New G) ∧
        (lookup name (varMap G (Get2 j "components" "schemas")) = none →
          GetRefJSON G j ref = none)) ∧
      ((∃ rest : String, ref = "#/components/parameters/" ++ rest) →
        GetRefJSON G j ref =
            (lookup name (varMap G (Get2 j "components" "parameters"))).map (New G) ∧
        (lookup name (varMap G (Get2 j "components" "parameters")) = none →
          GetRefJSON G j ref = none))) := by
  refine ⟨?_, ?_, ?_⟩
  · rintro rfl
    unfold GetRefJSON
    split
    · rfl
    · split <;> rfl
  · intro h1 h2
    have e1 : hasPrefix ref "#/components/schemas/" = false := by
      cases h : hasPrefix ref "#/components/schemas/" with
      | false => rfl
      | true => exact absurd ((hasPrefix_iff _ _).1 h) h1
    have e2 : hasPrefix ref "#/components/parameters/" = false := by
      cases h : hasPrefix ref "#/components/parameters/" with
      | false => rfl
      | true => exact absurd ((hasPrefix_iff _ _).1 h) h2
    simp [GetRefJSON, e1, e2]
  · intro d p name hj href hname
    have hn : ComponentNameFromRef ref = name := by
      rw [href]; exact ComponentNameFromRef_append p name hname
    subst hj
    constructor
    · intro hs
      have e1 : hasPrefix ref "#/components/schemas/" = true := (hasPrefix_iff _ _).2 hs
      have key : GetRefJSON G (some d) ref =
          (lookup name (varMap G (Get2 (some d) "components" "schemas"))).map (New G) := by
        simp [GetRefJSON, e1, GetSchema, hn, jsonMapOf_get]
      exact ⟨key, fun h => by rw [key, h]; rfl⟩
    · intro hs
      have e2 : hasPrefix ref "#/components/parameters/" = true := (hasPrefix_iff _ _).2 hs
      have e1 : hasPrefix ref "#/components/schemas/" = false := by
        obtain ⟨rest, hrest⟩ := hs
        cases h : hasPrefix ref "#/components/schemas/" with
        | false => rfl
        | true =>
          exfalso
          obtain ⟨rest2, hrest2⟩ := (hasPrefix_iff _ _).1 h
          have := congrArg String.data (hrest.symm.trans hrest2)
          simp at this
      have key : GetRefJSON G (some d) ref =
          (lookup name (varMap G (Get2 (some d) "components" "parameters"))).map (New G) := by
        simp [GetRefJSON, e1, e2, hn, jsonMapOf_get]
      exact ⟨key, fun h => by rw [key, h]; rfl⟩


/-- C1 at the reference `#/components/schemas/Foo` in `fooDoc`. -/
theorem GetRefJSON_spec_witness :
    GetRefJSON Gconv.plain (some fooDoc) "#/components/schemas/Foo" = some fooSchema :=
  (((GetRefJSON_spec Gconv.plain (some fooDoc) "#/components/schemas/Foo").2.2 fooDoc
    "#/components/schemas" "Foo" rfl (by decide) (by decide)).1 ⟨"Foo", by decide⟩).1

/-! ## Sorting of keys -/

theorem sortInsert_perm (v : String) (l : List String) : (sortInsert v l).Perm (v :: l) := by
  induction l with
  | nil => exact List.Perm.refl _
  | cons x rest ih =>
    unfold sortInsert
    split
    · exact (List.Perm.cons x ih).trans (List.Perm.swap v x rest)
    · exact List.Perm.refl _

theorem foldl_sortInsert_perm (a acc : List String) :
    (a.foldl (fun rev v => sortInsert v rev) acc).Perm (a ++ acc) := by
  induction a generalizing acc with
  | nil => exact List.Perm.refl _
  | cons x rest ih =>
    simp only [List.foldl_cons, List.cons_append]
    refine (ih (sortInsert x acc)).trans ?_
    refine (List.Perm.append_left rest (sortInsert_perm x acc)).trans ?_
    exact List.perm_middle

theorem SortStrings_perm (a : List String) : (SortStrings a).Perm a := by
  unfold SortStrings
  refine (List.reverse_perm _).trans ?_
  simpa using foldl_sortInsert_perm a []

/-! ## FieldFlattener -/

theorem appendRows_singletons (keys : List String) (f : String → Except Stop (List FieldInfo))
    (g : String → FieldInfo) (h : ∀ k ∈ keys, f k = .ok [g k]) :
    appendRows keys f = .ok (keys.map g) := by
  induction keys with
  | nil => rfl
  | cons k rest ih =>
    have hk : f k = .ok [g k] := h k (by simp)
    have hr : appendRows rest f = .ok (rest.map g) := ih (fun k' hk' => h k' (by simp [hk']))
    simp [appendRows, hk, hr, bind, Except.bind, pure, Except.pure]

theorem fieldRows_scalar (G : Gconv) (j : Option Json)
    (recur : String → String → Except Stop (List FieldInfo))
    (requiredSet : List String) (pre k : String) (pj : Option Json)
    (href : getString G pj "$ref" = "") (harr : getString G pj "type" ≠ "array")
    (hobj : getString G pj "type" ≠ "object") :
    fieldRows G j recur requiredSet pre k pj =
      .ok [{ Path := joinPath pre k, Required := setHas requiredSet k,
             Typ := getString G pj "type", Desc := titleDescription G pj }] := by
  simp [fieldRows, href, harr, hobj, pure, Except.pure]

theorem schemaRef_name (name : String) (h : '/' ∉ name.data) :
    ComponentNameFromRef ("#/components/schemas/" ++ name) = name := by
  have e : "#/components/schemas/" ++ name = "#/components/schemas" ++ "/" ++ name := by
    apply String.ext; simp
  rw [e]; exact ComponentNameFromRef_append _ _ h

/-- C2. When every property of the component schema `Foo` is a scalar (no
`$ref`, type neither array nor object), flattenSchemaFields on
`#/components/schemas/Foo` with the empty prefix returns one descriptor per
property and nothing else, with the property name as path and the type string
of the property as type; for `Foo = {type: object, properties: {a: {type:
string}}}` it returns the single descriptor `a` of type `string`.  The first
part states it for the schema that any reference names, the second for the
reference made from a component name. -/
theorem flattenSchemaFields_scalar_props :
    (∀ (G : Gconv) (fuel : Nat) (j : Option Json) (ref : String) (sj : Json),
      GetSchema G j (ComponentNameFromRef ref) = some sj →
      (∀ k ∈ (GetJsonMap G (some sj) "properties").keys,
        getString G ((GetJsonMap G (some sj) "properties").get k) "$ref" = "" ∧
        getString G ((GetJsonMap G (some sj) "properties").get k) "type" ≠ "array" ∧
        getString G ((GetJsonMap G (some sj) "properties").get k) "type" ≠ "object") →
      ∃ out, flattenSchemaFields G (fuel + 1) j ref "" = .ok out ∧
        (out.map (fun row => row.Path)).Perm (GetJsonMap G (some sj) "properties").keys ∧
        ∀ row ∈ out,
          row.Typ = getString G ((GetJsonMap G (some sj) "properties").get row.Path) "type") ∧
    (∀ (G : Gconv) (fuel : Nat) (j : Option Json) (name : String) (sj : Json),
      '/' ∉ name.data → GetSchema G j name = some sj →
      (∀ k ∈ (GetJsonMap G (some sj) "properties").keys,
        getString G ((GetJsonMap G (some sj) "properties").get k) "$ref" = "" ∧
        getString G ((GetJsonMap G (some sj) "properties").get k) "type" ≠ "array" ∧
        getString G ((GetJsonMap G (some sj) "properties").get k) "type" ≠ "object") →
      ∃ out, flattenSchemaFields G (fuel + 1) j ("#/components/schemas/" ++ name) "" = .ok out ∧
        (out.map (fun row => row.Path)).Perm (GetJsonMap G (some sj) "properties").keys ∧
        ∀ row ∈ out,
          row.Typ = getString G ((GetJsonMap G (some sj) "properties").get row.Path) "type") ∧
    (∀ G : Gconv, flattenSchemaFields G 1 (some fooDoc) "#/components/schemas/Foo" "" =
      .ok [{ Path := "a", Required := false, Typ := "string", Desc := "" }]) := by
  have hgen : ∀ (G : Gconv) (fuel : Nat) (j : Option Json) (ref : String) (sj : Json),
      GetSchema G j (ComponentNameFromRef ref) = some sj →
      (∀ k ∈ (GetJsonMap G (some sj) "properties").keys,
        getString G ((GetJsonMap G (some sj) "properties").get k) "$ref" = "" ∧
        getString G ((GetJsonMap G (some sj) "properties").get k) "type" ≠ "array" ∧
        getString G ((GetJsonMap G (some sj) "properties").get k) "type" ≠ "object") →
      ∃ out, flattenSchemaFields G (fuel + 1) j ref "" = .ok out ∧
        (out.map (fun row => row.Path)).Perm (GetJsonMap G (some sj) "properties").keys ∧
        ∀ row ∈ out,
          row.Typ =
            getString G ((GetJsonMap G (some sj) "properties").get row.Path) "type" := by
    intro G fuel j ref sj hs hscalar
    let props := GetJsonMap G (some sj) "properties"
    let row : String → FieldInfo := fun k =>
      { Path := joinPath "" k,
        Required := setHas (SetFromArray (getArray G (some sj) "required")) k,
        Typ := getString G (props.get k) "type", Desc := titleDescription G (props.get k) }
    refine ⟨(SortStrings props.keys).map row, ?_, ?_, ?_⟩
    · unfold flattenSchemaFields
      simp only [hs]
      apply appendRows_singletons
      intro k hk
      have hk' : k ∈ props.keys := (SortStrings_perm _).mem_iff.1 hk
      obtain ⟨h1, h2, h3⟩ := hscalar k hk'
      exact fieldRows_scalar G j _ _ "" k _ h1 h2 h3
    · have : ((SortStrings props.keys).map row).map (fun r => r.Path) =
          SortStrings props.keys := by
        rw [List.map_map]
        conv_rhs => rw [← List.map_id (SortStrings props.keys)]
        apply List.map_congr_left
        intro k _
        simp [row, joinPath]
      rw [this]
      exact SortStrings_perm _
    · intro r hr
      obtain ⟨k, _, rfl⟩ := List.mem_map.1 hr
      simp [row, joinPath, props]
  refine ⟨hgen, ?_, fun _ => rfl⟩
  intro G fuel j name sj hname hs hscalar
  exact hgen G fuel j _ sj (by rw [schemaRef_name name hname]; exact hs) hscalar

/-- C2 at the schema `Foo` of `fooDoc`. -/
theorem flattenSchemaFields_scalar_props_witness :
    ∃ out, flattenSchemaFields Gconv.plain 1 (some fooDoc) "#/components/schemas/Foo" ""
        = .ok out ∧
      (out.map (fun row => row.Path)).Perm
        (GetJsonMap Gconv.plain (some fooSchema) "properties").keys ∧
      ∀ row ∈ out, row.Typ =
        getString Gconv.plain ((GetJsonMap Gconv.plain (some fooSchema) "properties").get row.Path)
          "type" :=
  flattenSchemaFields_scalar_props.1 Gconv.plain 0 (some fooDoc) "#/components/schemas/Foo"
    fooSchema rfl
    (by
      intro k hk
      have hk' : k = "a" := by simpa [GetJsonMap, jsonMapOf, Get, Json.member, fooSchema, lookup,
        varMap, mapKeys, GoMap.keys] using hk
      subst hk'
      decide)

theorem appendRows_mem (keys : List String) (f : String → Except Stop (List FieldInfo))
    (out : List FieldInfo) (h : appendRows keys f = .ok out) (k : String) (hk : k ∈ keys) :
    ∃ before chunk after, f k = .ok chunk ∧ out = before ++ chunk ++ after := by
  induction keys generalizing out with
  | nil => simp at hk
  | cons k0 rest ih =>
    unfold appendRows at h
    cases h0 : f k0 with
    | error e => simp [h0, bind, Except.bind] at h
    | ok rows =>
      cases hr : appendRows rest f with
      | error e => simp [h0, hr, bind, Except.bind] at h
      | ok more =>
        simp [h0, hr, bind, Except.bind, pure, Except.pure] at h
        subst h
        rcases List.mem_cons.1 hk with rfl | hk'
        · exact ⟨[], rows, more, h0, by simp⟩
        · obtain ⟨b, c, a, hc, rfl⟩ := ih more hr hk'
          exact ⟨rows ++ b, c, a, hc, by simp⟩

theorem SortStrings_mem (a : List String) (k : String) : k ∈ SortStrings a ↔ k ∈ a :=
  (SortStrings_perm a).mem_iff

theorem itemRows_ok (G : Gconv) (j : Option Json) (curPath : String) (it : Option Json)
    (props2 : GoMap Json) (h : mergedProperties G j it = .ok props2) :
    itemRows G j curPath it = .ok ((SortStrings props2.keys).map (fun kk =>
      { Path := curPath ++ "[]." ++ kk,
        Required := setHas (SetFromArray (getArray G it "required")) kk,
        Typ := itemType G (props2.get kk), Desc := titleDescription G (props2.get kk) })) := by
  simp [itemRows, h, bind, Except.bind, pure, Except.pure]

/-- C3, as the code has it.  A property of type array whose items carry a
`$ref`: for the properties of the flattened node (both flatteners) and of a
nested inline object (flattenSchemaFields) the flatteners emit the row
`curPath[]` typed `array(object)` and, right after it, exactly the rows that
flattening the referenced schema with prefix `curPath[]` returns.  The first
two parts find these rows in what the functions return, the next three say
that they are all that the loop body emits for the property; with `Foo =
{a: string}` the rows are `p.xs[]` (`array(object)`) and `p.xs[].a` (`string`).
The properties of the inline items of an array get one row each, at
`curPath[].name`, and such a property is only labelled `array(object)`. -/
theorem flatten_array_of_ref :
    (∀ (G : Gconv) (j : Option Json) (ref pre : String) (out : List FieldInfo) (sj : Json)
      (k : String),
      GetSchema G j (ComponentNameFromRef ref) = some sj →
      k ∈ (GetJsonMap G (some sj) "properties").keys →
      getString G ((GetJsonMap G (some sj) "properties").get k) "type" = "array" →
      getString G (GetJson G ((GetJsonMap G (some sj) "properties").get k) "items") "$ref" ≠ "" →
      FlattensTo G j ref pre out →
      ∃ before hdr sub after,
        FlattensTo G j
          (getString G (GetJson G ((GetJsonMap G (some sj) "properties").get k) "items") "$ref")
          (joinPath pre k ++ "[]") sub ∧
        hdr.Path = joinPath pre k ++ "[]" ∧ hdr.Typ = "array(object)" ∧
        out = before ++ hdr :: sub ++ after) ∧
    (∀ (G : Gconv) (j : Option Json) (sj : Json) (pre : String) (out : List FieldInfo)
      (props : GoMap Json) (k : String) (S : Json),
      mergedProperties G j (some sj) = .ok props →
      k ∈ props.keys →
      getString G (props.get k) "type" = "array" →
      getString G (GetJson G (props.get k) "items") "$ref" ≠ "" →
      GetRefJSON G j (getString G (GetJson G (props.get k) "items") "$ref") = some S →
      FlattensJsonTo G j (some sj) pre out →
      ∃ before hdr sub after,
        FlattensJsonTo G j (some S) (joinPath pre k ++ "[]") sub ∧
        hdr.Path = joinPath pre k ++ "[]" ∧ hdr.Typ = "array(object)" ∧
        out = before ++ hdr :: sub ++ after) ∧
    (∀ (G : Gconv) (j : Option Json) (recur : String → String → Except Stop (List FieldInfo))
      (requiredSet : List String) (pre k : String) (pj : Option Json),
      getString G pj "type" = "array" →
      getString G (GetJson G pj "items") "$ref" ≠ "" →
      fieldRows G j recur requiredSet pre k pj =
        (recur (getString G (GetJson G pj "items") "$ref") (joinPath pre k ++ "[]")).map
          (fun sub =>
            { Path := joinPath pre k ++ "[]", Required := setHas requiredSet k,
              Typ := "array(object)", Desc := titleDescription G pj } :: sub)) ∧
    (∀ (G : Gconv) (j : Option Json)
      (recur : Option Json → String → Except Stop (List FieldInfo))
      (requiredSet : List String) (pre k : String) (pj : Option Json) (S : Json),
      getString G pj "type" = "array" →
      getString G (GetJson G pj "items") "$ref" ≠ "" →
      GetRefJSON G j (getString G (GetJson G pj "items") "$ref") = some S →
      fieldRowsFromJson G j recur requiredSet pre k pj =
        (recur (some S) (joinPath pre k ++ "[]")).map
          (fun sub =>
            { Path := joinPath pre k ++ "[]", Required := setHas requiredSet k,
              Typ := "array(object)", Desc := titleDescription G pj } :: sub)) ∧
    (∀ (G : Gconv) (recur : String → String → Except Stop (List FieldInfo))
      (nestedReq : List String) (curPath nk : String) (np : Option Json),
      getString G np "type" = "array" →
      getString G (GetJson G np "items") "$ref" ≠ "" →
      nestedRows G recur nestedReq curPath nk np =
        (recur (getString G (GetJson G np "items") "$ref") (curPath ++ "." ++ nk ++ "[]")).map
          (fun sub =>
            { Path := curPath ++ "." ++ nk ++ "[]", Required := setHas nestedReq nk,
              Typ := "array(object)", Desc := titleDescription G np } :: sub)) ∧
    (∀ (G : Gconv) (j : Option Json) (curPath : String) (it : Option Json) (props2 : GoMap Json),
      mergedProperties G j it = .ok props2 →
      itemRows G j curPath it = .ok ((SortStrings props2.keys).map (fun kk =>
        { Path := curPath ++ "[]." ++ kk,
          Required := setHas (SetFromArray (getArray G it "required")) kk,
          Typ := itemType G (props2.get kk), Desc := titleDescription G (props2.get kk) }))) ∧
    (∀ (G : Gconv) (sp : Option Json),
      getString G sp "$ref" = "" → getString G sp "type" = "array" →
      getString G (GetJson G sp "items") "$ref" ≠ "" → itemType G sp = "array(object)") ∧
    (∀ G : Gconv, flattenSchemaFields G 2 (some listDoc) "#/components/schemas/Bar" "p" =
      .ok [{ Path := "p.xs[]", Required := false, Typ := "array(object)", Desc := "" },
           { Path := "p.xs[].a", Required := false, Typ := "string", Desc := "" }]) ∧
    (∀ G : Gconv, flattenSchemaFieldsFromJson G 2 (some listDoc) (some listOfFoo) "p" =
      .ok [{ Path := "p.xs[]", Required := false, Typ := "array(object)", Desc := "" },
           { Path := "p.xs[].a", Required := false, Typ := "string", Desc := "" }]) := by
  refine ⟨?_, ?_, ?_, ?_, ?_, itemRows_ok, ?_, fun _ => rfl, fun _ => rfl⟩
  · intro G j ref pre out sj k hs hk htyp hr ⟨fuel, hout⟩
    cases fuel with
    | zero => simp [flattenSchemaFields] at hout
    | succ n =>
      unfold flattenSchemaFields at hout
      simp only [hs] at hout
      obtain ⟨before, chunk, after, hchunk, rfl⟩ :=
        appendRows_mem _ _ out hout k ((SortStrings_mem _ _).2 hk)
      simp only [fieldRows, htyp, GetJson, if_true] at hchunk
      simp only [GetJson] at hr
      simp only [hr, ne_eq, not_false_eq_true, if_true] at hchunk
      cases hsub : flattenSchemaFields G n j
          (getString G (some (New G (Get ((GetJsonMap G (some sj) "properties").get k) "items")))
            "$ref") (joinPath pre k ++ "[]") with
      | error e => simp [hsub, bind, Except.bind] at hchunk
      | ok sub =>
        simp [hsub, bind, Except.bind, pure, Except.pure] at hchunk
        subst hchunk
        exact ⟨before,
          { Path := joinPath pre k ++ "[]",
            Required := setHas (SetFromArray (getArray G (some sj) "required")) k,
            Typ := "array(object)",
            Desc := titleDescription G ((GetJsonMap G (some sj) "properties").get k) },
          sub, after, ⟨n, hsub⟩, rfl, rfl, by simp⟩
  · intro G j sj pre out props k S hprops hk htyp hr hS ⟨fuel, hout⟩
    cases fuel with
    | zero => simp [flattenSchemaFieldsFromJson] at hout
    | succ n =>
      unfold flattenSchemaFieldsFromJson at hout
      simp only [hprops, bind, Except.bind] at hout
      obtain ⟨before, chunk, after, hchunk, rfl⟩ :=
        appendRows_mem _ _ out hout k ((SortStrings_mem _ _).2 hk)
      simp only [fieldRowsFromJson, htyp, GetJson, if_true] at hchunk
      simp only [GetJson] at hr hS
      simp only [hr, hS, ne_eq, not_false_eq_true, if_true] at hchunk
      cases hsub : flattenSchemaFieldsFromJson G n j (some S) (joinPath pre k ++ "[]") with
      | error e => simp [hsub, bind, Except.bind] at hchunk
      | ok sub =>
        simp [hsub, bind, Except.bind, pure, Except.pure] at hchunk
        subst hchunk
        exact ⟨before,
          { Path := joinPath pre k ++ "[]",
            Required := setHas (SetFromArray (getArray G (some sj) "required")) k,
            Typ := "array(object)", Desc := titleDescription G (props.get k) },
          sub, after, ⟨n, hsub⟩, rfl, rfl, by simp⟩
  · intro G j recur requiredSet pre k pj htyp hr
    simp only [GetJson] at hr
    simp only [fieldRows, htyp, GetJson, if_true, hr, ne_eq, not_false_eq_true]
    cases recur (getString G (some (New G (Get pj "items"))) "$ref") (joinPath pre k ++ "[]")
      <;> rfl
  · intro G j recur requiredSet pre k pj S htyp hr hS
    simp only [GetJson] at hr hS
    simp only [fieldRowsFromJson, htyp, GetJson, if_true, hr, hS, ne_eq, not_false_eq_true]
    cases recur (some S) (joinPath pre k ++ "[]") <;> rfl
  · intro G recur nestedReq curPath nk np htyp hr
    simp only [GetJson] at hr
    simp only [nestedRows, htyp, GetJson, if_true, hr, ne_eq, not_false_eq_true]
    cases recur (getString G (some (New G (Get np "items"))) "$ref") (curPath ++ "." ++ nk ++ "[]")
      <;> rfl
  · intro G sp href htyp hir
    simp only [GetJson] at hir
    simp [itemType, href, htyp, GetJson, hir]

/-- C3 at the schema `Bar` of `listDoc`, prefix `p`: the rows `p.xs[]` and
`p.xs[].a` are a header followed by the rows of `Foo` under `p.xs[]`. -/
theorem flatten_array_of_ref_witness :
    ∃ before hdr sub after,
      FlattensTo Gconv.plain (some listDoc) "#/components/schemas/Foo" ("p.xs" ++ "[]") sub ∧
      hdr.Path = "p.xs" ++ "[]" ∧ hdr.Typ = "array(object)" ∧
      [{ Path := "p.xs[]", Required := false, Typ := "array(object)", Desc := "" },
       { Path := "p.xs[].a", Required := false, Typ := "string", Desc := "" }]
        = before ++ hdr :: sub ++ after :=
  flatten_array_of_ref.1 Gconv.plain (some listDoc) "#/components/schemas/Bar" "p" _ listOfFoo "xs"
    rfl (by decide) (by decide) (by decide) ⟨2, rfl⟩


/-- C3 as stated fails: the property `ys` of the inline items of `xs` is an
array of `Foo`, and both flatteners return for it the single row `xs[].ys`
typed `array(object)`: no row `xs[].ys[]` and no row of `Foo`. -/
theorem flatten_array_of_ref_in_items :
    (∀ G : Gconv,
      flattenSchemaFields G 2 (some (inItems "ys" arrayOfFoo)) "#/components/schemas/Outer" "" =
        .ok [{ Path := "xs[]", Required := false, Typ := "array(object)", Desc := "" },
             { Path := "xs[].ys", Required := false, Typ := "array(object)", Desc := "" }]) ∧
    (∀ G : Gconv,
      flattenSchemaFieldsFromJson G 2 (some (inItems "ys" arrayOfFoo))
          (some (outerOf "ys" arrayOfFoo)) "" =
        .ok [{ Path := "xs[]", Required := false, Typ := "array(object)", Desc := "" },
             { Path := "xs[].ys", Required := false, Typ := "array(object)", Desc := "" }]) :=
  ⟨fun _ => rfl, fun _ => rfl⟩

/-- C4, as the code has it.  A property on which `$ref` is present and whose type
is not `array`: the flatteners emit the row `curPath` typed `object` and, right
after it, the rows that flattening the referenced schema with prefix `curPath`
returns (none, in flattenSchemaFieldsFromJson, when the reference does not
resolve); `curPath` is the name under the empty prefix and `prefix.name`
otherwise.  This holds for the properties of the flattened node in both
flatteners and for those of a nested inline object in flattenSchemaFields: the
first two parts find the rows in what the functions return, the next three say
that they are all that the loop body emits for the property.  A property of the
inline items of an array that carries a `$ref` is only labelled `object` in its
one row. -/
theorem flatten_ref_property :
    (∀ (G : Gconv) (j : Option Json) (ref pre : String) (out : List FieldInfo) (sj : Json)
      (k : String),
      GetSchema G j (ComponentNameFromRef ref) = some sj →
      k ∈ (GetJsonMap G (some sj) "properties").keys →
      getString G ((GetJsonMap G (some sj) "properties").get k) "type" ≠ "array" →
      getString G ((GetJsonMap G (some sj) "properties").get k) "$ref" ≠ "" →
      FlattensTo G j ref pre out →
      ∃ before hdr sub after,
        FlattensTo G j (getString G ((GetJsonMap G (some sj) "properties").get k) "$ref")
          (joinPath pre k) sub ∧
        hdr.Path = joinPath pre k ∧ hdr.Typ = "object" ∧
        out = before ++ hdr :: sub ++ after) ∧
    (∀ (G : Gconv) (j : Option Json) (sj : Json) (pre : String) (out : List FieldInfo)
      (props : GoMap Json) (k : String),
      mergedProperties G j (some sj) = .ok props →
      k ∈ props.keys →
      getString G (props.get k) "type" ≠ "array" →
      getString G (props.get k) "$ref" ≠ "" →
      FlattensJsonTo G j (some sj) pre out →
      ∃ before hdr sub after,
        (match GetRefJSON G j (getString G (props.get k) "$ref") with
          | some S => FlattensJsonTo G j (some S) (joinPath pre k) sub
          | none => sub = []) ∧
        hdr.Path = joinPath pre k ∧ hdr.Typ = "object" ∧
        out = before ++ hdr :: sub ++ after) ∧
    (∀ (G : Gconv) (j : Option Json) (recur : String → String → Except Stop (List FieldInfo))
      (requiredSet : List String) (pre k : String) (pj : Option Json),
      getString G pj "type" ≠ "array" →
      getString G pj "$ref" ≠ "" →
      fieldRows G j recur requiredSet pre k pj =
        (recur (getString G pj "$ref") (joinPath pre k)).map
          (fun sub =>
            { Path := joinPath pre k, Required := setHas requiredSet k,
              Typ := "object", Desc := titleDescription G pj } :: sub)) ∧
    (∀ (G : Gconv) (j : Option Json)
      (recur : Option Json → String → Except Stop (List FieldInfo))
      (requiredSet : List String) (pre k : String) (pj : Option Json) (S : Json),
      getString G pj "type" ≠ "array" →
      getString G pj "$ref" ≠ "" →
      GetRefJSON G j (getString G pj "$ref") = some S →
      fieldRowsFromJson G j recur requiredSet pre k pj =
        (recur (some S) (joinPath pre k)).map
          (fun sub =>
            { Path := joinPath pre k, Required := setHas requiredSet k,
              Typ := "object", Desc := titleDescription G pj } :: sub)) ∧
    (∀ (G : Gconv) (recur : String → String → Except Stop (List FieldInfo))
      (nestedReq : List String) (curPath nk : String) (np : Option Json),
      getString G np "type" ≠ "array" →
      getString G np "$ref" ≠ "" →
      nestedRows G recur nestedReq curPath nk np =
        (recur (getString G np "$ref") (curPath ++ "." ++ nk)).map
          (fun sub =>
            { Path := curPath ++ "." ++ nk, Required := setHas nestedReq nk,
              Typ := "object", Desc := titleDescription G np } :: sub)) ∧
    (∀ (G : Gconv) (sp : Option Json),
      getString G sp "$ref" ≠ "" → itemType G sp = "object") ∧
    (∀ k : String, joinPath "" k = k) ∧
    (∀ pre k : String, pre ≠ "" → joinPath pre k = pre ++ "." ++ k) ∧
    (∀ G : Gconv,
      flattenSchemaFields G 2 (some holderDoc) "#/components/schemas/Holder" "p" =
        .ok [{ Path := "p.f", Required := false, Typ := "object", Desc := "" },
             { Path := "p.f.a", Required := false, Typ := "string", Desc := "" }]) := by
  refine ⟨?_, ?_, ?_, ?_, ?_, ?_, ?_, ?_, fun _ => rfl⟩
  · intro G j ref pre out sj k hs hk htyp hr ⟨fuel, hout⟩
    cases fuel with
    | zero => simp [flattenSchemaFields] at hout
    | succ n =>
      unfold flattenSchemaFields at hout
      simp only [hs] at hout
      obtain ⟨before, chunk, after, hchunk, rfl⟩ :=
        appendRows_mem _ _ out hout k ((SortStrings_mem _ _).2 hk)
      simp only [fieldRows, htyp, if_false, hr, ne_eq, not_false_eq_true, if_true] at hchunk
      cases hsub : flattenSchemaFields G n j
          (getString G ((GetJsonMap G (some sj) "properties").get k) "$ref") (joinPath pre k) with
      | error e => simp [hsub, bind, Except.bind] at hchunk
      | ok sub =>
        simp [hsub, bind, Except.bind, pure, Except.pure] at hchunk
        subst hchunk
        exact ⟨before,
          { Path := joinPath pre k,
            Required := setHas (SetFromArray (getArray G (some sj) "required")) k,
            Typ := "object",
            Desc := titleDescription G ((GetJsonMap G (some sj) "properties").get k) },
          sub, after, ⟨n, hsub⟩, rfl, rfl, by simp⟩
  · intro G j sj pre out props k hprops hk htyp hr ⟨fuel, hout⟩
    cases fuel with
    | zero => simp [flattenSchemaFieldsFromJson] at hout
    | succ n =>
      unfold flattenSchemaFieldsFromJson at hout
      simp only [hprops, bind, Except.bind] at hout
      obtain ⟨before, chunk, after, hchunk, rfl⟩ :=
        appendRows_mem _ _ out hout k ((SortStrings_mem _ _).2 hk)
      simp only [fieldRowsFromJson, htyp, if_false, hr, ne_eq, not_false_eq_true, if_true]
        at hchunk
      cases hS : GetRefJSON G j (getString G (props.get k) "$ref") with
      | none =>
        simp [hS, bind, Except.bind, pure, Except.pure] at hchunk
        subst hchunk
        exact ⟨before,
          { Path := joinPath pre k,
            Required := setHas (SetFromArray (getArray G (some sj) "required")) k,
            Typ := "object", Desc := titleDescription G (props.get k) },
          [], after, rfl, rfl, rfl, by simp⟩
      | some S =>
        simp only [hS] at hchunk
        cases hsub : flattenSchemaFieldsFromJson G n j (some S) (joinPath pre k) with
        | error e => simp [hsub, bind, Except.bind] at hchunk
        | ok sub =>
          simp [hsub, bind, Except.bind, pure, Except.pure] at hchunk
          subst hchunk
          exact ⟨before,
            { Path := joinPath pre k,
              Required := setHas (SetFromArray (getArray G (some sj) "required")) k,
              Typ := "object", Desc := titleDescription G (props.get k) },
            sub, after, ⟨n, hsub⟩, rfl, rfl, by simp⟩
  · intro G j recur requiredSet pre k pj htyp hr
    simp only [fieldRows, htyp, if_false, hr, ne_eq, not_false_eq_true, if_true]
    cases recur (getString G pj "$ref") (joinPath pre k) <;> rfl
  · intro G j recur requiredSet pre k pj S htyp hr hS
    simp only [fieldRowsFromJson, htyp, if_false, hr, hS, ne_eq, not_false_eq_true, if_true]
    cases recur (some S) (joinPath pre k) <;> rfl
  · intro G recur nestedReq curPath nk np htyp hr
    simp only [nestedRows, htyp, if_false, hr, ne_eq, not_false_eq_true, if_true]
    cases recur (getString G np "$ref") (curPath ++ "." ++ nk) <;> rfl
  · intro G sp href
    simp [itemType, href]
  · intro k
    simp [joinPath]
  · intro pre k hpre
    simp [joinPath, hpre]

/-- C4 at the schema `Holder` of `holderDoc`, prefix `p`. -/
theorem flatten_ref_property_witness :
    ∃ before hdr sub after,
      FlattensTo Gconv.plain (some holderDoc) "#/components/schemas/Foo" (joinPath "p" "f") sub ∧
      hdr.Path = joinPath "p" "f" ∧ hdr.Typ = "object" ∧
      [{ Path := "p.f", Required := false, Typ := "object", Desc := "" },
       { Path := "p.f.a", Required := false, Typ := "string", Desc := "" }]
        = before ++ hdr :: sub ++ after :=
  flatten_ref_property.1 Gconv.plain (some holderDoc) "#/components/schemas/Holder" "p" _
    (.obj [("type", .str "object"), ("properties", .obj [
      ("f", .obj [("$ref", .str "#/components/schemas/Foo")])])]) "f"
    rfl (by decide) (by decide) (by decide) ⟨2, rfl⟩

/-- C4 as stated fails.  The property `u` of the inline items of `xs` is a
reference to `Foo`, and both flatteners return for it the single row `xs[].u`
typed `object`, without the rows of `Foo`.  The property `f` of `Odd` carries a
`$ref` to `Foo` and the type `array` (items of type string); both flatteners
take the array branch first and return the single row `f[]`. -/
theorem flatten_ref_property_not_expanded :
    (∀ G : Gconv,
      flattenSchemaFields G 2 (some (inItems "u" (.obj [("$ref", .str "#/components/schemas/Foo")])))
          "#/components/schemas/Outer" "" =
        .ok [{ Path := "xs[]", Required := false, Typ := "array(object)", Desc := "" },
             { Path := "xs[].u", Required := false, Typ := "object", Desc := "" }]) ∧
    (∀ G : Gconv,
      flattenSchemaFieldsFromJson G 2
          (some (inItems "u" (.obj [("$ref", .str "#/components/schemas/Foo")])))
          (some (outerOf "u" (.obj [("$ref", .str "#/components/schemas/Foo")]))) "" =
        .ok [{ Path := "xs[]", Required := false, Typ := "array(object)", Desc := "" },
             { Path := "xs[].u", Required := false, Typ := "object", Desc := "" }]) ∧
    (∀ G : Gconv,
      getString G ((GetJsonMap G (some oddSchema) "properties").get "f") "$ref" =
        "#/components/schemas/Foo") ∧
    (∀ G : Gconv, flattenSchemaFields G 1 (some holderDoc) "#/components/schemas/Odd" "" =
      .ok [{ Path := "f[]", Required := false, Typ := "array(string)", Desc := "" }]) ∧
    (∀ G : Gconv, flattenSchemaFieldsFromJson G 1 (some holderDoc) (some oddSchema) "" =
      .ok [{ Path := "f[]", Required := false, Typ := "array(string)", Desc := "" }]) :=
  ⟨fun _ => rfl, fun _ => rfl, fun _ => rfl, fun _ => rfl, fun _ => rfl⟩

theorem inlineObj_null (G : Gconv) : inlineObj G (some (New G .null)) = false := by
  simp [inlineObj, New, getString, Get, Json.member, varString, GetJsonMap, jsonMapOf, varMap,
    mapKeys, GoMap.len, getArray, varArray]

/-- C5, as the code has it.  A property of type array whose items have no
`$ref` and have a type `T`.  For the properties of the flattened node (both
flatteners), when the items are no inline object, and for those of a nested
inline object (flattenSchemaFields): exactly one row, `curPath[]`, typed
`array(T)`.  For a property of the inline items of an array: one
row, at its own path without the suffix `[]`, labelled `array(T)` when the items
have a type `T` and `array` when they have none or are missing. -/
theorem flatten_array_scalar_items :
    (∀ (G : Gconv) (j : Option Json) (recur : String → String → Except Stop (List FieldInfo))
      (requiredSet : List String) (pre k : String) (pj : Option Json),
      getString G pj "type" = "array" →
      getString G (GetJson G pj "items") "$ref" = "" →
      inlineObj G (GetJson G pj "items") = false →
      getString G (GetJson G pj "items") "type" ≠ "" →
      fieldRows G j recur requiredSet pre k pj =
        .ok [{ Path := joinPath pre k ++ "[]", Required := setHas requiredSet k,
               Typ := "array(" ++ getString G (GetJson G pj "items") "type" ++ ")",
               Desc := titleDescription G pj }]) ∧
    (∀ (G : Gconv) (j : Option Json)
      (recur : Option Json → String → Except Stop (List FieldInfo))
      (requiredSet : List String) (pre k : String) (pj : Option Json),
      getString G pj "type" = "array" →
      getString G (GetJson G pj "items") "$ref" = "" →
      inlineObj G (GetJson G pj "items") = false →
      getString G (GetJson G pj "items") "type" ≠ "" →
      fieldRowsFromJson G j recur requiredSet pre k pj =
        .ok [{ Path := joinPath pre k ++ "[]", Required := setHas requiredSet k,
               Typ := "array(" ++ getString G (GetJson G pj "items") "type" ++ ")",
               Desc := titleDescription G pj }]) ∧
    (∀ (G : Gconv) (recur : String → String → Except Stop (List FieldInfo))
      (nestedReq : List String) (curPath nk : String) (np : Option Json),
      getString G np "type" = "array" →
      getString G (GetJson G np "items") "$ref" = "" →
      getString G (GetJson G np "items") "type" ≠ "" →
      nestedRows G recur nestedReq curPath nk np =
        .ok [{ Path := curPath ++ "." ++ nk ++ "[]", Required := setHas nestedReq nk,
               Typ := "array(" ++ getString G (GetJson G np "items") "type" ++ ")",
               Desc := titleDescription G np }]) ∧
    (∀ (G : Gconv) (j : Option Json) (curPath : String) (it : Option Json) (props2 : GoMap Json),
      mergedProperties G j it = .ok props2 →
      itemRows G j curPath it = .ok ((SortStrings props2.keys).map (fun kk =>
        { Path := curPath ++ "[]." ++ kk,
          Required := setHas (SetFromArray (getArray G it "required")) kk,
          Typ := itemType G (props2.get kk), Desc := titleDescription G (props2.get kk) }))) ∧
    (∀ (G : Gconv) (sp : Option Json),
      getString G sp "$ref" = "" → getString G sp "type" = "array" →
      getString G (GetJson G sp "items") "$ref" = "" →
      itemType G sp =
        if getString G (GetJson G sp "items") "type" ≠ "" then
          "array(" ++ getString G (GetJson G sp "items") "type" ++ ")"
        else "array") ∧
    (∀ G : Gconv, flattenSchemaFields G 1 (some stringsDoc) "#/components/schemas/Tags" "" =
      .ok [{ Path := "tags[]", Required := false, Typ := "array(string)", Desc := "" }]) := by
  refine ⟨?_, ?_, ?_, itemRows_ok, ?_, fun _ => rfl⟩
  · intro G j recur requiredSet pre k pj htyp hr hobj _
    simp only [GetJson] at hr hobj
    simp [fieldRows, htyp, GetJson, hr, hobj, pure, Except.pure]
  · intro G j recur requiredSet pre k pj htyp hr hobj _
    simp only [GetJson] at hr hobj
    simp [fieldRowsFromJson, htyp, GetJson, hr, hobj, pure, Except.pure]
  · intro G recur nestedReq curPath nk np htyp hr _
    simp only [GetJson] at hr
    simp [nestedRows, htyp, GetJson, hr, pure, Except.pure]
  · intro G sp href htyp hir
    simp only [GetJson] at hir
    simp [itemType, href, htyp, GetJson, hir]

/-- C5 at the property `tags` of `Tags` in `stringsDoc`, an array of strings. -/
theorem flatten_array_scalar_items_witness :
    fieldRows Gconv.plain (some stringsDoc) (fun _ _ => .ok []) [] "" "tags"
        (some (.obj [("type", .str "array"), ("items", .obj [("type", .str "string")])])) =
      .ok [{ Path := joinPath "" "tags" ++ "[]", Required := setHas [] "tags",
             Typ := "array(" ++ getString Gconv.plain
               (GetJson Gconv.plain
                 (some (.obj [("type", .str "array"), ("items", .obj [("type", .str "string")])]))
                 "items") "type" ++ ")",
             Desc := titleDescription Gconv.plain
               (some (.obj [("type", .str "array"),
                            ("items", .obj [("type", .str "string")])])) }] :=
  flatten_array_scalar_items.1 Gconv.plain (some stringsDoc) (fun _ _ => .ok []) [] "" "tags"
    (some (.obj [("type", .str "array"), ("items", .obj [("type", .str "string")])]))
    (by decide) (by decide) (by decide) (by decide)

/-- C5 as stated fails: the property `ts` of the inline items of `xs` is an
array of strings, and both flatteners return for it the row `xs[].ts`, a path
without the suffix `[]`. -/
theorem flatten_array_scalar_items_in_items :
    (∀ G : Gconv,
      flattenSchemaFields G 1
          (some (inItems "ts" (.obj [("type", .str "array"),
                                     ("items", .obj [("type", .str "string")])])))
          "#/components/schemas/Outer" "" =
        .ok [{ Path := "xs[]", Required := false, Typ := "array(object)", Desc := "" },
             { Path := "xs[].ts", Required := false, Typ := "array(string)", Desc := "" }]) ∧
    (∀ G : Gconv,
      flattenSchemaFieldsFromJson G 1
          (some (inItems "ts" (.obj [("type", .str "array"),
                                     ("items", .obj [("type", .str "string")])])))
          (some (outerOf "ts" (.obj [("type", .str "array"),
                                     ("items", .obj [("type", .str "string")])]))) "" =
        .ok [{ Path := "xs[]", Required := false, Typ := "array(object)", Desc := "" },
             { Path := "xs[].ts", Required := false, Typ := "array(string)", Desc := "" }]) :=
  ⟨fun _ => rfl, fun _ => rfl⟩

theorem flatten_array_without_items :
    (∀ (G : Gconv) (j : Option Json) (recur : String → String → Except Stop (List FieldInfo))
      (requiredSet : List String) (pre k : String) (pj : Option Json),
      getString G pj "type" = "array" → Get pj "items" = .null →
      fieldRows G j recur requiredSet pre k pj =
        .ok [{ Path := joinPath pre k ++ "[]", Required := setHas requiredSet k,
               Typ := "array()", Desc := titleDescription G pj }]) ∧
    (∀ (G : Gconv) (j : Option Json)
      (recur : Option Json → String → Except Stop (List FieldInfo))
      (requiredSet : List String) (pre k : String) (pj : Option Json),
      getString G pj "type" = "array" → Get pj "items" = .null →
      fieldRowsFromJson G j recur requiredSet pre k pj =
        .ok [{ Path := joinPath pre k ++ "[]", Required := setHas requiredSet k,
               Typ := "array()", Desc := titleDescription G pj }]) ∧
    (∀ G : Gconv, flattenSchemaFields G 1 (some tagsDoc) "#/components/schemas/Tags" "" =
      .ok [{ Path := "tags[]", Required := false, Typ := "array()", Desc := "" }]) ∧
    (∀ G : Gconv, flattenSchemaFieldsFromJson G 1 (some tagsDoc)
        (GetRefJSON G (some tagsDoc) "#/components/schemas/Tags") "" =
      .ok [{ Path := "tags[]", Required := false, Typ := "array()", Desc := "" }]) := by
  have hnull : ∀ (G : Gconv) (pj : Option Json), Get pj "items" = .null →
      getString G (GetJson G pj "items") "$ref" = "" ∧
      inlineObj G (GetJson G pj "items") = false ∧
      getString G (GetJson G pj "items") "type" = "" := by
    intro G pj hnil
    refine ⟨?_, ?_, ?_⟩
    · simp only [GetJson, hnil]; rfl
    · simp only [GetJson, hnil]; exact inlineObj_null G
    · simp only [GetJson, hnil]; rfl
  refine ⟨?_, ?_, fun _ => rfl, fun _ => rfl⟩
  · intro G j recur requiredSet pre k pj htyp hnil
    obtain ⟨a, b, c⟩ := hnull G pj hnil
    simp only [GetJson] at a b c
    simp [fieldRows, htyp, GetJson, a, b, c, pure, Except.pure]
  · intro G j recur requiredSet pre k pj htyp hnil
    obtain ⟨a, b, c⟩ := hnull G pj hnil
    simp only [GetJson] at a b c
    simp [fieldRowsFromJson, htyp, GetJson, a, b, c, pure, Except.pure]

theorem mem_SetFromArray (xs : List Json) (k : String) :
    k ∈ SetFromArray xs ↔ Json.str k ∈ xs := by
  unfold SetFromArray
  rw [List.mem_filterMap]
  constructor
  · rintro ⟨v, hv, hk⟩
    cases v <;> simp at hk
    subst hk
    exact hv
  · intro h
    exact ⟨Json.str k, h, rfl⟩

theorem requiredAt_setHas (G : Gconv) (n : Option Json) (k : String) :
    RequiredAt n k (setHas (SetFromArray (getArray G n "required")) k) := by
  constructor
  · intro xs hxs
    simp [setHas, getArray, hxs, varArray, mem_SetFromArray]
  · intro hnull
    simp [setHas, getArray, hnull, varArray, SetFromArray]

theorem bind_eq_ok {α β : Type} (x : Except Stop α) (f : α → Except Stop β) (b : β)
    (h : (x >>= f) = .ok b) : ∃ a, x = .ok a ∧ f a = .ok b := by
  cases x with
  | error e => simp [bind, Except.bind] at h
  | ok a => exact ⟨a, rfl, h⟩

theorem nestedRows_head (G : Gconv) (recur : String → String → Except Stop (List FieldInfo))
    (nestedReq : List String) (curPath nk : String) (np : Option Json) (chunk : List FieldInfo)
    (h : nestedRows G recur nestedReq curPath nk np = .ok chunk) :
    ∃ row rest, chunk = row :: rest ∧
      (row.Path = curPath ++ "." ++ nk ∨ row.Path = curPath ++ "." ++ nk ++ "[]") ∧
      row.Required = setHas nestedReq nk := by
  unfold nestedRows at h
  simp only [GetJson] at h
  split_ifs at h
  · obtain ⟨sub, _, hh⟩ := bind_eq_ok _ _ _ h
    cases hh
    exact ⟨_, _, rfl, Or.inr rfl, rfl⟩
  · cases h
    exact ⟨_, _, rfl, Or.inr rfl, rfl⟩
  · obtain ⟨sub, _, hh⟩ := bind_eq_ok _ _ _ h
    cases hh
    exact ⟨_, _, rfl, Or.inl rfl, rfl⟩
  · cases h
    exact ⟨_, _, rfl, Or.inl rfl, rfl⟩

theorem fieldRows_head (G : Gconv) (j : Option Json)
    (recur : String → String → Except Stop (List FieldInfo))
    (requiredSet : List String) (pre k : String) (pj : Option Json) (chunk : List FieldInfo)
    (h : fieldRows G j recur requiredSet pre k pj = .ok chunk) :
    ∃ row rest, chunk = row :: rest ∧
      (row.Path = joinPath pre k ∨ row.Path = joinPath pre k ++ "[]") ∧
      row.Required = setHas requiredSet k := by
  unfold fieldRows at h
  simp only [GetJson] at h
  split_ifs at h
  · obtain ⟨sub, _, hh⟩ := bind_eq_ok _ _ _ h
    cases hh
    exact ⟨_, _, rfl, Or.inr rfl, rfl⟩
  · obtain ⟨sub, _, hh⟩ := bind_eq_ok _ _ _ h
    cases hh
    exact ⟨_, _, rfl, Or.inr rfl, rfl⟩
  · cases h
    exact ⟨_, _, rfl, Or.inr rfl, rfl⟩
  · obtain ⟨sub, _, hh⟩ := bind_eq_ok _ _ _ h
    cases hh
    exact ⟨_, _, rfl, Or.inl rfl, rfl⟩
  · obtain ⟨sub, _, hh⟩ := bind_eq_ok _ _ _ h
    cases hh
    exact ⟨_, _, rfl, Or.inl rfl, rfl⟩
  · cases h
    exact ⟨_, _, rfl, Or.inl rfl, rfl⟩

theorem fieldRowsFromJson_head (G : Gconv) (j : Option Json)
    (recur : Option Json → String → Except Stop (List FieldInfo))
    (requiredSet : List String) (pre k : String) (pj : Option Json) (chunk : List FieldInfo)
    (h : fieldRowsFromJson G j recur requiredSet pre k pj = .ok chunk) :
    ∃ row rest, chunk = row :: rest ∧
      (row.Path = joinPath pre k ∨ row.Path = joinPath pre k ++ "[]") ∧
      row.Required = setHas requiredSet k := by
  unfold fieldRowsFromJson at h
  simp only [GetJson] at h
  split_ifs at h
  · split at h <;>
    · obtain ⟨sub, _, hh⟩ := bind_eq_ok _ _ _ h
      cases hh
      exact ⟨_, _, rfl, Or.inr rfl, rfl⟩
  · obtain ⟨sub, _, hh⟩ := bind_eq_ok _ _ _ h
    cases hh
    exact ⟨_, _, rfl, Or.inr rfl, rfl⟩
  · cases h
    exact ⟨_, _, rfl, Or.inr rfl, rfl⟩
  · split at h <;>
    · obtain ⟨sub, _, hh⟩ := bind_eq_ok _ _ _ h
      cases hh
      exact ⟨_, _, rfl, Or.inl rfl, rfl⟩
  · obtain ⟨sub, _, hh⟩ := bind_eq_ok _ _ _ h
    cases hh
    exact ⟨_, _, rfl, Or.inl rfl, rfl⟩
  · cases h
    exact ⟨_, _, rfl, Or.inl rfl, rfl⟩

theorem appendRows_head (keys : List String) (f : String → Except Stop (List FieldInfo))
    (P : String → FieldInfo → Prop)
    (hf : ∀ k chunk, f k = .ok chunk → ∃ row rest, chunk = row :: rest ∧ P k row)
    (out : List FieldInfo) (h : appendRows keys f = .ok out) (k : String) (hk : k ∈ keys) :
    ∃ before row after, out = before ++ row :: after ∧ P k row := by
  obtain ⟨before, chunk, after, hc, rfl⟩ := appendRows_mem keys f out h k hk
  obtain ⟨row, rest, rfl, hP⟩ := hf k chunk hc
  exact ⟨before, row, rest ++ after, by simp, hP⟩

/-- C6. The flag `Required` of the row that a flattener emits for a property
`k` is the membership of the string `k` in the `required` array of the node
that holds the property, and false without such an array: for the properties of
the component (flattenSchemaFields) or of the flattened node
(flattenSchemaFieldsFromJson), of a nested inline object, and of the inline
items of an array. -/
theorem flatten_required :
    (∀ (G : Gconv) (j : Option Json) (ref pre : String) (out : List FieldInfo) (sj : Json)
      (k : String),
      GetSchema G j (ComponentNameFromRef ref) = some sj →
      k ∈ (GetJsonMap G (some sj) "properties").keys →
      FlattensTo G j ref pre out →
      ∃ before row after, out = before ++ row :: after ∧
        (row.Path = joinPath pre k ∨ row.Path = joinPath pre k ++ "[]") ∧
        RequiredAt (some sj) k row.Required) ∧
    (∀ (G : Gconv) (j : Option Json) (sj : Json) (pre : String) (out : List FieldInfo)
      (props : GoMap Json) (k : String),
      mergedProperties G j (some sj) = .ok props →
      k ∈ props.keys →
      FlattensJsonTo G j (some sj) pre out →
      ∃ before row after, out = before ++ row :: after ∧
        (row.Path = joinPath pre k ∨ row.Path = joinPath pre k ++ "[]") ∧
        RequiredAt (some sj) k row.Required) ∧
    (∀ (G : Gconv) (recur : String → String → Except Stop (List FieldInfo))
      (curPath : String) (pj : Option Json) (out : List FieldInfo) (nk : String),
      nestedObjectRows G recur curPath pj = .ok out →
      nk ∈ (GetJsonMap G pj "properties").keys →
      ∃ before row after, out = before ++ row :: after ∧
        (row.Path = curPath ++ "." ++ nk ∨ row.Path = curPath ++ "." ++ nk ++ "[]") ∧
        RequiredAt pj nk row.Required) ∧
    (∀ (G : Gconv) (j : Option Json) (curPath : String) (it : Option Json)
      (out : List FieldInfo) (props2 : GoMap Json) (kk : String),
      mergedProperties G j it = .ok props2 →
      itemRows G j curPath it = .ok out →
      kk ∈ props2.keys →
      ∃ row ∈ out, row.Path = curPath ++ "[]." ++ kk ∧ RequiredAt it kk row.Required) ∧
    flattenSchemaFields Gconv.plain 1 (some reqDoc) "#/components/schemas/Req" "" =
      .ok [{ Path := "a", Required := false, Typ := "string", Desc := "" },
           { Path := "b", Required := true, Typ := "string", Desc := "" },
           { Path := "o", Required := false, Typ := "object", Desc := "" },
           { Path := "o.c", Required := false, Typ := "string", Desc := "" },
           { Path := "o.d", Required := true, Typ := "string", Desc := "" },
           { Path := "xs[]", Required := false, Typ := "array(object)", Desc := "" },
           { Path := "xs[].e", Required := false, Typ := "string", Desc := "" },
           { Path := "xs[].f", Required := true, Typ := "string", Desc := "" }] := by
  refine ⟨?_, ?_, ?_, ?_, rfl⟩
  · intro G j ref pre out sj k hs hk ⟨fuel, hout⟩
    cases fuel with
    | zero => simp [flattenSchemaFields] at hout
    | succ n =>
      unfold flattenSchemaFields at hout
      simp only [hs] at hout
      refine appendRows_head _ _
        (fun k row => (row.Path = joinPath pre k ∨ row.Path = joinPath pre k ++ "[]") ∧
          RequiredAt (some sj) k row.Required) ?_ out hout k ((SortStrings_mem _ _).2 hk)
      intro k' chunk hc
      obtain ⟨row, rest, e, hp, hr⟩ := fieldRows_head _ _ _ _ _ _ _ _ hc
      exact ⟨row, rest, e, hp, hr ▸ requiredAt_setHas G (some sj) k'⟩
  · intro G j sj pre out props k hprops hk ⟨fuel, hout⟩
    cases fuel with
    | zero => simp [flattenSchemaFieldsFromJson] at hout
    | succ n =>
      unfold flattenSchemaFieldsFromJson at hout
      simp only [hprops, bind, Except.bind] at hout
      refine appendRows_head _ _
        (fun k row => (row.Path = joinPath pre k ∨ row.Path = joinPath pre k ++ "[]") ∧
          RequiredAt (some sj) k row.Required) ?_ out hout k ((SortStrings_mem _ _).2 hk)
      intro k' chunk hc
      obtain ⟨row, rest, e, hp, hr⟩ := fieldRowsFromJson_head _ _ _ _ _ _ _ _ hc
      exact ⟨row, rest, e, hp, hr ▸ requiredAt_setHas G (some sj) k'⟩
  · intro G recur curPath pj out nk hout hk
    unfold nestedObjectRows at hout
    have hlen : (GetJsonMap G pj "properties").len > 0 := by
      cases hm : GetJsonMap G pj "properties" with
      | none => simp [hm, GoMap.keys] at hk
      | some kvs =>
        simp only [hm, GoMap.keys] at hk
        simp only [GoMap.len]
        exact List.length_pos_of_mem hk
    simp only [hlen, if_true] at hout
    refine appendRows_head _ _
      (fun nk row => (row.Path = curPath ++ "." ++ nk ∨ row.Path = curPath ++ "." ++ nk ++ "[]") ∧
        RequiredAt pj nk row.Required) ?_ out hout nk ((SortStrings_mem _ _).2 hk)
    intro k' chunk hc
    obtain ⟨row, rest, e, hp, hr⟩ := nestedRows_head _ _ _ _ _ _ _ hc
    exact ⟨row, rest, e, hp, hr ▸ requiredAt_setHas G pj k'⟩
  · intro G j curPath it out props2 kk hprops hout hk
    unfold itemRows at hout
    simp only [hprops, bind, Except.bind, pure, Except.pure] at hout
    cases hout
    refine ⟨_, List.mem_map.2 ⟨kk, (SortStrings_mem _ _).2 hk, rfl⟩, rfl, ?_⟩
    exact requiredAt_setHas G it kk

/-- C6 at the schema `Req` of `reqDoc`: the row of `b` is flagged, `b` being
listed in `required`. -/
theorem flatten_required_witness :
    ∃ (before : List FieldInfo) (row : FieldInfo) (after : List FieldInfo),
      [{ Path := "a", Required := false, Typ := "string", Desc := "" },
       { Path := "b", Required := true, Typ := "string", Desc := "" },
       { Path := "o", Required := false, Typ := "object", Desc := "" },
       { Path := "o.c", Required := false, Typ := "string", Desc := "" },
       { Path := "o.d", Required := true, Typ := "string", Desc := "" },
       { Path := "xs[]", Required := false, Typ := "array(object)", Desc := "" },
       { Path := "xs[].e", Required := false, Typ := "string", Desc := "" },
       { Path := "xs[].f", Required := true, Typ := "string", Desc := "" }]
        = before ++ row :: after ∧
      (row.Path = joinPath "" "b" ∨ row.Path = joinPath "" "b" ++ "[]") ∧
      RequiredAt (some reqSchema) "b" row.Required :=
  flatten_required.1 Gconv.plain (some reqDoc) "#/components/schemas/Req" "" _ reqSchema "b"
    rfl (by decide) ⟨1, rfl⟩


/-! ## PropertyMerger -/

/-- C7. When the `properties` of `s` are not empty, mergedProperties returns
them as they are, whatever `allOf`, `oneOf` and `anyOf` hold. -/
theorem mergedProperties_own :
    (∀ (G : Gconv) (j s : Option Json),
      (GetJsonMap G s "properties").len ≠ 0 →
      mergedProperties G j s = .ok (GetJsonMap G s "properties")) ∧
    (∀ (G : Gconv) (j s : Option Json) (kvs : List (String × Json)),
      Get s "properties" = .obj kvs → kvs ≠ [] →
      mergedProperties G j s = .ok (some (kvs.map (fun kv => (kv.1, New G kv.2))))) ∧
    (∀ G : Gconv, mergedProperties G (some fooDoc) (some ownAndAllOf) =
      .ok (some [("a", .obj [("type", .str "string")])])) := by
  refine ⟨?_, ?_, fun _ => rfl⟩
  · intro G j s h
    simp [mergedProperties, h]
  · intro G j s kvs hp hne
    have hk : (mapKeys kvs).length > 0 := by
      cases hm : mapKeys kvs with
      | nil => exact absurd ((mapKeys_eq_nil kvs).1 hm) hne
      | cons a b => simp
    have hmap : GetJsonMap G s "properties" = some (kvs.map (fun kv => (kv.1, New G kv.2))) := by
      simp [GetJsonMap, jsonMapOf, hp, varMap, hk]
    have hlen : (GetJsonMap G s "properties").len ≠ 0 := by
      rw [hmap]
      simp only [GoMap.len, mapKeys_map]
      omega
    rw [hmap] at hlen
    simp [mergedProperties, hmap, hlen]

/-- C7 at a schema with the own property `a` and an `allOf` member that has
the property `b`. -/
theorem mergedProperties_own_witness :
    mergedProperties Gconv.plain (some fooDoc) (some ownAndAllOf) =
      .ok (GetJsonMap Gconv.plain (some ownAndAllOf) "properties") :=
  mergedProperties_own.1 Gconv.plain (some fooDoc) (some ownAndAllOf) (by decide)

theorem GetJsonMap_len_zero (G : Gconv) (s : Option Json) (k : String)
    (h : (GetJsonMap G s k).len = 0) : GetJsonMap G s k = none := by
  unfold GetJsonMap jsonMapOf at *
  by_cases hk : (mapKeys (varMap G (Get s k))).length > 0
  · simp only [hk, if_true, GoMap.len, mapKeys_map] at h
    omega
  · simp [hk]

theorem assignAll_nil (src : GoMap Json) :
    GoMap.assignAll none src = .ok none ∨ GoMap.assignAll none src = .error .panic := by
  unfold GoMap.assignAll
  cases src.entries with
  | nil => left; rfl
  | cons kv rest => right; rfl

theorem mergeMember_nil (G : Gconv) (j : Option Json) (it : Json) :
    mergeMember G j none it = .ok none ∨ mergeMember G j none it = .error .panic := by
  unfold mergeMember
  simp only []
  split_ifs
  · split
    · exact assignAll_nil _
    · left; rfl
  · exact assignAll_nil _

theorem foldlM_mergeMember_nil (G : Gconv) (j : Option Json) (members : List Json) :
    members.foldlM (mergeMember G j) none = .ok none ∨
      members.foldlM (mergeMember G j) none = .error .panic := by
  induction members with
  | nil => left; rfl
  | cons it rest ih =>
    rw [List.foldlM_cons]
    rcases mergeMember_nil G j it with h | h
    · rw [h]; exact ih
    · rw [h]; right; rfl

theorem mergeCompositions_nil (G : Gconv) (j s : Option Json) :
    mergeCompositions G j s none = .ok none ∨ mergeCompositions G j s none = .error .panic := by
  unfold mergeCompositions
  simp only [List.foldlM_cons, List.foldlM_nil]
  rcases foldlM_mergeMember_nil G j (getArray G s "allOf") with h1 | h1
  · rw [h1]
    rcases foldlM_mergeMember_nil G j (getArray G s "oneOf") with h2 | h2
    · have e2 : (Except.ok none >>= fun p =>
          (List.foldlM (mergeMember G j) p (getArray G s "oneOf") : Except Stop (GoMap Json)) >>=
            fun p => List.foldlM (mergeMember G j) p (getArray G s "anyOf") >>= pure) =
          (List.foldlM (mergeMember G j) none (getArray G s "anyOf") >>= pure) := by
        show (List.foldlM (mergeMember G j) none (getArray G s "oneOf") >>= _) = _
        rw [h2]; rfl
      rw [e2]
      rcases foldlM_mergeMember_nil G j (getArray G s "anyOf") with h3 | h3
      · rw [h3]; left; rfl
      · rw [h3]; right; rfl
    · right
      show (List.foldlM (mergeMember G j) none (getArray G s "oneOf") >>= _) = _
      rw [h2]; rfl
  · rw [h1]; right; rfl

/-- C8, on the code.  When `s` has no properties the map that mergedProperties
starts from is the nil map that `GetJsonMap` returned, and the first property
that a member of `allOf`, `oneOf` or `anyOf` contributes is assigned into it:
the call returns the nil map when no member contributes anything and panics
otherwise, as on `{allOf: [{properties: {a: {type: string}}}]}` and on
`{allOf: [{$ref: Foo}]}`. -/
theorem mergedProperties_nil_map :
    (∀ (G : Gconv) (j s : Option Json),
      (GetJsonMap G s "properties").len = 0 →
      mergedProperties G j s = .ok none ∨ mergedProperties G j s = .error .panic) ∧
    (∀ (G : Gconv) (j : Option Json), mergedProperties G j (some allOfInline) = .error .panic) ∧
    (∀ G : Gconv, mergedProperties G (some fooDoc) (some allOfRef) = .error .panic) ∧
    (∀ (G : Gconv) (j : Option Json), mergedProperties G j (some allOfEmpty) = .ok none) := by
  refine ⟨?_, fun _ _ => rfl, fun _ => rfl, fun _ _ => rfl⟩
  intro G j s h
  have hnil := GetJsonMap_len_zero G s "properties" h
  simp only [mergedProperties, h, if_true, hnil]
  exact mergeCompositions_nil G j s


/-! ## ExampleBuilder -/

theorem mem_mapKeys {α : Type} (k : String) (kvs : List (String × α)) :
    k ∈ mapKeys kvs ↔ ∃ v, lookup k kvs = some v := by
  induction kvs with
  | nil => simp [mapKeys, lookup]
  | cons kv rest ih =>
    obtain ⟨k', v'⟩ := kv
    by_cases h : k' = k
    · subst h; simp [mapKeys, lookup]
    · have h' : ¬ k = k' := fun e => h e.symm
      simp [mapKeys, lookup, h, h', ih]

theorem lookup_filterMap_keys {α : Type} (kvs : List (String × α)) (k : String)
    (ks : List String) :
    lookup k (ks.filterMap (fun k' => (lookup k' kvs).map (fun v => (k', v)))) =
      if k ∈ ks then lookup k kvs else none := by
  induction ks with
  | nil => simp [lookup]
  | cons k0 rest ih =>
    rw [List.filterMap_cons]
    cases h0 : lookup k0 kvs with
    | none =>
      simp only [Option.map_none']
      rw [ih]
      by_cases e : k = k0
      · subst e; simp [h0]
      · simp [e]
    | some v0 =>
      simp only [Option.map_some', lookup]
      by_cases e : k0 = k
      · subst e; simp [h0]
      · have e' : ¬ k = k0 := fun x => e x.symm
        simp [e, e', ih]

theorem lookup_entries {α : Type} (m : GoMap α) (k : String) :
    lookup k m.entries = m.get k := by
  cases m with
  | none => rfl
  | some kvs =>
    simp only [GoMap.entries, GoMap.get]
    rw [lookup_filterMap_keys]
    split_ifs with h
    · rfl
    · cases hk : lookup k kvs with
      | none => rfl
      | some v => exact absurd ((mem_mapKeys k kvs).2 ⟨v, hk⟩) h

theorem map_fst_entries {α : Type} (m : GoMap α) : m.entries.map Prod.fst = m.keys := by
  cases m with
  | none => rfl
  | some kvs =>
    simp only [GoMap.entries, GoMap.keys]
    have : ∀ ks : List String, (∀ k ∈ ks, ∃ v, lookup k kvs = some v) →
        (ks.filterMap (fun k => (lookup k kvs).map (fun v => (k, v)))).map Prod.fst = ks := by
      intro ks
      induction ks with
      | nil => intro _; rfl
      | cons k0 rest ih =>
        intro h
        obtain ⟨v0, hv0⟩ := h k0 (by simp)
        rw [List.filterMap_cons]
        simp only [hv0, Option.map_some', List.map_cons]
        rw [ih (fun k hk => h k (by simp [hk]))]
    exact this _ (fun k hk => (mem_mapKeys k kvs).1 hk)

theorem buildMap_keys (f : Option Json → Except Stop Ex) (es : List (String × Json))
    (m : List (String × Ex)) (h : buildMap f es = .ok m) : m.map Prod.fst = es.map Prod.fst := by
  induction es generalizing m with
  | nil => cases h; rfl
  | cons e rest ih =>
    obtain ⟨k, pj⟩ := e
    unfold buildMap at h
    obtain ⟨v, _, h1⟩ := bind_eq_ok _ _ _ h
    obtain ⟨more, hmore, h2⟩ := bind_eq_ok _ _ _ h1
    cases h2
    simp [ih more hmore]

theorem buildMap_lookup (f : Option Json → Except Stop Ex) (es : List (String × Json))
    (m : List (String × Ex)) (h : buildMap f es = .ok m) (k : String) (pj : Json)
    (hk : lookup k es = some pj) : ∃ v, lookup k m = some v ∧ f (some pj) = .ok v := by
  induction es generalizing m with
  | nil => simp [lookup] at hk
  | cons e rest ih =>
    obtain ⟨k0, pj0⟩ := e
    unfold buildMap at h
    obtain ⟨v, hv, h1⟩ := bind_eq_ok _ _ _ h
    obtain ⟨more, hmore, h2⟩ := bind_eq_ok _ _ _ h1
    cases h2
    by_cases e : k0 = k
    · subst e
      simp only [lookup, if_true, Option.some.injEq] at hk
      subst hk
      exact ⟨v, by simp [lookup], hv⟩
    · simp only [lookup, e, if_false] at hk
      obtain ⟨v', hv', hf⟩ := ih more hmore hk
      exact ⟨v', by simp [lookup, e, hv'], hf⟩

theorem buildMap_total (f : Option Json → Except Stop Ex) (es : List (String × Json))
    (h : ∀ e ∈ es, ∃ v, f (some e.2) = .ok v) : ∃ m, buildMap f es = .ok m := by
  induction es with
  | nil => exact ⟨[], rfl⟩
  | cons e rest ih =>
    obtain ⟨k0, pj0⟩ := e
    obtain ⟨v, hv⟩ := h (k0, pj0) (by simp)
    obtain ⟨more, hmore⟩ := ih (fun e he => h e (by simp [he]))
    exact ⟨(k0, v) :: more, by simp [buildMap, hv, hmore, bind, Except.bind, pure, Except.pure]⟩

theorem buildMap_mono (f1 f2 : Option Json → Except Stop Ex)
    (hf : ∀ pj v, f1 pj = .ok v → f2 pj = .ok v) (es : List (String × Json))
    (m : List (String × Ex)) (h : buildMap f1 es = .ok m) : buildMap f2 es = .ok m := by
  induction es generalizing m with
  | nil => exact h
  | cons e rest ih =>
    obtain ⟨k0, pj0⟩ := e
    unfold buildMap at h
    obtain ⟨v, hv, h1⟩ := bind_eq_ok _ _ _ h
    obtain ⟨more, hmore, h2⟩ := bind_eq_ok _ _ _ h1
    cases h2
    simp [buildMap, hf _ _ hv, ih more hmore, bind, Except.bind, pure, Except.pure]

theorem arrayExample_mono (G : Gconv) (j : Option Json)
    (r1 r2 : Option Json → Except Stop Ex) (hr : ∀ s v, r1 s = .ok v → r2 s = .ok v)
    (node : Option Json) (v : Ex) (h : arrayExample G j r1 node = .ok v) :
    arrayExample G j r2 node = .ok v := by
  unfold arrayExample at h ⊢
  simp only [GetJson] at h ⊢
  split_ifs at h ⊢
  · obtain ⟨x, hx, h1⟩ := bind_eq_ok _ _ _ h
    cases h1
    simp [hr _ _ hx, bind, Except.bind, pure, Except.pure]
  · obtain ⟨x, hx, h1⟩ := bind_eq_ok _ _ _ h
    cases h1
    simp [hr _ _ hx, bind, Except.bind, pure, Except.pure]
  · exact h

theorem propExample_mono (G : Gconv) (j : Option Json)
    (r1 r2 : Option Json → Except Stop Ex) (hr : ∀ s v, r1 s = .ok v → r2 s = .ok v)
    (pj : Option Json) (v : Ex) (h : propExample G j r1 pj = .ok v) :
    propExample G j r2 pj = .ok v := by
  unfold propExample at h ⊢
  simp only [] at h ⊢
  split_ifs at h ⊢
  · exact hr _ _ h
  · exact h
  · exact h
  · exact h
  · exact h
  · exact hr _ _ h
  · exact arrayExample_mono G j r1 r2 hr pj v h
  · exact h

theorem exampleValueFromSchema_succ (G : Gconv) (j : Option Json) (n : Nat) :
    ∀ (s : Option Json) (v : Ex), exampleValueFromSchema G n j s = .ok v →
      exampleValueFromSchema G (n + 1) j s = .ok v := by
  induction n with
  | zero => intro s v h; simp [exampleValueFromSchema] at h
  | succ n ih =>
    intro s v h
    unfold exampleValueFromSchema at h ⊢
    cases s with
    | none => exact h
    | some sv =>
      simp only [] at h ⊢
      split_ifs at h ⊢
      · exact ih _ _ h
      · exact arrayExample_mono G j _ _ ih _ v h
      · obtain ⟨m, hm, h1⟩ := bind_eq_ok _ _ _ h
        cases h1
        have := buildMap_mono _ _ (propExample_mono G j _ _ ih) _ m hm
        simp [this, bind, Except.bind, pure, Except.pure]
      · exact h

theorem exampleValueFromSchema_le (G : Gconv) (j : Option Json) (n m : Nat) (hnm : n ≤ m)
    (s : Option Json) (v : Ex) (h : exampleValueFromSchema G n j s = .ok v) :
    exampleValueFromSchema G m j s = .ok v := by
  induction hnm with
  | refl => exact h
  | step _ ih => exact exampleValueFromSchema_succ G j _ s v ih

theorem mem_entries {α : Type} (m : GoMap α) (e : String × α) (h : e ∈ m.entries) :
    e.1 ∈ m.keys ∧ m.get e.1 = some e.2 := by
  cases m with
  | none => simp [GoMap.entries] at h
  | some kvs =>
    simp only [GoMap.entries, List.mem_filterMap] at h
    obtain ⟨k, hk, hv⟩ := h
    cases hl : lookup k kvs with
    | none => simp [hl] at hv
    | some v =>
      simp only [hl, Option.map_some', Option.some.injEq] at hv
      subst hv
      exact ⟨hk, hl⟩

theorem keys_get {α : Type} (m : GoMap α) (k : String) (h : k ∈ m.keys) :
    ∃ v, m.get k = some v := by
  cases m with
  | none => simp [GoMap.keys] at h
  | some kvs => exact (mem_mapKeys k kvs).1 h

theorem exampleValueFromSchema_array_eq (G : Gconv) (j : Option Json) (n : Nat)
    (pj : Option Json) (href : getString G pj "$ref" = "")
    (htyp : getString G pj "type" = "array") :
    exampleValueFromSchema G (n + 1) j pj =
      arrayExample G j (fun s => exampleValueFromSchema G n j s) pj := by
  cases pj with
  | none => simp [getString, Get, varString] at htyp
  | some p =>
    conv_lhs => unfold exampleValueFromSchema
    simp [href, htyp]

theorem propExample_sound (G : Gconv) (j : Option Json) (n : Nat) (pj : Option Json) (v : Ex)
    (h : propExample G j (fun s => exampleValueFromSchema G n j s) pj = .ok v) :
    PropExample G j pj v := by
  unfold propExample at h
  unfold PropExample
  simp only [] at h
  by_cases href : getString G pj "$ref" = ""
  · simp only [href, ne_eq, not_true_eq_false, if_false] at h ⊢
    by_cases h1 : getString G pj "type" = "string"
    · simp only [h1, if_true] at h ⊢
      cases h; rfl
    · by_cases h2 : getString G pj "type" = "integer"
      · simp only [h1, h2, if_true, if_false, true_or] at h ⊢
        cases h; rfl
      · by_cases h3 : getString G pj "type" = "number"
        · simp only [h1, h2, h3, if_true, if_false, or_true] at h ⊢
          cases h; rfl
        · by_cases h4 : getString G pj "type" = "boolean"
          · simp only [h1, h2, h3, h4, if_true, if_false, or_self] at h ⊢
            cases h; rfl
          · by_cases h5 : getString G pj "type" = "object"
            · simp only [h1, h2, h3, h4, h5, if_true, if_false, or_self, true_or] at h ⊢
              exact ⟨n, h⟩
            · by_cases h6 : getString G pj "type" = "array"
              · simp only [h1, h2, h3, h4, h5, h6, if_true, if_false, or_self, or_true] at h ⊢
                exact ⟨n + 1, by rw [exampleValueFromSchema_array_eq G j n pj href h6]; exact h⟩
              · simp only [h1, h2, h3, h4, h5, h6, if_false, or_self] at h ⊢
                cases h; rfl
  · simp only [href, ne_eq, not_false_eq_true, if_true] at h ⊢
    exact ⟨n, h⟩

theorem propExample_complete (G : Gconv) (j : Option Json) (pj : Option Json) (v : Ex)
    (h : PropExample G j pj v) :
    ∃ n, propExample G j (fun s => exampleValueFromSchema G n j s) pj = .ok v := by
  unfold PropExample at h
  unfold propExample
  simp only []
  by_cases href : getString G pj "$ref" = ""
  · simp only [href, ne_eq, not_true_eq_false, if_false] at h ⊢
    by_cases h1 : getString G pj "type" = "string"
    · simp only [h1, if_true] at h ⊢
      exact ⟨0, by rw [h]; rfl⟩
    · by_cases h2 : getString G pj "type" = "integer"
      · simp only [h1, h2, if_true, if_false, true_or] at h ⊢
        exact ⟨0, by rw [h]; rfl⟩
      · by_cases h3 : getString G pj "type" = "number"
        · simp only [h1, h2, h3, if_true, if_false, or_true] at h ⊢
          exact ⟨0, by rw [h]; rfl⟩
        · by_cases h4 : getString G pj "type" = "boolean"
          · simp only [h1, h2, h3, h4, if_true, if_false, or_self] at h ⊢
            exact ⟨0, by rw [h]; rfl⟩
          · by_cases h5 : getString G pj "type" = "object"
            · simp only [h1, h2, h3, h4, h5, if_true, if_false, or_self, true_or] at h ⊢
              exact h
            · by_cases h6 : getString G pj "type" = "array"
              · simp only [h1, h2, h3, h4, h5, h6, if_true, if_false, or_self, or_true] at h ⊢
                obtain ⟨fuel, hf⟩ := h
                cases fuel with
                | zero => simp [exampleValueFromSchema] at hf
                | succ m =>
                  rw [exampleValueFromSchema_array_eq G j m pj href h6] at hf
                  exact ⟨m, hf⟩
              · simp only [h1, h2, h3, h4, h5, h6, if_false, or_self] at h ⊢
                exact ⟨0, by rw [h]; rfl⟩
  · simp only [href, ne_eq, not_false_eq_true, if_true] at h ⊢
    exact h

theorem propExample_common_fuel (G : Gconv) (j : Option Json) (es : List (String × Json))
    (h : ∀ e ∈ es, ∃ v, PropExample G j (some e.2) v) :
    ∃ n, ∀ e ∈ es, ∃ v,
      propExample G j (fun s => exampleValueFromSchema G n j s) (some e.2) = .ok v := by
  induction es with
  | nil => exact ⟨0, by simp⟩
  | cons e rest ih =>
    obtain ⟨n1, h1⟩ := ih (fun e he => h e (by simp [he]))
    obtain ⟨v, hv⟩ := h e (by simp)
    obtain ⟨n2, h2⟩ := propExample_complete G j _ v hv
    refine ⟨max n1 n2, ?_⟩
    intro e' he'
    rcases List.mem_cons.1 he' with rfl | hr
    · exact ⟨v, propExample_mono G j _ _
        (fun s x hx => exampleValueFromSchema_le G j n2 _ (le_max_right n1 n2) s x hx) _ v h2⟩
    · obtain ⟨v', hv'⟩ := h1 e' hr
      exact ⟨v', propExample_mono G j _ _
        (fun s x hx => exampleValueFromSchema_le G j n1 _ (le_max_left n1 n2) s x hx) _ v' hv'⟩

/-- C9, as the code has it.  For a schema `s` without `$ref` whose type is not
`array` and that is an object (type `object` or non-empty properties): what
exampleValueFromSchema returns is a map whose keys are the property names of
`s` and that sends each property to the value of `PropExample`; and it does
return when each property has such a value.  For `Foo = {type: object,
properties: {a: {type: string}}}` the example is `{"a": "string"}`. -/
theorem exampleValueFromSchema_object :
    (∀ (G : Gconv) (j : Option Json) (s : Json) (out : Ex),
      getString G (some s) "$ref" = "" → getString G (some s) "type" ≠ "array" →
      (getString G (some s) "type" = "object" ∨ (GetJsonMap G (some s) "properties").len > 0) →
      ExampleOf G j (some s) out →
      ∃ m, out = .map m ∧ m.map Prod.fst = (GetJsonMap G (some s) "properties").keys ∧
        ∀ k ∈ (GetJsonMap G (some s) "properties").keys,
          ∃ v, lookup k m = some v ∧
            PropExample G j ((GetJsonMap G (some s) "properties").get k) v) ∧
    (∀ (G : Gconv) (j : Option Json) (s : Json),
      getString G (some s) "$ref" = "" → getString G (some s) "type" ≠ "array" →
      (getString G (some s) "type" = "object" ∨ (GetJsonMap G (some s) "properties").len > 0) →
      (∀ k ∈ (GetJsonMap G (some s) "properties").keys,
        ∃ v, PropExample G j ((GetJsonMap G (some s) "properties").get k) v) →
      ∃ out, ExampleOf G j (some s) out) ∧
    (∀ (G : Gconv) (j : Option Json), exampleValueFromSchema G 1 j (some fooSchema) =
      .ok (.map [("a", .str "string")])) ∧
    (∀ G : Gconv, exampleValueFromSchema G 2 (some fooDoc)
        (some (.obj [("$ref", .str "#/components/schemas/Foo")])) =
      .ok (.map [("a", .str "string")])) := by
  refine ⟨?_, ?_, fun _ _ => rfl, fun _ => rfl⟩
  · intro G j s out href harr hobj ⟨fuel, h⟩
    cases fuel with
    | zero => simp [exampleValueFromSchema] at h
    | succ n =>
      unfold exampleValueFromSchema at h
      simp only [href, harr, hobj, ne_eq, not_true_eq_false, if_false, if_true] at h
      obtain ⟨m, hm, h1⟩ := bind_eq_ok _ _ _ h
      cases h1
      refine ⟨m, rfl, ?_, ?_⟩
      · rw [buildMap_keys _ _ m hm, map_fst_entries]
      · intro k hk
        obtain ⟨pj, hpj⟩ := keys_get _ k hk
        have hl : lookup k (GetJsonMap G (some s) "properties").entries = some pj := by
          rw [lookup_entries, hpj]
        obtain ⟨v, hv, hf⟩ := buildMap_lookup _ _ m hm k pj hl
        exact ⟨v, hv, by rw [hpj]; exact propExample_sound G j n (some pj) v hf⟩
  · intro G j s href harr hobj hall
    have hes : ∀ e ∈ (GetJsonMap G (some s) "properties").entries,
        ∃ v, PropExample G j (some e.2) v := by
      intro e he
      obtain ⟨hk, hg⟩ := mem_entries _ e he
      obtain ⟨v, hv⟩ := hall e.1 hk
      exact ⟨v, by rw [hg] at hv; exact hv⟩
    obtain ⟨n, hn⟩ := propExample_common_fuel G j _ hes
    obtain ⟨m, hm⟩ := buildMap_total _ _ hn
    refine ⟨.map m, n + 1, ?_⟩
    unfold exampleValueFromSchema
    simp only [href, harr, hobj, ne_eq, not_true_eq_false, if_false, if_true]
    simp [hm, bind, Except.bind, pure, Except.pure]

/-- C9 at `Foo`: the example is a map with the key `a`. -/
theorem exampleValueFromSchema_object_witness :
    ∃ m, Ex.map [("a", .str "string")] = .map m ∧
      m.map Prod.fst = (GetJsonMap Gconv.plain (some fooSchema) "properties").keys ∧
      ∀ k ∈ (GetJsonMap Gconv.plain (some fooSchema) "properties").keys,
        ∃ v, lookup k m = some v ∧
          PropExample Gconv.plain (some fooDoc)
            ((GetJsonMap Gconv.plain (some fooSchema) "properties").get k) v :=
  exampleValueFromSchema_object.1 Gconv.plain (some fooDoc) fooSchema _
    (by decide) (by decide) (Or.inl (by decide)) ⟨1, rfl⟩

/-- C9 as stated fails: `arrayWithProps` has non-empty properties and the type
`array`, and its example is the empty array; `refWithProps` has type `object`,
the property `b` and a `$ref` to `Foo`, and its example is that of `Foo`, with
the key `a` and without the key `b`. -/
theorem exampleValueFromSchema_object_dispatch :
    (∀ G : Gconv, (GetJsonMap G (some arrayWithProps) "properties").keys = ["b"]) ∧
    (∀ (G : Gconv) (j : Option Json),
      exampleValueFromSchema G 2 j (some arrayWithProps) = .ok (.arr [])) ∧
    (∀ G : Gconv, getString G (some refWithProps) "type" = "object") ∧
    (∀ G : Gconv, (GetJsonMap G (some refWithProps) "properties").keys = ["b"]) ∧
    (∀ G : Gconv, exampleValueFromSchema G 2 (some fooDoc) (some refWithProps) =
      .ok (.map [("a", .str "string")])) :=
  ⟨fun _ => rfl, fun _ _ => rfl, fun _ => rfl, fun _ => rfl, fun _ => rfl⟩


theorem buildMap_small (f : Option Json → Except Stop Ex)
    (hf : ∀ pj v, f pj = .ok v → v.small = true) (es : List (String × Json))
    (m : List (String × Ex)) (h : buildMap f es = .ok m) : Ex.smallEntries m = true := by
  induction es generalizing m with
  | nil => cases h; rfl
  | cons e rest ih =>
    obtain ⟨k0, pj0⟩ := e
    unfold buildMap at h
    obtain ⟨v, hv, h1⟩ := bind_eq_ok _ _ _ h
    obtain ⟨more, hmore, h2⟩ := bind_eq_ok _ _ _ h1
    cases h2
    simp [Ex.smallEntries, hf _ _ hv, ih more hmore]

theorem arrayExample_small (G : Gconv) (j : Option Json) (recur : Option Json → Except Stop Ex)
    (hr : ∀ s v, recur s = .ok v → v.small = true) (node : Option Json) (v : Ex)
    (h : arrayExample G j recur node = .ok v) : v.small = true := by
  unfold arrayExample at h
  simp only [GetJson] at h
  split_ifs at h
  · obtain ⟨x, hx, h1⟩ := bind_eq_ok _ _ _ h
    cases h1
    simp [Ex.small, Ex.smallList, hr _ _ hx]
  · obtain ⟨x, hx, h1⟩ := bind_eq_ok _ _ _ h
    cases h1
    simp [Ex.small, Ex.smallList, hr _ _ hx]
  · cases h
    simp [Ex.small, Ex.smallList]

theorem propExample_small (G : Gconv) (j : Option Json) (recur : Option Json → Except Stop Ex)
    (hr : ∀ s v, recur s = .ok v → v.small = true) (pj : Option Json) (v : Ex)
    (h : propExample G j recur pj = .ok v) : v.small = true := by
  unfold propExample at h
  simp only [] at h
  split_ifs at h
  · exact hr _ _ h
  · cases h; rfl
  · cases h; rfl
  · cases h; rfl
  · cases h; rfl
  · exact hr _ _ h
  · exact arrayExample_small G j recur hr pj v h
  · cases h; rfl

theorem scalarExample_small (typ : String) : (scalarExample typ).small = true := by
  unfold scalarExample
  split_ifs <;> rfl

theorem exampleValueFromSchema_small (G : Gconv) (j : Option Json) (n : Nat) :
    ∀ (s : Option Json) (v : Ex), exampleValueFromSchema G n j s = .ok v → v.small = true := by
  induction n with
  | zero => intro s v h; simp [exampleValueFromSchema] at h
  | succ n ih =>
    intro s v h
    unfold exampleValueFromSchema at h
    cases s with
    | none => cases h; rfl
    | some sv =>
      simp only [] at h
      split_ifs at h
      · exact ih _ _ h
      · exact arrayExample_small G j _ ih _ v h
      · obtain ⟨m, hm, h1⟩ := bind_eq_ok _ _ _ h
        cases h1
        have := buildMap_small _ (propExample_small G j _ ih) _ m hm
        simp [Ex.small, this]
      · cases h
        exact scalarExample_small _

/-- C10, as the code has it.  For a schema without `$ref` of type array,
exampleValueFromSchema returns the one-element array of the example of the
referenced schema when the items have a `$ref`, the one-element array of the
example of the items when the items have the type `object`, and the empty array
when the items are missing or are no inline object; every array of a returned
example has at most one element; `{type: array, items: {$ref: Foo}}` gives
`[{"a": "string"}]`. -/
theorem exampleValueFromSchema_array :
    (∀ (G : Gconv) (n : Nat) (j : Option Json) (s : Json),
      getString G (some s) "$ref" = "" → getString G (some s) "type" = "array" →
      getString G (GetJson G (some s) "items") "$ref" ≠ "" →
      exampleValueFromSchema G (n + 1) j (some s) =
        (exampleValueFromSchema G n j
          (GetRefJSON G j (getString G (GetJson G (some s) "items") "$ref"))).map
          (fun v => Ex.arr [v])) ∧
    (∀ (G : Gconv) (n : Nat) (j : Option Json) (s : Json),
      getString G (some s) "$ref" = "" → getString G (some s) "type" = "array" →
      getString G (GetJson G (some s) "items") "$ref" = "" →
      getString G (GetJson G (some s) "items") "type" = "object" →
      exampleValueFromSchema G (n + 1) j (some s) =
        (exampleValueFromSchema G n j (GetJson G (some s) "items")).map (fun v => Ex.arr [v])) ∧
    (∀ (G : Gconv) (n : Nat) (j : Option Json) (s : Json),
      getString G (some s) "$ref" = "" → getString G (some s) "type" = "array" →
      getString G (GetJson G (some s) "items") "$ref" = "" →
      inlineObj G (GetJson G (some s) "items") = false →
      exampleValueFromSchema G (n + 1) j (some s) = .ok (.arr [])) ∧
    (∀ (G : Gconv) (n : Nat) (j : Option Json) (s : Json),
      getString G (some s) "$ref" = "" → getString G (some s) "type" = "array" →
      Get (some s) "items" = .null →
      exampleValueFromSchema G (n + 1) j (some s) = .ok (.arr [])) ∧
    (∀ (G : Gconv) (fuel : Nat) (j s : Option Json) (v : Ex),
      exampleValueFromSchema G fuel j s = .ok v → v.small = true) ∧
    (∀ G : Gconv, exampleValueFromSchema G 3 (some fooDoc) (some arrayOfFoo) =
      .ok (.arr [.map [("a", .str "string")]])) := by
  have hscalar : ∀ (G : Gconv) (n : Nat) (j : Option Json) (s : Json),
      getString G (some s) "$ref" = "" → getString G (some s) "type" = "array" →
      getString G (GetJson G (some s) "items") "$ref" = "" →
      getString G (GetJson G (some s) "items") "type" ≠ "object" →
      exampleValueFromSchema G (n + 1) j (some s) = .ok (.arr []) := by
    intro G n j s href htyp hir hit
    conv_lhs => unfold exampleValueFromSchema
    simp only [GetJson] at hir hit
    simp [href, htyp, arrayExample, GetJson, hir, hit, pure, Except.pure]
  refine ⟨?_, ?_, ?_, ?_, ?_, fun _ => rfl⟩
  · intro G n j s href htyp hir
    conv_lhs => unfold exampleValueFromSchema
    simp only [GetJson] at hir
    simp only [href, htyp, arrayExample, GetJson, hir, ne_eq, not_true_eq_false,
      not_false_eq_true, if_true, if_false]
    cases exampleValueFromSchema G n j
      (GetRefJSON G j (getString G (some (New G (Get (some s) "items"))) "$ref")) <;> rfl
  · intro G n j s href htyp hir hit
    conv_lhs => unfold exampleValueFromSchema
    simp only [GetJson] at hir hit
    simp only [href, htyp, arrayExample, GetJson, hir, hit, ne_eq, not_true_eq_false,
      if_true, if_false]
    cases exampleValueFromSchema G n j (some (New G (Get (some s) "items"))) <;> rfl
  · intro G n j s href htyp hir hobj
    refine hscalar G n j s href htyp hir ?_
    intro hit
    simp [inlineObj, hit] at hobj
  · intro G n j s href htyp hnil
    have e1 : getString G (GetJson G (some s) "items") "$ref" = "" := by
      simp only [GetJson, hnil]; rfl
    have e2 : getString G (GetJson G (some s) "items") "type" ≠ "object" := by
      simp only [GetJson, hnil]
      have : getString G (some (New G .null)) "type" = "" := rfl
      rw [this]; decide
    exact hscalar G n j s href htyp e1 e2
  · intro G fuel j s v h
    exact exampleValueFromSchema_small G j fuel s v h

/-- C10 at `{type: array, items: {$ref: Foo}}`: one element, the example of
`Foo`. -/
theorem exampleValueFromSchema_array_witness :
    exampleValueFromSchema Gconv.plain (2 + 1) (some fooDoc) (some arrayOfFoo) =
      (exampleValueFromSchema Gconv.plain 2 (some fooDoc)
        (GetRefJSON Gconv.plain (some fooDoc)
          (getString Gconv.plain (GetJson Gconv.plain (some arrayOfFoo) "items") "$ref"))).map
        (fun v => Ex.arr [v]) :=
  exampleValueFromSchema_array.1 Gconv.plain 2 (some fooDoc) arrayOfFoo
    (by decide) (by decide) (by decide)

/-- C10 as stated fails.  The items of `arrayOfUntyped` are an inline object
(the flatteners' test `inlineObj` holds and the example of the items is the map
`{"a": "string"}`), yet the example of the array is empty; `arrayWithRef` has
the type `array` and scalar items, and its example is that of the schema its
`$ref` names. -/
theorem exampleValueFromSchema_array_untyped_items :
    (∀ G : Gconv, getString G (some arrayOfUntyped) "type" = "array") ∧
    (∀ G : Gconv, inlineObj G (GetJson G (some arrayOfUntyped) "items") = true) ∧
    (∀ (G : Gconv) (j : Option Json),
      exampleValueFromSchema G 2 j (GetJson G (some arrayOfUntyped) "items") =
        .ok (.map [("a", .str "string")])) ∧
    (∀ (G : Gconv) (j : Option Json),
      exampleValueFromSchema G 3 j (some arrayOfUntyped) = .ok (.arr [])) ∧
    (∀ G : Gconv, getString G (some arrayWithRef) "type" = "array") ∧
    (∀ G : Gconv, exampleValueFromSchema G 3 (some fooDoc) (some arrayWithRef) =
      .ok (.map [("a", .str "string")])) :=
  ⟨fun _ => rfl, fun _ => rfl, fun _ _ => rfl, fun _ _ => rfl, fun _ => rfl, fun _ => rfl⟩



/-! ## Go string functions -/

theorem replaceScan_skip (old new : List Char) (k : Nat) (s : List Char) :
    replaceScan old new k s = replaceScan old new 0 (s.drop k) := by
  induction k generalizing s with
  | zero => simp
  | succ k ih =>
    cases s with
    | nil => simp [replaceScan]
    | cons c rest => simp only [replaceScan, List.drop_succ_cons]; exact ih rest

theorem replaceScan_match (old new : List Char) (c : Char) (rest : List Char)
    (h : old.isPrefixOf (c :: rest) = true) :
    replaceScan old new 0 (c :: rest) =
      new ++ replaceScan old new 0 (rest.drop (old.length - 1)) := by
  simp only [replaceScan, h, if_true]
  rw [replaceScan_skip]

theorem replaceScan_no_match (old new : List Char) (c : Char) (rest : List Char)
    (h : old.isPrefixOf (c :: rest) = false) :
    replaceScan old new 0 (c :: rest) = c :: replaceScan old new 0 rest := by
  simp [replaceScan, h]

theorem replaceScan_nonempty (old new : List Char) (hnew : new ≠ []) (s : List Char)
    (hs : s ≠ []) : replaceScan old new 0 s ≠ [] := by
  cases s with
  | nil => exact absurd rfl hs
  | cons c rest =>
    by_cases h : old.isPrefixOf (c :: rest) = true
    · rw [replaceScan_match _ _ _ _ h]; simp [hnew]
    · rw [replaceScan_no_match _ _ _ _ (Bool.eq_false_iff.mpr h)]; simp

/-- A word without `.` and `[` starts the replacement of `.items[]` by `[]`
exactly when it starts the original. -/
theorem isPrefixOf_replaceScan_brackets (w : List Char)
    (hw : ∀ a ∈ w, a ≠ '.' ∧ a ≠ '[') (r : List Char) :
    w.isPrefixOf (replaceScan ".items[]".data "[]".data 0 r) = w.isPrefixOf r := by
  induction w generalizing r with
  | nil => simp
  | cons a w ih =>
    have ha := hw a (List.mem_cons_self _ _)
    cases r with
    | nil => simp [replaceScan]
    | cons x r =>
      by_cases h : ".items[]".data.isPrefixOf (x :: r) = true
      · rw [replaceScan_match _ _ _ _ h]
        have hx : x = '.' := by
          simp [List.isPrefixOf] at h
          exact h.1.symm
        subst hx
        have e1 : (a == '[') = false := by simpa using ha.2
        have e2 : (a == '.') = false := by simpa using ha.1
        simp [List.isPrefixOf, e1, e2]
      · rw [replaceScan_no_match _ _ _ _ (Bool.eq_false_iff.mpr h)]
        simp only [List.isPrefixOf]
        rw [ih (fun b hb => hw b (List.mem_cons_of_mem _ hb))]

theorem replaceScan_items_brackets_le (n : Nat) (s : List Char) (hn : s.length ≤ n) :
    replaceScan ".items".data [] 0 (replaceScan ".items[]".data "[]".data 0 s) =
      replaceScan ".items".data [] 0 s := by
  induction n generalizing s with
  | zero =>
    have : s = [] := List.length_eq_zero.mp (by omega)
    subst this; simp [replaceScan]
  | succ n ih =>
    cases s with
    | nil => simp [replaceScan]
    | cons c rest =>
      by_cases h1 : ".items[]".data.isPrefixOf (c :: rest) = true
      · obtain ⟨t, ht⟩ := List.isPrefixOf_iff_prefix.mp h1
        have hc : c = '.' := by simp at ht; exact ht.1.symm
        have hrest : rest = "items[]".data ++ t := by simp at ht; simp [ht.2]
        subst hc; subst hrest
        have h2 : ".items".data.isPrefixOf ('.' :: ("items[]".data ++ t)) = true := by
          simp [List.isPrefixOf]
        rw [replaceScan_match _ _ _ _ h1, replaceScan_match _ _ _ _ h2]
        have e1 : ("items[]".data ++ t).drop (".items[]".data.length - 1) = t := by simp
        have e2 : ("items[]".data ++ t).drop (".items".data.length - 1) = '[' :: ']' :: t := by
          simp
        rw [e1, e2]
        have e3 : "[]".data ++ replaceScan ".items[]".data "[]".data 0 t =
            '[' :: ']' :: replaceScan ".items[]".data "[]".data 0 t := rfl
        rw [e3, replaceScan_no_match _ _ '[' _ (by simp [List.isPrefixOf]),
          replaceScan_no_match _ _ ']' _ (by simp [List.isPrefixOf]),
          replaceScan_no_match _ _ '[' _ (by simp [List.isPrefixOf]),
          replaceScan_no_match _ _ ']' _ (by simp [List.isPrefixOf])]
        simp only [List.nil_append]
        rw [ih t (by simp at hn; omega)]
      · have h1f : ".items[]".data.isPrefixOf (c :: rest) = false := Bool.eq_false_iff.mpr h1
        rw [replaceScan_no_match _ _ _ _ h1f]
        have hpre : ".items".data.isPrefixOf
            (c :: replaceScan ".items[]".data "[]".data 0 rest) =
              ".items".data.isPrefixOf (c :: rest) := by
          show (('.' : Char) == c && "items".data.isPrefixOf
              (replaceScan ".items[]".data "[]".data 0 rest)) =
            (('.' : Char) == c && "items".data.isPrefixOf rest)
          rw [isPrefixOf_replaceScan_brackets _ (by decide)]
        by_cases h2 : ".items".data.isPrefixOf (c :: rest) = true
        · obtain ⟨t, ht⟩ := List.isPrefixOf_iff_prefix.mp h2
          have hrest : rest = "items".data ++ t := by simp at ht; simp [ht.2]
          subst hrest
          rw [replaceScan_match _ _ _ _ h2]
          have hQ : replaceScan ".items[]".data "[]".data 0 ("items".data ++ t) =
              "items".data ++ replaceScan ".items[]".data "[]".data 0 t := by
            show replaceScan _ _ 0 ('i' :: 't' :: 'e' :: 'm' :: 's' :: t) = _
            rw [replaceScan_no_match _ _ 'i' _ (by simp [List.isPrefixOf]),
              replaceScan_no_match _ _ 't' _ (by simp [List.isPrefixOf]),
              replaceScan_no_match _ _ 'e' _ (by simp [List.isPrefixOf]),
              replaceScan_no_match _ _ 'm' _ (by simp [List.isPrefixOf]),
              replaceScan_no_match _ _ 's' _ (by simp [List.isPrefixOf])]
            rfl
          rw [hQ, replaceScan_match _ _ c _ (by rw [← hQ, hpre]; exact h2)]
          have e1 : ("items".data ++ t).drop (".items".data.length - 1) = t := by simp
          have e2 : ("items".data ++ replaceScan ".items[]".data "[]".data 0 t).drop
              (".items".data.length - 1) = replaceScan ".items[]".data "[]".data 0 t := by simp
          rw [e1, e2, ih t (by simp at hn; omega)]
        · have h2f : ".items".data.isPrefixOf (c :: rest) = false := Bool.eq_false_iff.mpr h2
          rw [replaceScan_no_match _ _ _ _ (hpre.trans h2f), replaceScan_no_match _ _ _ _ h2f,
            ih rest (by simp at hn; omega)]

theorem replaceScan_items_brackets (s : List Char) :
    replaceScan ".items".data [] 0 (replaceScan ".items[]".data "[]".data 0 s) =
      replaceScan ".items".data [] 0 s :=
  replaceScan_items_brackets_le s.length s (Nat.le_refl _)


theorem replaceScan_no_dot (old : List Char) (new : List Char) (o : Char) (os : List Char)
    (hold : old = o :: os) (s : List Char) (hs : ∀ c ∈ s, c ≠ o) :
    replaceScan old new 0 s = s := by
  induction s with
  | nil => simp [replaceScan]
  | cons c rest ih =>
    have hc : (o == c) = false := by
      have := hs c (List.mem_cons_self _ _)
      simpa using fun h => this h.symm
    rw [replaceScan_no_match _ _ _ _ (by subst hold; simp [List.isPrefixOf, hc]),
      ih (fun d hd => hs d (List.mem_cons_of_mem _ hd))]

theorem containsChars_no_first (o : Char) (os : List Char) (s : List Char)
    (hs : ∀ c ∈ s, c ≠ o) : containsChars (o :: os) s = false := by
  induction s with
  | nil => simp [containsChars]
  | cons c rest ih =>
    have hc : (o == c) = false := by
      have := hs c (List.mem_cons_self _ _)
      simpa using fun h => this h.symm
    simp [containsChars, List.isPrefixOf, hc, ih (fun d hd => hs d (List.mem_cons_of_mem _ hd))]

theorem collapseBrackets_of_not_contains (n : Nat) (a : String)
    (h : Contains a "[][]" = false) : collapseBrackets n a = a := by
  cases n <;> simp [collapseBrackets, h]

/-- A pattern without `.`, `[`, `]` is its own normal form. -/
theorem normalizePattern_bare (a : String) (h : ContainsAny a ".[]" = false) :
    normalizePattern a = a := by
  have hall : ∀ c ∈ a.data, c ≠ '.' ∧ c ≠ '[' := by
    intro c hc
    have := h
    simp only [ContainsAny, List.any_eq_false] at this
    have hc2 := this c hc
    constructor
    · rintro rfl; exact hc2 (by decide)
    · rintro rfl; exact hc2 (by decide)
  have h1 : ReplaceAll a ".items" "" = a := by
    unfold ReplaceAll
    rw [replaceScan_no_dot ".items".data "".data '.' _ rfl a.data (fun c hc => (hall c hc).1)]
  unfold normalizePattern
  simp only [h1]
  apply collapseBrackets_of_not_contains
  unfold Contains
  exact containsChars_no_first '[' _ a.data (fun c hc => (hall c hc).2)

theorem mem_normalizeAllowed (allowed : List String) (b : String) :
    b ∈ normalizeAllowed allowed ↔ ∃ a ∈ allowed, a ≠ "" ∧ normalizePattern a = b := by
  unfold normalizeAllowed
  rw [List.mem_filterMap]
  constructor
  · rintro ⟨a, ha, h⟩
    by_cases he : a = ""
    · simp [he] at h
    · simp [he] at h; exact ⟨a, ha, he, h⟩
  · rintro ⟨a, ha, he, h⟩
    exact ⟨a, ha, by simp [he, h]⟩

theorem keepField_iff (norm : List String) (f : FieldInfo) :
    keepField norm f = true ↔
      ∃ a ∈ norm, a ≠ "" ∧ (matchesPath f.Path a = true ∨ matchesLeaf f a = true) := by
  simp [keepField, List.any_eq_true]

theorem mem_filterFieldInfos (fs : List FieldInfo) (allowed : List String)
    (hne : allowed.length ≠ 0) (f : FieldInfo) :
    f ∈ filterFieldInfos fs allowed ↔
      f ∈ fs ∧ (isEnvelope f = true ∨ keepField (normalizeAllowed allowed) f = true) := by
  simp [filterFieldInfos, hne, List.mem_filter]

theorem hasPrefix_append_right (s p q : String) (h : hasPrefix s (p ++ q) = true) :
    hasPrefix s p = true := by
  rw [hasPrefix_iff] at h ⊢
  obtain ⟨r, hr⟩ := h
  exact ⟨q ++ r, by rw [hr, String.append_assoc]⟩

theorem matchesPath_iff (path a : String) :
    matchesPath path a = true ↔
      path = a ∨ hasPrefix path (a ++ ".") = true ∨ hasPrefix path (a ++ "[]") = true := by
  unfold matchesPath
  simp only [Bool.or_eq_true, decide_eq_true_eq]
  constructor
  · rintro (((h | h) | h) | h)
    · exact Or.inl h
    · exact Or.inr (Or.inl h)
    · exact Or.inr (Or.inr h)
    · refine Or.inr (Or.inr (hasPrefix_append_right path (a ++ "[]") "." ?_))
      rw [String.append_assoc]; exact h
  · rintro (h | h | h)
    · exact Or.inl (Or.inl (Or.inl h))
    · exact Or.inl (Or.inl (Or.inr h))
    · exact Or.inl (Or.inr h)

theorem isEnvelope_iff (f : FieldInfo) :
    isEnvelope f = true ↔ f.Path = "code" ∨ f.Path = "message" ∨ f.Path = "data" := by
  simp [isEnvelope, or_assoc]

theorem ReplaceAll_eq_empty (p old new : String) (hnew : new ≠ "") :
    ReplaceAll p old new = "" ↔ p = "" := by
  have hnew2 : new.data ≠ [] := fun h => hnew (String.ext h)
  constructor
  · intro h
    by_contra hp
    have hp2 : p.data ≠ [] := fun h => hp (String.ext h)
    have := replaceScan_nonempty old.data new.data hnew2 p.data hp2
    apply this
    have := congrArg String.data h
    simpa [ReplaceAll] using this
  · rintro rfl; rfl

/-- The spelling `.items[]` has the normal form of the spelling `[]`. -/
theorem normalizePattern_items_brackets (p : String) :
    normalizePattern (ReplaceAll p ".items[]" "[]") = normalizePattern p := by
  have h : ReplaceAll (ReplaceAll p ".items[]" "[]") ".items" "" = ReplaceAll p ".items" "" := by
    unfold ReplaceAll
    exact congrArg String.mk (replaceScan_items_brackets p.data)
  unfold normalizePattern
  simp only [h]

theorem normalizeAllowed_items_brackets (p : String) :
    normalizeAllowed [ReplaceAll p ".items[]" "[]"] = normalizeAllowed [p] := by
  by_cases hp : p = ""
  · subst hp; rfl
  · have hq : ReplaceAll p ".items[]" "[]" ≠ "" :=
      fun h => hp ((ReplaceAll_eq_empty p _ _ (by decide)).mp h)
    simp [normalizeAllowed, hp, hq, normalizePattern_items_brackets]


/-! ## The whitelist filters -/

/-- Claim C15: with an allow-list that is nil or of length zero, filterFieldInfos
returns the field list unchanged, same elements in the same order. -/
theorem filterFieldInfos_no_allowed (fs : List FieldInfo) (allowed : List String)
    (h : allowed.length = 0) : filterFieldInfos fs allowed = fs := by
  simp [filterFieldInfos, h]

theorem filterFieldInfos_no_allowed_witness :
    ([] : List String).length = 0 ∧
      filterFieldInfos
        [{ Path := "data.a", Required := true, Typ := "string", Desc := "d" },
         { Path := "zz", Required := false, Typ := "object", Desc := "" }] [] =
        [{ Path := "data.a", Required := true, Typ := "string", Desc := "d" },
         { Path := "zz", Required := false, Typ := "object", Desc := "" }] :=
  ⟨rfl, filterFieldInfos_no_allowed _ [] rfl⟩

/-- Claim C16: the result of filterFieldInfos is a sub-list of the field list,
in the same order and with unaltered elements, and it holds every descriptor of
the field list whose path is `code`, `message` or `data`. -/
theorem filterFieldInfos_sublist (fs : List FieldInfo) (allowed : List String) :
    (filterFieldInfos fs allowed).Sublist fs ∧
      ∀ f ∈ fs, (f.Path = "code" ∨ f.Path = "message" ∨ f.Path = "data") →
        f ∈ filterFieldInfos fs allowed := by
  constructor
  · unfold filterFieldInfos
    split
    · exact List.Sublist.refl _
    · exact List.filter_sublist _
  · intro f hf hp
    by_cases h : allowed.length = 0
    · simpa [filterFieldInfos, h] using hf
    · exact (mem_filterFieldInfos fs allowed h f).mpr ⟨hf, Or.inl ((isEnvelope_iff f).mpr hp)⟩

/-- Claim C17, counterexample: the pattern `code.items` contains a `.`, but its
normal form is the bare name `code`, so the leaf-name shorthand keeps the row
`data.x.code`, whose path neither is `code` nor starts with `code.` or
`code[]`. -/
theorem filterFieldInfos_full_path_shorthand :
    ContainsAny "code.items" ".[]" = true ∧
      normalizeAllowed ["code.items"] = ["code"] ∧
      filterFieldInfos
        [{ Path := "data.x.code", Required := false, Typ := "string", Desc := "" }]
        ["code.items"] =
        [{ Path := "data.x.code", Required := false, Typ := "string", Desc := "" }] ∧
      matchesPath "data.x.code" "code" = false := by
  refine ⟨by decide, by decide, by decide, by decide⟩

/-- Claim C17, amended: for a non-empty allow-list whose non-empty normal forms
all contain `.`, `[` or `]`, a descriptor of the field list that is not one of
code, message, data is kept if and only if, for some non-empty normal form a,
its path is a, or starts with a followed by `.`, or starts with a followed by
`[]`; and filtering code, message, data, data.a, data.b with `data.a` gives
code, message, data, data.a. -/
theorem filterFieldInfos_full_paths (fs : List FieldInfo) (allowed : List String)
    (hne : allowed.length ≠ 0)
    (hfull : ∀ a ∈ normalizeAllowed allowed, a ≠ "" → ContainsAny a ".[]" = true) :
    (∀ f ∈ fs, isEnvelope f = false →
      (f ∈ filterFieldInfos fs allowed ↔
        ∃ a ∈ normalizeAllowed allowed, a ≠ "" ∧
          (f.Path = a ∨ hasPrefix f.Path (a ++ ".") = true ∨
            hasPrefix f.Path (a ++ "[]") = true))) ∧
    (∀ c m d a b : FieldInfo, c.Path = "code" → m.Path = "message" → d.Path = "data" →
      a.Path = "data.a" → b.Path = "data.b" →
      filterFieldInfos [c, m, d, a, b] ["data.a"] = [c, m, d, a]) := by
  constructor
  · intro f hf henv
    rw [mem_filterFieldInfos fs allowed hne f, keepField_iff]
    constructor
    · rintro ⟨_, h | ⟨a, ha, hane, h⟩⟩
      · rw [henv] at h; exact absurd h (by decide)
      · refine ⟨a, ha, hane, ?_⟩
        rcases h with h | h
        · exact (matchesPath_iff _ _).mp h
        · have := hfull a ha hane
          simp [matchesLeaf, this] at h
    · rintro ⟨a, ha, hane, h⟩
      exact ⟨hf, Or.inr ⟨a, ha, hane, Or.inl ((matchesPath_iff _ _).mpr h)⟩⟩
  · intro c m d a b hc hm hd ha hb
    have e : normalizeAllowed ["data.a"] = ["data.a"] := by decide
    simp only [filterFieldInfos, List.length_singleton, e]
    have h1 : hasPrefix "data.b" "data.a." = false := by decide
    have h2 : hasPrefix "data.b" "data.a[]" = false := by decide
    have h3 : hasPrefix "data.b" "data.a[]." = false := by decide
    have h4 : ContainsAny "data.a" ".[]" = true := by decide
    simp [List.filter, isEnvelope, keepField, matchesPath, matchesLeaf, hc, hm, hd, ha, hb,
      h1, h2, h3, h4]

theorem filterFieldInfos_full_paths_witness :
    ["data.a"].length ≠ 0 ∧
      filterFieldInfos
        [{ Path := "code", Required := true, Typ := "integer", Desc := "" },
         { Path := "message", Required := true, Typ := "string", Desc := "" },
         { Path := "data", Required := false, Typ := "object", Desc := "" },
         { Path := "data.a", Required := false, Typ := "string", Desc := "" },
         { Path := "data.b", Required := false, Typ := "string", Desc := "" }] ["data.a"] =
        [{ Path := "code", Required := true, Typ := "integer", Desc := "" },
         { Path := "message", Required := true, Typ := "string", Desc := "" },
         { Path := "data", Required := false, Typ := "object", Desc := "" },
         { Path := "data.a", Required := false, Typ := "string", Desc := "" }] :=
  ⟨by decide,
    (filterFieldInfos_full_paths [] ["data.a"] (by decide) (by decide)).2
      _ _ _ _ _ rfl rfl rfl rfl rfl⟩


/-- Claim C18, counterexample: the empty pattern contains none of `.`, `[`,
`]` and is the last segment of the path `data.` of a string-typed row under
data, but the filter skips empty patterns and drops the row. -/
theorem filterFieldInfos_empty_pattern :
    ContainsAny "" ".[]" = false ∧
      hasPrefix "data." "data" = true ∧
      lastSegment (ReplaceAll "data." "[]" "") = "" ∧
      filterFieldInfos [{ Path := "data.", Required := false, Typ := "string", Desc := "" }]
        [""] = [] := by
  refine ⟨by decide, by decide, by decide, by decide⟩

/-- Claim C18, amended: for a non-empty pattern a of the allow-list without
`.`, `[`, `]`, filterFieldInfos keeps every scalar-typed descriptor of the
field list whose path starts with `data` and whose last dotted segment after
removal of the `[]` markers is a; the shorthand test fails on every descriptor
typed `object`; filtering data.x.code, data.y.code (scalars) and data.obj
(object) with `code` keeps the two code rows only, and with `obj` keeps
nothing. -/
theorem filterFieldInfos_leaf_shorthand (fs : List FieldInfo) (allowed : List String)
    (a : String) (ha : a ∈ allowed) (hne : a ≠ "") (hbare : ContainsAny a ".[]" = false) :
    (∀ f ∈ fs, hasPrefix f.Path "data" = true →
      lastSegment (ReplaceAll f.Path "[]" "") = a →
      f.Typ ∈ ["string", "integer", "number", "boolean"] →
      f ∈ filterFieldInfos fs allowed) ∧
    (∀ (f : FieldInfo) (b : String), f.Typ = "object" → matchesLeaf f b = false) ∧
    (∀ (x y o : FieldInfo), x.Path = "data.x.code" → y.Path = "data.y.code" →
      o.Path = "data.obj" → x.Typ ∈ ["string", "integer", "number", "boolean"] →
      y.Typ ∈ ["string", "integer", "number", "boolean"] → o.Typ = "object" →
      filterFieldInfos [x, y, o] ["code"] = [x, y] ∧
        filterFieldInfos [x, y, o] ["obj"] = []) := by
  refine ⟨?_, ?_, ?_⟩
  · intro f hf hdata hlast hty
    have hobj : f.Typ ≠ "object" ∧ hasPrefix f.Typ "object(" = false := by
      revert hty; generalize f.Typ = t; revert t; decide
    have hlen : allowed.length ≠ 0 := by
      intro h
      rw [List.length_eq_zero.mp h] at ha
      exact absurd ha (List.not_mem_nil _)
    rw [mem_filterFieldInfos fs allowed hlen f, keepField_iff]
    refine ⟨hf, Or.inr ⟨a, ?_, hne, Or.inr ?_⟩⟩
    · exact (mem_normalizeAllowed allowed a).mpr ⟨a, ha, hne, normalizePattern_bare a hbare⟩
    · simp [matchesLeaf, hdata, hbare, hlast, hobj.1, hobj.2]
  · intro f b h
    simp [matchesLeaf, h]
  · intro x y o hx hy ho htx hty hto
    have e1 : normalizeAllowed ["code"] = ["code"] := by decide
    have e2 : normalizeAllowed ["obj"] = ["obj"] := by decide
    have hx1 : x.Typ ≠ "object" ∧ hasPrefix x.Typ "object(" = false := by
      revert htx; generalize x.Typ = t; revert t; decide
    have hy1 : y.Typ ≠ "object" ∧ hasPrefix y.Typ "object(" = false := by
      revert hty; generalize y.Typ = t; revert t; decide
    have c1 : matchesPath "data.x.code" "code" = false := by decide
    have c2 : matchesPath "data.y.code" "code" = false := by decide
    have c3 : matchesPath "data.obj" "code" = false := by decide
    have c4 : matchesPath "data.x.code" "obj" = false := by decide
    have c5 : matchesPath "data.y.code" "obj" = false := by decide
    have c6 : matchesPath "data.obj" "obj" = false := by decide
    have l1 : lastSegment (ReplaceAll "data.x.code" "[]" "") = "code" := by decide
    have l2 : lastSegment (ReplaceAll "data.y.code" "[]" "") = "code" := by decide
    have p1 : hasPrefix "data.x.code" "data" = true := by decide
    have p2 : hasPrefix "data.y.code" "data" = true := by decide
    have b1 : ContainsAny "code" ".[]" = false := by decide
    simp only [filterFieldInfos, List.length_singleton, e1, e2]
    simp [List.filter, isEnvelope, keepField, matchesLeaf, hx, hy, ho, hto, hx1.1, hx1.2,
      hy1.1, hy1.2, c1, c2, c3, c4, c5, c6, l1, l2, p1, p2, b1]

theorem filterFieldInfos_leaf_shorthand_witness :
    "code" ∈ ["code"] ∧ "code" ≠ "" ∧ ContainsAny "code" ".[]" = false ∧
      filterFieldInfos
        [{ Path := "data.x.code", Required := false, Typ := "string", Desc := "" },
         { Path := "data.y.code", Required := false, Typ := "integer", Desc := "" },
         { Path := "data.obj", Required := false, Typ := "object", Desc := "" }] ["code"] =
        [{ Path := "data.x.code", Required := false, Typ := "string", Desc := "" },
         { Path := "data.y.code", Required := false, Typ := "integer", Desc := "" }] :=
  ⟨by decide, by decide, by decide,
    ((filterFieldInfos_leaf_shorthand [] ["code"] "code" (by decide) (by decide)
      (by decide)).2.2 _ _ _ rfl rfl rfl (by decide) (by decide) rfl).1⟩

/-- Claim C19, failing input: with the bare pattern `items`, the row
`data.items[]` typed `array(object)` matches no path test and is kept by the
leaf-name shorthand alone, which only excludes the types `object` and
`object(...)`. -/
theorem filterFieldInfos_keeps_array_of_objects :
    ContainsAny "items" ".[]" = false ∧
      matchesPath "data.items[]" "items" = false ∧
      (∀ (r : Bool) (d : String),
        matchesLeaf { Path := "data.items[]", Required := r, Typ := "array(object)", Desc := d }
          "items" = true) ∧
      filterFieldInfos
        [{ Path := "data.items[]", Required := false, Typ := "array(object)", Desc := "" }]
        ["items"] =
        [{ Path := "data.items[]", Required := false, Typ := "array(object)", Desc := "" }] := by
  refine ⟨by decide, by decide, fun _ _ => rfl, by decide⟩

/-- Claim C20: the spellings `.items[]` and `[]` are equivalent in an
allow-list: for the pattern q obtained from p by replacing each `.items[]` with
`[]`, filterFieldInfos and filterExampleDataLeaves give the same result with
the allow-list of p as with the allow-list of q. -/
theorem filter_items_brackets (fs : List FieldInfo) (ex : Ex) (p : String) :
    filterFieldInfos fs [p] = filterFieldInfos fs [ReplaceAll p ".items[]" "[]"] ∧
      filterExampleDataLeaves ex [p] =
        filterExampleDataLeaves ex [ReplaceAll p ".items[]" "[]"] := by
  constructor
  · simp only [filterFieldInfos, List.length_singleton, normalizeAllowed_items_brackets]
  · unfold filterExampleDataLeaves
    rw [normalizeAllowed_items_brackets]


/-! ## References that do not resolve -/

/-- Claim C11, counterexample: the component name `P` of the reference
`#/components/parameters/P` is not in components.schemas, but
exampleValueFromSchema resolves the reference among the parameters and returns
the example of `P`, not null; and a property with an unresolved `$ref` and the
type `array` contributes a row typed `array()` at its path followed by `[]`,
not an `object` row. -/
theorem exampleValueFromSchema_parameter_ref :
    (∀ G : Gconv, GetSchema G (some paramDoc)
        (ComponentNameFromRef "#/components/parameters/P") = none) ∧
    (∀ G : Gconv, exampleValueFromSchema G 2 (some paramDoc)
        (some (.obj [("$ref", .str "#/components/parameters/P")])) = .ok (.str "string")) ∧
    (∀ G : Gconv, GetSchema G (some fooDoc)
        (ComponentNameFromRef "#/components/schemas/DoesNotExist") = none) ∧
    (∀ G : Gconv, fieldRows G (some fooDoc)
        (fun r p => flattenSchemaFields G 1 (some fooDoc) r p) [] "" "p" (some danglingArray) =
      .ok [{ Path := "p[]", Required := false, Typ := "array()", Desc := "" }]) := by
  refine ⟨fun _ => rfl, fun _ => rfl, fun _ => rfl, fun _ => rfl⟩

theorem flattenSchemaFields_unresolved (G : Gconv) (j : Option Json) (ref : String)
    (hmiss : GetSchema G j (ComponentNameFromRef ref) = none) (fuel : Nat) (pre : String) :
    flattenSchemaFields G (fuel + 1) j ref pre = .ok [] := by
  simp [flattenSchemaFields, hmiss]

theorem exampleValue_unresolved (G : Gconv) (j : Option Json) (ref : String)
    (hmiss : GetSchema G j (ComponentNameFromRef ref) = none) (fuel : Nat) :
    exampleValue G (fuel + 1) j ref = .ok .null := by
  simp [exampleValue, hmiss]

/-- Claim C11, amended: for a reference whose component name is not in
components.schemas, flattenSchemaFields returns the empty list and exampleValue
returns null; exampleValueFromSchema returns null on the node holding the
reference when GetRefJSON resolves it neither in components.schemas nor in
components.parameters; a property with such a reference whose type is not
`array` contributes its own `object` row and nothing else in both flatteners
and in a nested object, and the null entry to the example map; so the schema
with the single property p referring to a missing schema flattens to the row p
typed `object` and has the example with p null. -/
theorem unresolved_ref (G : Gconv) (j : Option Json) (ref : String)
    (hmiss : GetSchema G j (ComponentNameFromRef ref) = none) :
    (∀ (fuel : Nat) (pre : String), flattenSchemaFields G (fuel + 1) j ref pre = .ok []) ∧
    (∀ fuel : Nat, exampleValue G (fuel + 1) j ref = .ok .null) ∧
    (GetRefJSON G j ref = none → ∀ fuel : Nat,
      exampleValueFromSchema G (fuel + 2) j (some (.obj [("$ref", .str ref)])) = .ok .null) ∧
    (∀ (fuel : Nat) (req : List String) (pre k : String) (pj : Option Json),
      getString G pj "$ref" = ref → ref ≠ "" → getString G pj "type" ≠ "array" →
      fieldRows G j (fun r p => flattenSchemaFields G (fuel + 1) j r p) req pre k pj =
          .ok [{ Path := joinPath pre k, Required := setHas req k, Typ := "object",
                 Desc := titleDescription G pj }] ∧
        nestedRows G (fun r p => flattenSchemaFields G (fuel + 1) j r p) req pre k pj =
          .ok [{ Path := pre ++ "." ++ k, Required := setHas req k, Typ := "object",
                 Desc := titleDescription G pj }]) ∧
    (GetRefJSON G j ref = none →
      ∀ (recur : Option Json → String → Except Stop (List FieldInfo)) (req : List String)
        (pre k : String) (pj : Option Json),
      getString G pj "$ref" = ref → ref ≠ "" → getString G pj "type" ≠ "array" →
      fieldRowsFromJson G j recur req pre k pj =
        .ok [{ Path := joinPath pre k, Required := setHas req k, Typ := "object",
               Desc := titleDescription G pj }]) ∧
    (∀ (fuel : Nat) (ref0 : String) (out : Ex) (k : String) (pj : Json),
      exampleValue G (fuel + 2) j ref0 = .ok out →
      (GetJsonMap G (GetSchema G j (ComponentNameFromRef ref0)) "properties").get k = some pj →
      getString G (some pj) "$ref" = ref → ref ≠ "" →
      ∃ m, out = .map m ∧ lookup k m = some .null) ∧
    (GetRefJSON G j ref = none → ∀ (fuel : Nat) (pj : Option Json),
      getString G pj "$ref" = ref → ref ≠ "" →
      propExample G j (fun s => exampleValueFromSchema G (fuel + 1) j s) pj = .ok .null) ∧
    (∀ G0 : Gconv,
      flattenSchemaFields G0 2 (some danglingDoc) "#/components/schemas/Holder" "" =
        .ok [{ Path := "p", Required := false, Typ := "object", Desc := "" }] ∧
      flattenSchemaFieldsFromJson G0 1 (some danglingDoc) (some danglingHolder) "" =
        .ok [{ Path := "p", Required := false, Typ := "object", Desc := "" }] ∧
      exampleValue G0 2 (some danglingDoc) "#/components/schemas/Holder" =
        .ok (.map [("p", .null)]) ∧
      exampleValueFromSchema G0 2 (some danglingDoc) (some danglingHolder) =
        .ok (.map [("p", .null)])) := by
  refine ⟨flattenSchemaFields_unresolved G j ref hmiss, exampleValue_unresolved G j ref hmiss,
    ?_, ?_, ?_, ?_, ?_, fun _ => ⟨rfl, rfl, rfl, rfl⟩⟩
  · intro hnone fuel
    have hr : getString G (some (Json.obj [("$ref", .str ref)])) "$ref" = ref := by
      simp [getString, Get, Json.member, lookup, varString]
    have ht : getString G (some (Json.obj [("$ref", .str ref)])) "type" = "" := by
      simp [getString, Get, Json.member, lookup, varString]
    have hp : GetJsonMap G (some (Json.obj [("$ref", .str ref)])) "properties" = none := by
      simp [GetJsonMap, Get, Json.member, lookup, jsonMapOf, varMap, mapKeys]
    unfold exampleValueFromSchema
    by_cases h : ref = ""
    · subst h
      simp [hr, ht, hp, GoMap.len, scalarExample]
    · simp [hr, h, hnone, exampleValueFromSchema]
  · intro fuel req pre k pj href hne harr
    constructor
    · simp [fieldRows, href, hne, harr, flattenSchemaFields_unresolved G j ref hmiss, bind,
        Except.bind, pure, Except.pure]
    · simp [nestedRows, href, hne, harr, flattenSchemaFields_unresolved G j ref hmiss, bind,
        Except.bind, pure, Except.pure]
  · intro hnone recur req pre k pj href hne harr
    simp [fieldRowsFromJson, href, hne, harr, hnone, bind, Except.bind, pure, Except.pure]
  · intro fuel ref0 out k pj h hget href hne
    unfold exampleValue at h
    cases hs : GetSchema G j (ComponentNameFromRef ref0) with
    | none =>
      rw [hs] at hget
      simp [GetJsonMap, Get, jsonMapOf, varMap, mapKeys, GoMap.get] at hget
    | some sj =>
      rw [hs] at hget
      simp only [hs] at h
      have hlen : (GetJsonMap G (some sj) "properties").len > 0 := by
        cases hm : GetJsonMap G (some sj) "properties" with
        | none => rw [hm] at hget; simp [GoMap.get] at hget
        | some kvs =>
          rw [hm] at hget
          have : k ∈ mapKeys kvs := (mem_mapKeys k kvs).2 ⟨pj, hget⟩
          simp only [GoMap.len]
          exact List.length_pos_of_mem this
      simp only [hlen, or_true, if_true] at h
      obtain ⟨m, hm, h1⟩ := bind_eq_ok _ _ _ h
      cases h1
      refine ⟨m, rfl, ?_⟩
      obtain ⟨v, hv, hf⟩ := buildMap_lookup _ _ m hm k pj (by rw [lookup_entries]; exact hget)
      simp only [href, hne, ne_eq, not_false_eq_true, if_true,
        exampleValue_unresolved G j ref hmiss] at hf
      cases hf
      exact hv
  · intro hnone fuel pj href hne
    simp [propExample, href, hne, hnone, exampleValueFromSchema]

theorem unresolved_ref_witness :
    GetSchema Gconv.plain (some fooDoc)
        (ComponentNameFromRef "#/components/schemas/DoesNotExist") = none ∧
      flattenSchemaFields Gconv.plain 1 (some fooDoc) "#/components/schemas/DoesNotExist" "" =
        .ok [] ∧
      exampleValue Gconv.plain 1 (some fooDoc) "#/components/schemas/DoesNotExist" =
        .ok .null :=
  ⟨rfl, (unresolved_ref Gconv.plain (some fooDoc) "#/components/schemas/DoesNotExist" rfl).1 0 "",
    (unresolved_ref Gconv.plain (some fooDoc) "#/components/schemas/DoesNotExist" rfl).2.1 0⟩


/-! ## The loop that collapses `[][]` runs to its end -/

theorem replaceScan_length_le (old new : List Char) (hlen : new.length ≤ old.length)
    (n : Nat) (s : List Char) (hn : s.length ≤ n) :
    (replaceScan old new 0 s).length ≤ s.length := by
  induction n generalizing s with
  | zero =>
    have : s = [] := List.length_eq_zero.mp (by omega)
    subst this; simp [replaceScan]
  | succ n ih =>
    cases s with
    | nil => simp [replaceScan]
    | cons c rest =>
      by_cases h : old.isPrefixOf (c :: rest) = true
      · rw [replaceScan_match _ _ _ _ h]
        have hp := (List.isPrefixOf_iff_prefix.mp h).length_le
        have := ih (rest.drop (old.length - 1)) (by simp at hn ⊢; omega)
        simp only [List.length_append, List.length_cons, List.length_drop] at this hp ⊢
        omega
      · rw [replaceScan_no_match _ _ _ _ (Bool.eq_false_iff.mpr h)]
        have := ih rest (by simp at hn; omega)
        simp only [List.length_cons]
        omega

theorem replaceScan_length_lt (old new : List Char) (hlen : new.length < old.length)
    (s : List Char) (hs : containsChars old s = true) :
    (replaceScan old new 0 s).length < s.length := by
  induction s with
  | nil =>
    cases old with
    | nil => simp at hlen
    | cons o os => simp [containsChars] at hs
  | cons c rest ih =>
    by_cases h : old.isPrefixOf (c :: rest) = true
    · rw [replaceScan_match _ _ _ _ h]
      have hp := (List.isPrefixOf_iff_prefix.mp h).length_le
      have := replaceScan_length_le old new (Nat.le_of_lt hlen) _
        (rest.drop (old.length - 1)) (Nat.le_refl _)
      simp only [List.length_append, List.length_cons, List.length_drop] at this hp ⊢
      omega
    · have hf := Bool.eq_false_iff.mpr h
      rw [replaceScan_no_match _ _ _ _ hf]
      simp only [containsChars, hf, Bool.false_or] at hs
      have := ih hs
      simp only [List.length_cons]
      omega

/-- With the length of the pattern as budget, the loop of the normalisation
stops because no `[][]` is left, not because the budget is spent. -/
theorem collapseBrackets_done (n : Nat) (a : String) (hn : a.length ≤ n) :
    Contains (collapseBrackets n a) "[][]" = false := by
  induction n generalizing a with
  | zero =>
    have h0 : a.data = [] := List.length_eq_zero.mp (Nat.le_zero.mp hn)
    have : a = "" := String.ext h0
    subst this
    decide
  | succ n ih =>
    unfold collapseBrackets
    split
    · rename_i hc
      apply ih
      have h1 := replaceScan_length_lt "[][]".data "[]".data (by decide) a.data hc
      have h2 : a.data.length ≤ n + 1 := hn
      show (replaceScan "[][]".data "[]".data 0 a.data).length ≤ n
      omega
    · rename_i hc
      exact Bool.eq_false_iff.mpr hc

theorem normalizePattern_done (a : String) : Contains (normalizePattern a) "[][]" = false :=
  collapseBrackets_done _ _ (Nat.le_refl _)




/-! ## Clean property names are kept by the accessors -/

theorem lookup_mem {α : Type} (k : String) (kvs : List (String × α)) (v : α)
    (h : lookup k kvs = some v) : (k, v) ∈ kvs := by
  induction kvs with
  | nil => simp [lookup] at h
  | cons kv rest ih =>
    obtain ⟨k', v'⟩ := kv
    by_cases e : k' = k
    · simp [lookup, e] at h; subst e; subst h; exact List.mem_cons_self _ _
    · simp [lookup, e] at h; exact List.mem_cons_of_mem _ (ih h)

theorem mapKeys_subset {α : Type} (kvs : List (String × α)) (k : String)
    (h : k ∈ mapKeys kvs) : ∃ v, (k, v) ∈ kvs := by
  obtain ⟨v, hv⟩ := (mem_mapKeys k kvs).1 h
  exact ⟨v, lookup_mem k kvs v hv⟩

theorem cleanEntries_mem (kvs : List (String × Json)) (h : cleanEntries kvs = true)
    (k : String) (v : Json) (hm : (k, v) ∈ kvs) :
    v.cleanNames = true ∧ (k = "properties" → propNamesClean v = true) := by
  induction kvs with
  | nil => simp at hm
  | cons kv rest ih =>
    obtain ⟨k', v'⟩ := kv
    simp only [cleanEntries, Bool.and_eq_true, Bool.or_eq_true, decide_eq_true_eq] at h
    rcases List.mem_cons.mp hm with e | e
    · cases e
      exact ⟨h.1.1, fun hk => h.1.2.resolve_left (fun hn => hn hk)⟩
    · exact ih h.2 e

theorem clean_member (v : Json) (h : v.cleanNames = true) (k : String) :
    ((v.member k).getD .null).cleanNames = true ∧
      (k = "properties" → propNamesClean ((v.member k).getD .null) = true) := by
  cases v with
  | obj kvs =>
    simp only [Json.member]
    cases hl : lookup k kvs with
    | none => exact ⟨rfl, fun _ => rfl⟩
    | some w =>
      simp only [Json.cleanNames] at h
      exact cleanEntries_mem kvs h k w (lookup_mem k kvs w hl)
  | _ => exact ⟨rfl, fun _ => rfl⟩

theorem clean_Get (j : Option Json) (h : cleanNode j = true) (k : String) :
    (Get j k).cleanNames = true ∧ (k = "properties" → propNamesClean (Get j k) = true) := by
  cases j with
  | none => exact ⟨rfl, fun _ => rfl⟩
  | some v => exact clean_member v h k

theorem clean_Get2 (j : Option Json) (h : cleanNode j = true) (a b : String) :
    (Get2 j a b).cleanNames = true := by
  cases j with
  | none => rfl
  | some v =>
    simp only [Get2]
    have h1 := (clean_member v h a).1
    cases hm : v.member a with
    | none => rfl
    | some w =>
      rw [hm] at h1
      exact (clean_member w h1 b).1

theorem clean_New (G : Gconv) (hG : G.CleanNames) (v : Json) (h : v.cleanNames = true) :
    (New G v).cleanNames = true := by
  cases v with
  | str s => exact hG.1 s
  | _ => exact h

theorem clean_varMap (G : Gconv) (hG : G.CleanNames) (v : Json) (h : v.cleanNames = true)
    (kv : String × Json) (hm : kv ∈ varMap G v) : kv.2.cleanNames = true := by
  cases v with
  | obj kvs =>
    simp only [Json.cleanNames] at h
    exact (cleanEntries_mem kvs h kv.1 kv.2 hm).1
  | null => simp [varMap] at hm
  | _ => exact (hG.2 _ kv hm).2

theorem clean_jsonMapOf_get (G : Gconv) (hG : G.CleanNames) (v : Json)
    (h : v.cleanNames = true) (k : String) : cleanNode ((jsonMapOf G v).get k) = true := by
  rw [jsonMapOf_get]
  cases hl : lookup k (varMap G v) with
  | none => rfl
  | some w =>
    exact clean_New G hG w (clean_varMap G hG v h (k, w) (lookup_mem _ _ _ hl))

theorem jsonMapOf_keys (G : Gconv) (v : Json) (k : String) (h : k ∈ (jsonMapOf G v).keys) :
    ∃ w, (k, w) ∈ varMap G v := by
  unfold jsonMapOf at h
  by_cases hk : (mapKeys (varMap G v)).length > 0
  · simp only [hk, if_true, GoMap.keys, mapKeys_map] at h
    exact mapKeys_subset _ k h
  · simp [hk, GoMap.keys] at h

theorem clean_props_keys (G : Gconv) (hG : G.CleanNames) (n : Option Json)
    (h : cleanNode n = true) (k : String) (hk : k ∈ (GetJsonMap G n "properties").keys) :
    cleanName k = true := by
  obtain ⟨w, hw⟩ := jsonMapOf_keys G _ k hk
  have hp := (clean_Get n h "properties").2 rfl
  cases hv : Get n "properties" with
  | obj kvs =>
    rw [hv] at hw hp
    simp only [propNamesClean, List.all_eq_true] at hp
    exact hp (k, w) hw
  | null => rw [hv] at hw; simp [varMap] at hw
  | bool b => rw [hv] at hw; exact (hG.2 _ (k, w) hw).1
  | num l => rw [hv] at hw; exact (hG.2 _ (k, w) hw).1
  | str s => rw [hv] at hw; exact (hG.2 _ (k, w) hw).1
  | arr xs => rw [hv] at hw; exact (hG.2 _ (k, w) hw).1

theorem clean_props_get (G : Gconv) (hG : G.CleanNames) (n : Option Json)
    (h : cleanNode n = true) (key k : String) : cleanNode ((GetJsonMap G n key).get k) = true :=
  clean_jsonMapOf_get G hG _ (clean_Get n h key).1 k

theorem clean_GetSchema (G : Gconv) (hG : G.CleanNames) (j : Option Json)
    (h : cleanNode j = true) (name : String) : cleanNode (GetSchema G j name) = true := by
  cases j with
  | none => rfl
  | some v => exact clean_jsonMapOf_get G hG _ (clean_Get2 (some v) h _ _) name

theorem clean_GetRefJSON (G : Gconv) (hG : G.CleanNames) (j : Option Json)
    (h : cleanNode j = true) (ref : String) : cleanNode (GetRefJSON G j ref) = true := by
  unfold GetRefJSON
  cases j with
  | none => split_ifs <;> rfl
  | some v =>
    split_ifs
    · exact clean_GetSchema G hG (some v) h _
    · exact clean_jsonMapOf_get G hG _ (clean_Get2 (some v) h _ _) _
    · rfl

theorem clean_GetJson (G : Gconv) (hG : G.CleanNames) (n : Option Json)
    (h : cleanNode n = true) (k : String) : cleanNode (GetJson G n k) = true :=
  clean_New G hG _ (clean_Get n h k).1

theorem mergedProperties_own_or_nil (G : Gconv) (j s : Option Json) (props : GoMap Json)
    (h : mergedProperties G j s = .ok props) :
    props = GetJsonMap G s "properties" ∨ props = none := by
  unfold mergedProperties at h
  by_cases h0 : (GetJsonMap G s "properties").len = 0
  · simp only [h0, if_true] at h
    rw [GetJsonMap_len_zero G s _ h0] at h
    rcases mergeCompositions_nil G j s with e | e
    · rw [e] at h; cases h; exact Or.inr rfl
    · rw [e] at h; cases h
  · simp only [h0, if_false] at h
    cases h; exact Or.inl rfl


/-! ## Paths of distinct clean names are distinct -/

theorem cleanName_chars (k : String) (h : cleanName k = true) :
    k ≠ "" ∧ ∀ c ∈ k.data, c ≠ '.' ∧ c ≠ '[' := by
  simp only [cleanName, Bool.and_eq_true, decide_eq_true_eq, Bool.not_eq_true',
    ContainsAny, List.any_eq_false] at h
  refine ⟨h.1, fun c hc => ⟨?_, ?_⟩⟩
  · rintro rfl; exact h.2 _ hc (by decide)
  · rintro rfl; exact h.2 _ hc (by decide)

theorem clean_split (k k' t t' : List Char) (hk : ∀ c ∈ k, c ≠ '.' ∧ c ≠ '[')
    (hk' : ∀ c ∈ k', c ≠ '.' ∧ c ≠ '[') (ht : tailOk t = true) (ht' : tailOk t' = true)
    (h : k ++ t = k' ++ t') : k = k' := by
  induction k generalizing k' with
  | nil =>
    cases k' with
    | nil => rfl
    | cons c r =>
      exfalso
      simp only [List.nil_append, List.cons_append] at h
      subst h
      have := hk' c (List.mem_cons_self _ _)
      simp [tailOk, this.1, this.2] at ht
  | cons a k ih =>
    cases k' with
    | nil =>
      exfalso
      simp only [List.nil_append, List.cons_append] at h
      subst h
      have := hk a (List.mem_cons_self _ _)
      simp [tailOk, this.1, this.2] at ht'
    | cons c r =>
      simp only [List.cons_append, List.cons.injEq] at h
      rw [h.1, ih r (fun x hx => hk x (List.mem_cons_of_mem _ hx))
        (fun x hx => hk' x (List.mem_cons_of_mem _ hx)) h.2]

theorem string_append_left_cancel (a b c : String) (h : a ++ b = a ++ c) : b = c := by
  apply String.ext
  have := congrArg String.data h
  simpa using this

theorem string_append_ne_self (a t : String) (ht : t ≠ "") : a ++ t ≠ a := by
  intro h
  apply ht
  apply String.ext
  have := congrArg String.data h
  simpa using this

theorem mapKeys_nodup {α : Type} (kvs : List (String × α)) : (mapKeys kvs).Nodup := by
  induction kvs with
  | nil => exact List.nodup_nil
  | cons kv rest ih =>
    obtain ⟨k, v⟩ := kv
    simp only [mapKeys, List.nodup_cons]
    exact ⟨by simp [List.mem_filter], ih.filter _⟩

theorem keys_nodup {α : Type} (m : GoMap α) : (SortStrings m.keys).Nodup := by
  refine (SortStrings_perm m.keys).nodup_iff.mpr ?_
  cases m with
  | none => exact List.nodup_nil
  | some kvs => exact mapKeys_nodup kvs

/-- The rows of a property: a head row at `cur ++ h` and, under it, the rows of
a call with that prefix. -/
theorem rowsAt_cons (cur h : String) (head : FieldInfo) (sub : List FieldInfo)
    (hh : tailOk h.data = true) (hp : head.Path = cur ++ h) (hne : cur ++ h ≠ "")
    (hsub : RowsUnder (cur ++ h) sub) : RowsAt cur (head :: sub) := by
  obtain ⟨hnd, hform⟩ := hsub
  have hform := hform hne
  constructor
  · simp only [List.map_cons, List.nodup_cons]
    refine ⟨?_, hnd⟩
    intro hm
    obtain ⟨f, hf, hfp⟩ := List.mem_map.mp hm
    obtain ⟨t, ht⟩ := hform f hf
    rw [hp, ht, String.append_assoc] at hfp
    exact string_append_ne_self (cur ++ h) ("." ++ t)
      (fun e => by have := congrArg String.data e; simp at this) hfp
  · intro f hf
    rcases List.mem_cons.mp hf with e | e
    · subst e; exact ⟨h, hp, hh⟩
    · obtain ⟨t, ht⟩ := hform f e
      refine ⟨h ++ "." ++ t, by rw [ht]; simp [String.append_assoc], ?_⟩
      cases hd : h.data with
      | nil => simp [hd, tailOk]
      | cons c r => rw [hd] at hh; simpa [hd, tailOk] using hh

theorem rowsAt_single (cur h : String) (row : FieldInfo) (hh : tailOk h.data = true)
    (hp : row.Path = cur ++ h) : RowsAt cur [row] :=
  ⟨by simp, fun f hf => by
    rw [List.mem_singleton.mp hf]; exact ⟨h, hp, hh⟩⟩

/-- The rows of the loop over clean, distinct keys, each key with rows at
`base ++ k`: all paths differ, and each is `base`, a key and a tail. -/
theorem appendRows_rowsAt (base : String) (f : String → Except Stop (List FieldInfo))
    (keys : List String) (hnd : keys.Nodup) (hclean : ∀ k ∈ keys, cleanName k = true)
    (hf : ∀ k ∈ keys, ∀ chunk, f k = .ok chunk → RowsAt (base ++ k) chunk)
    (out : List FieldInfo) (h : appendRows keys f = .ok out) :
    (out.map (fun r => r.Path)).Nodup ∧
      ∀ r ∈ out, ∃ k ∈ keys, ∃ t : String, r.Path = base ++ k ++ t ∧ tailOk t.data = true := by
  induction keys generalizing out with
  | nil =>
    simp only [appendRows, pure, Except.pure] at h
    cases h
    exact ⟨List.nodup_nil, fun r hr => absurd hr (List.not_mem_nil _)⟩
  | cons k rest ih =>
    unfold appendRows at h
    obtain ⟨rows, hrows, h1⟩ := bind_eq_ok _ _ _ h
    obtain ⟨more, hmore, h2⟩ := bind_eq_ok _ _ _ h1
    cases h2
    obtain ⟨hknot, hrestnd⟩ := List.nodup_cons.mp hnd
    obtain ⟨ihnd, ihform⟩ := ih hrestnd (fun x hx => hclean x (List.mem_cons_of_mem _ hx))
      (fun x hx => hf x (List.mem_cons_of_mem _ hx)) more hmore
    obtain ⟨cnd, cform⟩ := hf k (List.mem_cons_self _ _) rows hrows
    constructor
    · rw [List.map_append]
      refine List.Nodup.append cnd ihnd ?_
      intro p hp1 hp2
      obtain ⟨r1, hr1, e1⟩ := List.mem_map.mp hp1
      obtain ⟨r2, hr2, e2⟩ := List.mem_map.mp hp2
      obtain ⟨t1, ht1, hok1⟩ := cform r1 hr1
      obtain ⟨k2, hk2, t2, ht2, hok2⟩ := ihform r2 hr2
      have e : base ++ k ++ t1 = base ++ k2 ++ t2 := by rw [← ht1, ← ht2, e1, e2]
      rw [String.append_assoc, String.append_assoc] at e
      have e3 := congrArg String.data (string_append_left_cancel _ _ _ e)
      simp only [String.data_append] at e3
      have := clean_split _ _ _ _
        (cleanName_chars k (hclean k (List.mem_cons_self _ _))).2
        (cleanName_chars k2 (hclean k2 (List.mem_cons_of_mem _ hk2))).2 hok1 hok2 e3
      exact hknot (by rw [String.ext this]; exact hk2)
    · intro r hr
      rcases List.mem_append.mp hr with e | e
      · obtain ⟨t, ht, hok⟩ := cform r e
        exact ⟨k, List.mem_cons_self _ _, t, ht, hok⟩
      · obtain ⟨k2, hk2, t, ht, hok⟩ := ihform r e
        exact ⟨k2, List.mem_cons_of_mem _ hk2, t, ht, hok⟩


theorem joinPath_eq (pre k : String) :
    joinPath pre k = (if pre ≠ "" then pre ++ "." else "") ++ k := by
  unfold joinPath
  split_ifs
  · rfl
  · exact (String.empty_append k).symm

theorem joinPath_ne_empty (pre k : String) (hk : k ≠ "") : joinPath pre k ≠ "" := by
  intro h
  apply hk
  apply String.ext
  have := congrArg String.data h
  unfold joinPath at this
  split_ifs at this
  · simp at this
  · simpa using this

theorem append_ne_empty_left (a b : String) (ha : a ≠ "") : a ++ b ≠ "" := by
  intro h
  apply ha
  apply String.ext
  have := congrArg String.data h
  simp at this
  simpa using this.1

theorem append_ne_empty_right (a b : String) (hb : b ≠ "") : a ++ b ≠ "" := by
  intro h
  apply hb
  apply String.ext
  have := congrArg String.data h
  simp at this
  simpa using this.2

theorem rowsUnder_nil (pre : String) : RowsUnder pre [] :=
  ⟨List.nodup_nil, fun _ _ hf => absurd hf (List.not_mem_nil _)⟩

theorem itemRows_rowsUnder (G : Gconv) (j : Option Json) (curPath : String) (it : Option Json)
    (rows : List FieldInfo) (h : itemRows G j curPath it = .ok rows) :
    RowsUnder (curPath ++ "[]") rows := by
  unfold itemRows at h
  obtain ⟨props2, _, h1⟩ := bind_eq_ok _ _ _ h
  cases h1
  constructor
  · rw [List.map_map]
    refine (keys_nodup props2).map_on ?_
    intro a _ b _ e
    simp only [Function.comp] at e
    exact string_append_left_cancel _ _ _ e
  · intro _ f hf
    obtain ⟨kk, _, rfl⟩ := List.mem_map.mp hf
    exact ⟨kk, by simp [String.append_assoc]⟩

theorem nestedRows_rowsAt (G : Gconv) (recur : String → String → Except Stop (List FieldInfo))
    (hrec : ∀ r p out, recur r p = .ok out → RowsUnder p out)
    (req : List String) (curPath nk : String) (np : Option Json) (chunk : List FieldInfo)
    (h : nestedRows G recur req curPath nk np = .ok chunk) :
    RowsAt (curPath ++ "." ++ nk) chunk := by
  have hne : curPath ++ "." ++ nk ≠ "" :=
    append_ne_empty_left _ _ (append_ne_empty_right _ _ (by decide))
  unfold nestedRows at h
  simp only [GetJson] at h
  split_ifs at h with h1 h2 h3
  · obtain ⟨sub, hsub, h4⟩ := bind_eq_ok _ _ _ h
    cases h4
    exact rowsAt_cons _ "[]" _ sub (by decide) rfl (append_ne_empty_left _ _ hne)
      (hrec _ _ _ hsub)
  · cases h
    exact rowsAt_single _ "[]" _ (by decide) rfl
  · obtain ⟨sub, hsub, h4⟩ := bind_eq_ok _ _ _ h
    cases h4
    refine rowsAt_cons _ "" _ sub (by decide) (String.append_empty _).symm ?_ ?_
    · rw [String.append_empty]; exact hne
    · rw [String.append_empty]; exact hrec _ _ _ hsub
  · cases h
    exact rowsAt_single _ "" _ (by decide) (String.append_empty _).symm

theorem nestedObjectRows_rowsUnder (G : Gconv) (hG : G.CleanNames)
    (recur : String → String → Except Stop (List FieldInfo))
    (hrec : ∀ r p out, recur r p = .ok out → RowsUnder p out)
    (curPath : String) (pj : Option Json) (hpj : cleanNode pj = true) (out : List FieldInfo)
    (h : nestedObjectRows G recur curPath pj = .ok out) : RowsUnder curPath out := by
  unfold nestedObjectRows at h
  simp only at h
  split_ifs at h
  · obtain ⟨hnd, hform⟩ := appendRows_rowsAt (curPath ++ ".") _ _
      (keys_nodup (GetJsonMap G pj "properties"))
      (fun k hk => clean_props_keys G hG pj hpj k ((SortStrings_mem _ _).mp hk))
      (fun k _ chunk hc => nestedRows_rowsAt G recur hrec _ curPath k _ chunk hc) out h
    refine ⟨hnd, fun _ f hf => ?_⟩
    obtain ⟨k, _, t, ht, _⟩ := hform f hf
    exact ⟨k ++ t, by rw [ht, String.append_assoc]⟩
  · cases h
    exact rowsUnder_nil _

theorem fieldRows_rowsAt (G : Gconv) (hG : G.CleanNames) (j : Option Json)
    (recur : String → String → Except Stop (List FieldInfo))
    (hrec : ∀ r p out, recur r p = .ok out → RowsUnder p out)
    (req : List String) (pre k : String) (hk : k ≠ "") (pj : Option Json)
    (hpj : cleanNode pj = true) (chunk : List FieldInfo)
    (h : fieldRows G j recur req pre k pj = .ok chunk) : RowsAt (joinPath pre k) chunk := by
  have hne : joinPath pre k ≠ "" := joinPath_ne_empty pre k hk
  unfold fieldRows at h
  simp only [GetJson] at h
  split_ifs at h with h1 h2 h3 h4 h5
  · obtain ⟨sub, hsub, h6⟩ := bind_eq_ok _ _ _ h
    cases h6
    exact rowsAt_cons _ "[]" _ sub (by decide) rfl (append_ne_empty_left _ _ hne)
      (hrec _ _ _ hsub)
  · obtain ⟨rows, hrows, h6⟩ := bind_eq_ok _ _ _ h
    cases h6
    exact rowsAt_cons _ "[]" _ rows (by decide) rfl (append_ne_empty_left _ _ hne)
      (itemRows_rowsUnder G j _ _ rows hrows)
  · cases h
    exact rowsAt_single _ "[]" _ (by decide) rfl
  · obtain ⟨sub, hsub, h6⟩ := bind_eq_ok _ _ _ h
    cases h6
    refine rowsAt_cons _ "" _ sub (by decide) (String.append_empty _).symm ?_ ?_
    · rw [String.append_empty]; exact hne
    · rw [String.append_empty]; exact hrec _ _ _ hsub
  · obtain ⟨sub, hsub, h6⟩ := bind_eq_ok _ _ _ h
    cases h6
    refine rowsAt_cons _ "" _ sub (by decide) (String.append_empty _).symm ?_ ?_
    · rw [String.append_empty]; exact hne
    · rw [String.append_empty]
      exact nestedObjectRows_rowsUnder G hG recur hrec _ pj hpj sub hsub
  · cases h
    exact rowsAt_single _ "" _ (by decide) (String.append_empty _).symm

theorem rowsUnder_of_rowsAt (pre : String) (keys : List String) (out : List FieldInfo)
    (hnd : (out.map (fun r => r.Path)).Nodup)
    (hform : ∀ r ∈ out, ∃ k ∈ keys, ∃ t : String,
      r.Path = (if pre ≠ "" then pre ++ "." else "") ++ k ++ t ∧ tailOk t.data = true) :
    RowsUnder pre out := by
  refine ⟨hnd, fun hpre f hf => ?_⟩
  obtain ⟨k, _, t, ht, _⟩ := hform f hf
  rw [if_pos hpre] at ht
  exact ⟨k ++ t, by rw [ht, String.append_assoc]⟩

theorem flattenSchemaFields_rowsUnder (G : Gconv) (hG : G.CleanNames) (j : Option Json)
    (hj : cleanNode j = true) (fuel : Nat) :
    ∀ (ref pre : String) (out : List FieldInfo),
      flattenSchemaFields G fuel j ref pre = .ok out → RowsUnder pre out := by
  induction fuel with
  | zero => intro ref pre out h; simp [flattenSchemaFields] at h
  | succ n ih =>
    intro ref pre out h
    unfold flattenSchemaFields at h
    cases hs : GetSchema G j (ComponentNameFromRef ref) with
    | none =>
      simp only [hs] at h
      cases h
      exact rowsUnder_nil _
    | some sj =>
      simp only [hs] at h
      have hsj : cleanNode (some sj) = true := by
        rw [← hs]; exact clean_GetSchema G hG j hj _
      obtain ⟨hnd, hform⟩ := appendRows_rowsAt (if pre ≠ "" then pre ++ "." else "") _ _
        (keys_nodup (GetJsonMap G (some sj) "properties"))
        (fun k hk => clean_props_keys G hG _ hsj k ((SortStrings_mem _ _).mp hk))
        (fun k hk chunk hc => by
          rw [← joinPath_eq]
          exact fieldRows_rowsAt G hG j _ ih _ pre k
            (cleanName_chars k
              (clean_props_keys G hG _ hsj k ((SortStrings_mem _ _).mp hk))).1
            _ (clean_props_get G hG _ hsj _ k) chunk hc) out h
      exact rowsUnder_of_rowsAt pre _ out hnd hform


theorem fieldRowsFromJson_rowsAt (G : Gconv) (hG : G.CleanNames) (j : Option Json)
    (hj : cleanNode j = true)
    (recur : Option Json → String → Except Stop (List FieldInfo))
    (hrec : ∀ s p out, cleanNode s = true → recur s p = .ok out → RowsUnder p out)
    (req : List String) (pre k : String) (hk : k ≠ "") (pj : Option Json)
    (hpj : cleanNode pj = true) (chunk : List FieldInfo)
    (h : fieldRowsFromJson G j recur req pre k pj = .ok chunk) :
    RowsAt (joinPath pre k) chunk := by
  have hne : joinPath pre k ≠ "" := joinPath_ne_empty pre k hk
  unfold fieldRowsFromJson at h
  simp only [GetJson] at h
  split_ifs at h with h1 h2 h3 h4 h5
  · have hc := clean_GetRefJSON G hG j hj (getString G (some (New G (Get pj "items"))) "$ref")
    split at h
    · rename_i s hr
      rw [hr] at hc
      obtain ⟨sub, hs, h6⟩ := bind_eq_ok _ _ _ h
      cases h6
      exact rowsAt_cons _ "[]" _ sub (by decide) rfl (append_ne_empty_left _ _ hne)
        (hrec _ _ _ hc hs)
    · cases h
      exact rowsAt_single _ "[]" _ (by decide) rfl
  · obtain ⟨rows, hrows, h6⟩ := bind_eq_ok _ _ _ h
    cases h6
    exact rowsAt_cons _ "[]" _ rows (by decide) rfl (append_ne_empty_left _ _ hne)
      (itemRows_rowsUnder G j _ _ rows hrows)
  · cases h
    exact rowsAt_single _ "[]" _ (by decide) rfl
  · have hc := clean_GetRefJSON G hG j hj (getString G pj "$ref")
    split at h
    · rename_i s hr
      rw [hr] at hc
      obtain ⟨sub, hs, h6⟩ := bind_eq_ok _ _ _ h
      cases h6
      refine rowsAt_cons _ "" _ sub (by decide) (String.append_empty _).symm ?_ ?_
      · rw [String.append_empty]; exact hne
      · rw [String.append_empty]; exact hrec _ _ _ hc hs
    · cases h
      exact rowsAt_single _ "" _ (by decide) (String.append_empty _).symm
  · obtain ⟨sub, hs, h6⟩ := bind_eq_ok _ _ _ h
    cases h6
    refine rowsAt_cons _ "" _ sub (by decide) (String.append_empty _).symm ?_ ?_
    · rw [String.append_empty]; exact hne
    · rw [String.append_empty]; exact hrec _ _ _ hpj hs
  · cases h
    exact rowsAt_single _ "" _ (by decide) (String.append_empty _).symm

theorem flattenSchemaFieldsFromJson_rowsUnder (G : Gconv) (hG : G.CleanNames)
    (j : Option Json) (hj : cleanNode j = true) (fuel : Nat) :
    ∀ (sj : Option Json) (pre : String) (out : List FieldInfo), cleanNode sj = true →
      flattenSchemaFieldsFromJson G fuel j sj pre = .ok out → RowsUnder pre out := by
  induction fuel with
  | zero => intro sj pre out _ h; simp [flattenSchemaFieldsFromJson] at h
  | succ n ih =>
    intro sj pre out hsj h
    unfold flattenSchemaFieldsFromJson at h
    cases sj with
    | none =>
      simp only at h
      cases h
      exact rowsUnder_nil _
    | some s =>
      simp only at h
      obtain ⟨props, hprops, h1⟩ := bind_eq_ok _ _ _ h
      have hkeys : ∀ k ∈ SortStrings props.keys, cleanName k = true := by
        intro k hk
        have hk := (SortStrings_mem _ _).mp hk
        rcases mergedProperties_own_or_nil G j _ props hprops with e | e
        · rw [e] at hk; exact clean_props_keys G hG _ hsj k hk
        · rw [e] at hk; simp [GoMap.keys] at hk
      have hget : ∀ k, cleanNode (props.get k) = true := by
        intro k
        rcases mergedProperties_own_or_nil G j _ props hprops with e | e
        · rw [e]; exact clean_props_get G hG _ hsj _ k
        · rw [e]; rfl
      obtain ⟨hnd, hform⟩ := appendRows_rowsAt (if pre ≠ "" then pre ++ "." else "") _ _
        (keys_nodup props) hkeys
        (fun k hk chunk hc => by
          rw [← joinPath_eq]
          exact fieldRowsFromJson_rowsAt G hG j hj _ ih _ pre k
            (cleanName_chars k (hkeys k hk)).1 _ (hget k) chunk hc) out h1
      exact rowsUnder_of_rowsAt pre _ out hnd hform

/-- Claim C13, counterexample: for the schema with the property `a`, an object
with the property `b`, and the property named `a.b`, both flatteners return
two descriptors with the path `a.b`. -/
theorem flatten_duplicate_path :
    (∀ G : Gconv, flattenSchemaFields G 1 (some dottedDoc) "#/components/schemas/Dotted" "" =
      .ok [{ Path := "a", Required := false, Typ := "object", Desc := "" },
           { Path := "a.b", Required := false, Typ := "string", Desc := "" },
           { Path := "a.b", Required := false, Typ := "string", Desc := "" }]) ∧
    (∀ G : Gconv, flattenSchemaFieldsFromJson G 2 (some dottedDoc) (some dottedSchema) "" =
      .ok [{ Path := "a", Required := false, Typ := "object", Desc := "" },
           { Path := "a.b", Required := false, Typ := "string", Desc := "" },
           { Path := "a.b", Required := false, Typ := "string", Desc := "" }]) :=
  ⟨fun _ => rfl, fun _ => rfl⟩

/-- Claim C13, amended: when every property name of the document and of the
schema is non-empty and has no `.` and no `[`, and the conversions of the
library bring in no other names, no two descriptors returned by one call of
flattenSchemaFields or of flattenSchemaFieldsFromJson have the same path. -/
theorem flatten_paths_nodup (G : Gconv) (hG : G.CleanNames) (j : Option Json)
    (hj : cleanNode j = true) :
    (∀ (fuel : Nat) (ref pre : String) (out : List FieldInfo),
      flattenSchemaFields G fuel j ref pre = .ok out →
      (out.map (fun f => f.Path)).Nodup) ∧
    (∀ (fuel : Nat) (sj : Option Json) (pre : String) (out : List FieldInfo),
      cleanNode sj = true → flattenSchemaFieldsFromJson G fuel j sj pre = .ok out →
      (out.map (fun f => f.Path)).Nodup) :=
  ⟨fun fuel ref pre out h => (flattenSchemaFields_rowsUnder G hG j hj fuel ref pre out h).1,
    fun fuel sj pre out hsj h =>
      (flattenSchemaFieldsFromJson_rowsUnder G hG j hj fuel sj pre out hsj h).1⟩

theorem plain_cleanNames : Gconv.plain.CleanNames :=
  ⟨fun _ => rfl, fun _ _ hkv => absurd hkv (List.not_mem_nil _)⟩

theorem flatten_paths_nodup_witness :
    Gconv.plain.CleanNames ∧ cleanNode (some listDoc) = true ∧
      flattenSchemaFields Gconv.plain 2 (some listDoc) "#/components/schemas/Bar" "" =
        .ok [{ Path := "xs[]", Required := false, Typ := "array(object)", Desc := "" },
             { Path := "xs[].a", Required := false, Typ := "string", Desc := "" }] ∧
      (([{ Path := "xs[]", Required := false, Typ := "array(object)", Desc := "" },
         { Path := "xs[].a", Required := false, Typ := "string", Desc := "" }] :
        List FieldInfo).map (fun f => f.Path)).Nodup :=
  ⟨plain_cleanNames, rfl, rfl,
    (flatten_paths_nodup Gconv.plain plain_cleanNames (some listDoc) rfl).1 2
      "#/components/schemas/Bar" "" _ rfl⟩


/-! ## A reference to a parameter named as a schema -/

theorem flattenSchemaFields_paramRef (G : Gconv) (fuel : Nat) :
    ∀ (ref pre : String), ComponentNameFromRef ref = "Foo" →
      flattenSchemaFields G fuel (some paramRefDoc) ref pre = .error .outOfFuel := by
  induction fuel with
  | zero => intro ref pre _; rfl
  | succ n ih =>
    intro ref pre href
    have hs : GetSchema G (some paramRefDoc) "Foo" = some paramRefSchema := rfl
    have hp : GetJsonMap G (some paramRefSchema) "properties" =
        some [("p", .obj [("$ref", .str "#/components/parameters/Foo")])] := rfl
    have hk : SortStrings ["p"] = ["p"] := by decide
    have hr : getString G (some (Json.obj [("$ref", .str "#/components/parameters/Foo")]))
        "$ref" = "#/components/parameters/Foo" := rfl
    have ht : getString G (some (Json.obj [("$ref", .str "#/components/parameters/Foo")]))
        "type" = "" := rfl
    have hrec := ih "#/components/parameters/Foo" (joinPath pre "p") (by decide)
    unfold flattenSchemaFields
    simp only [href, hs, hp, GoMap.keys, mapKeys, List.filter_nil, hk, appendRows, GoMap.get,
      lookup, if_true, fieldRows, hr, ht]
    simp [hrec, bind, Except.bind]

theorem exampleValue_paramRef (G : Gconv) (fuel : Nat) :
    ∀ ref : String, ComponentNameFromRef ref = "Foo" →
      exampleValue G fuel (some paramRefDoc) ref = .error .outOfFuel := by
  induction fuel with
  | zero => intro ref _; rfl
  | succ n ih =>
    intro ref href
    have hs : GetSchema G (some paramRefDoc) "Foo" = some paramRefSchema := rfl
    have hp : GetJsonMap G (some paramRefSchema) "properties" =
        some [("p", .obj [("$ref", .str "#/components/parameters/Foo")])] := rfl
    have he : GoMap.entries
        (some [("p", Json.obj [("$ref", Json.str "#/components/parameters/Foo")])]) =
        [("p", Json.obj [("$ref", Json.str "#/components/parameters/Foo")])] := by
      rfl
    have hr : getString G (some (Json.obj [("$ref", .str "#/components/parameters/Foo")]))
        "$ref" = "#/components/parameters/Foo" := rfl
    have ht : getString G (some paramRefSchema) "type" = "object" := rfl
    have hn : New G (Json.obj [("$ref", Json.str "#/components/parameters/Foo")]) =
        Json.obj [("$ref", Json.str "#/components/parameters/Foo")] := rfl
    have hrec := ih "#/components/parameters/Foo" (by decide)
    unfold exampleValue
    simp only [href, hs, hp, he, ht, true_or, if_true, buildMap, hr]
    simp [hn, hr, hrec, bind, Except.bind]

/-- Claim C14, failing input: in the document whose schema `Foo` has one
property referring to the parameter `Foo`, no schema refers to a schema, and
the reference resolves to the parameter; flattenSchemaFields and exampleValue
look the name `Foo` up among the schemas again and recurse without end, on
whatever budget of nested calls, while flattenSchemaFieldsFromJson and
exampleValueFromSchema return. -/
theorem flatten_parameter_ref_diverges :
    (∀ G : Gconv, GetRefJSON G (some paramRefDoc) "#/components/parameters/Foo" =
      some (.obj [("type", .str "string")])) ∧
    (∀ (G : Gconv) (fuel : Nat) (pre : String),
      flattenSchemaFields G fuel (some paramRefDoc) "#/components/schemas/Foo" pre =
        .error .outOfFuel) ∧
    (∀ (G : Gconv) (fuel : Nat),
      exampleValue G fuel (some paramRefDoc) "#/components/schemas/Foo" = .error .outOfFuel) ∧
    (∀ G : Gconv, flattenSchemaFieldsFromJson G 2 (some paramRefDoc) (some paramRefSchema) "" =
      .ok [{ Path := "p", Required := false, Typ := "object", Desc := "" }]) ∧
    (∀ G : Gconv, exampleValueFromSchema G 2 (some paramRefDoc) (some paramRefSchema) =
      .ok (.map [("p", .str "string")])) :=
  ⟨fun _ => rfl,
    fun G fuel pre => flattenSchemaFields_paramRef G fuel _ pre (by decide),
    fun G fuel => exampleValue_paramRef G fuel _ (by decide),
    fun _ => rfl, fun _ => rfl⟩




/-! ## SortStrings sorts, and its result does not depend on the order of its input -/

theorem u32_lt_iff (a b : UInt32) : a < b ↔ a.toNat < b.toNat := Iff.rfl

theorem strGt_asymm (a b : List Char) (h : strGt a b = true) : strGt b a = false := by
  induction a generalizing b with
  | nil => simp [strGt] at h
  | cons x xs ih =>
    cases b with
    | nil => rfl
    | cons y ys =>
      simp only [strGt, u32_lt_iff] at h ⊢
      by_cases h1 : y.val.toNat < x.val.toNat
      · have h2 : ¬ x.val.toNat < y.val.toNat := by omega
        simp [h1, h2]
      · by_cases h2 : x.val.toNat < y.val.toNat
        · simp [h1, h2] at h
        · simp only [h1, h2, if_false] at h ⊢
          exact ih ys h

theorem strGt_antisymm (a b : List Char) (h1 : strGt a b = false) (h2 : strGt b a = false) :
    a = b := by
  induction a generalizing b with
  | nil =>
    cases b with
    | nil => rfl
    | cons y ys => simp [strGt] at h2
  | cons x xs ih =>
    cases b with
    | nil => simp [strGt] at h1
    | cons y ys =>
      simp only [strGt, u32_lt_iff] at h1 h2
      by_cases c1 : y.val.toNat < x.val.toNat
      · simp [c1] at h1
      · by_cases c2 : x.val.toNat < y.val.toNat
        · simp [c2] at h2
        · simp only [c1, c2, if_false] at h1 h2
          have hv : x.val.toNat = y.val.toNat := by omega
          rw [Char.ext (UInt32.ext hv), ih ys h1 h2]

theorem strGt_le_trans (a b c : List Char) (h1 : strGt a b = false) (h2 : strGt b c = false) :
    strGt a c = false := by
  induction a generalizing b c with
  | nil => rfl
  | cons x xs ih =>
    cases b with
    | nil => simp [strGt] at h1
    | cons y ys =>
      cases c with
      | nil => simp [strGt] at h2
      | cons z zs =>
        simp only [strGt, u32_lt_iff] at h1 h2 ⊢
        by_cases c1 : y.val.toNat < x.val.toNat
        · simp [c1] at h1
        · by_cases c2 : z.val.toNat < y.val.toNat
          · simp [c2] at h2
          · by_cases c3 : x.val.toNat < y.val.toNat
            · have c4 : x.val.toNat < z.val.toNat := by omega
              have c5 : ¬ z.val.toNat < x.val.toNat := by omega
              simp [c4, c5]
            · by_cases c6 : y.val.toNat < z.val.toNat
              · have c4 : x.val.toNat < z.val.toNat := by omega
                have c5 : ¬ z.val.toNat < x.val.toNat := by omega
                simp [c4, c5]
              · simp only [c1, c2, c3, c6, if_false] at h1 h2
                have c7 : ¬ z.val.toNat < x.val.toNat := by omega
                have c8 : ¬ x.val.toNat < z.val.toNat := by omega
                simp only [c7, c8, if_false]
                exact ih ys zs h1 h2

theorem sortInsert_mem (v : String) (rev : List String) (y : String)
    (h : y ∈ sortInsert v rev) : y = v ∨ y ∈ rev := by
  induction rev with
  | nil => simpa [sortInsert] using h
  | cons x rest ih =>
    unfold sortInsert at h
    split_ifs at h
    · rcases List.mem_cons.mp h with e | e
      · exact Or.inr (e ▸ List.mem_cons_self _ _)
      · rcases ih e with e2 | e2
        · exact Or.inl e2
        · exact Or.inr (List.mem_cons_of_mem _ e2)
    · rcases List.mem_cons.mp h with e | e
      · exact Or.inl e
      · exact Or.inr e

theorem sortInsert_descending (v : String) (rev : List String)
    (h : rev.Pairwise (fun x y => strGt y.data x.data = false)) :
    (sortInsert v rev).Pairwise (fun x y => strGt y.data x.data = false) := by
  induction rev with
  | nil => simp [sortInsert]
  | cons x rest ih =>
    obtain ⟨hx, hrest⟩ := List.pairwise_cons.mp h
    unfold sortInsert
    split_ifs with hgt
    · refine List.pairwise_cons.mpr ⟨fun y hy => ?_, ih hrest⟩
      rcases sortInsert_mem v rest y hy with e | e
      · subst e; exact strGt_asymm _ _ hgt
      · exact hx y e
    · have hle : strGt x.data v.data = false := Bool.eq_false_iff.mpr hgt
      refine List.pairwise_cons.mpr ⟨fun y hy => ?_, h⟩
      rcases List.mem_cons.mp hy with e | e
      · subst e; exact hle
      · exact strGt_le_trans _ _ _ (hx y e) hle

theorem foldl_sortInsert_descending (a rev : List String)
    (h : rev.Pairwise (fun x y => strGt y.data x.data = false)) :
    (a.foldl (fun rev v => sortInsert v rev) rev).Pairwise
      (fun x y => strGt y.data x.data = false) := by
  induction a generalizing rev with
  | nil => exact h
  | cons v rest ih => exact ih _ (sortInsert_descending v rev h)

/-- The result of SortStrings is ascending: no element is greater than a later
one. -/
theorem SortStrings_ascending (a : List String) :
    (SortStrings a).Pairwise (fun x y => strGt x.data y.data = false) := by
  unfold SortStrings
  rw [List.pairwise_reverse]
  exact foldl_sortInsert_descending a [] List.Pairwise.nil

/-- SortStrings gives the same list on two enumerations of the same keys. -/
theorem SortStrings_congr (a b : List String) (h : a.Perm b) : SortStrings a = SortStrings b := by
  have hp : (SortStrings a).Perm (SortStrings b) :=
    (SortStrings_perm a).trans (h.trans (SortStrings_perm b).symm)
  have : IsAntisymm String (fun x y => strGt x.data y.data = false) :=
    ⟨fun x y h1 h2 => String.ext (strGt_antisymm _ _ h1 h2)⟩
  exact List.eq_of_perm_of_sorted hp (SortStrings_ascending a) (SortStrings_ascending b)


/-! ## The accessors do not look at the order of enumeration -/

theorem sameEntries_refl (kvs : List (String × Json)) : SameEntries kvs kvs :=
  ⟨List.Perm.refl _, fun _ v v' h h' => by
    rw [h] at h'; cases h'; exact SameJson.refl v⟩

theorem forall2_sameJson_refl (xs : List Json) : List.Forall₂ SameJson xs xs := by
  induction xs with
  | nil => exact List.Forall₂.nil
  | cons x xs ih => exact List.Forall₂.cons (SameJson.refl x) ih

theorem forall2_of_get (xs ys : List Json) (hl : xs.length = ys.length)
    (h : ∀ (i : Nat) (x y : Json), xs.get? i = some x → ys.get? i = some y → SameJson x y) :
    List.Forall₂ SameJson xs ys := by
  induction xs generalizing ys with
  | nil =>
    cases ys with
    | nil => exact List.Forall₂.nil
    | cons y ys => simp at hl
  | cons x xs ih =>
    cases ys with
    | nil => simp at hl
    | cons y ys =>
      refine List.Forall₂.cons (h 0 x y rfl rfl) (ih ys (by simpa using hl) ?_)
      intro i a b ha hb
      exact h (i + 1) a b ha hb

theorem sameEntries_lookup (kvs kvs' : List (String × Json)) (h : SameEntries kvs kvs')
    (k : String) : SameNode (lookup k kvs) (lookup k kvs') := by
  cases h1 : lookup k kvs with
  | none =>
    cases h2 : lookup k kvs' with
    | none => trivial
    | some v' =>
      exfalso
      have : k ∈ mapKeys kvs := h.1.mem_iff.mpr ((mem_mapKeys k kvs').2 ⟨v', h2⟩)
      obtain ⟨v, hv⟩ := (mem_mapKeys k kvs).1 this
      rw [h1] at hv; cases hv
  | some v =>
    cases h2 : lookup k kvs' with
    | none =>
      exfalso
      have : k ∈ mapKeys kvs' := h.1.mem_iff.mp ((mem_mapKeys k kvs).2 ⟨v, h1⟩)
      obtain ⟨v', hv⟩ := (mem_mapKeys k kvs').1 this
      rw [h2] at hv; cases hv
    | some v' => exact h.2 k v v' h1 h2

theorem sameNode_getD (n n' : Option Json) (h : SameNode n n') :
    SameJson (n.getD .null) (n'.getD .null) := by
  cases n <;> cases n' <;> first | exact SameJson.refl _ | exact h | exact h.elim

theorem sameJson_member (v v' : Json) (h : SameJson v v') (k : String) :
    SameNode (v.member k) (v'.member k) := by
  cases h with
  | refl =>
    cases hm : v.member k with
    | none => trivial
    | some w => exact SameJson.refl w
  | arr xs ys _ _ => trivial
  | obj kvs kvs' hp hl => exact sameEntries_lookup kvs kvs' ⟨hp, hl⟩ k

theorem sameJson_Get (j j' : Option Json) (h : SameNode j j') (k : String) :
    SameJson (Get j k) (Get j' k) := by
  cases j <;> cases j'
  · exact SameJson.refl _
  · exact h.elim
  · exact h.elim
  · exact sameNode_getD _ _ (sameJson_member _ _ h k)

theorem sameJson_Get2 (j j' : Option Json) (h : SameNode j j') (a b : String) :
    SameJson (Get2 j a b) (Get2 j' a b) := by
  cases j <;> cases j'
  · exact SameJson.refl _
  · exact h.elim
  · exact h.elim
  · rename_i v v'
    simp only [Get2]
    have h1 := sameJson_member v v' h a
    cases hm : v.member a <;> cases hm' : v'.member a <;> rw [hm, hm'] at h1
    · exact SameJson.refl _
    · exact h1.elim
    · exact h1.elim
    · exact sameNode_getD _ _ (sameJson_member _ _ h1 b)

theorem same_varString (G : Gconv) (hG : G.Respects) (v v' : Json) (h : SameJson v v') :
    varString G v = varString G v' := by
  cases h with
  | refl => rfl
  | arr xs ys hl hi => exact hG.1 _ _ (SameJson.arr xs ys hl hi)
  | obj kvs kvs' hp hl => exact hG.1 _ _ (SameJson.obj kvs kvs' hp hl)

theorem same_varArray (G : Gconv) (hG : G.Respects) (v v' : Json) (h : SameJson v v') :
    List.Forall₂ SameJson (varArray G v) (varArray G v') := by
  cases h with
  | refl => exact forall2_sameJson_refl _
  | arr xs ys hl hi => exact forall2_of_get xs ys hl hi
  | obj kvs kvs' hp hl => exact hG.2.1 _ _ (SameJson.obj kvs kvs' hp hl)

theorem same_varMap (G : Gconv) (hG : G.Respects) (v v' : Json) (h : SameJson v v') :
    SameEntries (varMap G v) (varMap G v') := by
  cases h with
  | refl => exact sameEntries_refl _
  | arr xs ys hl hi => exact hG.2.2 _ _ (SameJson.arr xs ys hl hi)
  | obj kvs kvs' hp hl => exact ⟨hp, hl⟩

theorem same_New (G : Gconv) (v v' : Json) (h : SameJson v v') :
    SameJson (New G v) (New G v') := by
  cases h with
  | refl => exact SameJson.refl _
  | arr xs ys hl hi => exact SameJson.arr xs ys hl hi
  | obj kvs kvs' hp hl => exact SameJson.obj kvs kvs' hp hl

theorem same_jsonMapOf (G : Gconv) (hG : G.Respects) (v v' : Json) (h : SameJson v v') :
    SameMap (jsonMapOf G v) (jsonMapOf G v') := by
  have hm := same_varMap G hG v v' h
  have hlen : (mapKeys (varMap G v)).length = (mapKeys (varMap G v')).length := hm.1.length_eq
  unfold jsonMapOf
  simp only [hlen]
  split_ifs
  · refine ⟨by simpa [mapKeys_map] using hm.1, fun k w w' hw hw' => ?_⟩
    rw [lookup_map] at hw hw'
    have hl := sameEntries_lookup _ _ hm k
    cases h1 : lookup k (varMap G v) <;> cases h2 : lookup k (varMap G v') <;>
      rw [h1] at hw hl <;> rw [h2] at hw' hl
    · cases hw
    · cases hw
    · cases hw'
    · cases hw; cases hw'
      exact same_New G _ _ hl
  · trivial

theorem same_GetJsonMap (G : Gconv) (hG : G.Respects) (n n' : Option Json) (h : SameNode n n')
    (k : String) : SameMap (GetJsonMap G n k) (GetJsonMap G n' k) :=
  same_jsonMapOf G hG _ _ (sameJson_Get n n' h k)

theorem same_GetJson (G : Gconv) (n n' : Option Json) (h : SameNode n n') (k : String) :
    SameNode (GetJson G n k) (GetJson G n' k) :=
  same_New G _ _ (sameJson_Get n n' h k)

theorem same_getString (G : Gconv) (hG : G.Respects) (n n' : Option Json) (h : SameNode n n')
    (k : String) : getString G n k = getString G n' k :=
  same_varString G hG _ _ (sameJson_Get n n' h k)

theorem same_getArray (G : Gconv) (hG : G.Respects) (n n' : Option Json) (h : SameNode n n')
    (k : String) : List.Forall₂ SameJson (getArray G n k) (getArray G n' k) :=
  same_varArray G hG _ _ (sameJson_Get n n' h k)

theorem sameMap_get (m m' : GoMap Json) (h : SameMap m m') (k : String) :
    SameNode (m.get k) (m'.get k) := by
  cases m <;> cases m'
  · trivial
  · exact h.elim
  · exact h.elim
  · exact sameEntries_lookup _ _ h k

theorem sameMap_keys (m m' : GoMap Json) (h : SameMap m m') : m.keys.Perm m'.keys := by
  cases m <;> cases m'
  · exact List.Perm.refl _
  · exact h.elim
  · exact h.elim
  · exact h.1

theorem sameMap_sorted_keys (m m' : GoMap Json) (h : SameMap m m') :
    SortStrings m.keys = SortStrings m'.keys :=
  SortStrings_congr _ _ (sameMap_keys m m' h)

theorem sameMap_len (m m' : GoMap Json) (h : SameMap m m') : m.len = m'.len := by
  cases m <;> cases m'
  · rfl
  · exact h.elim
  · exact h.elim
  · exact h.1.length_eq

theorem same_GetSchema (G : Gconv) (hG : G.Respects) (j j' : Option Json) (h : SameNode j j')
    (name : String) : SameNode (GetSchema G j name) (GetSchema G j' name) := by
  cases j <;> cases j'
  · trivial
  · exact h.elim
  · exact h.elim
  · exact sameMap_get _ _ (same_jsonMapOf G hG _ _ (sameJson_Get2 _ _ h _ _)) name

theorem same_GetRefJSON (G : Gconv) (hG : G.Respects) (j j' : Option Json) (h : SameNode j j')
    (ref : String) : SameNode (GetRefJSON G j ref) (GetRefJSON G j' ref) := by
  unfold GetRefJSON
  cases j <;> cases j'
  · split_ifs <;> trivial
  · exact h.elim
  · exact h.elim
  · split_ifs
    · exact same_GetSchema G hG _ _ h _
    · exact sameMap_get _ _ (same_jsonMapOf G hG _ _ (sameJson_Get2 _ _ h _ _)) _
    · trivial


theorem same_SetFromArray (xs ys : List Json) (h : List.Forall₂ SameJson xs ys) :
    SetFromArray xs = SetFromArray ys := by
  induction h with
  | nil => rfl
  | cons hxy _ ih =>
    unfold SetFromArray at ih ⊢
    rw [List.filterMap_cons, List.filterMap_cons, ih]
    cases hxy with
    | refl => rfl
    | arr _ _ _ _ => rfl
    | obj _ _ _ _ => rfl

theorem same_titleDescription (G : Gconv) (hG : G.Respects) (n n' : Option Json)
    (h : SameNode n n') : titleDescription G n = titleDescription G n' := by
  cases n <;> cases n'
  · rfl
  · exact h.elim
  · exact h.elim
  · simp only [titleDescription, same_getString G hG _ _ h]

theorem sameMap_entries_nil (m m' : GoMap Json) (h : SameMap m m') :
    m.entries = [] ↔ m'.entries = [] := by
  have hk := sameMap_keys m m' h
  have e1 : m.entries = [] ↔ m.keys = [] := by
    rw [← map_fst_entries]; simp
  have e2 : m'.entries = [] ↔ m'.keys = [] := by
    rw [← map_fst_entries]; simp
  rw [e1, e2]
  constructor
  · intro h0; rw [h0] at hk; exact hk.symm.eq_nil
  · intro h0; rw [h0] at hk; exact hk.eq_nil

theorem assignAll_none (src : GoMap Json) :
    GoMap.assignAll none src = if src.entries.isEmpty then .ok none else .error .panic := by
  unfold GoMap.assignAll
  cases src.entries with
  | nil => rfl
  | cons kv rest => rfl

theorem same_assignAll_none (m m' : GoMap Json) (h : SameMap m m') :
    GoMap.assignAll none m = GoMap.assignAll none m' := by
  rw [assignAll_none, assignAll_none]
  have := sameMap_entries_nil m m' h
  by_cases h0 : m.entries = []
  · rw [h0, this.mp h0]
  · have h1 : m'.entries ≠ [] := fun h1 => h0 (this.mpr h1)
    have e0 : m.entries.isEmpty = false := by simpa using h0
    have e1 : m'.entries.isEmpty = false := by simpa using h1
    rw [e0, e1]

theorem same_mergeMember (G : Gconv) (hG : G.Respects) (j j' : Option Json)
    (hj : SameNode j j') (x y : Json) (h : SameJson x y) :
    mergeMember G j none x = mergeMember G j' none y := by
  have he : SameNode (some (New G x)) (some (New G y)) := same_New G x y h
  unfold mergeMember
  simp only [same_getString G hG _ _ he]
  split_ifs with hr
  · have hs := same_GetRefJSON G hG j j' hj (getString G (some (New G y)) "$ref")
    cases h1 : GetRefJSON G j (getString G (some (New G y)) "$ref") with
    | none =>
      cases h2 : GetRefJSON G j' (getString G (some (New G y)) "$ref") with
      | none => rfl
      | some b => rw [h1, h2] at hs; exact False.elim hs
    | some a =>
      cases h2 : GetRefJSON G j' (getString G (some (New G y)) "$ref") with
      | none => rw [h1, h2] at hs; exact False.elim hs
      | some b =>
        rw [h1, h2] at hs
        exact same_assignAll_none _ _ (same_GetJsonMap G hG (some a) (some b) hs _)
  · exact same_assignAll_none _ _ (same_GetJsonMap G hG _ _ he _)

theorem same_foldlM_mergeMember (G : Gconv) (hG : G.Respects) (j j' : Option Json)
    (hj : SameNode j j') (xs ys : List Json) (h : List.Forall₂ SameJson xs ys) :
    xs.foldlM (mergeMember G j) none = ys.foldlM (mergeMember G j') none := by
  induction h with
  | nil => rfl
  | cons hxy _ ih =>
    rw [List.foldlM_cons, List.foldlM_cons, ← same_mergeMember G hG j j' hj _ _ hxy]
    rename_i a b l1 l2 _
    rcases mergeMember_nil G j a with e | e
    · rw [e]; exact ih
    · rw [e]; rfl

theorem same_mergeCompositions (G : Gconv) (hG : G.Respects) (j j' : Option Json)
    (hj : SameNode j j') (s s' : Option Json) (hs : SameNode s s') :
    mergeCompositions G j s none = mergeCompositions G j' s' none := by
  unfold mergeCompositions
  simp only [List.foldlM_cons, List.foldlM_nil]
  rw [← same_foldlM_mergeMember G hG j j' hj _ _ (same_getArray G hG s s' hs "allOf")]
  rcases foldlM_mergeMember_nil G j (getArray G s "allOf") with e1 | e1
  · rw [e1]
    show ((getArray G s "oneOf").foldlM (mergeMember G j) none >>= _) =
      ((getArray G s' "oneOf").foldlM (mergeMember G j') none >>= _)
    rw [← same_foldlM_mergeMember G hG j j' hj _ _ (same_getArray G hG s s' hs "oneOf")]
    rcases foldlM_mergeMember_nil G j (getArray G s "oneOf") with e2 | e2
    · rw [e2]
      show ((getArray G s "anyOf").foldlM (mergeMember G j) none >>= _) =
        ((getArray G s' "anyOf").foldlM (mergeMember G j') none >>= _)
      rw [← same_foldlM_mergeMember G hG j j' hj _ _ (same_getArray G hG s s' hs "anyOf")]
    · rw [e2]; rfl
  · rw [e1]; rfl

/-- What mergedProperties gives on the two documents: the same error, or two
enumerations of the same map. -/
theorem same_mergedProperties (G : Gconv) (hG : G.Respects) (j j' : Option Json)
    (hj : SameNode j j') (s s' : Option Json) (hs : SameNode s s') :
    (∃ e, mergedProperties G j s = .error e ∧ mergedProperties G j' s' = .error e) ∨
    (∃ p p', mergedProperties G j s = .ok p ∧ mergedProperties G j' s' = .ok p' ∧
      SameMap p p') := by
  have hp := same_GetJsonMap G hG s s' hs "properties"
  have hl := sameMap_len _ _ hp
  unfold mergedProperties
  simp only [← hl]
  by_cases h0 : (GetJsonMap G s "properties").len = 0
  · simp only [h0, if_true]
    rw [GetJsonMap_len_zero G s _ h0, GetJsonMap_len_zero G s' _ (hl ▸ h0),
      ← same_mergeCompositions G hG j j' hj s s' hs]
    rcases mergeCompositions_nil G j s with e | e
    · exact Or.inr ⟨none, none, e, e, trivial⟩
    · exact Or.inl ⟨_, e, e⟩
  · simp only [h0, if_false]
    exact Or.inr ⟨_, _, rfl, rfl, hp⟩

theorem same_inlineObj (G : Gconv) (hG : G.Respects) (n n' : Option Json) (h : SameNode n n') :
    inlineObj G n = inlineObj G n' := by
  unfold inlineObj
  rw [same_getString G hG n n' h, sameMap_len _ _ (same_GetJsonMap G hG n n' h "properties"),
    (same_getArray G hG n n' h "allOf").length_eq, (same_getArray G hG n n' h "oneOf").length_eq,
    (same_getArray G hG n n' h "anyOf").length_eq]

theorem same_itemType (G : Gconv) (hG : G.Respects) (n n' : Option Json) (h : SameNode n n') :
    itemType G n = itemType G n' := by
  have hi : SameNode (some (New G (Get n "items"))) (some (New G (Get n' "items"))) :=
    same_GetJson G n n' h "items"
  unfold itemType
  simp only [GetJson, same_getString G hG n n' h, same_getString G hG _ _ hi]

theorem same_itemRows (G : Gconv) (hG : G.Respects) (j j' : Option Json) (hj : SameNode j j')
    (curPath : String) (it it' : Option Json) (h : SameNode it it') :
    itemRows G j curPath it = itemRows G j' curPath it' := by
  unfold itemRows
  rcases same_mergedProperties G hG j j' hj it it' h with ⟨e, h1, h2⟩ | ⟨p, p', h1, h2, hp⟩
  · rw [h1, h2]; rfl
  · rw [h1, h2]
    simp only [bind, Except.bind, pure, Except.pure]
    rw [sameMap_sorted_keys p p' hp, same_SetFromArray _ _ (same_getArray G hG it it' h "required")]
    congr 1
    apply List.map_congr_left
    intro kk _
    rw [same_itemType G hG _ _ (sameMap_get p p' hp kk),
      same_titleDescription G hG _ _ (sameMap_get p p' hp kk)]


theorem appendRows_congr (keys : List String) (f g : String → Except Stop (List FieldInfo))
    (h : ∀ k ∈ keys, f k = g k) : appendRows keys f = appendRows keys g := by
  induction keys with
  | nil => rfl
  | cons k rest ih =>
    unfold appendRows
    rw [h k (List.mem_cons_self _ _), ih (fun x hx => h x (List.mem_cons_of_mem _ hx))]

theorem same_nestedRows (G : Gconv) (hG : G.Respects)
    (recur recur' : String → String → Except Stop (List FieldInfo))
    (hrec : ∀ r p, recur r p = recur' r p) (req : List String) (curPath nk : String)
    (np np' : Option Json) (h : SameNode np np') :
    nestedRows G recur req curPath nk np = nestedRows G recur' req curPath nk np' := by
  have hi : SameNode (some (New G (Get np "items"))) (some (New G (Get np' "items"))) :=
    same_GetJson G np np' h "items"
  unfold nestedRows
  simp only [GetJson, same_getString G hG np np' h, same_getString G hG _ _ hi,
    same_titleDescription G hG np np' h, hrec]

theorem same_nestedObjectRows (G : Gconv) (hG : G.Respects)
    (recur recur' : String → String → Except Stop (List FieldInfo))
    (hrec : ∀ r p, recur r p = recur' r p) (curPath : String)
    (pj pj' : Option Json) (h : SameNode pj pj') :
    nestedObjectRows G recur curPath pj = nestedObjectRows G recur' curPath pj' := by
  have hp := same_GetJsonMap G hG pj pj' h "properties"
  unfold nestedObjectRows
  simp only [sameMap_len _ _ hp, sameMap_sorted_keys _ _ hp,
    same_SetFromArray _ _ (same_getArray G hG pj pj' h "required")]
  split_ifs
  · apply appendRows_congr
    intro k _
    exact same_nestedRows G hG recur recur' hrec _ curPath k _ _ (sameMap_get _ _ hp k)
  · rfl

theorem same_fieldRows (G : Gconv) (hG : G.Respects) (j j' : Option Json) (hj : SameNode j j')
    (recur recur' : String → String → Except Stop (List FieldInfo))
    (hrec : ∀ r p, recur r p = recur' r p) (req : List String) (pre k : String)
    (pj pj' : Option Json) (h : SameNode pj pj') :
    fieldRows G j recur req pre k pj = fieldRows G j' recur' req pre k pj' := by
  have hi : SameNode (some (New G (Get pj "items"))) (some (New G (Get pj' "items"))) :=
    same_GetJson G pj pj' h "items"
  unfold fieldRows
  simp only [GetJson, same_getString G hG pj pj' h, same_getString G hG _ _ hi,
    same_titleDescription G hG pj pj' h, hrec, same_inlineObj G hG _ _ hi,
    same_itemRows G hG j j' hj _ _ _ hi,
    same_nestedObjectRows G hG recur recur' hrec _ pj pj' h]

theorem same_flattenSchemaFields (G : Gconv) (hG : G.Respects) (j j' : Option Json)
    (hj : SameNode j j') (fuel : Nat) :
    ∀ ref pre : String,
      flattenSchemaFields G fuel j ref pre = flattenSchemaFields G fuel j' ref pre := by
  induction fuel with
  | zero => intro ref pre; rfl
  | succ n ih =>
    intro ref pre
    have hs := same_GetSchema G hG j j' hj (ComponentNameFromRef ref)
    cases h1 : GetSchema G j (ComponentNameFromRef ref) with
    | none =>
      cases h2 : GetSchema G j' (ComponentNameFromRef ref) with
      | none => simp only [flattenSchemaFields, h1, h2]
      | some b => rw [h1, h2] at hs; exact False.elim hs
    | some a =>
      cases h2 : GetSchema G j' (ComponentNameFromRef ref) with
      | none => rw [h1, h2] at hs; exact False.elim hs
      | some b =>
        rw [h1, h2] at hs
        have hsn : SameNode (some a) (some b) := hs
        have hp := same_GetJsonMap G hG _ _ hsn "properties"
        simp only [flattenSchemaFields, h1, h2, sameMap_sorted_keys _ _ hp,
          same_SetFromArray _ _ (same_getArray G hG _ _ hsn "required")]
        apply appendRows_congr
        intro k _
        exact same_fieldRows G hG j j' hj _ _ ih _ pre k _ _ (sameMap_get _ _ hp k)

theorem same_refRows (G : Gconv) (hG : G.Respects) (j j' : Option Json) (hj : SameNode j j')
    (recur recur' : Option Json → String → Except Stop (List FieldInfo))
    (hrec : ∀ s s' p, SameNode s s' → recur s p = recur' s' p) (r p : String)
    (f : List FieldInfo → Except Stop (List FieldInfo)) :
    (match GetRefJSON G j r with
      | some s => recur (some s) p >>= f
      | none => pure [] >>= f) =
    (match GetRefJSON G j' r with
      | some s => recur' (some s) p >>= f
      | none => pure [] >>= f) := by
  have hs := same_GetRefJSON G hG j j' hj r
  cases h1 : GetRefJSON G j r with
  | none =>
    cases h2 : GetRefJSON G j' r with
    | none => rfl
    | some b => rw [h1, h2] at hs; exact False.elim hs
  | some a =>
    cases h2 : GetRefJSON G j' r with
    | none => rw [h1, h2] at hs; exact False.elim hs
    | some b =>
      rw [h1, h2] at hs
      simp only [hrec (some a) (some b) p hs]

theorem same_fieldRowsFromJson (G : Gconv) (hG : G.Respects) (j j' : Option Json)
    (hj : SameNode j j')
    (recur recur' : Option Json → String → Except Stop (List FieldInfo))
    (hrec : ∀ s s' p, SameNode s s' → recur s p = recur' s' p) (req : List String)
    (pre k : String) (pj pj' : Option Json) (h : SameNode pj pj') :
    fieldRowsFromJson G j recur req pre k pj = fieldRowsFromJson G j' recur' req pre k pj' := by
  have hi : SameNode (some (New G (Get pj "items"))) (some (New G (Get pj' "items"))) :=
    same_GetJson G pj pj' h "items"
  unfold fieldRowsFromJson
  simp only [GetJson, same_getString G hG pj pj' h, same_getString G hG _ _ hi,
    same_titleDescription G hG pj pj' h, same_inlineObj G hG _ _ hi,
    same_itemRows G hG j j' hj _ _ _ hi, hrec pj pj' _ h]
  split_ifs
  · exact same_refRows G hG j j' hj recur recur' hrec _ _ _
  · rfl
  · rfl
  · exact same_refRows G hG j j' hj recur recur' hrec _ _ _
  · rfl
  · rfl

theorem same_flattenSchemaFieldsFromJson (G : Gconv) (hG : G.Respects) (j j' : Option Json)
    (hj : SameNode j j') (fuel : Nat) :
    ∀ (s s' : Option Json) (pre : String), SameNode s s' →
      flattenSchemaFieldsFromJson G fuel j s pre =
        flattenSchemaFieldsFromJson G fuel j' s' pre := by
  induction fuel with
  | zero => intro s s' pre _; rfl
  | succ n ih =>
    intro s s' pre hs
    unfold flattenSchemaFieldsFromJson
    cases s with
    | none =>
      cases s' with
      | none => rfl
      | some b => exact False.elim hs
    | some a =>
      cases s' with
      | none => exact False.elim hs
      | some b =>
        simp only
        rcases same_mergedProperties G hG j j' hj _ _ hs with ⟨e, h1, h2⟩ | ⟨p, p', h1, h2, hp⟩
        · rw [h1, h2]; rfl
        · rw [h1, h2]
          simp only [bind, Except.bind]
          rw [sameMap_sorted_keys p p' hp,
            same_SetFromArray _ _ (same_getArray G hG _ _ hs "required")]
          apply appendRows_congr
          intro k _
          exact same_fieldRowsFromJson G hG j j' hj _ _ ih _ pre k _ _ (sameMap_get _ _ hp k)


/-! ## The example builders under another enumeration -/

theorem sameEx_singleton (x y : Ex) (h : SameEx x y) : SameEx (.arr [x]) (.arr [y]) := by
  refine SameEx.arr [x] [y] rfl ?_
  intro i a b ha hb
  cases i with
  | zero => simp at ha hb; subst ha; subst hb; exact h
  | succ n => simp at ha

theorem same_buildMap (f f' : Option Json → Except Stop Ex) (m m' : GoMap Json)
    (hm : SameMap m m')
    (hf : ∀ s s' v, SameNode s s' → f s = .ok v → ∃ v', f' s' = .ok v' ∧ SameEx v v')
    (out : List (String × Ex)) (h : buildMap f m.entries = .ok out) :
    ∃ out', buildMap f' m'.entries = .ok out' ∧ SameEx (.map out) (.map out') := by
  have hkeys := sameMap_keys m m' hm
  have hval : ∀ k pj pj', m.get k = some pj → m'.get k = some pj' →
      ∃ v v', lookup k out = some v ∧ f (some pj) = .ok v ∧ f' (some pj') = .ok v' ∧
        SameEx v v' := by
    intro k pj pj' h1 h2
    obtain ⟨v, hv, hfv⟩ := buildMap_lookup f _ out h k pj (by rw [lookup_entries]; exact h1)
    have hn : SameNode (some pj) (some pj') := by
      have := sameMap_get m m' hm k
      rw [h1, h2] at this
      exact this
    obtain ⟨v', hv', hs⟩ := hf _ _ v hn hfv
    exact ⟨v, v', hv, hfv, hv', hs⟩
  have htot : ∃ out', buildMap f' m'.entries = .ok out' := by
    apply buildMap_total
    intro e he
    obtain ⟨hk, hg⟩ := mem_entries m' e he
    obtain ⟨pj, hpj⟩ := keys_get m e.1 (hkeys.mem_iff.mpr hk)
    obtain ⟨v, v', _, _, hv', _⟩ := hval e.1 pj e.2 hpj hg
    exact ⟨v', hv'⟩
  obtain ⟨out', hout'⟩ := htot
  refine ⟨out', hout', SameEx.map out out' ?_ ?_⟩
  · rw [buildMap_keys f _ out h, buildMap_keys f' _ out' hout', map_fst_entries,
      map_fst_entries]
    exact hkeys
  · intro k v v' hv hv'
    have hk : k ∈ m.keys := by
      rw [← map_fst_entries, ← buildMap_keys f _ out h]
      exact List.mem_map.mpr ⟨(k, v), lookup_mem k out v hv, rfl⟩
    obtain ⟨pj, hpj⟩ := keys_get m k hk
    obtain ⟨pj', hpj'⟩ := keys_get m' k (hkeys.mem_iff.mp hk)
    obtain ⟨v0, v0', h0, _, hf0', hs⟩ := hval k pj pj' hpj hpj'
    obtain ⟨v1, h1, hf1⟩ := buildMap_lookup f' _ out' hout' k pj'
      (by rw [lookup_entries]; exact hpj')
    rw [hv] at h0; cases h0
    rw [hv'] at h1; cases h1
    rw [hf0'] at hf1; cases hf1
    exact hs

theorem same_exampleValue (G : Gconv) (hG : G.Respects) (j j' : Option Json)
    (hj : SameNode j j') (fuel : Nat) :
    ∀ (ref : String) (v : Ex), exampleValue G fuel j ref = .ok v →
      ∃ v', exampleValue G fuel j' ref = .ok v' ∧ SameEx v v' := by
  induction fuel with
  | zero => intro ref v h; simp [exampleValue] at h
  | succ n ih =>
    intro ref v h
    have hs := same_GetSchema G hG j j' hj (ComponentNameFromRef ref)
    cases h1 : GetSchema G j (ComponentNameFromRef ref) with
    | none =>
      cases h2 : GetSchema G j' (ComponentNameFromRef ref) with
      | none =>
        simp only [exampleValue, h1] at h
        cases h
        exact ⟨.null, by simp only [exampleValue, h2], SameEx.refl _⟩
      | some b => rw [h1, h2] at hs; exact False.elim hs
    | some a =>
      cases h2 : GetSchema G j' (ComponentNameFromRef ref) with
      | none => rw [h1, h2] at hs; exact False.elim hs
      | some b =>
        rw [h1, h2] at hs
        have hsn : SameNode (some a) (some b) := hs
        have hp := same_GetJsonMap G hG _ _ hsn "properties"
        simp only [exampleValue, h1] at h
        simp only [exampleValue, h2, ← same_getString G hG _ _ hsn, ← sameMap_len _ _ hp]
        split_ifs at h ⊢ with hc
        · obtain ⟨m, hm, h3⟩ := bind_eq_ok _ _ _ h
          cases h3
          obtain ⟨m', hm', hsame⟩ := same_buildMap _
            (fun pj => if getString G pj "$ref" ≠ "" then exampleValue G n j' (getString G pj "$ref")
              else pure (scalarExample (getString G pj "type"))) _ _ hp
            (fun s s' v hss hv => by
              simp only [← same_getString G hG s s' hss] at hv ⊢
              split_ifs at hv ⊢
              · exact ih _ _ hv
              · exact ⟨v, hv, SameEx.refl _⟩) m hm
          refine ⟨.map m', ?_, hsame⟩
          show (buildMap _ _ >>= _) = _
          rw [hm']; rfl
        · cases h
          exact ⟨_, rfl, SameEx.refl _⟩

theorem same_arrayExample (G : Gconv) (hG : G.Respects) (j j' : Option Json)
    (hj : SameNode j j') (recur recur' : Option Json → Except Stop Ex)
    (hrec : ∀ s s' v, SameNode s s' → recur s = .ok v → ∃ v', recur' s' = .ok v' ∧ SameEx v v')
    (node node' : Option Json) (hn : SameNode node node') (v : Ex)
    (h : arrayExample G j recur node = .ok v) :
    ∃ v', arrayExample G j' recur' node' = .ok v' ∧ SameEx v v' := by
  have hi : SameNode (some (New G (Get node "items"))) (some (New G (Get node' "items"))) :=
    same_GetJson G node node' hn "items"
  unfold arrayExample at h ⊢
  simp only [GetJson] at h ⊢
  simp only [← same_getString G hG _ _ hi]
  split_ifs at h ⊢
  · obtain ⟨x, hx, h3⟩ := bind_eq_ok _ _ _ h
    cases h3
    obtain ⟨x', hx', hs⟩ := hrec _ _ x (same_GetRefJSON G hG j j' hj _) hx
    exact ⟨.arr [x'], by simp [hx', bind, Except.bind, pure, Except.pure],
      sameEx_singleton x x' hs⟩
  · obtain ⟨x, hx, h3⟩ := bind_eq_ok _ _ _ h
    cases h3
    obtain ⟨x', hx', hs⟩ := hrec _ _ x hi hx
    exact ⟨.arr [x'], by simp [hx', bind, Except.bind, pure, Except.pure],
      sameEx_singleton x x' hs⟩
  · cases h
    exact ⟨_, rfl, SameEx.refl _⟩

theorem same_propExample (G : Gconv) (hG : G.Respects) (j j' : Option Json)
    (hj : SameNode j j') (recur recur' : Option Json → Except Stop Ex)
    (hrec : ∀ s s' v, SameNode s s' → recur s = .ok v → ∃ v', recur' s' = .ok v' ∧ SameEx v v')
    (pj pj' : Option Json) (hn : SameNode pj pj') (v : Ex)
    (h : propExample G j recur pj = .ok v) :
    ∃ v', propExample G j' recur' pj' = .ok v' ∧ SameEx v v' := by
  unfold propExample at h ⊢
  simp only [] at h ⊢
  simp only [← same_getString G hG _ _ hn]
  split_ifs at h ⊢
  · exact hrec _ _ v (same_GetRefJSON G hG j j' hj _) h
  · exact ⟨v, h, SameEx.refl _⟩
  · exact ⟨v, h, SameEx.refl _⟩
  · exact ⟨v, h, SameEx.refl _⟩
  · exact ⟨v, h, SameEx.refl _⟩
  · exact hrec _ _ v hn h
  · exact same_arrayExample G hG j j' hj recur recur' hrec pj pj' hn v h
  · exact ⟨v, h, SameEx.refl _⟩

theorem same_exampleValueFromSchema (G : Gconv) (hG : G.Respects) (j j' : Option Json)
    (hj : SameNode j j') (fuel : Nat) :
    ∀ (s s' : Option Json) (v : Ex), SameNode s s' →
      exampleValueFromSchema G fuel j s = .ok v →
      ∃ v', exampleValueFromSchema G fuel j' s' = .ok v' ∧ SameEx v v' := by
  induction fuel with
  | zero => intro s s' v _ h; simp [exampleValueFromSchema] at h
  | succ n ih =>
    intro s s' v hs h
    cases s with
    | none =>
      cases s' with
      | none => exact ⟨v, h, SameEx.refl _⟩
      | some b => exact False.elim hs
    | some a =>
      cases s' with
      | none => exact False.elim hs
      | some b =>
        have hp := same_GetJsonMap G hG _ _ hs "properties"
        unfold exampleValueFromSchema at h ⊢
        simp only at h ⊢
        simp only [← same_getString G hG _ _ hs, ← sameMap_len _ _ hp]
        split_ifs at h ⊢
        · exact ih _ _ v (same_GetRefJSON G hG j j' hj _) h
        · exact same_arrayExample G hG j j' hj _ _ ih _ _ hs v h
        · obtain ⟨m, hm, h3⟩ := bind_eq_ok _ _ _ h
          cases h3
          obtain ⟨m', hm', hsame⟩ := same_buildMap _
            (propExample G j' (fun s => exampleValueFromSchema G n j' s)) _ _ hp
            (fun s s' v hss hv => same_propExample G hG j j' hj _ _ ih s s' hss v hv) m hm
          refine ⟨.map m', ?_, hsame⟩
          show (buildMap _ _ >>= _) = _
          rw [hm']; rfl
        · cases h
          exact ⟨_, rfl, SameEx.refl _⟩


/-! ## Siblings come in ascending order -/

theorem appendRows_chunks (keys : List String) (f : String → Except Stop (List FieldInfo))
    (out : List FieldInfo) (h : appendRows keys f = .ok out) :
    ∃ chunks : List (List FieldInfo), out = chunks.flatten ∧
      List.Forall₂ (fun k c => f k = .ok c) keys chunks := by
  induction keys generalizing out with
  | nil =>
    simp only [appendRows, pure, Except.pure] at h
    cases h
    exact ⟨[], rfl, List.Forall₂.nil⟩
  | cons k rest ih =>
    unfold appendRows at h
    obtain ⟨rows, hrows, h1⟩ := bind_eq_ok _ _ _ h
    obtain ⟨more, hmore, h2⟩ := bind_eq_ok _ _ _ h1
    cases h2
    obtain ⟨chunks, hj, hall⟩ := ih more hmore
    exact ⟨rows :: chunks, by rw [hj]; rfl, List.Forall₂.cons hrows hall⟩

theorem sameJson_cons (k : String) (v v' : Json) (rest : List (String × Json))
    (h : SameJson v v') : SameJson (.obj ((k, v) :: rest)) (.obj ((k, v') :: rest)) := by
  refine SameJson.obj _ _ (List.Perm.refl _) ?_
  intro k0 w w' hw hw'
  by_cases e : k = k0
  · simp only [lookup, e, if_true, Option.some.injEq] at hw hw'
    subst hw; subst hw'; exact h
  · simp only [lookup, e, if_false] at hw hw'
    rw [hw] at hw'; cases hw'; exact SameJson.refl _

theorem sameJson_swap (k1 k2 : String) (v1 v2 : Json) (hne : k1 ≠ k2) :
    SameJson (.obj [(k1, v1), (k2, v2)]) (.obj [(k2, v2), (k1, v1)]) := by
  have hne' : k2 ≠ k1 := fun e => hne e.symm
  refine SameJson.obj _ _ ?_ ?_
  · simp only [mapKeys, List.filter_nil, List.filter_cons, hne, hne', ne_eq, not_false_eq_true,
      decide_True, if_true]
    exact List.Perm.swap _ _ _
  · intro k w w' hw hw'
    by_cases e1 : k1 = k
    · subst e1
      simp only [lookup, if_true, hne', if_false, Option.some.injEq] at hw hw'
      subst hw; subst hw'; exact SameJson.refl _
    · by_cases e2 : k2 = k
      · subst e2
        simp only [lookup, if_true, hne, if_false, Option.some.injEq] at hw hw'
        subst hw; subst hw'; exact SameJson.refl _
      · simp [lookup, e1, e2] at hw

theorem plain_respects : Gconv.plain.Respects := by
  refine ⟨?_, ?_, ?_⟩
  · intro v v' h
    cases h with
    | refl => rfl
    | arr _ _ _ _ => rfl
    | obj _ _ _ _ => rfl
  · intro v v' h
    exact List.Forall₂.cons h List.Forall₂.nil
  · intro v v' _
    exact sameEntries_refl _

theorem abDoc_baDoc : SameNode (some abDoc) (some baDoc) :=
  sameJson_cons _ _ _ _ (sameJson_cons _ _ _ _ (sameJson_cons _ _ _ _
    (sameJson_cons _ _ _ _ (sameJson_swap "a" "b" _ _ (by decide)))))


/-- Claim C12: for two enumerations of the maps of the same document and
schema, flattenSchemaFields and flattenSchemaFieldsFromJson return the same
list (or stop in the same way), and exampleValue and exampleValueFromSchema
return the same value, a Go map being its keys and the value under each key;
the keys of a schema are visited in the order given by SortStrings, which is
ascending and the same for every enumeration, so the rows of sibling properties
follow one another in ascending order of their names. -/
theorem flatten_example_order_independent (G : Gconv) (hG : G.Respects) (j j' : Option Json)
    (hj : SameNode j j') :
    (∀ (fuel : Nat) (ref pre : String),
      flattenSchemaFields G fuel j ref pre = flattenSchemaFields G fuel j' ref pre) ∧
    (∀ (fuel : Nat) (s s' : Option Json) (pre : String), SameNode s s' →
      flattenSchemaFieldsFromJson G fuel j s pre =
        flattenSchemaFieldsFromJson G fuel j' s' pre) ∧
    (∀ (fuel : Nat) (ref : String) (v : Ex), exampleValue G fuel j ref = .ok v →
      ∃ v', exampleValue G fuel j' ref = .ok v' ∧ SameEx v v') ∧
    (∀ (fuel : Nat) (s s' : Option Json) (v : Ex), SameNode s s' →
      exampleValueFromSchema G fuel j s = .ok v →
      ∃ v', exampleValueFromSchema G fuel j' s' = .ok v' ∧ SameEx v v') ∧
    (∀ keys keys' : List String, keys.Perm keys' →
      SortStrings keys = SortStrings keys' ∧ (SortStrings keys).Perm keys ∧
        (SortStrings keys).Pairwise (fun a b => strGt a.data b.data = false)) ∧
    (∀ (fuel : Nat) (ref pre : String) (sj : Json) (out : List FieldInfo),
      GetSchema G j (ComponentNameFromRef ref) = some sj →
      flattenSchemaFields G fuel j ref pre = .ok out →
      ∃ chunks : List (List FieldInfo), out = chunks.flatten ∧
        List.Forall₂ (fun k c => ∃ row rest, c = row :: rest ∧
            (row.Path = joinPath pre k ∨ row.Path = joinPath pre k ++ "[]"))
          (SortStrings (GetJsonMap G (some sj) "properties").keys) chunks) ∧
    (∀ (fuel : Nat) (s : Json) (pre : String) (props : GoMap Json) (out : List FieldInfo),
      mergedProperties G j (some s) = .ok props →
      flattenSchemaFieldsFromJson G fuel j (some s) pre = .ok out →
      ∃ chunks : List (List FieldInfo), out = chunks.flatten ∧
        List.Forall₂ (fun k c => ∃ row rest, c = row :: rest ∧
            (row.Path = joinPath pre k ∨ row.Path = joinPath pre k ++ "[]"))
          (SortStrings props.keys) chunks) := by
  refine ⟨same_flattenSchemaFields G hG j j' hj, same_flattenSchemaFieldsFromJson G hG j j' hj,
    same_exampleValue G hG j j' hj, same_exampleValueFromSchema G hG j j' hj,
    fun keys keys' hp => ⟨SortStrings_congr _ _ hp, SortStrings_perm _, SortStrings_ascending _⟩,
    ?_, ?_⟩
  · intro fuel ref pre sj out hs h
    cases fuel with
    | zero => simp [flattenSchemaFields] at h
    | succ n =>
      simp only [flattenSchemaFields, hs] at h
      obtain ⟨chunks, hc, hall⟩ := appendRows_chunks _ _ out h
      refine ⟨chunks, hc, hall.imp ?_⟩
      intro k c hkc
      obtain ⟨row, rest, e, hp, _⟩ := fieldRows_head G j _ _ pre k _ c hkc
      exact ⟨row, rest, e, hp⟩
  · intro fuel s pre props out hm h
    cases fuel with
    | zero => simp [flattenSchemaFieldsFromJson] at h
    | succ n =>
      simp only [flattenSchemaFieldsFromJson, hm, bind, Except.bind] at h
      obtain ⟨chunks, hc, hall⟩ := appendRows_chunks _ _ out h
      refine ⟨chunks, hc, hall.imp ?_⟩
      intro k c hkc
      obtain ⟨row, rest, e, hp, _⟩ := fieldRowsFromJson_head G j _ _ pre k _ c hkc
      exact ⟨row, rest, e, hp⟩

theorem flatten_example_order_independent_witness :
    Gconv.plain.Respects ∧ SameNode (some abDoc) (some baDoc) ∧
      flattenSchemaFields Gconv.plain 1 (some abDoc) "#/components/schemas/Foo" "" =
        flattenSchemaFields Gconv.plain 1 (some baDoc) "#/components/schemas/Foo" "" ∧
      flattenSchemaFields Gconv.plain 1 (some baDoc) "#/components/schemas/Foo" "" =
        .ok [{ Path := "a", Required := false, Typ := "string", Desc := "" },
             { Path := "b", Required := false, Typ := "integer", Desc := "" }] ∧
      exampleValue Gconv.plain 1 (some abDoc) "#/components/schemas/Foo" =
        .ok (.map [("a", .str "string"), ("b", .int 0)]) ∧
      exampleValue Gconv.plain 1 (some baDoc) "#/components/schemas/Foo" =
        .ok (.map [("b", .int 0), ("a", .str "string")]) :=
  ⟨plain_respects, abDoc_baDoc,
    (flatten_example_order_independent Gconv.plain plain_respects (some abDoc) (some baDoc)
      abDoc_baDoc).1 1 "#/components/schemas/Foo" "",
    rfl, rfl, rfl⟩




/-! ## SortStrings -/

/-- Claim C30: the result of SortStrings is in ascending (non-decreasing)
order, no element being greater than a later one, and is a permutation of the
slice it was given, of the same length. -/
theorem SortStrings_sorted_perm (a : List String) :
    (SortStrings a).Pairwise (fun x y => strGt x.data y.data = false) ∧
      (SortStrings a).Perm a ∧ (SortStrings a).length = a.length ∧
      (∀ s : String, (SortStrings a).count s = a.count s) :=
  ⟨SortStrings_ascending a, SortStrings_perm a, (SortStrings_perm a).length_eq,
    fun s => (SortStrings_perm a).count_eq s⟩

/-! ## The example filter -/

theorem lookup_filterTopEntry (aset : List String) (m : List (String × Ex)) (k : String) :
    lookup k (m.map (filterTopEntry aset)) =
      (lookup k m).map (fun v => if k = "data" then filterValueLeaves aset v "data" else v) := by
  induction m with
  | nil => rfl
  | cons kv rest ih =>
    obtain ⟨k0, v0⟩ := kv
    have hk : (filterTopEntry aset (k0, v0)).1 = k0 := by
      unfold filterTopEntry; split_ifs <;> rfl
    have hv : (filterTopEntry aset (k0, v0)).2 =
        if k0 = "data" then filterValueLeaves aset v0 "data" else v0 := by
      unfold filterTopEntry
      by_cases h1 : k0 = "code"
      · subst h1; simp
      · by_cases h2 : k0 = "message"
        · subst h2; simp
        · by_cases h3 : k0 = "data" <;> simp [h1, h2, h3]
    rw [List.map_cons]
    have e : filterTopEntry aset (k0, v0) =
        ((filterTopEntry aset (k0, v0)).1, (filterTopEntry aset (k0, v0)).2) := rfl
    rw [e, hk, hv]
    by_cases h : k0 = k
    · subst h; simp [lookup]
    · simp [lookup, h, ih]

/-- Claim C21: on an example that is a map, filterExampleDataLeaves returns a
map with the same keys in the same places, in which every entry whose key is
not `data` is the original entry, code and message included, and the value
under `data` is filterValueLeaves of the original value with the path root
`data`; an example that is not a map is returned unchanged. -/
theorem filterExampleDataLeaves_frame (allowed : List String) :
    (∀ m : List (String × Ex), ∃ m' : List (String × Ex),
      filterExampleDataLeaves (.map m) allowed = .map m' ∧
      m'.map Prod.fst = m.map Prod.fst ∧
      (∀ kv ∈ m, kv.1 ≠ "data" → kv ∈ m') ∧
      (∀ kv ∈ m', kv.1 ≠ "data" → kv ∈ m) ∧
      (∀ k : String, lookup k m' = (lookup k m).map (fun v =>
        if k = "data" then filterValueLeaves (normalizeAllowed allowed) v "data" else v))) ∧
    (∀ ex : Ex, (∀ m, ex ≠ .map m) → filterExampleDataLeaves ex allowed = ex) := by
  constructor
  · intro m
    have hid : ∀ kv : String × Ex, kv.1 ≠ "data" →
        filterTopEntry (normalizeAllowed allowed) kv = kv := by
      intro kv h
      unfold filterTopEntry
      split_ifs <;> rfl
    have hfst : ∀ kv : String × Ex, (filterTopEntry (normalizeAllowed allowed) kv).1 = kv.1 := by
      intro kv
      unfold filterTopEntry
      split_ifs <;> rfl
    refine ⟨m.map (filterTopEntry (normalizeAllowed allowed)), rfl, ?_, ?_, ?_, ?_⟩
    · rw [List.map_map]
      exact List.map_congr_left (fun kv _ => hfst kv)
    · intro kv hkv hne
      exact List.mem_map.mpr ⟨kv, hkv, hid kv hne⟩
    · intro kv hkv hne
      obtain ⟨kv0, h0, e⟩ := List.mem_map.mp hkv
      have h1 : kv0.1 ≠ "data" := by
        have := hfst kv0
        rw [e] at this
        rw [← this]; exact hne
      rw [hid kv0 h1] at e
      rw [← e]; exact h0
    · exact lookup_filterTopEntry _ m
  · intro ex h
    cases ex with
    | map m => exact absurd rfl (h m)
    | _ => rfl


theorem filterMapLeaves_cons (aset : List String) (k : String) (vv : Ex)
    (rest : List (String × Ex)) (pre : String) :
    filterMapLeaves aset ((k, vv) :: rest) pre =
      if isLeaf vv then
        if aset.contains k || matchAllowedPath aset (pathJoin pre k) then
          (k, vv) :: filterMapLeaves aset rest pre
        else filterMapLeaves aset rest pre
      else
        if isNonEmpty (filterValueLeaves aset vv (pathJoin pre k)) then
          (k, filterValueLeaves aset vv (pathJoin pre k)) :: filterMapLeaves aset rest pre
        else filterMapLeaves aset rest pre := by
  cases vv <;> simp [filterMapLeaves, filterValueLeaves, isLeaf]

theorem mem_filterMapLeaves (aset : List String) (kvs : List (String × Ex)) (pre : String)
    (e : String × Ex) :
    e ∈ filterMapLeaves aset kvs pre ↔
      ∃ k vv, (k, vv) ∈ kvs ∧
        ((isLeaf vv = true ∧
            (aset.contains k || matchAllowedPath aset (pathJoin pre k)) = true ∧ e = (k, vv)) ∨
          (isLeaf vv = false ∧
            isNonEmpty (filterValueLeaves aset vv (pathJoin pre k)) = true ∧
            e = (k, filterValueLeaves aset vv (pathJoin pre k)))) := by
  induction kvs with
  | nil => simp [filterMapLeaves]
  | cons kv rest ih =>
    obtain ⟨k0, v0⟩ := kv
    rw [filterMapLeaves_cons]
    constructor
    · intro h
      split_ifs at h with h1 h2 h2
      · rcases List.mem_cons.mp h with e1 | e1
        · exact ⟨k0, v0, List.mem_cons_self _ _, Or.inl ⟨h1, h2, e1⟩⟩
        · obtain ⟨k, vv, hm, hc⟩ := ih.mp e1
          exact ⟨k, vv, List.mem_cons_of_mem _ hm, hc⟩
      · obtain ⟨k, vv, hm, hc⟩ := ih.mp h
        exact ⟨k, vv, List.mem_cons_of_mem _ hm, hc⟩
      · rcases List.mem_cons.mp h with e1 | e1
        · exact ⟨k0, v0, List.mem_cons_self _ _,
            Or.inr ⟨Bool.eq_false_iff.mpr h1, h2, e1⟩⟩
        · obtain ⟨k, vv, hm, hc⟩ := ih.mp e1
          exact ⟨k, vv, List.mem_cons_of_mem _ hm, hc⟩
      · obtain ⟨k, vv, hm, hc⟩ := ih.mp h
        exact ⟨k, vv, List.mem_cons_of_mem _ hm, hc⟩
    · rintro ⟨k, vv, hm, hc⟩
      rcases List.mem_cons.mp hm with e1 | e1
      · cases e1
        rcases hc with ⟨h1, h2, rfl⟩ | ⟨h1, h2, rfl⟩
        · rw [if_pos h1, if_pos h2]; exact List.mem_cons_self _ _
        · rw [if_neg (by rw [h1]; decide), if_pos h2]; exact List.mem_cons_self _ _
      · have := ih.mpr ⟨k, vv, e1, hc⟩
        split_ifs
        · exact List.mem_cons_of_mem _ this
        · exact this
        · exact List.mem_cons_of_mem _ this
        · exact this

theorem isLeaf_filterValueLeaves (aset : List String) (v : Ex) (pre : String) :
    isLeaf (filterValueLeaves aset v pre) = isLeaf v := by
  cases v <;> simp [filterValueLeaves, isLeaf]

theorem filterValueLeaves_leaf (aset : List String) (v : Ex) (pre : String)
    (h : isLeaf v = true) : filterValueLeaves aset v pre = v := by
  cases v <;> simp [filterValueLeaves, isLeaf] at h ⊢

theorem leafAt_isNonEmpty (t : Ex) (pre k P : String) (v : Ex) (h : LeafAt t pre k P v) :
    isNonEmpty t = true := by
  cases h with
  | leaf kvs _ _ _ hm _ =>
    simp only [isNonEmpty, decide_eq_true_eq]
    exact List.length_pos_of_mem hm
  | inMap kvs _ _ _ _ _ _ hm _ _ =>
    simp only [isNonEmpty, decide_eq_true_eq]
    exact List.length_pos_of_mem hm
  | inArr x rest _ _ _ _ _ => simp [isNonEmpty]

theorem leafAt_filter_of (aset : List String) (t : Ex) (pre k P : String) (v : Ex)
    (h : LeafAt t pre k P v)
    (hal : (aset.contains k || matchAllowedPath aset P) = true) :
    LeafAt (filterValueLeaves aset t pre) pre k P v := by
  induction h with
  | leaf kvs pre k v hm hl =>
    simp only [filterValueLeaves]
    exact LeafAt.leaf _ pre k v
      ((mem_filterMapLeaves aset kvs pre (k, v)).mpr ⟨k, v, hm, Or.inl ⟨hl, hal, rfl⟩⟩) hl
  | inMap kvs pre k0 sub k P v hm hl _ ih =>
    simp only [filterValueLeaves]
    have h1 := ih hal
    refine LeafAt.inMap _ pre k0 (filterValueLeaves aset sub (pathJoin pre k0)) k P v
      ((mem_filterMapLeaves aset kvs pre _).mpr
        ⟨k0, sub, hm, Or.inr ⟨hl, leafAt_isNonEmpty _ _ _ _ _ h1, rfl⟩⟩) ?_ h1
    rw [isLeaf_filterValueLeaves]; exact hl
  | inArr x rest pre k P v _ ih =>
    have h1 := ih hal
    simp only [filterValueLeaves, filterArrayLeaves, leafAt_isNonEmpty _ _ _ _ _ h1, if_true]
    exact LeafAt.inArr _ [] pre k P v h1

theorem leafAt_of_filter (aset : List String) (u : Ex) (pre k P : String) (v : Ex)
    (h : LeafAt u pre k P v) :
    ∀ t : Ex, u = filterValueLeaves aset t pre →
      LeafAt t pre k P v ∧ (aset.contains k || matchAllowedPath aset P) = true := by
  induction h with
  | leaf kvs' pre k v hm hl =>
    intro t ht
    cases t with
    | map kvs =>
      simp only [filterValueLeaves, Ex.map.injEq] at ht
      subst ht
      obtain ⟨k1, vv, hm1, hc⟩ := (mem_filterMapLeaves aset kvs pre (k, v)).mp hm
      rcases hc with ⟨h1, h2, e⟩ | ⟨h1, _, e⟩
      · cases e
        exact ⟨LeafAt.leaf kvs pre k v hm1 hl, h2⟩
      · cases e
        rw [isLeaf_filterValueLeaves, h1] at hl
        cases hl
    | arr xs => simp [filterValueLeaves] at ht
    | null => simp [filterValueLeaves] at ht
    | str s => simp [filterValueLeaves] at ht
    | int n => simp [filterValueLeaves] at ht
    | bool b => simp [filterValueLeaves] at ht
  | inMap kvs' pre k0 sub' k P v hm hl _ ih =>
    intro t ht
    cases t with
    | map kvs =>
      simp only [filterValueLeaves, Ex.map.injEq] at ht
      subst ht
      obtain ⟨k1, vv, hm1, hc⟩ := (mem_filterMapLeaves aset kvs pre (k0, sub')).mp hm
      rcases hc with ⟨h1, _, e⟩ | ⟨h1, _, e⟩
      · cases e
        rw [h1] at hl; cases hl
      · cases e
        obtain ⟨h3, h4⟩ := ih vv rfl
        exact ⟨LeafAt.inMap kvs pre k0 vv k P v hm1 h1 h3, h4⟩
    | arr xs => simp [filterValueLeaves] at ht
    | null => simp [filterValueLeaves] at ht
    | str s => simp [filterValueLeaves] at ht
    | int n => simp [filterValueLeaves] at ht
    | bool b => simp [filterValueLeaves] at ht
  | inArr x' rest' pre k P v _ ih =>
    intro t ht
    cases t with
    | arr xs =>
      cases xs with
      | nil => simp [filterValueLeaves, filterArrayLeaves] at ht
      | cons x rest =>
        simp only [filterValueLeaves, filterArrayLeaves, Ex.arr.injEq] at ht
        split_ifs at ht
        · simp only [List.cons.injEq] at ht
          obtain ⟨h3, h4⟩ := ih x ht.1
          exact ⟨LeafAt.inArr x rest pre k P v h3, h4⟩
    | map kvs => simp [filterValueLeaves] at ht
    | null => simp [filterValueLeaves] at ht
    | str s => simp [filterValueLeaves] at ht
    | int n => simp [filterValueLeaves] at ht
    | bool b => simp [filterValueLeaves] at ht

/-- Claim C22: in the map loop of filterValueLeaves under the prefix `pre`, a
leaf entry at key k is kept, with its original value, if and only if k is in
the allow set or its path pathJoin pre k is (as it is, with `[].` rewritten to
`[]`, or with every `[]` removed); a map or array entry is kept, with its
filtered value, if and only if that value is non-empty; an array is filtered
through its first element under the prefix followed by `[]`; so a leaf at key
k with dotted path P is in the filtered value exactly when it is in the
original one and k or P is allowed. -/
theorem filterValueLeaves_keeps (aset : List String) :
    (∀ (kvs : List (String × Ex)) (pre k : String) (v : Ex), (k, v) ∈ kvs → isLeaf v = true →
      ((k, v) ∈ filterMapLeaves aset kvs pre ↔
        (k ∈ aset ∨ pathJoin pre k ∈ aset ∨ ReplaceAll (pathJoin pre k) "[]." "[]" ∈ aset ∨
          ReplaceAll (pathJoin pre k) "[]" "" ∈ aset))) ∧
    (∀ (kvs : List (String × Ex)) (pre k : String) (sub : Ex), (k, sub) ∈ kvs →
      isLeaf sub = false →
      ((k, filterValueLeaves aset sub (pathJoin pre k)) ∈ filterMapLeaves aset kvs pre ↔
        isNonEmpty (filterValueLeaves aset sub (pathJoin pre k)) = true)) ∧
    (∀ (kvs : List (String × Ex)) (pre : String) (e : String × Ex),
      e ∈ filterMapLeaves aset kvs pre →
      (e ∈ kvs ∧ isLeaf e.2 = true) ∨
        (∃ sub, (e.1, sub) ∈ kvs ∧ isLeaf sub = false ∧
          e.2 = filterValueLeaves aset sub (pathJoin pre e.1))) ∧
    (∀ (kvs : List (String × Ex)) (pre : String),
      filterValueLeaves aset (.map kvs) pre = .map (filterMapLeaves aset kvs pre)) ∧
    (∀ (x : Ex) (rest : List Ex) (pre : String),
      filterValueLeaves aset (.arr (x :: rest)) pre =
        if isNonEmpty (filterValueLeaves aset x (pre ++ "[]")) then
          .arr [filterValueLeaves aset x (pre ++ "[]")]
        else .arr []) ∧
    (∀ (t : Ex) (pre k P : String) (v : Ex),
      LeafAt (filterValueLeaves aset t pre) pre k P v ↔
        LeafAt t pre k P v ∧
          (k ∈ aset ∨ P ∈ aset ∨ ReplaceAll P "[]." "[]" ∈ aset ∨
            ReplaceAll P "[]" "" ∈ aset)) := by
  have hal : ∀ k P : String, (aset.contains k || matchAllowedPath aset P) = true ↔
      (k ∈ aset ∨ P ∈ aset ∨ ReplaceAll P "[]." "[]" ∈ aset ∨ ReplaceAll P "[]" "" ∈ aset) := by
    intro k P
    simp [matchAllowedPath, or_assoc]
  refine ⟨?_, ?_, ?_, fun _ _ => by simp only [filterValueLeaves], ?_, ?_⟩
  · intro kvs pre k v hm hl
    rw [← hal, mem_filterMapLeaves]
    constructor
    · rintro ⟨k1, vv, _, ⟨_, h2, e⟩ | ⟨h1, _, e⟩⟩
      · cases e; exact h2
      · cases e
        rw [isLeaf_filterValueLeaves, h1] at hl; cases hl
    · intro h
      exact ⟨k, v, hm, Or.inl ⟨hl, h, rfl⟩⟩
  · intro kvs pre k sub hm hl
    rw [mem_filterMapLeaves]
    constructor
    · rintro ⟨k1, vv, _, ⟨h1, _, e⟩ | ⟨_, h2, e⟩⟩
      · cases e
        rw [isLeaf_filterValueLeaves, hl] at h1; cases h1
      · simp only [Prod.mk.injEq] at e
        obtain ⟨e1, e2⟩ := e
        subst e1
        rw [e2]; exact h2
    · intro h
      exact ⟨k, sub, hm, Or.inr ⟨hl, h, rfl⟩⟩
  · intro kvs pre e he
    obtain ⟨k, vv, hm, ⟨h1, _, rfl⟩ | ⟨h1, _, rfl⟩⟩ := (mem_filterMapLeaves aset kvs pre e).mp he
    · exact Or.inl ⟨hm, h1⟩
    · exact Or.inr ⟨vv, hm, h1, rfl⟩
  · intro x rest pre
    simp only [filterValueLeaves, filterArrayLeaves]
    split_ifs <;> rfl
  · intro t pre k P v
    rw [← hal]
    exact ⟨fun h => leafAt_of_filter aset _ pre k P v h t rfl,
      fun h => leafAt_filter_of aset t pre k P v h.1 h.2⟩




/-! ## HTMLEscape -/

theorem replaceScan_single (c : Char) (new : List Char) (s : List Char) :
    replaceScan [c] new 0 s = s.flatMap (fun x => if x = c then new else [x]) := by
  induction s with
  | nil => rfl
  | cons x rest ih =>
    by_cases h : x = c
    · subst h
      rw [replaceScan_match _ _ _ _ (by simp [List.isPrefixOf])]
      simp [ih]
    · have h' : (c == x) = false := by simpa using fun e : c = x => h e.symm
      rw [replaceScan_no_match _ _ _ _ (by simp [List.isPrefixOf, h'])]
      simp [ih, h]

theorem HTMLEscape_data (s : String) : (HTMLEscape s).data = s.data.flatMap escapeChar := by
  unfold HTMLEscape ReplaceAll
  simp only []
  rw [replaceScan_single, replaceScan_single, replaceScan_single,
    replaceScan_single, List.flatMap_assoc, List.flatMap_assoc, List.flatMap_assoc]
  apply List.flatMap_congr
  intro x _
  unfold escapeChar
  by_cases h1 : x = '&'
  · subst h1; decide
  · by_cases h2 : x = '<'
    · subst h2; decide
    · by_cases h3 : x = '>'
      · subst h3; decide
      · by_cases h4 : x = '"'
        · subst h4; decide
        · simp [h1, h2, h3, h4]


theorem escapeChar_cases (x : Char) :
    (x = '&' ∧ escapeChar x = "&amp;".data) ∨ (x = '<' ∧ escapeChar x = "&lt;".data) ∨
      (x = '>' ∧ escapeChar x = "&gt;".data) ∨ (x = '"' ∧ escapeChar x = "&quot;".data) ∨
      (x ≠ '&' ∧ x ≠ '<' ∧ x ≠ '>' ∧ x ≠ '"' ∧ escapeChar x = [x]) := by
  unfold escapeChar
  by_cases h1 : x = '&'
  · subst h1; exact Or.inl ⟨rfl, rfl⟩
  · by_cases h2 : x = '<'
    · subst h2; exact Or.inr (Or.inl ⟨rfl, rfl⟩)
    · by_cases h3 : x = '>'
      · subst h3; exact Or.inr (Or.inr (Or.inl ⟨rfl, rfl⟩))
      · by_cases h4 : x = '"'
        · subst h4; exact Or.inr (Or.inr (Or.inr (Or.inl ⟨rfl, rfl⟩)))
        · exact Or.inr (Or.inr (Or.inr (Or.inr ⟨h1, h2, h3, h4, by simp [h1, h2, h3, h4]⟩)))

theorem escaped_no_markup (s : List Char) :
    ∀ c ∈ s.flatMap escapeChar, c ≠ '<' ∧ c ≠ '>' ∧ c ≠ '"' := by
  intro c hc
  obtain ⟨x, _, hx⟩ := List.mem_flatMap.mp hc
  clear hc
  rcases escapeChar_cases x with ⟨_, e⟩ | ⟨_, e⟩ | ⟨_, e⟩ | ⟨_, e⟩ | ⟨_, h2, h3, h4, e⟩
  · rw [e] at hx; revert c; decide
  · rw [e] at hx; revert c; decide
  · rw [e] at hx; revert c; decide
  · rw [e] at hx; revert c; decide
  · rw [e] at hx
    rw [List.mem_singleton.mp hx]
    exact ⟨h2, h3, h4⟩

theorem escaped_entitiesOnly (s : List Char) : entitiesOnly (s.flatMap escapeChar) = true := by
  induction s with
  | nil => rfl
  | cons x rest ih =>
    rw [List.flatMap_cons]
    rcases escapeChar_cases x with ⟨_, e⟩ | ⟨_, e⟩ | ⟨_, e⟩ | ⟨_, e⟩ | ⟨h1, _, _, _, e⟩
    · rw [e]; simp [entitiesOnly, List.isPrefixOf, ih]
    · rw [e]; simp [entitiesOnly, List.isPrefixOf, ih]
    · rw [e]; simp [entitiesOnly, List.isPrefixOf, ih]
    · rw [e]; simp [entitiesOnly, List.isPrefixOf, ih]
    · rw [e]; simp [entitiesOnly, h1, ih]

theorem entitiesOnly_at (l pre post : List Char) (h : entitiesOnly l = true)
    (e : l = pre ++ '&' :: post) :
    "amp;".data.isPrefixOf post = true ∨ "lt;".data.isPrefixOf post = true ∨
      "gt;".data.isPrefixOf post = true ∨ "quot;".data.isPrefixOf post = true := by
  subst e
  induction pre with
  | nil =>
    simp only [List.nil_append, entitiesOnly, ne_eq, not_true_eq_false, decide_False,
      Bool.false_or, Bool.and_eq_true, Bool.or_eq_true] at h
    rcases h.1 with ((h1 | h1) | h1) | h1
    · exact Or.inl h1
    · exact Or.inr (Or.inl h1)
    · exact Or.inr (Or.inr (Or.inl h1))
    · exact Or.inr (Or.inr (Or.inr h1))
  | cons c pre ih =>
    simp only [List.cons_append, entitiesOnly, Bool.and_eq_true] at h
    exact ih h.2

theorem unescape_escaped (s : List Char) : unescapeScan 0 (s.flatMap escapeChar) = s := by
  induction s with
  | nil => rfl
  | cons x rest ih =>
    rw [List.flatMap_cons]
    rcases escapeChar_cases x with ⟨h, e⟩ | ⟨h, e⟩ | ⟨h, e⟩ | ⟨h, e⟩ | ⟨h1, _, _, _, e⟩
    · rw [e, h]; simp [unescapeScan, List.isPrefixOf, ih]
    · rw [e, h]; simp [unescapeScan, List.isPrefixOf, ih]
    · rw [e, h]; simp [unescapeScan, List.isPrefixOf, ih]
    · rw [e, h]; simp [unescapeScan, List.isPrefixOf, ih]
    · have h' : ('&' == x) = false := by simpa using fun e : '&' = x => h1 e.symm
      rw [e]; simp [unescapeScan, List.isPrefixOf, h', ih]

/-- Claim C29: the result of HTMLEscape has none of the characters `<`, `>`
and `"`; every `&` in it is followed by `amp;`, `lt;`, `gt;` or `quot;`;
decoding the four entities gives the string back; so the function is
injective. -/
theorem HTMLEscape_spec (s : String) :
    (∀ c ∈ (HTMLEscape s).data, c ≠ '<' ∧ c ≠ '>' ∧ c ≠ '"') ∧
    (∀ pre post : List Char, (HTMLEscape s).data = pre ++ '&' :: post →
      "amp;".data.isPrefixOf post = true ∨ "lt;".data.isPrefixOf post = true ∨
        "gt;".data.isPrefixOf post = true ∨ "quot;".data.isPrefixOf post = true) ∧
    HTMLUnescape (HTMLEscape s) = s ∧
    (∀ t : String, HTMLEscape s = HTMLEscape t → s = t) ∧
    HTMLEscape "a<b & \"c\">" = "a&lt;b &amp; &quot;c&quot;&gt;" := by
  have hun : ∀ u : String, HTMLUnescape (HTMLEscape u) = u := by
    intro u
    apply String.ext
    simp only [HTMLUnescape, HTMLEscape_data]
    exact unescape_escaped u.data
  refine ⟨?_, ?_, hun s, ?_, by decide⟩
  · rw [HTMLEscape_data]; exact escaped_no_markup _
  · intro pre post e
    rw [HTMLEscape_data] at e
    exact entitiesOnly_at _ pre post (escaped_entitiesOnly _) e
  · intro t h
    rw [← hun s, ← hun t, h]


/-! ## parseHeaderSpec -/

theorem splitChars_ne_nil (sep : Char) (s : List Char) : splitChars sep s ≠ [] := by
  cases s with
  | nil => simp [splitChars]
  | cons c rest =>
    unfold splitChars
    split_ifs
    · simp
    · split <;> simp

theorem splitChars_no_sep (sep : Char) (a : List Char) (h : sep ∉ a) :
    splitChars sep a = [a] := by
  induction a with
  | nil => rfl
  | cons c rest ih =>
    have hc : c ≠ sep := fun e => h (e ▸ List.mem_cons_self _ _)
    have hr : sep ∉ rest := fun e => h (List.mem_cons_of_mem _ e)
    simp [splitChars, hc, ih hr]

theorem splitChars_append (sep : Char) (a b : List Char) (h : sep ∉ a) :
    splitChars sep (a ++ sep :: b) = a :: splitChars sep b := by
  induction a with
  | nil => simp [splitChars]
  | cons c rest ih =>
    have hc : c ≠ sep := fun e => h (e ▸ List.mem_cons_self _ _)
    have hr : sep ∉ rest := fun e => h (List.mem_cons_of_mem _ e)
    simp [splitChars, hc, ih hr]

theorem Split_two (t d : String) (ht : '#' ∉ t.data) (hd : '#' ∉ d.data) :
    Split (t ++ "#" ++ d) '#' = [t, d] := by
  unfold Split
  have e : (t ++ "#" ++ d).data = t.data ++ '#' :: d.data := by simp
  rw [e, splitChars_append _ _ _ ht, splitChars_no_sep _ _ hd]
  rfl

theorem Split_three (t w d : String) (ht : '#' ∉ t.data) (hw : '#' ∉ w.data)
    (hd : '#' ∉ d.data) : Split (t ++ "#" ++ w ++ "#" ++ d) '#' = [t, w, d] := by
  unfold Split
  have e : (t ++ "#" ++ w ++ "#" ++ d).data = t.data ++ '#' :: (w.data ++ '#' :: d.data) := by
    simp
  rw [e, splitChars_append _ _ _ ht, splitChars_append _ _ _ hw, splitChars_no_sep _ _ hd]
  rfl

/-- Claim C28: for a type t and a description d without `#`. With a middle
part w without `#` that is `required` or `必选` up to case and surrounding
spaces, t#w#d is parsed as (t, 是, d); with `optional` or `可选`, as (t, 否, d);
and t#d as (t, 否, d) when d is none of the four keywords up to case and
surrounding spaces.  The keywords written in lower case are instances, the
two Chinese ones when lowering leaves their characters as they are. -/
theorem parseHeaderSpec_spec (lowerRune : Char → Char) (t d : String)
    (ht : '#' ∉ t.data) (hd : '#' ∉ d.data) :
    (∀ w : String, '#' ∉ w.data →
      (ToLower lowerRune (trimSpace w) = "required" ∨
        ToLower lowerRune (trimSpace w) = "必选") →
      parseHeaderSpec lowerRune (t ++ "#" ++ w ++ "#" ++ d) = (t, "是", d)) ∧
    (∀ w : String, '#' ∉ w.data →
      (ToLower lowerRune (trimSpace w) = "optional" ∨
        ToLower lowerRune (trimSpace w) = "可选") →
      parseHeaderSpec lowerRune (t ++ "#" ++ w ++ "#" ++ d) = (t, "否", d)) ∧
    (ToLower lowerRune (trimSpace d) ≠ "required" → ToLower lowerRune (trimSpace d) ≠ "必选" →
      ToLower lowerRune (trimSpace d) ≠ "optional" → ToLower lowerRune (trimSpace d) ≠ "可选" →
      parseHeaderSpec lowerRune (t ++ "#" ++ d) = (t, "否", d)) ∧
    parseHeaderSpec lowerRune (t ++ "#" ++ "required" ++ "#" ++ d) = (t, "是", d) ∧
    parseHeaderSpec lowerRune (t ++ "#" ++ " Required " ++ "#" ++ d) = (t, "是", d) ∧
    parseHeaderSpec lowerRune (t ++ "#" ++ "optional" ++ "#" ++ d) = (t, "否", d) ∧
    parseHeaderSpec lowerRune (t ++ "#" ++ "OPTIONAL" ++ "#" ++ d) = (t, "否", d) ∧
    (lowerRune '必' = '必' → lowerRune '选' = '选' →
      parseHeaderSpec lowerRune (t ++ "#" ++ "必选" ++ "#" ++ d) = (t, "是", d)) ∧
    (lowerRune '可' = '可' → lowerRune '选' = '选' →
      parseHeaderSpec lowerRune (t ++ "#" ++ "可选" ++ "#" ++ d) = (t, "否", d)) := by
  have h1 : ∀ w : String, '#' ∉ w.data →
      (ToLower lowerRune (trimSpace w) = "required" ∨
        ToLower lowerRune (trimSpace w) = "必选") →
      parseHeaderSpec lowerRune (t ++ "#" ++ w ++ "#" ++ d) = (t, "是", d) := by
    intro w hw hk
    unfold parseHeaderSpec
    rw [Split_three t w d ht hw hd]
    simp [hk]
  have h2 : ∀ w : String, '#' ∉ w.data →
      (ToLower lowerRune (trimSpace w) = "optional" ∨
        ToLower lowerRune (trimSpace w) = "可选") →
      parseHeaderSpec lowerRune (t ++ "#" ++ w ++ "#" ++ d) = (t, "否", d) := by
    intro w hw hk
    have hn : ¬ (ToLower lowerRune (trimSpace w) = "required" ∨
        ToLower lowerRune (trimSpace w) = "必选") := by
      rcases hk with e | e <;> rw [e] <;> decide
    unfold parseHeaderSpec
    rw [Split_three t w d ht hw hd]
    simp [hk, hn]
  refine ⟨h1, h2, ?_, h1 _ (by decide) (Or.inl rfl), h1 _ (by decide) (Or.inl rfl),
    h2 _ (by decide) (Or.inl rfl), h2 _ (by decide) (Or.inl rfl), ?_, ?_⟩
  · intro n1 n2 n3 n4
    unfold parseHeaderSpec
    rw [Split_two t d ht hd]
    simp [n1, n2, n3, n4]
  · intro e1 e2
    refine h1 _ (by decide) (Or.inr ?_)
    apply String.ext
    have hb : ¬ ('必'.toNat < 128) := by decide
    have hx : ¬ ('选'.toNat < 128) := by decide
    have ht : (trimSpace "必选").data = ['必', '选'] := by decide
    simp [ToLower, ht, hb, hx, e1, e2]
  · intro e1 e2
    refine h2 _ (by decide) (Or.inr ?_)
    apply String.ext
    have hb : ¬ ('可'.toNat < 128) := by decide
    have hx : ¬ ('选'.toNat < 128) := by decide
    have ht : (trimSpace "可选").data = ['可', '选'] := by decide
    simp [ToLower, ht, hb, hx, e1, e2]

theorem parseHeaderSpec_spec_witness :
    '#' ∉ "string".data ∧ '#' ∉ "登录获取的accessToken".data ∧
      parseHeaderSpec id "string#required#登录获取的accessToken" =
        ("string", "是", "登录获取的accessToken") :=
  ⟨by decide, by decide,
    (parseHeaderSpec_spec id "string" "登录获取的accessToken" (by decide) (by decide)).2.2.2.1⟩


/-! ## Config.WithDefaults -/

/-- Claim C27, counterexample: WithDefaults does not keep the field Customize;
the rule for `/mine` of the configuration is replaced by the table of
customize. -/
theorem WithDefaults_drops_customize :
    ownRuleConfig.WithDefaults.Customize ≠ ownRuleConfig.Customize ∧
      ownRuleConfig.WithDefaults.Customize =
        some [("/v1/record/record/*",
          { Headers := some [("accessToken", "string#required#登录获取的accessToken")],
            Request := none, Response := none })] := by
  constructor
  · decide
  · rfl

/-- Claim C27, amended: WithDefaults gives RouteDocs of the configuration when
it is not empty and `/docs` otherwise, RouteMarkdown when it is not empty and
`/docs.md` otherwise, the fields Domain, Port, Path, TemplateDir and Preprocess
as they are, and for Customize the table of the method customize, whatever the
configuration held. -/
theorem WithDefaults_spec {F : Type} (c : Config F) :
    c.WithDefaults.RouteDocs = (if c.RouteDocs ≠ "" then c.RouteDocs else "/docs") ∧
    c.WithDefaults.RouteMarkdown =
      (if c.RouteMarkdown ≠ "" then c.RouteMarkdown else "/docs.md") ∧
    c.WithDefaults.Domain = c.Domain ∧ c.WithDefaults.Port = c.Port ∧
    c.WithDefaults.Path = c.Path ∧ c.WithDefaults.TemplateDir = c.TemplateDir ∧
    c.WithDefaults.Preprocess = c.Preprocess ∧
    c.WithDefaults.Customize = c.customize ∧
    (∀ c' : Config F, c'.customize = c.customize) := by
  unfold Config.WithDefaults
  by_cases h1 : c.RouteDocs = "" <;> by_cases h2 : c.RouteMarkdown = "" <;>
    simp [h1, h2, Config.customize]


/-! ## StripComponentTypeDecorations -/

theorem indexChars_of_isPrefixOf (sub s : List Char) (h : sub.isPrefixOf s = true) :
    indexChars sub s = some 0 := by
  cases s with
  | nil =>
    cases sub with
    | nil => rfl
    | cons a as => simp [List.isPrefixOf] at h
  | cons c rest => simp [indexChars, h]

theorem indexChars_char (c : Char) (a b : List Char) (h : c ∉ a) :
    indexChars [c] (a ++ c :: b) = some a.length := by
  induction a with
  | nil => simp [indexChars, List.isPrefixOf]
  | cons x rest ih =>
    have hx : (c == x) = false := by
      simpa using fun e : c = x => h (e ▸ List.mem_cons_self _ _)
    simp [indexChars, List.isPrefixOf, hx, ih (fun e => h (List.mem_cons_of_mem _ e))]

theorem indexChars_some (sub s : List Char) (i : Nat) (h : indexChars sub s = some i) :
    ∃ post, s = s.take i ++ sub ++ post := by
  induction s generalizing i with
  | nil =>
    unfold indexChars at h
    split_ifs at h with h0
    cases h
    exact ⟨[], by simpa using h0⟩
  | cons c rest ih =>
    unfold indexChars at h
    split_ifs at h with h0
    · cases h
      obtain ⟨t, ht⟩ := List.isPrefixOf_iff_prefix.mp h0
      exact ⟨t, by simp [ht]⟩
    · cases hr : indexChars sub rest with
      | none => simp [hr] at h
      | some k =>
        simp only [hr, Option.map_some', Option.some.injEq] at h
        subst h
        obtain ⟨post, hp⟩ := ih k hr
        exact ⟨post, by simp only [List.take_succ_cons, List.cons_append]; rw [← hp]⟩

theorem indexChars_none_of_count (sub s : List Char) (c : Char)
    (h : s.count c < sub.count c) : indexChars sub s = none := by
  cases hi : indexChars sub s with
  | none => rfl
  | some i =>
    exfalso
    obtain ⟨post, hp⟩ := indexChars_some sub s i hi
    have := congrArg (List.count c) hp
    simp only [List.count_append] at this
    omega

theorem stripLoop_once (opening label N tail : List Char) (h2 : ')' ∉ N) (fuel : Nat) :
    stripLoop opening label (fuel + 1) (opening ++ N ++ ')' :: tail) =
      stripLoop opening label fuel (label ++ tail) := by
  have hi : indexChars opening (opening ++ N ++ ')' :: tail) = some 0 :=
    indexChars_of_isPrefixOf _ _ (by
      rw [List.append_assoc]
      exact List.isPrefixOf_iff_prefix.mpr (List.prefix_append _ _))
  have hd1 : List.drop (0 + opening.length) (opening ++ N ++ ')' :: tail) = N ++ ')' :: tail := by
    rw [Nat.zero_add, List.append_assoc]
    exact List.drop_left _ _
  have hj : indexChars [')'] (N ++ ')' :: tail) = some N.length := indexChars_char ')' N tail h2
  have hd2 : List.drop (0 + opening.length + N.length + 1) (opening ++ N ++ ')' :: tail) =
      tail := by
    have e : opening ++ N ++ ')' :: tail = (opening ++ N ++ [')']) ++ tail := by simp
    have l : 0 + opening.length + N.length + 1 = (opening ++ N ++ [')']).length := by
      simp only [List.length_append, List.length_singleton]; omega
    rw [e, l]
    exact List.drop_left _ _
  rw [stripLoop, hi]
  simp only [hd1, hj, hd2, List.take_zero, List.nil_append]

theorem stripLoop_none (opening label s : List Char) (fuel : Nat)
    (h : indexChars opening s = none) : stripLoop opening label fuel s = s := by
  cases fuel with
  | zero => rfl
  | succ n => rw [stripLoop, h]

/-- Claim C26, failing input: for a component name N without parentheses the
label `array(object(N))` comes out as `array(object))`, with one `)` too many:
the first loop puts `array(object)` in the place of the text up to the first
`)` and leaves the second `)`.  The label `object(N)` comes out as `object`. -/
theorem strip_array_object_extra_paren :
    (∀ N : String, '(' ∉ N.data → ')' ∉ N.data →
      StripComponentTypeDecorations ("array(object(" ++ N ++ "))") = "array(object))") ∧
    StripComponentTypeDecorations "array(object(Foo))" = "array(object))" ∧
    (∀ N : String, '(' ∉ N.data → ')' ∉ N.data →
      StripComponentTypeDecorations ("object(" ++ N ++ ")") = "object") := by
  refine ⟨?_, by decide, ?_⟩
  · intro N _ h2
    have e : ("array(object(" ++ N ++ "))").data =
        "array(object(".data ++ N.data ++ ')' :: [')'] := by simp
    obtain ⟨k, hk⟩ : ∃ k, ("array(object(" ++ N ++ "))").length + 1 = k + 1 := ⟨_, rfl⟩
    have h1 : stripLoop "array(object(".data "array(object)".data
        (("array(object(" ++ N ++ "))").length + 1) ("array(object(" ++ N ++ "))").data =
        "array(object))".data := by
      rw [hk, e, stripLoop_once _ _ _ _ h2]
      exact stripLoop_none _ _ _ _ (by decide)
    apply String.ext
    unfold StripComponentTypeDecorations
    simp only [h1]
    exact stripLoop_none _ _ _ _ (by decide)
  · intro N h1 h2
    have e : ("object(" ++ N ++ ")").data = "object(".data ++ N.data ++ ')' :: [] := by simp
    have h0 : indexChars "array(object(".data ("object(" ++ N ++ ")").data = none := by
      apply indexChars_none_of_count _ _ '('
      have hc : List.count '(' N.data = 0 := List.count_eq_zero_of_not_mem h1
      rw [e, List.count_append, List.count_append, hc]
      decide
    have h3 : stripLoop "array(object(".data "array(object)".data
        (("object(" ++ N ++ ")").length + 1) ("object(" ++ N ++ ")").data =
        ("object(" ++ N ++ ")").data := stripLoop_none _ _ _ _ h0
    apply String.ext
    unfold StripComponentTypeDecorations
    simp only [h3]
    obtain ⟨k, hk⟩ : ∃ k, ("object(" ++ N ++ ")").data.length + 1 = k + 1 := ⟨_, rfl⟩
    rw [hk, e, stripLoop_once _ _ _ _ h2]
    exact stripLoop_none _ _ _ _ (by decide)


theorem indexChars_le (sub s : List Char) (i : Nat) (h : indexChars sub s = some i) :
    i + sub.length ≤ s.length := by
  induction s generalizing i with
  | nil =>
    unfold indexChars at h
    split_ifs at h with h0
    cases h
    simp [List.isEmpty_iff.mp h0]
  | cons c rest ih =>
    unfold indexChars at h
    split_ifs at h with h0
    · cases h
      have := (List.isPrefixOf_iff_prefix.mp h0).length_le
      omega
    · cases hr : indexChars sub rest with
      | none => simp [hr] at h
      | some k =>
        simp only [hr, Option.map_some', Option.some.injEq] at h
        subst h
        have := ih k hr
        simp only [List.length_cons]
        omega

/-- With more passes allowed than the string is long, a loop of
StripComponentTypeDecorations stops because no opening is left, or none with a
`)` after it, not because the passes are used up. -/
theorem stripLoop_done (opening label : List Char) (hl : label.length ≤ opening.length)
    (fuel : Nat) : ∀ s : List Char, s.length < fuel →
      indexChars opening (stripLoop opening label fuel s) = none ∨
        ∃ i, indexChars opening (stripLoop opening label fuel s) = some i ∧
          indexChars [')'] ((stripLoop opening label fuel s).drop (i + opening.length)) =
            none := by
  induction fuel with
  | zero => intro s h; omega
  | succ n ih =>
    intro s h
    unfold stripLoop
    cases hi : indexChars opening s with
    | none => simp only []; exact Or.inl hi
    | some i =>
      simp only []
      cases hj : indexChars [')'] (s.drop (i + opening.length)) with
      | none => simp only []; exact Or.inr ⟨i, hi, hj⟩
      | some j =>
        simp only []
        apply ih
        have h1 := indexChars_le _ _ _ hi
        have h2 := indexChars_le _ _ _ hj
        simp only [List.length_drop, List.length_singleton] at h2
        simp only [List.length_append, List.length_take, List.length_drop]
        omega


theorem indexChars_isSome_of_occurs (sub pre post : List Char) :
    (indexChars sub (pre ++ sub ++ post)).isSome = true := by
  induction pre with
  | nil =>
    rw [List.nil_append, indexChars_of_isPrefixOf _ _
      (List.isPrefixOf_iff_prefix.mpr (List.prefix_append _ _))]
    rfl
  | cons c rest ih =>
    simp only [List.cons_append]
    unfold indexChars
    split_ifs
    · rfl
    · cases h : indexChars sub (rest ++ sub ++ post) with
      | none => rw [h] at ih; cases ih
      | some k => rfl

theorem indexChars_none_of_not_occurs (sub s : List Char)
    (h : ¬ ∃ pre post, s = pre ++ sub ++ post) : indexChars sub s = none := by
  cases hi : indexChars sub s with
  | none => rfl
  | some i =>
    obtain ⟨post, hp⟩ := indexChars_some sub s i hi
    exact absurd ⟨_, post, hp⟩ h

/-- A string in which `object(` does not occur is returned unchanged by
StripComponentTypeDecorations. -/
theorem strip_unchanged (s : String)
    (h : ¬ ∃ pre post, s.data = pre ++ "object(".data ++ post) :
    StripComponentTypeDecorations s = s := by
  have h1 : indexChars "object(".data s.data = none := indexChars_none_of_not_occurs _ _ h
  have h0 : indexChars "array(object(".data s.data = none := by
    apply indexChars_none_of_not_occurs
    rintro ⟨pre, post, e⟩
    exact h ⟨pre ++ "array(".data, post, by rw [e]; simp⟩
  apply String.ext
  unfold StripComponentTypeDecorations
  simp only [stripLoop_none _ _ _ _ h0, stripLoop_none _ _ _ _ h1]




/-! ## pathLikeMatch -/

theorem containsChars_single (c : Char) (s : List Char) :
    containsChars [c] s = true ↔ c ∈ s := by
  induction s with
  | nil => simp [containsChars]
  | cons x rest ih =>
    simp only [containsChars, List.isPrefixOf, Bool.and_true, Bool.or_eq_true, beq_iff_eq, ih,
      List.mem_cons]

theorem indexChars_leftmost (sub pre post : List Char) (i : Nat)
    (h : indexChars sub (pre ++ sub ++ post) = some i) : i ≤ pre.length := by
  induction pre generalizing i with
  | nil =>
    rw [List.nil_append, indexChars_of_isPrefixOf _ _
      (List.isPrefixOf_iff_prefix.mpr (List.prefix_append _ _))] at h
    cases h; exact Nat.le_refl _
  | cons c rest ih =>
    change indexChars sub (c :: (rest ++ sub ++ post)) = some i at h
    unfold indexChars at h
    split_ifs at h
    · cases h; exact Nat.zero_le _
    · cases hr : indexChars sub (rest ++ sub ++ post) with
      | none => rw [hr] at h; cases h
      | some k =>
        rw [hr] at h
        simp only [Option.map_some', Option.some.injEq] at h
        subst h
        have := ih k hr
        simp only [List.length_cons]
        omega

theorem loose_mono (segs : List (List Char)) (x t : List Char) (h : Loose segs t) :
    Loose segs (x ++ t) := by
  cases segs with
  | nil => trivial
  | cons s rest =>
    obtain ⟨g, t', e, hr⟩ := h
    exact ⟨x ++ g, t', by rw [e]; simp, hr⟩

theorem matchSegs_iff_loose (path : List Char) (segs : List (List Char)) :
    ∀ i : Nat, matchSegs path segs i = true ↔ Loose segs (path.drop i) := by
  induction segs with
  | nil => intro i; simp [matchSegs, Loose]
  | cons s rest ih =>
    intro i
    unfold matchSegs
    by_cases hs : s = []
    · subst hs
      simp only [if_true, ih i]
      constructor
      · intro h; exact ⟨[], _, rfl, h⟩
      · rintro ⟨g, t', e, hr⟩
        rw [e]
        simpa using loose_mono rest g t' hr
    · simp only [hs, if_false]
      constructor
      · intro h
        cases hi : indexChars s (path.drop i) with
        | none => rw [hi] at h; cases h
        | some idx =>
          rw [hi] at h
          simp only [] at h
          obtain ⟨post, hp⟩ := indexChars_some s _ idx hi
          have hle := indexChars_le s _ idx hi
          refine ⟨(path.drop i).take idx, post, hp, ?_⟩
          have hd : List.drop (i + idx + s.length) path = post := by
            have e1 : List.drop (i + idx + s.length) path =
                List.drop (idx + s.length) (List.drop i path) := by
              rw [List.drop_drop]; congr 1; omega
            rw [e1]
            have e2 : List.drop (idx + s.length) (List.drop i path) =
                List.drop (idx + s.length) (List.take idx (List.drop i path) ++ s ++ post) := by
              rw [← hp]
            rw [e2]
            have l : idx + s.length = (List.take idx (List.drop i path) ++ s).length := by
              simp only [List.length_append, List.length_take]
              omega
            rw [l]
            exact List.drop_left _ _
          rw [← hd]
          exact (ih _).mp h
      · rintro ⟨g, t', e, hr⟩
        have hsome := indexChars_isSome_of_occurs s g t'
        rw [← e] at hsome
        cases hi : indexChars s (path.drop i) with
        | none => rw [hi] at hsome; cases hsome
        | some idx =>
          simp only []
          have hle : idx ≤ g.length := indexChars_leftmost s g t' idx (by rw [← e]; exact hi)
          apply (ih _).mpr
          have e1 : List.drop (i + idx + s.length) path =
              List.drop (idx + s.length) (List.drop i path) := by
            rw [List.drop_drop]; congr 1; omega
          rw [e1, e, List.drop_append_of_le_length (by simp; omega)]
          exact loose_mono rest _ t' hr

theorem gaps_loose (segs : List (List Char)) (t : List Char) (h : Gaps segs t) :
    Loose segs t := by
  induction segs generalizing t with
  | nil => trivial
  | cons s rest ih =>
    obtain ⟨g, t', e, hr⟩ := h
    exact ⟨g, t', e, ih t' hr⟩

theorem gaps_append_empty (segs : List (List Char)) (t : List Char) :
    Gaps (segs ++ [[]]) t ↔ Loose segs t := by
  induction segs generalizing t with
  | nil =>
    simp only [List.nil_append, Gaps, Loose, iff_true]
    exact ⟨t, [], by simp, rfl⟩
  | cons s rest ih =>
    simp only [List.cons_append, Gaps, Loose]
    constructor
    · rintro ⟨g, t', e, hr⟩; exact ⟨g, t', e, (ih t').mp hr⟩
    · rintro ⟨g, t', e, hr⟩; exact ⟨g, t', e, (ih t').mpr hr⟩

theorem splitChars_snoc_sep (sep : Char) (s : List Char) :
    splitChars sep (s ++ [sep]) = splitChars sep s ++ [[]] := by
  induction s with
  | nil => simp [splitChars]
  | cons c rest ih =>
    have e : (c :: rest) ++ [sep] = c :: (rest ++ [sep]) := rfl
    by_cases hc : c = sep
    · rw [e]
      simp only [splitChars, hc, if_true, ih, List.cons_append]
    · rw [e]
      simp only [splitChars, hc, if_false, ih]
      cases h : splitChars sep rest with
      | nil => exact absurd h (splitChars_ne_nil sep rest)
      | cons seg segs => rfl


/-- Claim C25, counterexample: the pattern `/v1/*` matches the path `/x/v1/y`,
which does not begin with `/v1/` and so is not the pattern with its star
replaced by a text. -/
theorem pathLikeMatch_not_anchored :
    pathLikeMatch "/v1/*" "/x/v1/y" = true ∧ ¬ Expands "/v1/*".data "/x/v1/y".data := by
  refine ⟨by decide, ?_⟩
  have hs : splitChars '*' "/v1/*".data = ["/v1/".data, []] := by decide
  unfold Expands
  rw [hs]
  rintro ⟨t, ht, _⟩
  revert ht
  simp

/-- Claim C25, amended: the empty pattern matches nothing; a pattern without
`*` matches exactly the path equal to it; a pattern with a `*` matches exactly
the paths obtained from the pattern between two more stars, `*pattern*`, by
replacing each `*` with some text, possibly empty, so the match is not
anchored at the ends; and every path obtained from a non-empty pattern by
replacing each `*` with some text is matched. -/
theorem pathLikeMatch_spec (pattern path : String) :
    (pattern = "" → pathLikeMatch pattern path = false) ∧
    ('*' ∉ pattern.data →
      (pathLikeMatch pattern path = true ↔ pattern ≠ "" ∧ pattern = path)) ∧
    ('*' ∈ pattern.data →
      (pathLikeMatch pattern path = true ↔
        Expands ('*' :: (pattern.data ++ ['*'])) path.data)) ∧
    (pattern ≠ "" → Expands pattern.data path.data → pathLikeMatch pattern path = true) ∧
    ('*' ∉ pattern.data → (Expands pattern.data path.data ↔ pattern = path)) ∧
    pathLikeMatch "/v1/record/record/*" "/v1/record/record/list" = true := by
  have hstar : Contains pattern "*" = true ↔ '*' ∈ pattern.data := containsChars_single _ _
  have hno : '*' ∉ pattern.data → (Expands pattern.data path.data ↔ pattern = path) := by
    intro h
    unfold Expands
    rw [splitChars_no_sep _ _ h]
    simp only [Gaps]
    constructor
    · rintro ⟨t, e, rfl⟩
      exact String.ext (by rw [e]; simp)
    · intro e
      exact ⟨[], by rw [e]; simp, rfl⟩
  have hyes : '*' ∈ pattern.data →
      (pathLikeMatch pattern path = true ↔ Loose (splitChars '*' pattern.data) path.data) := by
    intro h
    have hne : pattern ≠ "" := by
      rintro rfl; simp at h
    have hc : Contains pattern "*" = true := hstar.mpr h
    unfold pathLikeMatch
    simp only [hne, if_false, hc, Bool.not_true, Bool.false_eq_true]
    rw [matchSegs_iff_loose]
    rfl
  refine ⟨?_, ?_, ?_, ?_, hno, by decide⟩
  · intro h
    simp [pathLikeMatch, h]
  · intro h
    have hc : Contains pattern "*" = false := by
      rw [← Bool.not_eq_true, hstar]; exact h
    unfold pathLikeMatch
    by_cases hp : pattern = ""
    · simp [hp]
    · simp [hp, hc]
  · intro h
    rw [hyes h]
    unfold Expands
    have e : splitChars '*' ('*' :: (pattern.data ++ ['*'])) =
        [] :: (splitChars '*' pattern.data ++ [[]]) := by
      rw [← splitChars_snoc_sep]
      simp [splitChars]
    rw [e]
    simp only [List.nil_append]
    constructor
    · intro hl
      exact ⟨path.data, rfl, (gaps_append_empty _ _).mpr hl⟩
    · rintro ⟨t, e1, hg⟩
      rw [e1]
      exact (gaps_append_empty _ _).mp hg
  · intro hne hx
    by_cases h : '*' ∈ pattern.data
    · rw [hyes h]
      unfold Expands at hx
      cases hs : splitChars '*' pattern.data with
      | nil => exact absurd hs (splitChars_ne_nil _ _)
      | cons s rest =>
        rw [hs] at hx
        obtain ⟨t, e, hg⟩ := hx
        exact ⟨[], t, by rw [e]; simp, gaps_loose rest t hg⟩
    · have e := (hno h).mp hx
      have hc : Contains pattern "*" = false := by
        rw [← Bool.not_eq_true, hstar]; exact h
      subst e
      unfold pathLikeMatch
      simp [hne, hc]



/-! ## The scanner passes over the text of a value -/

theorem scanValue_orEmpty (v : Json) (ctx : List ScanCtx) (rest : List Lex) :
    scanValue .beginValueOrEmpty ctx (v.lexemes ++ rest)
      = scanValue .beginValue ctx (v.lexemes ++ rest) := by
  cases v with
  | null => simp [Json.lexemes, scanValue]
  | bool b => simp [Json.lexemes, scanValue]
  | num l => simp [Json.lexemes, scanValue]
  | str s => simp [Json.lexemes, scanValue]
  | arr xs => cases xs <;> simp [Json.lexemes, scanValue]
  | obj kvs =>
    cases kvs with
    | nil => simp [Json.lexemes, scanValue]
    | cons kv kvs => obtain ⟨k, v⟩ := kv; simp [Json.lexemes, scanValue]

mutual
theorem scanValue_value (v : Json) (ctx : List ScanCtx) (rest : List Lex)
    (h : ctx.length + v.depth ≤ maxNestingDepth) :
    scanValue .beginValue ctx (v.lexemes ++ rest)
      = if ctx = [] then some rest else scanValue .endValue ctx rest := by
  match v with
  | .null => simp [Json.lexemes, scanValue]
  | .bool b => simp [Json.lexemes, scanValue]
  | .num l => simp [Json.lexemes, scanValue]
  | .str s => simp [Json.lexemes, scanValue]
  | .arr [] =>
    have h1 : ctx.length < maxNestingDepth := by simp [Json.depth] at h; omega
    simp [Json.lexemes, scanValue, h1]
  | .arr (x :: xs) =>
    have h1 : ctx.length < maxNestingDepth := by simp [Json.depth] at h; omega
    have hx : (ScanCtx.arrayValue :: ctx).length + x.depth ≤ maxNestingDepth := by
      simp [Json.depth, depthList] at h ⊢; omega
    have hxs : ctx.length + 1 + depthList xs ≤ maxNestingDepth := by
      simp [Json.depth, depthList] at h ⊢; omega
    have e : (Json.arr (x :: xs)).lexemes ++ rest
        = .lbrack :: (x.lexemes ++ (elementsTail xs ++ rest)) := by simp [Json.lexemes]
    rw [e]
    simp only [scanValue, h1, if_true]
    rw [scanValue_orEmpty, scanValue_value x _ _ hx, if_neg (by simp)]
    exact scanValue_elements xs ctx rest hxs
  | .obj [] =>
    have h1 : ctx.length < maxNestingDepth := by simp [Json.depth] at h; omega
    simp [Json.lexemes, scanValue, h1]
  | .obj ((k, x) :: kvs) =>
    have h1 : ctx.length < maxNestingDepth := by simp [Json.depth] at h; omega
    have hx : (ScanCtx.objectValue :: ctx).length + x.depth ≤ maxNestingDepth := by
      simp [Json.depth, depthMembers] at h ⊢; omega
    have hxs : ctx.length + 1 + depthMembers kvs ≤ maxNestingDepth := by
      simp [Json.depth, depthMembers] at h ⊢; omega
    have e : (Json.obj ((k, x) :: kvs)).lexemes ++ rest
        = .lbrace :: .str k :: .colon :: (x.lexemes ++ (membersTail kvs ++ rest)) := by
      simp [Json.lexemes]
    rw [e]
    simp only [scanValue, h1, if_true]
    rw [scanValue_value x _ _ hx, if_neg (by simp)]
    exact scanValue_members kvs ctx rest hxs
theorem scanValue_elements (xs : List Json) (ctx : List ScanCtx) (rest : List Lex)
    (h : ctx.length + 1 + depthList xs ≤ maxNestingDepth) :
    scanValue .endValue (.arrayValue :: ctx) (elementsTail xs ++ rest)
      = if ctx = [] then some rest else scanValue .endValue ctx rest := by
  match xs with
  | [] => simp [elementsTail, scanValue]
  | x :: xs =>
    have hx : (ScanCtx.arrayValue :: ctx).length + x.depth ≤ maxNestingDepth := by
      simp [depthList] at h ⊢; omega
    have hxs : ctx.length + 1 + depthList xs ≤ maxNestingDepth := by
      simp [depthList] at h ⊢; omega
    have e : elementsTail (x :: xs) ++ rest
        = .comma :: (x.lexemes ++ (elementsTail xs ++ rest)) := by simp [elementsTail]
    rw [e]
    simp only [scanValue]
    rw [scanValue_value x _ _ hx, if_neg (by simp)]
    exact scanValue_elements xs ctx rest hxs
theorem scanValue_members (kvs : List (String × Json)) (ctx : List ScanCtx) (rest : List Lex)
    (h : ctx.length + 1 + depthMembers kvs ≤ maxNestingDepth) :
    scanValue .endValue (.objectValue :: ctx) (membersTail kvs ++ rest)
      = if ctx = [] then some rest else scanValue .endValue ctx rest := by
  match kvs with
  | [] => simp [membersTail, scanValue]
  | (k, x) :: kvs =>
    have hx : (ScanCtx.objectValue :: ctx).length + x.depth ≤ maxNestingDepth := by
      simp [depthMembers] at h ⊢; omega
    have hxs : ctx.length + 1 + depthMembers kvs ≤ maxNestingDepth := by
      simp [depthMembers] at h ⊢; omega
    have e : membersTail ((k, x) :: kvs) ++ rest
        = .comma :: .str k :: .colon :: (x.lexemes ++ (membersTail kvs ++ rest)) := by
      simp [membersTail]
    rw [e]
    simp only [scanValue]
    rw [scanValue_value x _ _ hx, if_neg (by simp)]
    exact scanValue_members kvs ctx rest hxs
end

/-! ## The first loop passes over a value without the string `paths` -/

theorem findPaths_mono (P : String → Bool) (n : Nat) :
    ∀ (m : Nat) (d : Decoder) (r : Option Decoder),
      findPaths P n d = .ok r → n ≤ m → findPaths P m d = .ok r := by
  induction n with
  | zero => intro m d r h; simp [findPaths] at h
  | succ n ih =>
    intro m d r h hm
    obtain ⟨m, rfl⟩ : ∃ k, m = k + 1 := ⟨m - 1, by omega⟩
    simp only [findPaths] at h ⊢
    cases ht : d.Token P with
    | none => simpa [ht] using h
    | some p =>
      obtain ⟨tok, d1⟩ := p
      simp only [ht] at h ⊢
      split_ifs at h ⊢ with e
      · exact h
      · exact ih m d1 r h (by omega)

theorem findPaths_step (P : String → Bool) (inp : List Lex) (s : TokState) (st : List TokState)
    (tok : Token) (d1 : Decoder) (ht : tokenFrom P inp s st = some (tok, d1))
    (hne : tok ≠ .str "paths") (n m : Nat) (r : Option Decoder)
    (h : findPaths P n d1 = .ok r) (hm : n + 1 ≤ m) :
    findPaths P m ⟨inp, s, st⟩ = .ok r := by
  obtain ⟨m, rfl⟩ : ∃ k, m = k + 1 := ⟨m - 1, by omega⟩
  simp only [findPaths, Decoder.Token, ht, hne, if_false]
  exact findPaths_mono P n m d1 r h (by omega)

theorem findPaths_skip (P : String → Bool) (inp inp1 : List Lex) (s s1 : TokState)
    (st : List TokState) (hskip : tokenFrom P inp s st = tokenFrom P inp1 s1 st)
    (m : Nat) : findPaths P m ⟨inp, s, st⟩ = findPaths P m ⟨inp1, s1, st⟩ := by
  cases m with
  | zero => rfl
  | succ m => simp only [findPaths, Decoder.Token, hskip]

mutual
theorem findPaths_value (P : String → Bool) (v : Json) (s : TokState) (st : List TokState)
    (rest : List Lex) (hs : tokenValueAllowed s = true) (hv : v.passes P = true)
    (n m : Nat) (r : Option Decoder)
    (h : findPaths P n ⟨rest, tokenValueEnd s, st⟩ = .ok r) (hm : n + v.lexemes.length ≤ m) :
    findPaths P m ⟨v.lexemes ++ rest, s, st⟩ = .ok r := by
  match v with
  | .null =>
    exact findPaths_step P _ s st .other _ (by simp [Json.lexemes, tokenFrom, hs]) (by simp)
      n m r h (by simpa [Json.lexemes] using hm)
  | .bool b =>
    exact findPaths_step P _ s st .other _ (by simp [Json.lexemes, tokenFrom, hs]) (by simp)
      n m r h (by simpa [Json.lexemes] using hm)
  | .num l =>
    have hl : P l = true := by simpa [Json.passes] using hv
    exact findPaths_step P _ s st .other _ (by simp [Json.lexemes, tokenFrom, hs, hl]) (by simp)
      n m r h (by simpa [Json.lexemes] using hm)
  | .str x =>
    have hx : x ≠ "paths" := by simpa [Json.passes] using hv
    have h1 : ¬ (s = .objectStart ∨ s = .objectKey) := by
      rintro (e | e) <;> simp [e, tokenValueAllowed] at hs
    exact findPaths_step P _ s st (.str x) _ (by simp [Json.lexemes, tokenFrom, hs, h1])
      (by simpa using hx) n m r h (by simpa [Json.lexemes] using hm)
  | .arr [] =>
    have hm2 : n + 2 ≤ m := by simpa [Json.lexemes] using hm
    refine findPaths_step P _ s st (.delim .beginArray) ⟨.rbrack :: rest, .arrayStart, s :: st⟩
      (by simp [Json.lexemes, tokenFrom, hs]) (by simp) (n + 1) m r ?_ (by omega)
    exact findPaths_step P _ _ _ (.delim .endArray) _ (by simp [tokenFrom]) (by simp)
      n (n + 1) r h (by omega)
  | .arr (x :: xs) =>
    have e : (Json.arr (x :: xs)).lexemes ++ rest
        = .lbrack :: (x.lexemes ++ (elementsTail xs ++ rest)) := by simp [Json.lexemes]
    have hl : (Json.arr (x :: xs)).lexemes.length
        = 1 + x.lexemes.length + (elementsTail xs).length := by
      simp [Json.lexemes]; omega
    have hp : x.passes P = true ∧ passesList P xs = true := by
      simpa [Json.passes, passesList] using hv
    rw [e]
    refine findPaths_step P _ s st (.delim .beginArray)
      ⟨x.lexemes ++ (elementsTail xs ++ rest), .arrayStart, s :: st⟩
      (by simp [tokenFrom, hs]) (by simp)
      (n + (elementsTail xs).length + x.lexemes.length) m r ?_ (by omega)
    refine findPaths_value P x .arrayStart (s :: st) _ rfl hp.1
      (n + (elementsTail xs).length) _ r ?_ (by omega)
    exact findPaths_elements P xs s st rest hp.2 n _ r h (by omega)
  | .obj [] =>
    have hm2 : n + 2 ≤ m := by simpa [Json.lexemes] using hm
    refine findPaths_step P _ s st (.delim .beginObject) ⟨.rbrace :: rest, .objectStart, s :: st⟩
      (by simp [Json.lexemes, tokenFrom, hs]) (by simp) (n + 1) m r ?_ (by omega)
    exact findPaths_step P _ _ _ (.delim .endObject) _ (by simp [tokenFrom]) (by simp)
      n (n + 1) r h (by omega)
  | .obj ((k, x) :: kvs) =>
    have e : (Json.obj ((k, x) :: kvs)).lexemes ++ rest
        = .lbrace :: .str k :: .colon :: (x.lexemes ++ (membersTail kvs ++ rest)) := by
      simp [Json.lexemes]
    have hl : (Json.obj ((k, x) :: kvs)).lexemes.length
        = 3 + x.lexemes.length + (membersTail kvs).length := by
      simp [Json.lexemes]; omega
    have hp : (k ≠ "paths" ∧ x.passes P = true) ∧ passesMembers P kvs = true := by
      simpa [Json.passes, passesMembers] using hv
    rw [e]
    refine findPaths_step P _ s st (.delim .beginObject)
      ⟨.str k :: .colon :: (x.lexemes ++ (membersTail kvs ++ rest)), .objectStart, s :: st⟩
      (by simp [tokenFrom, hs]) (by simp)
      (n + (membersTail kvs).length + x.lexemes.length + 1) m r ?_ (by omega)
    refine findPaths_step P _ _ _ (.str k)
      ⟨.colon :: (x.lexemes ++ (membersTail kvs ++ rest)), .objectColon, s :: st⟩
      (by simp [tokenFrom]) (by simpa using hp.1.1)
      (n + (membersTail kvs).length + x.lexemes.length) _ r ?_ (by omega)
    rw [findPaths_skip P _ (x.lexemes ++ (membersTail kvs ++ rest)) _ .objectValue _
      (by simp [tokenFrom])]
    refine findPaths_value P x .objectValue (s :: st) _ rfl hp.1.2
      (n + (membersTail kvs).length) _ r ?_ (by omega)
    exact findPaths_members P kvs s st rest hp.2 n _ r h (by omega)
theorem findPaths_elements (P : String → Bool) (xs : List Json) (s0 : TokState)
    (st : List TokState) (rest : List Lex) (hv : passesList P xs = true)
    (n m : Nat) (r : Option Decoder)
    (h : findPaths P n ⟨rest, tokenValueEnd s0, st⟩ = .ok r)
    (hm : n + (elementsTail xs).length ≤ m) :
    findPaths P m ⟨elementsTail xs ++ rest, .arrayComma, s0 :: st⟩ = .ok r := by
  match xs with
  | [] =>
    exact findPaths_step P _ _ _ (.delim .endArray) _ (by simp [elementsTail, tokenFrom])
      (by simp) n m r h (by simpa [elementsTail] using hm)
  | x :: xs =>
    have e : elementsTail (x :: xs) ++ rest
        = .comma :: (x.lexemes ++ (elementsTail xs ++ rest)) := by simp [elementsTail]
    have hl : (elementsTail (x :: xs)).length
        = 1 + x.lexemes.length + (elementsTail xs).length := by
      simp [elementsTail]; omega
    have hp : x.passes P = true ∧ passesList P xs = true := by
      simpa [passesList] using hv
    rw [e, findPaths_skip P _ (x.lexemes ++ (elementsTail xs ++ rest)) _ .arrayValue _
      (by simp [tokenFrom])]
    refine findPaths_value P x .arrayValue (s0 :: st) _ rfl hp.1
      (n + (elementsTail xs).length) _ r ?_ (by omega)
    exact findPaths_elements P xs s0 st rest hp.2 n _ r h (by omega)
theorem findPaths_members (P : String → Bool) (kvs : List (String × Json)) (s0 : TokState)
    (st : List TokState) (rest : List Lex) (hv : passesMembers P kvs = true)
    (n m : Nat) (r : Option Decoder)
    (h : findPaths P n ⟨rest, tokenValueEnd s0, st⟩ = .ok r)
    (hm : n + (membersTail kvs).length ≤ m) :
    findPaths P m ⟨membersTail kvs ++ rest, .objectComma, s0 :: st⟩ = .ok r := by
  match kvs with
  | [] =>
    exact findPaths_step P _ _ _ (.delim .endObject) _ (by simp [membersTail, tokenFrom])
      (by simp) n m r h (by simpa [membersTail] using hm)
  | (k, x) :: kvs =>
    have e : membersTail ((k, x) :: kvs) ++ rest
        = .comma :: .str k :: .colon :: (x.lexemes ++ (membersTail kvs ++ rest)) := by
      simp [membersTail]
    have hl : (membersTail ((k, x) :: kvs)).length
        = 3 + x.lexemes.length + (membersTail kvs).length := by
      simp [membersTail]; omega
    have hp : (k ≠ "paths" ∧ x.passes P = true) ∧ passesMembers P kvs = true := by
      simpa [passesMembers] using hv
    rw [e]
    refine findPaths_step P _ _ _ (.str k)
      ⟨.colon :: (x.lexemes ++ (membersTail kvs ++ rest)), .objectColon, s0 :: st⟩
      (by simp [tokenFrom]) (by simpa using hp.1.1)
      (n + (membersTail kvs).length + x.lexemes.length) _ r ?_ (by omega)
    rw [findPaths_skip P _ (x.lexemes ++ (membersTail kvs ++ rest)) _ .objectValue _
      (by simp [tokenFrom])]
    refine findPaths_value P x .objectValue (s0 :: st) _ rfl hp.1.2
      (n + (membersTail kvs).length) _ r ?_ (by omega)
    exact findPaths_members P kvs s0 st rest hp.2 n _ r h (by omega)
end

/-! ## The two loops of OrderedPathsFromContent on a document -/

theorem membersTail_length (kvs : List (String × Json)) :
    kvs.length + 1 ≤ (membersTail kvs).length := by
  induction kvs with
  | nil => simp [membersTail]
  | cons kv kvs ih => obtain ⟨k, x⟩ := kv; simp [membersTail]; omega

theorem collectKeys_member (P : String → Bool) (k : String) (x : Json) (inp next : List Lex)
    (s : TokState) (st : List TokState) (keys : List String) (n : Nat)
    (hx : x.depth ≤ maxNestingDepth) (hmore : Decoder.More ⟨inp, s, st⟩ = true)
    (ht : tokenFrom P inp s st = some (.str k, ⟨.colon :: (x.lexemes ++ next), .objectColon, st⟩)) :
    collectKeys P (n + 1) ⟨inp, s, st⟩ keys
      = collectKeys P n ⟨next, .objectComma, st⟩ (keys ++ [k]) := by
  have hscan : scanValue .beginValue [] (x.lexemes ++ next) = some next := by
    rw [scanValue_value x [] next (by simpa using hx)]; rfl
  simp [collectKeys, hmore, Decoder.Token, ht, Decoder.Decode, tokenValueAllowed, hscan,
    tokenValueEnd]

theorem collectKeys_members (P : String → Bool) (kvs : List (String × Json)) :
    ∀ (rest : List Lex) (st : List TokState) (keys : List String) (n : Nat),
      depthMembers kvs ≤ maxNestingDepth → kvs.length + 1 ≤ n →
      collectKeys P n ⟨membersTail kvs ++ rest, .objectComma, st⟩ keys
        = .ok (keys ++ kvs.map Prod.fst) := by
  induction kvs with
  | nil =>
    intro rest st keys n _ hn
    obtain ⟨n, rfl⟩ : ∃ k, n = k + 1 := ⟨n - 1, by omega⟩
    simp [collectKeys, membersTail, Decoder.More]
  | cons kv kvs ih =>
    obtain ⟨k, x⟩ := kv
    intro rest st keys n hd hn
    obtain ⟨n, rfl⟩ : ∃ k, n = k + 1 := ⟨n - 1, by simp at hn; omega⟩
    have hd2 : x.depth ≤ maxNestingDepth ∧ depthMembers kvs ≤ maxNestingDepth := by
      simpa [depthMembers] using hd
    have e : membersTail ((k, x) :: kvs) ++ rest
        = .comma :: .str k :: .colon :: (x.lexemes ++ (membersTail kvs ++ rest)) := by
      simp [membersTail]
    rw [e, collectKeys_member P k x
      (.comma :: .str k :: .colon :: (x.lexemes ++ (membersTail kvs ++ rest)))
      (membersTail kvs ++ rest) .objectComma st keys n hd2.1 rfl
      (by simp [tokenFrom]), ih rest st _ n hd2.2 (by simp at hn; omega)]
    simp

theorem findPaths_key (P : String → Bool) (V : Json) (post pre : List (String × Json)) :
    ∀ (st : List TokState) (m : Nat), passesMembers P pre = true →
      (membersTail (pre ++ ("paths", V) :: post)).length ≤ m →
      findPaths P m ⟨membersTail (pre ++ ("paths", V) :: post), .objectComma, st⟩
        = .ok (some ⟨.colon :: (V.lexemes ++ membersTail post), .objectColon, st⟩) := by
  induction pre with
  | nil =>
    intro st m _ hm
    obtain ⟨m, rfl⟩ : ∃ k, m = k + 1 := ⟨m - 1, by simp [membersTail] at hm; omega⟩
    simp [findPaths, Decoder.Token, membersTail, tokenFrom]
  | cons kv pre ih =>
    obtain ⟨k, x⟩ := kv
    intro st m hp hm
    have hp2 : (k ≠ "paths" ∧ x.passes P = true) ∧ passesMembers P pre = true := by
      simpa [passesMembers] using hp
    have e : membersTail ((k, x) :: pre ++ ("paths", V) :: post)
        = .comma :: .str k :: .colon ::
            (x.lexemes ++ membersTail (pre ++ ("paths", V) :: post)) := by
      simp [membersTail]
    rw [e] at hm ⊢
    simp only [List.length_cons, List.length_append] at hm
    refine findPaths_step P _ _ _ (.str k)
      ⟨.colon :: (x.lexemes ++ membersTail (pre ++ ("paths", V) :: post)), .objectColon, st⟩
      (by simp [tokenFrom]) (by simpa using hp2.1.1)
      ((membersTail (pre ++ ("paths", V) :: post)).length + x.lexemes.length) _ _ ?_ (by omega)
    rw [findPaths_skip P _ (x.lexemes ++ membersTail (pre ++ ("paths", V) :: post)) _
      .objectValue _ (by simp [tokenFrom])]
    refine findPaths_value P x .objectValue st _ rfl hp2.1.2
      (membersTail (pre ++ ("paths", V) :: post)).length _ _ ?_ (by omega)
    exact ih st _ hp2.2 le_rfl

/-- The first loop on a document whose first `paths` of the top level comes
after members that pass: it stops behind that key. -/
theorem findPaths_document (P : String → Bool) (V : Json) (pre post : List (String × Json))
    (hp : passesMembers P pre = true) (m : Nat)
    (hm : (Json.obj (pre ++ ("paths", V) :: post)).lexemes.length ≤ m) :
    findPaths P m ⟨(Json.obj (pre ++ ("paths", V) :: post)).lexemes, .topValue, []⟩
      = .ok (some ⟨.colon :: (V.lexemes ++ membersTail post), .objectColon, [.topValue]⟩) := by
  match pre with
  | [] =>
    obtain ⟨m, rfl⟩ : ∃ k, m = k + 2 := ⟨m - 2, by simp [Json.lexemes] at hm; omega⟩
    simp [findPaths, Decoder.Token, Json.lexemes, tokenFrom, tokenValueAllowed]
  | (k, x) :: pre =>
    have hp2 : (k ≠ "paths" ∧ x.passes P = true) ∧ passesMembers P pre = true := by
      simpa [passesMembers] using hp
    have e : (Json.obj ((k, x) :: pre ++ ("paths", V) :: post)).lexemes
        = .lbrace :: .str k :: .colon ::
            (x.lexemes ++ membersTail (pre ++ ("paths", V) :: post)) := by
      simp [Json.lexemes]
    rw [e] at hm ⊢
    simp only [List.length_cons, List.length_append] at hm
    refine findPaths_step P _ _ _ (.delim .beginObject)
      ⟨.str k :: .colon :: (x.lexemes ++ membersTail (pre ++ ("paths", V) :: post)),
        .objectStart, [.topValue]⟩
      (by simp [tokenFrom, tokenValueAllowed]) (by simp)
      ((membersTail (pre ++ ("paths", V) :: post)).length + x.lexemes.length + 1) _ _ ?_
      (by omega)
    refine findPaths_step P _ _ _ (.str k)
      ⟨.colon :: (x.lexemes ++ membersTail (pre ++ ("paths", V) :: post)), .objectColon,
        [.topValue]⟩
      (by simp [tokenFrom]) (by simpa using hp2.1.1)
      ((membersTail (pre ++ ("paths", V) :: post)).length + x.lexemes.length) _ _ ?_ (by omega)
    rw [findPaths_skip P _ (x.lexemes ++ membersTail (pre ++ ("paths", V) :: post)) _
      .objectValue _ (by simp [tokenFrom])]
    refine findPaths_value P x .objectValue [.topValue] _ rfl hp2.1.2
      (membersTail (pre ++ ("paths", V) :: post)).length _ _ ?_ (by omega)
    exact findPaths_key P V post pre [.topValue] _ hp2.2 le_rfl

/-- The second loop on the members of an object, from behind its opening
brace. -/
theorem collectKeys_object (P : String → Bool) (kvs : List (String × Json)) (rest : List Lex)
    (st : List TokState) (n : Nat) (hd : depthMembers kvs ≤ maxNestingDepth)
    (hn : kvs.length + 1 ≤ n) :
    ∃ inp, (Json.obj kvs).lexemes ++ rest = .lbrace :: inp ∧
      collectKeys P n ⟨inp, .objectStart, st⟩ [] = .ok (kvs.map Prod.fst) := by
  match kvs with
  | [] =>
    obtain ⟨n, rfl⟩ : ∃ k, n = k + 1 := ⟨n - 1, by omega⟩
    exact ⟨.rbrace :: rest, by simp [Json.lexemes], by simp [collectKeys, Decoder.More]⟩
  | (k, x) :: kvs =>
    obtain ⟨n, rfl⟩ : ∃ k, n = k + 1 := ⟨n - 1, by omega⟩
    have hd2 : x.depth ≤ maxNestingDepth ∧ depthMembers kvs ≤ maxNestingDepth := by
      simpa [depthMembers] using hd
    refine ⟨.str k :: .colon :: (x.lexemes ++ (membersTail kvs ++ rest)),
      by simp [Json.lexemes], ?_⟩
    rw [collectKeys_member P k x
      (.str k :: .colon :: (x.lexemes ++ (membersTail kvs ++ rest)))
      (membersTail kvs ++ rest) .objectStart st [] n hd2.1 rfl (by simp [tokenFrom]),
      collectKeys_members P kvs rest st _ n hd2.2 (by simp at hn; omega)]
    simp

/-! ## Every call of OrderedPathsFromContent returns -/

theorem tokenFrom_reads (P : String → Bool) (inp : List Lex) :
    ∀ (s : TokState) (st : List TokState) (t : Token) (d : Decoder),
      tokenFrom P inp s st = some (t, d) →
      d.input.length < inp.length ∧ (∀ x, t = .str x → Lex.str x ∈ inp) := by
  induction inp with
  | nil => intro s st t d h; simp [tokenFrom] at h
  | cons a inp ih =>
    intro s st t d h
    cases a with
    | lbrace =>
      simp only [tokenFrom] at h
      split_ifs at h
      simp only [Option.some.injEq, Prod.mk.injEq] at h
      obtain ⟨rfl, rfl⟩ := h
      simp
    | rbrace =>
      simp only [tokenFrom] at h
      split_ifs at h
      cases st with
      | nil => simp at h
      | cons top st =>
        simp only [Option.some.injEq, Prod.mk.injEq] at h
        obtain ⟨rfl, rfl⟩ := h
        simp
    | lbrack =>
      simp only [tokenFrom] at h
      split_ifs at h
      simp only [Option.some.injEq, Prod.mk.injEq] at h
      obtain ⟨rfl, rfl⟩ := h
      simp
    | rbrack =>
      simp only [tokenFrom] at h
      split_ifs at h
      cases st with
      | nil => simp at h
      | cons top st =>
        simp only [Option.some.injEq, Prod.mk.injEq] at h
        obtain ⟨rfl, rfl⟩ := h
        simp
    | colon =>
      simp only [tokenFrom] at h
      split_ifs at h
      have := ih _ _ _ _ h
      exact ⟨by simp; omega, fun x hx => List.mem_cons_of_mem _ (this.2 x hx)⟩
    | comma =>
      simp only [tokenFrom] at h
      split_ifs at h
      · have := ih _ _ _ _ h
        exact ⟨by simp; omega, fun x hx => List.mem_cons_of_mem _ (this.2 x hx)⟩
      · have := ih _ _ _ _ h
        exact ⟨by simp; omega, fun x hx => List.mem_cons_of_mem _ (this.2 x hx)⟩
    | str x =>
      simp only [tokenFrom] at h
      split_ifs at h <;>
      · simp only [Option.some.injEq, Prod.mk.injEq] at h
        obtain ⟨rfl, rfl⟩ := h
        simp
    | num text =>
      simp only [tokenFrom] at h
      split_ifs at h
      simp only [Option.some.injEq, Prod.mk.injEq] at h
      obtain ⟨rfl, rfl⟩ := h
      simp
    | lit text =>
      simp only [tokenFrom] at h
      split_ifs at h
      simp only [Option.some.injEq, Prod.mk.injEq] at h
      obtain ⟨rfl, rfl⟩ := h
      simp
    | bad => simp [tokenFrom] at h

theorem tokenFrom_keeps (P : String → Bool) (inp : List Lex) :
    ∀ (s : TokState) (st : List TokState) (t : Token) (d : Decoder),
      tokenFrom P inp s st = some (t, d) → ∀ x ∈ d.input, x ∈ inp := by
  induction inp with
  | nil => intro s st t d h; simp [tokenFrom] at h
  | cons a inp ih =>
    intro s st t d h
    have here : ∀ (t1 : Token) (s1 : TokState) (st1 : List TokState),
        some (t1, (⟨inp, s1, st1⟩ : Decoder)) = some (t, d) → ∀ x ∈ d.input, x ∈ a :: inp := by
      intro t1 s1 st1 e x hx
      simp only [Option.some.injEq, Prod.mk.injEq] at e
      obtain ⟨_, rfl⟩ := e
      exact List.mem_cons_of_mem _ hx
    have next : ∀ (s1 : TokState), tokenFrom P inp s1 st = some (t, d) →
        ∀ x ∈ d.input, x ∈ a :: inp :=
      fun s1 h1 x hx => List.mem_cons_of_mem _ (ih s1 st t d h1 x hx)
    cases a <;> simp only [tokenFrom] at h <;>
      first
      | (split_ifs at h <;> first | exact here _ _ _ h | exact next _ h)
      | (split_ifs at h
         cases st with
         | nil => simp at h
         | cons top st => exact here _ _ _ h)
      | simp at h

theorem scanValue_reads (inp : List Lex) :
    ∀ (step : ScanStep) (ctx : List ScanCtx) (rest : List Lex),
      scanValue step ctx inp = some rest → rest.length < inp.length := by
  induction inp with
  | nil => intro step ctx rest h; cases step <;> simp [scanValue] at h
  | cons a inp ih =>
    intro step ctx rest h
    have key : ∀ (step1 : ScanStep) (ctx1 : List ScanCtx),
        scanValue step1 ctx1 inp = some rest → rest.length < (a :: inp).length :=
      fun step1 ctx1 h1 => by have := ih step1 ctx1 rest h1; simp; omega
    have here : some inp = some rest → rest.length < (a :: inp).length := by
      intro e; simp only [Option.some.injEq] at e; subst e; simp
    cases step <;> simp only [scanValue] at h <;> split at h <;>
      first
      | exact key _ _ h
      | exact here h
      | (split_ifs at h <;> first | exact here h | exact key _ _ h)
      | simp at h

theorem Decode_reads (d d2 : Decoder) (h : d.Decode = some d2) :
    d2.input.length < d.input.length := by
  obtain ⟨inp, s, st⟩ := d
  simp only [Decoder.Decode] at h
  split at h
  · exact absurd h (by simp)
  · rename_i inp1 s1 heq
    have hle : inp1.length ≤ inp.length := by
      split at heq
      all_goals first
        | (simp only [Option.some.injEq, Prod.mk.injEq] at heq
           obtain ⟨rfl, _⟩ := heq
           simp)
        | simp at heq
    split_ifs at h
    cases hs : scanValue .beginValue [] inp1 with
    | none => simp [hs] at h
    | some rest =>
      have := scanValue_reads inp1 _ _ _ hs
      simp only [hs, Option.some.injEq] at h
      subst h
      simp only
      omega

theorem findPaths_returns (P : String → Bool) (n : Nat) :
    ∀ d : Decoder, d.input.length < n →
      findPaths P n d = .ok none ∨
        ∃ d1, findPaths P n d = .ok (some d1) ∧ d1.input.length < d.input.length := by
  induction n with
  | zero => intro d h; omega
  | succ n ih =>
    intro d h
    simp only [findPaths]
    cases ht : d.Token P with
    | none => exact Or.inl rfl
    | some p =>
      obtain ⟨tok, d1⟩ := p
      have hlt := (tokenFrom_reads P _ _ _ _ _ ht).1
      simp only
      split_ifs
      · exact Or.inr ⟨d1, rfl, hlt⟩
      · rcases ih d1 (by omega) with h1 | ⟨d2, h1, h2⟩
        · exact Or.inl h1
        · exact Or.inr ⟨d2, h1, by omega⟩

theorem findPaths_no_string (P : String → Bool) (n : Nat) :
    ∀ d : Decoder, d.input.length < n → Lex.str "paths" ∉ d.input →
      findPaths P n d = .ok none := by
  induction n with
  | zero => intro d h; omega
  | succ n ih =>
    intro d h hno
    simp only [findPaths]
    cases ht : d.Token P with
    | none => rfl
    | some p =>
      obtain ⟨tok, d1⟩ := p
      have hr := tokenFrom_reads P _ _ _ _ _ ht
      have hne : tok ≠ .str "paths" := fun e => hno (hr.2 "paths" e)
      simp only [hne, if_false]
      have hsuf : ∀ x ∈ d1.input, x ∈ d.input := tokenFrom_keeps P _ _ _ _ _ ht
      exact ih d1 (by omega) (fun hm => hno (hsuf _ hm))

theorem collectKeys_returns (P : String → Bool) (n : Nat) :
    ∀ (d : Decoder) (keys : List String), d.input.length < n →
      ∃ r, collectKeys P n d keys = .ok r := by
  induction n with
  | zero => intro d keys h; omega
  | succ n ih =>
    intro d keys h
    simp only [collectKeys]
    split_ifs
    · cases ht : d.Token P with
      | none => exact ⟨_, rfl⟩
      | some p =>
        obtain ⟨tok, d1⟩ := p
        have hlt := (tokenFrom_reads P _ _ _ _ _ ht).1
        simp only
        cases hd : d1.Decode with
        | none => exact ⟨_, rfl⟩
        | some d2 =>
          have := Decode_reads d1 d2 hd
          exact ih d2 _ (by omega)
    · exact ⟨_, rfl⟩

/-- OrderedPathsFromContent returns a list on every text: the budget of the
loops is never used up. -/
theorem OrderedPathsFromContent_returns (P : String → Bool) (content : List Lex) :
    ∃ keys, OrderedPathsFromContent P content = .ok keys := by
  unfold OrderedPathsFromContent
  rcases findPaths_returns P (content.length + 1) ⟨content, .topValue, []⟩ (by simp)
    with h | ⟨d1, h, hlt⟩
  · exact ⟨[], by rw [h]⟩
  · rw [h]
    cases ht : d1.Token P with
    | none => exact ⟨[], by simp only [ht]⟩
    | some p =>
      obtain ⟨tok, d2⟩ := p
      have := (tokenFrom_reads P _ _ _ _ _ ht).1
      simp only at hlt
      simp only [ht]
      exact collectKeys_returns P _ d2 [] (by omega)

/-- On a text without the string `paths`, malformed or not, the result of
OrderedPathsFromContent is empty. -/
theorem OrderedPathsFromContent_no_string (P : String → Bool) (content : List Lex)
    (h : Lex.str "paths" ∉ content) : OrderedPathsFromContent P content = .ok [] := by
  unfold OrderedPathsFromContent
  rw [findPaths_no_string P _ ⟨content, .topValue, []⟩ (by simp) h]

theorem lexemes_nest (n : Nat) :
    (nest n).lexemes = List.replicate (n + 1) Lex.lbrack ++ List.replicate (n + 1) Lex.rbrack := by
  induction n with
  | zero => rfl
  | succ n ih =>
    have e : (nest (n + 1)).lexemes = .lbrack :: ((nest n).lexemes ++ [.rbrack]) := by
      simp [nest, Json.lexemes, elementsTail]
    rw [e, ih]
    simp only [List.replicate_succ, List.cons_append, List.append_assoc, List.cons.injEq,
      true_and]
    congr 1
    rw [← List.replicate_succ, List.replicate_succ']

theorem scanValue_too_deep (k : Nat) :
    ∀ (ctx : List ScanCtx) (rest : List Lex), ctx.length ≤ maxNestingDepth →
      maxNestingDepth < ctx.length + k →
      scanValue .beginValueOrEmpty ctx (List.replicate k Lex.lbrack ++ rest) = none ∧
      scanValue .beginValue ctx (List.replicate k Lex.lbrack ++ rest) = none := by
  induction k with
  | zero => intro ctx rest h1 h2; omega
  | succ k ih =>
    intro ctx rest h1 h2
    have e : List.replicate (k + 1) Lex.lbrack ++ rest
        = .lbrack :: (List.replicate k Lex.lbrack ++ rest) := rfl
    rw [e]
    by_cases h : ctx.length < maxNestingDepth
    · have h3 := (ih (.arrayValue :: ctx) rest (by simpa using h) (by simp; omega)).1
      simp only [scanValue, h, if_true]
      exact ⟨h3, h3⟩
    · simp only [scanValue, h, if_false, and_self]

/-- A value nested deeper than maxNestingDepth under the first key ends the
second loop behind that key. -/
theorem OrderedPathsFromContent_too_deep (P : String → Bool) (n : Nat)
    (hn : maxNestingDepth ≤ n) :
    OrderedPathsFromContent P
      (Json.obj [("paths", .obj [("/a", nest n), ("/b", .obj [])])]).lexemes = .ok ["/a"] := by
  have e : (Json.obj [("paths", .obj [("/a", nest n), ("/b", .obj [])])]).lexemes
      = .lbrace :: .str "paths" :: .colon :: .lbrace :: .str "/a" :: .colon ::
          (List.replicate (n + 1) Lex.lbrack ++ (List.replicate (n + 1) Lex.rbrack ++
            [.comma, .str "/b", .colon, .lbrace, .rbrace, .rbrace, .rbrace])) := by
    simp only [Json.lexemes, membersTail, lexemes_nest, List.cons_append, List.append_assoc,
      List.nil_append]
  have hdeep := (scanValue_too_deep (n + 1) [] (List.replicate (n + 1) Lex.rbrack ++
    [.comma, .str "/b", .colon, .lbrace, .rbrace, .rbrace, .rbrace]) (by simp)
    (by simp only [List.length_nil]; omega)).2
  rw [e]
  simp [OrderedPathsFromContent, findPaths, Decoder.Token, tokenFrom, tokenValueAllowed,
    collectKeys, Decoder.More, Decoder.Decode, hdeep]

theorem membersTail_length_member (k : String) (V : Json) (post pre : List (String × Json)) :
    V.lexemes.length + 3 ≤ (membersTail (pre ++ (k, V) :: post)).length := by
  induction pre with
  | nil => simp [membersTail]
  | cons kv pre ih => obtain ⟨k1, x⟩ := kv; simp [membersTail] at ih ⊢; omega

theorem lexemes_obj_length (kvs : List (String × Json)) :
    (membersTail kvs).length ≤ (Json.obj kvs).lexemes.length := by
  match kvs with
  | [] => simp [membersTail, Json.lexemes]
  | (k, x) :: kvs => simp [membersTail, Json.lexemes]

/-- Claim C23, counterexample: four well-formed texts with an object under the
key `paths` of the top level, `/a` its first key.  A string `paths` that is a
text makes the result `paths`, the next key of the top level; a key `paths`
further down makes it the keys of that object; a number out of the range of
float64 before `paths` makes it empty; a value nested 10001 deep under `/a`
ends it after `/a`, without `/b`. -/
theorem OrderedPathsFromContent_first_string :
    (∀ P, OrderedPathsFromContent P
        (Json.obj [("info", .obj [("title", .str "paths")]),
                   ("paths", .obj [("/a", .obj [])])]).lexemes = .ok ["paths"]) ∧
    (∀ P, OrderedPathsFromContent P
        (Json.obj [("x", .obj [("paths", .obj [("zz", .obj [])])]),
                   ("paths", .obj [("/a", .obj [])])]).lexemes = .ok ["zz"]) ∧
    (∀ P, P "1e999" = false → OrderedPathsFromContent P
        (Json.obj [("x", .num "1e999"), ("paths", .obj [("/a", .obj [])])]).lexemes = .ok []) ∧
    (∀ P, OrderedPathsFromContent P
        (Json.obj [("paths", .obj [("/a", nest 10000), ("/b", .obj [])])]).lexemes
          = .ok ["/a"]) := by
  refine ⟨fun _ => rfl, fun _ => rfl, fun P h => ?_,
    fun P => OrderedPathsFromContent_too_deep P 10000 (Nat.le_refl _)⟩
  simp [OrderedPathsFromContent, Json.lexemes, membersTail, findPaths, Decoder.Token,
    tokenFrom, tokenValueAllowed, h]

/-- Claim C23, amended: for the text of an object with a member `paths` whose
value is an object, OrderedPathsFromContent returns the keys of that object in
the order of the text, when the members before it hold no string `paths`, as a
key at any depth or as a text, and no number that ParseFloat rejects, and when
no value of a key of that object is nested deeper than maxNestingDepth. -/
theorem OrderedPathsFromContent_spec (P : String → Bool)
    (pre pkvs post : List (String × Json))
    (hpre : passesMembers P pre = true) (hdepth : depthMembers pkvs ≤ maxNestingDepth) :
    OrderedPathsFromContent P (Json.obj (pre ++ ("paths", .obj pkvs) :: post)).lexemes
      = .ok (pkvs.map Prod.fst) := by
  have h1 := membersTail_length pkvs
  have h2 := lexemes_obj_length pkvs
  have h3 := membersTail_length_member "paths" (.obj pkvs) post pre
  have h4 := lexemes_obj_length (pre ++ ("paths", .obj pkvs) :: post)
  have hlen : pkvs.length + 1
      ≤ (Json.obj (pre ++ ("paths", .obj pkvs) :: post)).lexemes.length + 1 := by omega
  obtain ⟨inp, hinp, hcollect⟩ := collectKeys_object P pkvs (membersTail post)
    [.objectValue, .topValue] _ hdepth hlen
  unfold OrderedPathsFromContent
  rw [findPaths_document P (.obj pkvs) pre post hpre _ (by omega)]
  simp only [Decoder.Token, hinp, tokenFrom, if_true, tokenValueAllowed]
  exact hcollect

theorem OrderedPathsFromContent_spec_witness :
    passesMembers (fun _ => true) [] = true ∧
      depthMembers [("/b", Json.obj []), ("/a", Json.obj [])] ≤ maxNestingDepth ∧
      OrderedPathsFromContent (fun _ => true)
        (Json.obj ([] ++ ("paths", .obj [("/b", .obj []), ("/a", .obj [])]) :: [])).lexemes
          = .ok ["/b", "/a"] :=
  ⟨rfl, by decide,
    OrderedPathsFromContent_spec (fun _ => true) [] [("/b", .obj []), ("/a", .obj [])] []
      rfl (by decide)⟩

/-- Claim C24, failing input: the text of the object with the members `title`,
the string `paths`, and `version`, the string `1`, has no key `paths`, and the
result is not empty: it is the one string `1`. -/
theorem OrderedPathsFromContent_string_value :
    ∀ P, OrderedPathsFromContent P
      (Json.obj [("title", .str "paths"), ("version", .str "1")]).lexemes = .ok ["1"] :=
  fun _ => rfl

/-! ## Descriptions of the rows -/

theorem descAt_titleDescription (G : Gconv) (n : Option Json) :
    DescAt G n (titleDescription G n) := by
  cases n with
  | none =>
    have e : ∀ k, getString G none k = "" := fun _ => rfl
    have t : trimSpace "" = "" := by decide
    simp [DescAt, titleDescription, e, t]
  | some v =>
    unfold DescAt titleDescription
    refine ⟨fun h1 h2 => ?_, fun h1 h2 => ?_, fun h1 h2 => ?_, fun h1 h2 => ?_⟩
    · simp [h1, h2]
    · simp [h1, h2]
    · simp [h1, h2]
    · simp [h1, h2]

theorem nestedRows_head_desc (G : Gconv)
    (recur : String → String → Except Stop (List FieldInfo))
    (nestedReq : List String) (curPath nk : String) (np : Option Json) (chunk : List FieldInfo)
    (h : nestedRows G recur nestedReq curPath nk np = .ok chunk) :
    ∃ row rest, chunk = row :: rest ∧
      (row.Path = curPath ++ "." ++ nk ∨ row.Path = curPath ++ "." ++ nk ++ "[]") ∧
      row.Desc = titleDescription G np := by
  unfold nestedRows at h
  simp only [GetJson] at h
  split_ifs at h
  · obtain ⟨sub, _, hh⟩ := bind_eq_ok _ _ _ h
    cases hh
    exact ⟨_, _, rfl, Or.inr rfl, rfl⟩
  · cases h
    exact ⟨_, _, rfl, Or.inr rfl, rfl⟩
  · obtain ⟨sub, _, hh⟩ := bind_eq_ok _ _ _ h
    cases hh
    exact ⟨_, _, rfl, Or.inl rfl, rfl⟩
  · cases h
    exact ⟨_, _, rfl, Or.inl rfl, rfl⟩

theorem fieldRows_head_desc (G : Gconv) (j : Option Json)
    (recur : String → String → Except Stop (List FieldInfo))
    (requiredSet : List String) (pre k : String) (pj : Option Json) (chunk : List FieldInfo)
    (h : fieldRows G j recur requiredSet pre k pj = .ok chunk) :
    ∃ row rest, chunk = row :: rest ∧
      (row.Path = joinPath pre k ∨ row.Path = joinPath pre k ++ "[]") ∧
      row.Desc = titleDescription G pj := by
  unfold fieldRows at h
  simp only [GetJson] at h
  split_ifs at h
  · obtain ⟨sub, _, hh⟩ := bind_eq_ok _ _ _ h
    cases hh
    exact ⟨_, _, rfl, Or.inr rfl, rfl⟩
  · obtain ⟨sub, _, hh⟩ := bind_eq_ok _ _ _ h
    cases hh
    exact ⟨_, _, rfl, Or.inr rfl, rfl⟩
  · cases h
    exact ⟨_, _, rfl, Or.inr rfl, rfl⟩
  · obtain ⟨sub, _, hh⟩ := bind_eq_ok _ _ _ h
    cases hh
    exact ⟨_, _, rfl, Or.inl rfl, rfl⟩
  · obtain ⟨sub, _, hh⟩ := bind_eq_ok _ _ _ h
    cases hh
    exact ⟨_, _, rfl, Or.inl rfl, rfl⟩
  · cases h
    exact ⟨_, _, rfl, Or.inl rfl, rfl⟩

theorem fieldRowsFromJson_head_desc (G : Gconv) (j : Option Json)
    (recur : Option Json → String → Except Stop (List FieldInfo))
    (requiredSet : List String) (pre k : String) (pj : Option Json) (chunk : List FieldInfo)
    (h : fieldRowsFromJson G j recur requiredSet pre k pj = .ok chunk) :
    ∃ row rest, chunk = row :: rest ∧
      (row.Path = joinPath pre k ∨ row.Path = joinPath pre k ++ "[]") ∧
      row.Desc = titleDescription G pj := by
  unfold fieldRowsFromJson at h
  simp only [GetJson] at h
  split_ifs at h
  · split at h <;>
    · obtain ⟨sub, _, hh⟩ := bind_eq_ok _ _ _ h
      cases hh
      exact ⟨_, _, rfl, Or.inr rfl, rfl⟩
  · obtain ⟨sub, _, hh⟩ := bind_eq_ok _ _ _ h
    cases hh
    exact ⟨_, _, rfl, Or.inr rfl, rfl⟩
  · cases h
    exact ⟨_, _, rfl, Or.inr rfl, rfl⟩
  · split at h <;>
    · obtain ⟨sub, _, hh⟩ := bind_eq_ok _ _ _ h
      cases hh
      exact ⟨_, _, rfl, Or.inl rfl, rfl⟩
  · obtain ⟨sub, _, hh⟩ := bind_eq_ok _ _ _ h
    cases hh
    exact ⟨_, _, rfl, Or.inl rfl, rfl⟩
  · cases h
    exact ⟨_, _, rfl, Or.inl rfl, rfl⟩

/-- Claim C31: the description of the row that a flattener emits for a
property is made of the title and the description of the property node, both
trimmed: title, blank, description when neither is empty, the one that is not
empty when only one is, the empty string when both are; for the properties of
the component (flattenSchemaFields) or of the flattened node
(flattenSchemaFieldsFromJson), of a nested inline object, and of the inline
items of an array. -/
theorem flatten_description :
    (∀ (G : Gconv) (j : Option Json) (ref pre : String) (out : List FieldInfo) (sj : Json)
      (k : String),
      GetSchema G j (ComponentNameFromRef ref) = some sj →
      k ∈ (GetJsonMap G (some sj) "properties").keys →
      FlattensTo G j ref pre out →
      ∃ before row after, out = before ++ row :: after ∧
        (row.Path = joinPath pre k ∨ row.Path = joinPath pre k ++ "[]") ∧
        DescAt G ((GetJsonMap G (some sj) "properties").get k) row.Desc) ∧
    (∀ (G : Gconv) (j : Option Json) (sj : Json) (pre : String) (out : List FieldInfo)
      (props : GoMap Json) (k : String),
      mergedProperties G j (some sj) = .ok props →
      k ∈ props.keys →
      FlattensJsonTo G j (some sj) pre out →
      ∃ before row after, out = before ++ row :: after ∧
        (row.Path = joinPath pre k ∨ row.Path = joinPath pre k ++ "[]") ∧
        DescAt G (props.get k) row.Desc) ∧
    (∀ (G : Gconv) (recur : String → String → Except Stop (List FieldInfo))
      (curPath : String) (pj : Option Json) (out : List FieldInfo) (nk : String),
      nestedObjectRows G recur curPath pj = .ok out →
      nk ∈ (GetJsonMap G pj "properties").keys →
      ∃ before row after, out = before ++ row :: after ∧
        (row.Path = curPath ++ "." ++ nk ∨ row.Path = curPath ++ "." ++ nk ++ "[]") ∧
        DescAt G ((GetJsonMap G pj "properties").get nk) row.Desc) ∧
    (∀ (G : Gconv) (j : Option Json) (curPath : String) (it : Option Json)
      (out : List FieldInfo) (props2 : GoMap Json) (kk : String),
      mergedProperties G j it = .ok props2 →
      itemRows G j curPath it = .ok out →
      kk ∈ props2.keys →
      ∃ row ∈ out, row.Path = curPath ++ "[]." ++ kk ∧ DescAt G (props2.get kk) row.Desc) ∧
    flattenSchemaFields Gconv.plain 1 (some titledDoc) "#/components/schemas/Titled" "" =
      .ok [{ Path := "a", Required := false, Typ := "string", Desc := "Name of the user" },
           { Path := "b", Required := false, Typ := "string", Desc := "Only" },
           { Path := "c", Required := false, Typ := "string", Desc := "alone" },
           { Path := "d", Required := false, Typ := "string", Desc := "" }] ∧
    flattenSchemaFieldsFromJson Gconv.plain 1 (some titledDoc) (some titledSchema) "" =
      .ok [{ Path := "a", Required := false, Typ := "string", Desc := "Name of the user" },
           { Path := "b", Required := false, Typ := "string", Desc := "Only" },
           { Path := "c", Required := false, Typ := "string", Desc := "alone" },
           { Path := "d", Required := false, Typ := "string", Desc := "" }] := by
  refine ⟨?_, ?_, ?_, ?_, rfl, rfl⟩
  · intro G j ref pre out sj k hs hk ⟨fuel, hout⟩
    cases fuel with
    | zero => simp [flattenSchemaFields] at hout
    | succ n =>
      unfold flattenSchemaFields at hout
      simp only [hs] at hout
      refine appendRows_head _ _
        (fun k row => (row.Path = joinPath pre k ∨ row.Path = joinPath pre k ++ "[]") ∧
          DescAt G ((GetJsonMap G (some sj) "properties").get k) row.Desc) ?_ out hout k
        ((SortStrings_mem _ _).2 hk)
      intro k' chunk hc
      obtain ⟨row, rest, e, hp, hr⟩ := fieldRows_head_desc _ _ _ _ _ _ _ _ hc
      exact ⟨row, rest, e, hp, hr ▸ descAt_titleDescription G _⟩
  · intro G j sj pre out props k hprops hk ⟨fuel, hout⟩
    cases fuel with
    | zero => simp [flattenSchemaFieldsFromJson] at hout
    | succ n =>
      unfold flattenSchemaFieldsFromJson at hout
      simp only [hprops, bind, Except.bind] at hout
      refine appendRows_head _ _
        (fun k row => (row.Path = joinPath pre k ∨ row.Path = joinPath pre k ++ "[]") ∧
          DescAt G (props.get k) row.Desc) ?_ out hout k ((SortStrings_mem _ _).2 hk)
      intro k' chunk hc
      obtain ⟨row, rest, e, hp, hr⟩ := fieldRowsFromJson_head_desc _ _ _ _ _ _ _ _ hc
      exact ⟨row, rest, e, hp, hr ▸ descAt_titleDescription G _⟩
  · intro G recur curPath pj out nk hout hk
    unfold nestedObjectRows at hout
    have hlen : (GetJsonMap G pj "properties").len > 0 := by
      cases hm : GetJsonMap G pj "properties" with
      | none => simp [hm, GoMap.keys] at hk
      | some kvs =>
        simp only [hm, GoMap.keys] at hk
        simp only [GoMap.len]
        exact List.length_pos_of_mem hk
    simp only [hlen, if_true] at hout
    refine appendRows_head _ _
      (fun nk row => (row.Path = curPath ++ "." ++ nk ∨ row.Path = curPath ++ "." ++ nk ++ "[]") ∧
        DescAt G ((GetJsonMap G pj "properties").get nk) row.Desc) ?_ out hout nk
      ((SortStrings_mem _ _).2 hk)
    intro k' chunk hc
    obtain ⟨row, rest, e, hp, hr⟩ := nestedRows_head_desc _ _ _ _ _ _ _ hc
    exact ⟨row, rest, e, hp, hr ▸ descAt_titleDescription G _⟩
  · intro G j curPath it out props2 kk hprops hout hk
    unfold itemRows at hout
    simp only [hprops, bind, Except.bind, pure, Except.pure] at hout
    cases hout
    refine ⟨_, List.mem_map.2 ⟨kk, (SortStrings_mem _ _).2 hk, rfl⟩, rfl, ?_⟩
    exact descAt_titleDescription G _

/-! ## Algebra of the field filter -/

/-- Claim C38: filterFieldInfos is idempotent: filtering the result again with
the same allow-list changes nothing. -/
theorem filterFieldInfos_idempotent (fs : List FieldInfo) (A : List String) :
    filterFieldInfos (filterFieldInfos fs A) A = filterFieldInfos fs A := by
  unfold filterFieldInfos
  split_ifs
  · rfl
  · rw [List.filter_filter]
    congr 1
    funext f
    simp

theorem keepField_mono (A B : List String) (h : ∀ a ∈ A, a ∈ B) (f : FieldInfo)
    (hk : keepField (normalizeAllowed A) f = true) :
    keepField (normalizeAllowed B) f = true := by
  rw [keepField_iff] at hk ⊢
  obtain ⟨b, hb, hne, hm⟩ := hk
  obtain ⟨a, ha, hane, hab⟩ := (mem_normalizeAllowed A b).mp hb
  exact ⟨b, (mem_normalizeAllowed B b).mpr ⟨a, h a ha, hane, hab⟩, hne, hm⟩

/-- Claim C39: for non-empty allow-lists A and B with every element of A in B,
filterFieldInfos(fs, A) is a sub-list of filterFieldInfos(fs, B); the empty
allow-list keeps every field, so its result can hold strictly more than that of
a non-empty list: on the one field `data.b`, the empty list keeps it and the
list with `data.a` keeps nothing. -/
theorem filterFieldInfos_monotone :
    (∀ (fs : List FieldInfo) (A B : List String), A ≠ [] → B ≠ [] → (∀ a ∈ A, a ∈ B) →
      (filterFieldInfos fs A).Sublist (filterFieldInfos fs B)) ∧
    (∀ (fs : List FieldInfo) (B : List String),
      (filterFieldInfos fs B).Sublist (filterFieldInfos fs [])) ∧
    (filterFieldInfos [{ Path := "data.b", Required := false, Typ := "string", Desc := "" }] []
        = [{ Path := "data.b", Required := false, Typ := "string", Desc := "" }] ∧
      filterFieldInfos [{ Path := "data.b", Required := false, Typ := "string", Desc := "" }]
        ["data.a"] = []) := by
  refine ⟨?_, ?_, by decide, by decide⟩
  · intro fs A B hA hB hAB
    have hA0 : A.length ≠ 0 := by simpa using hA
    have hB0 : B.length ≠ 0 := by simpa using hB
    simp only [filterFieldInfos, hA0, hB0, if_false]
    apply List.monotone_filter_right
    intro f hf
    simp only [Bool.or_eq_true] at hf ⊢
    rcases hf with h | h
    · exact Or.inl h
    · exact Or.inr (keepField_mono A B hAB f h)
  · intro fs B
    have e : filterFieldInfos fs [] = fs := by simp [filterFieldInfos]
    rw [e]
    unfold filterFieldInfos
    split_ifs
    · exact List.Sublist.refl _
    · exact List.filter_sublist _

/-! ## Empty arrays in the example filter -/

theorem holdsLeaf_isNonEmpty (v : Ex) (h : v.holdsLeaf = true) : isNonEmpty v = true := by
  cases v with
  | null => simp [Ex.holdsLeaf] at h
  | map kvs =>
    cases kvs with
    | nil => simp [Ex.holdsLeaf, holdsLeafEntries] at h
    | cons kv rest => simp [isNonEmpty]
  | arr xs =>
    cases xs with
    | nil => simp [Ex.holdsLeaf, holdsLeafList] at h
    | cons x rest => simp [isNonEmpty]
  | str s => rfl
  | int n => rfl
  | bool b => rfl

theorem filterValueLeaves_arr_cons (aset : List String) (x : Ex) (rest : List Ex)
    (pre : String) :
    filterValueLeaves aset (.arr (x :: rest)) pre =
      if isNonEmpty (filterValueLeaves aset x (pre ++ "[]")) = true then
        .arr [filterValueLeaves aset x (pre ++ "[]")]
      else .arr [] := by
  simp only [filterValueLeaves, filterArrayLeaves]
  split_ifs <;> rfl

mutual
theorem filterValueLeaves_holdsLeaf (aset : List String) (v : Ex) (pre : String)
    (h : isNonEmpty (filterValueLeaves aset v pre) = true) :
    (filterValueLeaves aset v pre).holdsLeaf = true := by
  match v with
  | .null => simp [filterValueLeaves, isNonEmpty] at h
  | .str s => rfl
  | .int n => rfl
  | .bool b => rfl
  | .arr [] => simp [filterValueLeaves, filterArrayLeaves, isNonEmpty] at h
  | .arr (x :: rest) =>
    rw [filterValueLeaves_arr_cons] at h ⊢
    by_cases hx : isNonEmpty (filterValueLeaves aset x (pre ++ "[]")) = true
    · rw [if_pos hx]
      simp only [Ex.holdsLeaf, holdsLeafList, Bool.or_false]
      exact filterValueLeaves_holdsLeaf aset x (pre ++ "[]") hx
    · rw [if_neg hx] at h
      simp [isNonEmpty] at h
  | .map kvs =>
    simp only [filterValueLeaves, Ex.holdsLeaf] at h ⊢
    apply filterMapLeaves_holdsLeaf aset kvs pre
    intro e
    rw [e] at h
    simp [isNonEmpty] at h
theorem filterMapLeaves_holdsLeaf (aset : List String) (kvs : List (String × Ex))
    (pre : String) (h : filterMapLeaves aset kvs pre ≠ []) :
    holdsLeafEntries (filterMapLeaves aset kvs pre) = true := by
  match kvs with
  | [] => simp [filterMapLeaves] at h
  | (k, vv) :: rest =>
    rw [filterMapLeaves_cons] at h ⊢
    split_ifs at h ⊢ with h1 h2 h2
    · simp [holdsLeafEntries, h1]
    · exact filterMapLeaves_holdsLeaf aset rest pre h
    · have := filterValueLeaves_holdsLeaf aset vv (pathJoin pre k) h2
      simp [holdsLeafEntries, this]
    · exact filterMapLeaves_holdsLeaf aset rest pre h
end

theorem entryIn_filter (aset : List String) (u : Ex) (k : String) (v : Ex)
    (h : EntryIn u k v) :
    ∀ (t : Ex) (pre : String), u = filterValueLeaves aset t pre → v ≠ .arr [] := by
  induction h with
  | here kvs' k v hm =>
    intro t pre ht
    cases t with
    | map kvs =>
      simp only [filterValueLeaves, Ex.map.injEq] at ht
      subst ht
      obtain ⟨k1, vv, _, ⟨h1, _, e⟩ | ⟨_, h2, e⟩⟩ := (mem_filterMapLeaves aset kvs pre _).mp hm
      · have e2 : v = vv := (Prod.mk.inj e).2
        intro e3
        rw [← e2, e3] at h1
        simp [isLeaf] at h1
      · have e2 := (Prod.mk.inj e).2
        intro e3
        rw [← e2, e3] at h2
        simp [isNonEmpty] at h2
    | arr xs => simp [filterValueLeaves] at ht
    | null => simp [filterValueLeaves] at ht
    | str s => simp [filterValueLeaves] at ht
    | int n => simp [filterValueLeaves] at ht
    | bool b => simp [filterValueLeaves] at ht
  | inMap kvs' k0 sub k v hm hsub ih =>
    intro t pre ht
    cases t with
    | map kvs =>
      simp only [filterValueLeaves, Ex.map.injEq] at ht
      subst ht
      obtain ⟨k1, vv, _, ⟨h1, _, e⟩ | ⟨_, _, e⟩⟩ := (mem_filterMapLeaves aset kvs pre _).mp hm
      · have e2 : sub = vv := (Prod.mk.inj e).2
        exact ih vv pre (by rw [filterValueLeaves_leaf aset vv pre h1]; exact e2)
      · exact ih vv _ (Prod.mk.inj e).2
    | arr xs => simp [filterValueLeaves] at ht
    | null => simp [filterValueLeaves] at ht
    | str s => simp [filterValueLeaves] at ht
    | int n => simp [filterValueLeaves] at ht
    | bool b => simp [filterValueLeaves] at ht
  | inArr xs' x' k v hx _ ih =>
    intro t pre ht
    cases t with
    | arr xs =>
      cases xs with
      | nil =>
        simp only [filterValueLeaves, filterArrayLeaves, Ex.arr.injEq] at ht
        subst ht
        simp at hx
      | cons x rest =>
        simp only [filterValueLeaves, filterArrayLeaves, Ex.arr.injEq] at ht
        split_ifs at ht
        · subst ht
          simp only [List.mem_singleton] at hx
          exact ih x _ hx
        · subst ht
          simp at hx
    | map kvs => simp [filterValueLeaves] at ht
    | null => simp [filterValueLeaves] at ht
    | str s => simp [filterValueLeaves] at ht
    | int n => simp [filterValueLeaves] at ht
    | bool b => simp [filterValueLeaves] at ht

/-- Claim C40: whatever the allow-list, no entry of the filtered value under
`data`, at any depth, is the empty array; in the map loop at any prefix a key
whose value is the empty array is absent from the result, its key or path
allowed or not; an array entry is in the result exactly when the original
array has a first element whose filtered value holds a leaf, and it is then
the array of that one value.  On the example with `tags` empty under `data`
and under `data.o`, the allow-list of `tags`, `data.tags`, `data.o.tags` and
`name` leaves `name` alone under `data`. -/
theorem filterExampleDataLeaves_empty_array :
    (∀ (allowed : List String) (m : List (String × Ex)) (d : Ex), lookup "data" m = some d →
      ∃ m', filterExampleDataLeaves (.map m) allowed = .map m' ∧
        lookup "data" m' = some (filterValueLeaves (normalizeAllowed allowed) d "data") ∧
        ∀ k v, EntryIn (filterValueLeaves (normalizeAllowed allowed) d "data") k v →
          v ≠ .arr []) ∧
    (∀ (aset : List String) (kvs : List (String × Ex)) (pre k : String),
      (∀ v, (k, v) ∈ kvs → v = .arr []) →
      ∀ v, (k, v) ∉ filterMapLeaves aset kvs pre) ∧
    (∀ (aset : List String) (kvs : List (String × Ex)) (pre k : String) (ys : List Ex),
      (k, .arr ys) ∈ filterMapLeaves aset kvs pre ↔
        ∃ x rest, (k, .arr (x :: rest)) ∈ kvs ∧
          (filterValueLeaves aset x (pathJoin pre k ++ "[]")).holdsLeaf = true ∧
          ys = [filterValueLeaves aset x (pathJoin pre k ++ "[]")]) ∧
    filterExampleDataLeaves tagsExample ["tags", "data.tags", "data.o.tags", "name"] =
      .map [("code", .int 0), ("data", .map [("name", .str "string")])] := by
  refine ⟨?_, ?_, ?_, rfl⟩
  · intro allowed m d hd
    refine ⟨m.map (filterTopEntry (normalizeAllowed allowed)), rfl, ?_, ?_⟩
    · rw [lookup_filterTopEntry, hd]; simp
    · intro k v h
      exact entryIn_filter _ _ k v h d "data" rfl
  · intro aset kvs pre k hall v hv
    obtain ⟨k1, vv, hm, ⟨h1, _, e⟩ | ⟨_, h2, e⟩⟩ := (mem_filterMapLeaves aset kvs pre _).mp hv
    · have e1 : k = k1 := (Prod.mk.inj e).1
      subst e1
      rw [hall vv hm] at h1
      simp [isLeaf] at h1
    · have e1 : k = k1 := (Prod.mk.inj e).1
      subst e1
      rw [hall vv hm] at h2
      simp [filterValueLeaves, filterArrayLeaves, isNonEmpty] at h2
  · intro aset kvs pre k ys
    rw [mem_filterMapLeaves]
    constructor
    · rintro ⟨k1, vv, hm, ⟨h1, _, e⟩ | ⟨h1, h2, e⟩⟩
      · cases e
        simp [isLeaf] at h1
      · simp only [Prod.mk.injEq] at e
        obtain ⟨e1, e2⟩ := e
        subst e1
        cases vv with
        | arr xs =>
          cases xs with
          | nil => simp [filterValueLeaves, filterArrayLeaves, isNonEmpty] at h2
          | cons x rest =>
            rw [filterValueLeaves_arr_cons] at e2 h2
            by_cases hx : isNonEmpty (filterValueLeaves aset x (pathJoin pre k ++ "[]")) = true
            · rw [if_pos hx] at e2
              simp only [Ex.arr.injEq] at e2
              exact ⟨x, rest, hm, filterValueLeaves_holdsLeaf aset x _ hx, e2⟩
            · rw [if_neg hx] at h2
              simp [isNonEmpty] at h2
        | map kvs2 => simp [filterValueLeaves] at e2
        | null => simp [isLeaf] at h1
        | str s => simp [isLeaf] at h1
        | int n => simp [isLeaf] at h1
        | bool b => simp [isLeaf] at h1
    · rintro ⟨x, rest, hm, hl, rfl⟩
      have hx := holdsLeaf_isNonEmpty _ hl
      refine ⟨k, .arr (x :: rest), hm, Or.inr ⟨rfl, ?_, ?_⟩⟩
      · rw [filterValueLeaves_arr_cons, if_pos hx]
        simp [isNonEmpty]
      · rw [filterValueLeaves_arr_cons, if_pos hx]

/-! ## The allow-lists of an operation -/

/-- Claim C36, failing input: with the one rule keyed `/v1/record/record/*`,
which matches the path `/v1/record/record/list` and which customizeForPath
returns for it, lists included, the allow-lists that the generators apply to
the operation at that path are nil: they are read under the path itself as
key, and a path that is no key of the configuration has none. -/
theorem allowedReq_exact_key :
    pathLikeMatch "/v1/record/record/*" "/v1/record/record/list" = true ∧
    customizeForPath "/v1/record/record/list" recordConfig =
      { Headers := some [("accessToken", "string#required#token")],
        Request := some ["data.a"], Response := some ["data.b"] } ∧
    allowedReq recordConfig "/v1/record/record/list" = none ∧
    allowedRes recordConfig "/v1/record/record/list" = none ∧
    (∀ (cfg : RenderConfig) (p : String), cfg.Customize.get p = none →
      allowedReq cfg p = none ∧ allowedRes cfg p = none) := by
  refine ⟨by decide, by decide, by decide, by decide, ?_⟩
  intro cfg p h
  simp [allowedReq, allowedRes, h]

/-! ## The walk by reference and the walk by node -/

set_option maxHeartbeats 1000000 in
theorem flattenSchemaFieldsFromJson_deep (G : Gconv) (fuel : Nat) :
    flattenSchemaFieldsFromJson G (fuel + 3) (some deepDoc) (some deepSchema) "" =
      .ok [{ Path := "o", Required := false, Typ := "object", Desc := "" },
           { Path := "o.p", Required := false, Typ := "object", Desc := "" },
           { Path := "o.p.q", Required := false, Typ := "string", Desc := "" },
           { Path := "xs[]", Required := false, Typ := "array(string)", Desc := "" }] := rfl

/-- Claim C32, failing input: for the component `Deep`, whose property `o` is
an inline object holding the inline object `p` with the property `q`, the
reference is resolved to the schema itself, flattenSchemaFields returns the
rows `o`, `o.p`, `xs[]` and stops there, and flattenSchemaFieldsFromJson on the
resolved node returns the row `o.p.q` as well. -/
theorem flatten_ref_inline_differ :
    (∀ G : Gconv, GetRefJSON G (some deepDoc) "#/components/schemas/Deep" = some deepSchema) ∧
    (∀ (G : Gconv) (fuel : Nat),
      flattenSchemaFields G (fuel + 1) (some deepDoc) "#/components/schemas/Deep" "" =
        .ok [{ Path := "o", Required := false, Typ := "object", Desc := "" },
             { Path := "o.p", Required := false, Typ := "object", Desc := "" },
             { Path := "xs[]", Required := false, Typ := "array(string)", Desc := "" }]) ∧
    (∀ (G : Gconv) (fuel : Nat),
      flattenSchemaFieldsFromJson G (fuel + 3) (some deepDoc)
          (GetRefJSON G (some deepDoc) "#/components/schemas/Deep") "" =
        .ok [{ Path := "o", Required := false, Typ := "object", Desc := "" },
             { Path := "o.p", Required := false, Typ := "object", Desc := "" },
             { Path := "o.p.q", Required := false, Typ := "string", Desc := "" },
             { Path := "xs[]", Required := false, Typ := "array(string)", Desc := "" }]) :=
  ⟨fun _ => rfl, fun _ _ => rfl, fun G fuel => flattenSchemaFieldsFromJson_deep G fuel⟩

/-- Claim C33, failing input: for the same component, exampleValue gives nil
to the property `o`, an object, and to the property `xs`, an array, and
exampleValueFromSchema on the resolved node gives them the example of the
object and the empty array. -/
theorem exampleValue_ref_inline_differ :
    (∀ (G : Gconv) (fuel : Nat),
      exampleValue G (fuel + 1) (some deepDoc) "#/components/schemas/Deep" =
        .ok (.map [("o", .null), ("xs", .null)])) ∧
    (∀ (G : Gconv) (fuel : Nat),
      exampleValueFromSchema G (fuel + 3) (some deepDoc)
          (GetRefJSON G (some deepDoc) "#/components/schemas/Deep") =
        .ok (.map [("o", .map [("p", .map [("q", .str "string")])]), ("xs", .arr [])])) := by
  refine ⟨fun G fuel => rfl, fun G fuel => rfl⟩

/-! ## The prefix of a flattening -/

theorem appendRows_rebase (P : String) (keys : List String)
    (f f' : String → Except Stop (List FieldInfo))
    (h : ∀ k ∈ keys, f' k = rebaseAll P (f k)) :
    appendRows keys f' = rebaseAll P (appendRows keys f) := by
  induction keys with
  | nil => rfl
  | cons k rest ih =>
    have h1 := h k (List.mem_cons_self _ _)
    have h2 := ih (fun k' hk' => h k' (List.mem_cons_of_mem _ hk'))
    unfold appendRows
    rw [h1, h2]
    cases f k with
    | error e => rfl
    | ok rows =>
      cases appendRows rest f with
      | error e => rfl
      | ok more => simp [rebaseAll, bind, Except.bind, pure, Except.pure]

theorem itemRows_rebase (G : Gconv) (j : Option Json) (P c : String) (it : Option Json) :
    itemRows G j (P ++ "." ++ c) it = rebaseAll P (itemRows G j c it) := by
  unfold itemRows
  cases mergedProperties G j it with
  | error e => rfl
  | ok props2 =>
    simp [rebaseAll, rebase, bind, Except.bind, pure, Except.pure, String.append_assoc]

theorem fieldRowsFromJson_rebase (G : Gconv) (j : Option Json) (P : String)
    (recur : Option Json → String → Except Stop (List FieldInfo))
    (hrec : ∀ s c, c ≠ "" → recur s (P ++ "." ++ c) = rebaseAll P (recur s c))
    (requiredSet : List String) (pre pre' k : String) (pj : Option Json)
    (hcur : joinPath pre' k = P ++ "." ++ joinPath pre k) (hne : joinPath pre k ≠ "") :
    fieldRowsFromJson G j recur requiredSet pre' k pj =
      rebaseAll P (fieldRowsFromJson G j recur requiredSet pre k pj) := by
  have hb : P ++ "." ++ joinPath pre k ++ "[]" = P ++ "." ++ (joinPath pre k ++ "[]") := by
    simp [String.append_assoc]
  have hbne : joinPath pre k ++ "[]" ≠ "" := by
    intro e
    have := congrArg String.length e
    simp only [String.length_append] at this
    have h2 : "[]".length = 2 := by decide
    have h0 : "".length = 0 := by decide
    omega
  unfold fieldRowsFromJson
  simp only [hcur, GetJson]
  split_ifs
  · rw [hb]
    cases GetRefJSON G j (getString G (some (New G (Get pj "items"))) "$ref") with
    | none => rfl
    | some s =>
      simp only [hrec (some s) _ hbne]
      generalize recur (some s) (joinPath pre k ++ "[]") = r
      cases r <;> rfl
  · rw [itemRows_rebase, hb]
    generalize itemRows G j (joinPath pre k) (some (New G (Get pj "items"))) = r
    cases r <;> rfl
  · rw [hb]; rfl
  · cases GetRefJSON G j (getString G pj "$ref") with
    | none => rfl
    | some s =>
      simp only [hrec (some s) _ hne]
      generalize recur (some s) (joinPath pre k) = r
      cases r <;> rfl
  · simp only [hrec pj _ hne]
    generalize recur pj (joinPath pre k) = r
    cases r <;> rfl
  · rfl

theorem joinPath_under (P q k : String) (hq : q ≠ "") :
    joinPath (P ++ "." ++ q) k = P ++ "." ++ joinPath q k ∧ joinPath q k ≠ "" := by
  have h1 : P ++ "." ++ q ≠ "" := by
    intro e
    have := congrArg String.length e
    simp only [String.length_append] at this
    have h2 : ".".length = 1 := by decide
    have h0 : "".length = 0 := by decide
    omega
  have h3 : q ++ "." ++ k ≠ "" := by
    intro e
    have := congrArg String.length e
    simp only [String.length_append] at this
    have h2 : ".".length = 1 := by decide
    have h0 : "".length = 0 := by decide
    omega
  simp only [joinPath, h1, hq, ne_eq, not_false_eq_true, if_true]
  exact ⟨by simp [String.append_assoc], h3⟩

theorem flattenSchemaFieldsFromJson_under (G : Gconv) (j : Option Json) (P : String)
    (fuel : Nat) :
    ∀ (sj : Option Json) (q : String), q ≠ "" →
      flattenSchemaFieldsFromJson G fuel j sj (P ++ "." ++ q) =
        rebaseAll P (flattenSchemaFieldsFromJson G fuel j sj q) := by
  induction fuel with
  | zero => intro sj q _; rfl
  | succ n ih =>
    intro sj q hq
    unfold flattenSchemaFieldsFromJson
    cases sj with
    | none => rfl
    | some v =>
      simp only
      cases mergedProperties G j (some v) with
      | error e => rfl
      | ok props =>
        simp only [bind, Except.bind]
        apply appendRows_rebase
        intro k _
        obtain ⟨h1, h2⟩ := joinPath_under P q k hq
        exact fieldRowsFromJson_rebase G j P _ (fun s c hc => ih s c hc) _ q _ k _ h1 h2

theorem flattenSchemaFieldsFromJson_top (G : Gconv) (j : Option Json) (P : String)
    (hP : P ≠ "") (fuel : Nat) (sj : Option Json)
    (hk : ∀ props, mergedProperties G j sj = .ok props → "" ∉ props.keys) :
    flattenSchemaFieldsFromJson G fuel j sj P =
      rebaseAll P (flattenSchemaFieldsFromJson G fuel j sj "") := by
  cases fuel with
  | zero => rfl
  | succ n =>
    unfold flattenSchemaFieldsFromJson
    cases sj with
    | none => rfl
    | some v =>
      simp only
      cases hm : mergedProperties G j (some v) with
      | error e => rfl
      | ok props =>
        simp only [bind, Except.bind]
        apply appendRows_rebase
        intro k hmem
        have hkne : k ≠ "" := by
          rintro rfl
          exact hk props hm ((SortStrings_mem _ _).1 hmem)
        refine fieldRowsFromJson_rebase G j P _
          (fun s c hc => flattenSchemaFieldsFromJson_under G j P n s c hc) _ "" P k _ ?_ ?_
        · simp [joinPath, hP]
        · simpa [joinPath] using hkne


theorem append_ne_empty (a b : String) (hb : b.length ≠ 0) : a ++ b ≠ "" := by
  intro e
  have := congrArg String.length e
  simp only [String.length_append] at this
  have h0 : "".length = 0 := by decide
  omega

theorem nestedRows_rebase (G : Gconv) (P : String)
    (recur : String → String → Except Stop (List FieldInfo))
    (hrec : ∀ r c, c ≠ "" → recur r (P ++ "." ++ c) = rebaseAll P (recur r c))
    (nestedReq : List String) (c nk : String) (np : Option Json) :
    nestedRows G recur nestedReq (P ++ "." ++ c) nk np =
      rebaseAll P (nestedRows G recur nestedReq c nk np) := by
  have ha : P ++ "." ++ c ++ "." ++ nk = P ++ "." ++ (c ++ "." ++ nk) := by
    simp [String.append_assoc]
  have hb : P ++ "." ++ (c ++ "." ++ nk) ++ "[]" = P ++ "." ++ (c ++ "." ++ nk ++ "[]") := by
    simp [String.append_assoc]
  have hne : c ++ "." ++ nk ≠ "" := by
    intro e
    have := congrArg String.length e
    simp only [String.length_append] at this
    have h2 : ".".length = 1 := by decide
    have h0 : "".length = 0 := by decide
    omega
  have hbne : c ++ "." ++ nk ++ "[]" ≠ "" := append_ne_empty _ _ (by decide)
  unfold nestedRows
  simp only [ha, GetJson]
  split_ifs
  · rw [hb]
    simp only [hrec _ _ hbne]
    generalize recur _ (c ++ "." ++ nk ++ "[]") = r
    cases r <;> rfl
  · rw [hb]; rfl
  · simp only [hrec _ _ hne]
    generalize recur _ (c ++ "." ++ nk) = r
    cases r <;> rfl
  · rfl

theorem nestedObjectRows_rebase (G : Gconv) (P : String)
    (recur : String → String → Except Stop (List FieldInfo))
    (hrec : ∀ r c, c ≠ "" → recur r (P ++ "." ++ c) = rebaseAll P (recur r c))
    (c : String) (pj : Option Json) :
    nestedObjectRows G recur (P ++ "." ++ c) pj =
      rebaseAll P (nestedObjectRows G recur c pj) := by
  unfold nestedObjectRows
  simp only
  split_ifs
  · apply appendRows_rebase
    intro nk _
    exact nestedRows_rebase G P recur hrec _ c nk _
  · rfl

theorem fieldRows_rebase (G : Gconv) (j : Option Json) (P : String)
    (recur : String → String → Except Stop (List FieldInfo))
    (hrec : ∀ r c, c ≠ "" → recur r (P ++ "." ++ c) = rebaseAll P (recur r c))
    (requiredSet : List String) (pre pre' k : String) (pj : Option Json)
    (hcur : joinPath pre' k = P ++ "." ++ joinPath pre k) (hne : joinPath pre k ≠ "") :
    fieldRows G j recur requiredSet pre' k pj =
      rebaseAll P (fieldRows G j recur requiredSet pre k pj) := by
  have hb : P ++ "." ++ joinPath pre k ++ "[]" = P ++ "." ++ (joinPath pre k ++ "[]") := by
    simp [String.append_assoc]
  have hbne : joinPath pre k ++ "[]" ≠ "" := append_ne_empty _ _ (by decide)
  unfold fieldRows
  simp only [hcur, GetJson]
  split_ifs
  · rw [hb]
    simp only [hrec _ _ hbne]
    generalize recur _ (joinPath pre k ++ "[]") = r
    cases r <;> rfl
  · rw [itemRows_rebase, hb]
    generalize itemRows G j (joinPath pre k) (some (New G (Get pj "items"))) = r
    cases r <;> rfl
  · rw [hb]; rfl
  · simp only [hrec _ _ hne]
    generalize recur _ (joinPath pre k) = r
    cases r <;> rfl
  · rw [nestedObjectRows_rebase G P recur hrec]
    generalize nestedObjectRows G recur (joinPath pre k) pj = r
    cases r <;> rfl
  · rfl

theorem flattenSchemaFields_under (G : Gconv) (j : Option Json) (P : String) (fuel : Nat) :
    ∀ (ref q : String), q ≠ "" →
      flattenSchemaFields G fuel j ref (P ++ "." ++ q) =
        rebaseAll P (flattenSchemaFields G fuel j ref q) := by
  induction fuel with
  | zero => intro ref q _; rfl
  | succ n ih =>
    intro ref q hq
    unfold flattenSchemaFields
    simp only
    cases GetSchema G j (ComponentNameFromRef ref) with
    | none => rfl
    | some sj =>
      simp only
      apply appendRows_rebase
      intro k _
      obtain ⟨h1, h2⟩ := joinPath_under P q k hq
      exact fieldRows_rebase G j P _ (fun r c hc => ih r c hc) _ q _ k _ h1 h2

theorem flattenSchemaFields_top (G : Gconv) (j : Option Json) (P : String)
    (hP : P ≠ "") (fuel : Nat) (ref : String)
    (hk : ∀ sj, GetSchema G j (ComponentNameFromRef ref) = some sj →
      "" ∉ (GetJsonMap G (some sj) "properties").keys) :
    flattenSchemaFields G fuel j ref P = rebaseAll P (flattenSchemaFields G fuel j ref "") := by
  cases fuel with
  | zero => rfl
  | succ n =>
    unfold flattenSchemaFields
    simp only
    cases hs : GetSchema G j (ComponentNameFromRef ref) with
    | none => rfl
    | some sj =>
      simp only
      apply appendRows_rebase
      intro k hmem
      have hkne : k ≠ "" := by
        rintro rfl
        exact hk sj hs ((SortStrings_mem _ _).1 hmem)
      refine fieldRows_rebase G j P _
        (fun r c hc => flattenSchemaFields_under G j P n r c hc) _ "" P k _ ?_ ?_
      · simp [joinPath, hP]
      · simpa [joinPath] using hkne

/-- Claim C37, counterexample: a property with the empty name.  It is an
inline object with the property `a` for flattenSchemaFieldsFromJson, a
reference to `Foo` for flattenSchemaFields: under the empty prefix it is
flattened under the empty prefix again and gives the path `a`, and under the
prefix `P` it is flattened under `P.` and gives `P..a`, which is not `P.a`. -/
theorem flatten_prefix_empty_name :
    (∀ G : Gconv, flattenSchemaFieldsFromJson G 2 (some fooDoc) (some emptyNameSchema) "" =
      .ok [{ Path := "", Required := false, Typ := "object", Desc := "" },
           { Path := "a", Required := false, Typ := "string", Desc := "" }]) ∧
    (∀ G : Gconv, flattenSchemaFieldsFromJson G 2 (some fooDoc) (some emptyNameSchema) "P" =
      .ok [{ Path := "P.", Required := false, Typ := "object", Desc := "" },
           { Path := "P..a", Required := false, Typ := "string", Desc := "" }]) ∧
    (∀ G : Gconv,
      flattenSchemaFields G 2 (some emptyNameDoc) "#/components/schemas/Holder" "" =
      .ok [{ Path := "", Required := false, Typ := "object", Desc := "" },
           { Path := "a", Required := false, Typ := "string", Desc := "" }]) ∧
    (∀ G : Gconv,
      flattenSchemaFields G 2 (some emptyNameDoc) "#/components/schemas/Holder" "P" =
      .ok [{ Path := "P.", Required := false, Typ := "object", Desc := "" },
           { Path := "P..a", Required := false, Typ := "string", Desc := "" }]) ∧
    rebase "P" { Path := "a", Required := false, Typ := "string", Desc := "" } =
      { Path := "P.a", Required := false, Typ := "string", Desc := "" } :=
  ⟨fun _ => rfl, fun _ => rfl, fun _ => rfl, fun _ => rfl, by decide⟩

/-- Claim C37, amended: for a non-empty prefix P and a schema none of whose
properties at the top has the empty name, each flattener called with the
prefix P gives what it gives with the empty prefix, with P and a `.` put
before every path and nothing else changed, and it does not return with the
one when it does not with the other; so every path returned starts with P and
a `.`. -/
theorem flatten_prefix_hom (G : Gconv) (j : Option Json) (P : String) (hP : P ≠ "") :
    (∀ (fuel : Nat) (sj : Option Json),
      (∀ props, mergedProperties G j sj = .ok props → "" ∉ props.keys) →
      flattenSchemaFieldsFromJson G fuel j sj P =
        rebaseAll P (flattenSchemaFieldsFromJson G fuel j sj "")) ∧
    (∀ (fuel : Nat) (ref : String),
      (∀ sj, GetSchema G j (ComponentNameFromRef ref) = some sj →
        "" ∉ (GetJsonMap G (some sj) "properties").keys) →
      flattenSchemaFields G fuel j ref P = rebaseAll P (flattenSchemaFields G fuel j ref "")) ∧
    (∀ (sj : Option Json) (out : List FieldInfo),
      (∀ props, mergedProperties G j sj = .ok props → "" ∉ props.keys) →
      FlattensJsonTo G j sj P out →
      (∃ out0, FlattensJsonTo G j sj "" out0 ∧ out = out0.map (rebase P)) ∧
        ∀ f ∈ out, hasPrefix f.Path (P ++ ".") = true) ∧
    (∀ (ref : String) (out : List FieldInfo),
      (∀ sj, GetSchema G j (ComponentNameFromRef ref) = some sj →
        "" ∉ (GetJsonMap G (some sj) "properties").keys) →
      FlattensTo G j ref P out →
      (∃ out0, FlattensTo G j ref "" out0 ∧ out = out0.map (rebase P)) ∧
        ∀ f ∈ out, hasPrefix f.Path (P ++ ".") = true) := by
  have hpre : ∀ (out0 : List FieldInfo), ∀ f ∈ out0.map (rebase P),
      hasPrefix f.Path (P ++ ".") = true := by
    intro out0 f hf
    obtain ⟨f0, _, rfl⟩ := List.mem_map.mp hf
    exact (hasPrefix_iff _ _).mpr ⟨f0.Path, rfl⟩
  refine ⟨fun fuel sj hk => flattenSchemaFieldsFromJson_top G j P hP fuel sj hk,
    fun fuel ref hk => flattenSchemaFields_top G j P hP fuel ref hk, ?_, ?_⟩
  · rintro sj out hk ⟨fuel, h⟩
    rw [flattenSchemaFieldsFromJson_top G j P hP fuel sj hk] at h
    cases h0 : flattenSchemaFieldsFromJson G fuel j sj "" with
    | error e => rw [h0] at h; cases h
    | ok out0 =>
      rw [h0] at h
      cases h
      exact ⟨⟨out0, ⟨fuel, h0⟩, rfl⟩, hpre out0⟩
  · rintro ref out hk ⟨fuel, h⟩
    rw [flattenSchemaFields_top G j P hP fuel ref hk] at h
    cases h0 : flattenSchemaFields G fuel j ref "" with
    | error e => rw [h0] at h; cases h
    | ok out0 =>
      rw [h0] at h
      cases h
      exact ⟨⟨out0, ⟨fuel, h0⟩, rfl⟩, hpre out0⟩

theorem flatten_prefix_hom_witness :
    "req" ≠ "" ∧
      flattenSchemaFields Gconv.plain 1 (some reqDoc) "#/components/schemas/Req" "req" =
        rebaseAll "req"
          (flattenSchemaFields Gconv.plain 1 (some reqDoc) "#/components/schemas/Req" "") :=
  ⟨by decide,
    (flatten_prefix_hom Gconv.plain (some reqDoc) "req" (by decide)).2.1 1
      "#/components/schemas/Req" (by
        intro sj hs
        have e : GetSchema Gconv.plain (some reqDoc)
            (ComponentNameFromRef "#/components/schemas/Req") = some reqSchema := rfl
        rw [e] at hs
        cases hs
        decide)⟩

/-! ## The properties of the flattener and of the example -/

/-- Claim C34, counterexample: `refWithProps` has the property `b`, which
flattenSchemaFieldsFromJson flattens, and a `$ref` to `Foo`, which
exampleValueFromSchema follows: the example has the key `a` and no key `b`;
`arrayWithProps` has the property `b` and the type `array`: it flattens to the
row `b` and its example is the empty array, no map. -/
theorem flatten_example_dispatch :
    (∀ G : Gconv, flattenSchemaFieldsFromJson G 1 (some fooDoc) (some refWithProps) "" =
      .ok [{ Path := "b", Required := false, Typ := "string", Desc := "" }]) ∧
    (∀ G : Gconv, exampleValueFromSchema G 2 (some fooDoc) (some refWithProps) =
      .ok (.map [("a", .str "string")])) ∧
    (∀ G : Gconv, flattenSchemaFieldsFromJson G 1 (some fooDoc) (some arrayWithProps) "" =
      .ok [{ Path := "b", Required := false, Typ := "string", Desc := "" }]) ∧
    (∀ G : Gconv, exampleValueFromSchema G 1 (some fooDoc) (some arrayWithProps) =
      .ok (.arr [])) :=
  ⟨fun _ => rfl, fun _ => rfl, fun _ => rfl, fun _ => rfl⟩

theorem appendRows_nil_keys (f : String → Except Stop (List FieldInfo)) :
    appendRows [] f = .ok [] := rfl

theorem SortStrings_nil_iff (ks : List String) : SortStrings ks = [] ↔ ks = [] := by
  constructor
  · intro h
    cases ks with
    | nil => rfl
    | cons k rest =>
      have := (SortStrings_mem (k :: rest) k).2 (List.mem_cons_self _ _)
      rw [h] at this
      cases this
  · rintro rfl
    rfl

/-- Claim C34, amended: when flattenSchemaFieldsFromJson(j, s, "") returns
rows, not none, for a node `s` without `$ref` and not of type `array`, the
properties that the flattener walks are the own properties of `s`, it has a row
for each of them, and the example that exampleValueFromSchema returns for `s`
is a map with exactly these names as its keys; it does return one when every
property has an example. -/
theorem flatten_example_properties (G : Gconv) (j : Option Json) (s : Json)
    (rows : List FieldInfo) (hflat : FlattensJsonTo G j (some s) "" rows) (hrows : rows ≠ [])
    (href : getString G (some s) "$ref" = "") (harr : getString G (some s) "type" ≠ "array") :
    (∀ props, mergedProperties G j (some s) = .ok props →
      props = GetJsonMap G (some s) "properties") ∧
    (∀ k ∈ (GetJsonMap G (some s) "properties").keys,
      ∃ row ∈ rows, row.Path = k ∨ row.Path = k ++ "[]") ∧
    (∀ out, ExampleOf G j (some s) out →
      ∃ m, out = .map m ∧ m.map Prod.fst = (GetJsonMap G (some s) "properties").keys) ∧
    ((∀ k ∈ (GetJsonMap G (some s) "properties").keys,
        ∃ v, PropExample G j ((GetJsonMap G (some s) "properties").get k) v) →
      ∃ out, ExampleOf G j (some s) out) := by
  obtain ⟨fuel, hout⟩ := hflat
  cases fuel with
  | zero => simp [flattenSchemaFieldsFromJson] at hout
  | succ n =>
    unfold flattenSchemaFieldsFromJson at hout
    simp only at hout
    obtain ⟨props, hprops, hout⟩ := bind_eq_ok _ _ _ hout
    have hkeys : props.keys ≠ [] := by
      intro e
      rw [e] at hout
      have : SortStrings ([] : List String) = [] := rfl
      rw [this, appendRows_nil_keys] at hout
      cases hout
      exact hrows rfl
    have hown : props = GetJsonMap G (some s) "properties" := by
      rcases mergedProperties_own_or_nil G j (some s) props hprops with e | e
      · exact e
      · rw [e] at hkeys
        exact absurd rfl hkeys
    have hlen : (GetJsonMap G (some s) "properties").len > 0 := by
      rw [← hown]
      cases hp : props with
      | none => rw [hp] at hkeys; exact absurd rfl hkeys
      | some kvs =>
        rw [hp] at hkeys
        simp only [GoMap.keys] at hkeys
        simp only [GoMap.len]
        exact List.length_pos.mpr hkeys
    have hobj : getString G (some s) "type" = "object" ∨
        (GetJsonMap G (some s) "properties").len > 0 := Or.inr hlen
    refine ⟨?_, ?_, ?_, ?_⟩
    · intro props' hp'
      rw [hprops] at hp'
      cases hp'
      exact hown
    · intro k hk
      rw [← hown] at hk
      obtain ⟨before, row, after, e, hp, _⟩ := appendRows_head _ _
        (fun k row => (row.Path = joinPath "" k ∨ row.Path = joinPath "" k ++ "[]") ∧ True)
        (fun k' chunk hc => by
          obtain ⟨row, rest, e, hp, _⟩ := fieldRowsFromJson_head _ _ _ _ _ _ _ _ hc
          exact ⟨row, rest, e, hp, trivial⟩)
        rows hout k ((SortStrings_mem _ _).2 hk)
      refine ⟨row, by rw [e]; simp, ?_⟩
      simpa [joinPath] using hp
    · rintro out ⟨fuel, h⟩
      cases fuel with
      | zero => simp [exampleValueFromSchema] at h
      | succ n =>
        unfold exampleValueFromSchema at h
        simp only [href, harr, hobj, ne_eq, not_true_eq_false, if_false, if_true] at h
        obtain ⟨m, hm, h1⟩ := bind_eq_ok _ _ _ h
        cases h1
        exact ⟨m, rfl, by rw [buildMap_keys _ _ m hm, map_fst_entries]⟩
    · intro hall
      have hes : ∀ e ∈ (GetJsonMap G (some s) "properties").entries,
          ∃ v, PropExample G j (some e.2) v := by
        intro e he
        obtain ⟨hk, hg⟩ := mem_entries _ e he
        obtain ⟨v, hv⟩ := hall e.1 hk
        exact ⟨v, by rw [hg] at hv; exact hv⟩
      obtain ⟨n, hn⟩ := propExample_common_fuel G j _ hes
      obtain ⟨m, hm⟩ := buildMap_total _ _ hn
      refine ⟨.map m, n + 1, ?_⟩
      unfold exampleValueFromSchema
      simp only [href, harr, hobj, ne_eq, not_true_eq_false, if_false, if_true]
      simp [hm, bind, Except.bind, pure, Except.pure]

theorem flatten_example_properties_witness :
    FlattensJsonTo Gconv.plain (some fooDoc) (some fooSchema) ""
        [{ Path := "a", Required := false, Typ := "string", Desc := "" }] ∧
      getString Gconv.plain (some fooSchema) "$ref" = "" ∧
      getString Gconv.plain (some fooSchema) "type" ≠ "array" ∧
      ∀ out, ExampleOf Gconv.plain (some fooDoc) (some fooSchema) out →
        ∃ m, out = .map m ∧
          m.map Prod.fst = (GetJsonMap Gconv.plain (some fooSchema) "properties").keys :=
  ⟨⟨1, rfl⟩, by decide, by decide,
    (flatten_example_properties Gconv.plain (some fooDoc) fooSchema
      [{ Path := "a", Required := false, Typ := "string", Desc := "" }] ⟨1, rfl⟩
      (by simp) (by decide) (by decide)).2.2.1⟩

/-! ## The two filters on the leaves of a map tree -/

theorem plainKey_chars (k : String) (h : plainKey k = true) :
    k ≠ "" ∧ ∀ c ∈ k.data, c ≠ '.' ∧ c ≠ '[' ∧ c ≠ ']' := by
  simp only [plainKey, Bool.and_eq_true, decide_eq_true_eq, Bool.not_eq_true',
    ContainsAny, List.any_eq_false] at h
  refine ⟨h.1, fun c hc => ?_⟩
  have := h.2 c hc
  refine ⟨?_, ?_, ?_⟩ <;> (rintro rfl; exact this (by decide))

theorem mapTreeEntries_mem (kvs : List (String × Ex)) (h : mapTreeEntries kvs = true)
    (k : String) (v : Ex) (hm : (k, v) ∈ kvs) : plainKey k = true ∧ v.mapTree = true := by
  induction kvs with
  | nil => simp at hm
  | cons kv rest ih =>
    obtain ⟨k0, v0⟩ := kv
    simp only [mapTreeEntries, Bool.and_eq_true] at h
    rcases List.mem_cons.mp hm with e | e
    · cases e; exact h.1
    · exact ih h.2 e

theorem pathJoin_data (pre k : String) (hpre : pre ≠ "") :
    (pathJoin pre k).data = pre.data ++ '.' :: k.data ∧ pathJoin pre k ≠ "" := by
  have e : pathJoin pre k = pre ++ "." ++ k := by simp [pathJoin, hpre]
  rw [e]
  refine ⟨by simp [String.data_append], ?_⟩
  intro h
  have := congrArg String.length h
  simp only [String.length_append] at this
  have h2 : ".".length = 1 := by decide
  have h0 : "".length = 0 := by decide
  omega

theorem leafAt_mapTree_path (t : Ex) (pre k P : String) (v : Ex) (h : LeafAt t pre k P v) :
    t.mapTree = true → pre ≠ "" →
      ∃ r : List Char, P.data = pre.data ++ r ++ '.' :: k.data ∧
        (∀ c ∈ r, c ≠ '[' ∧ c ≠ ']') ∧ plainKey k = true := by
  induction h with
  | leaf kvs pre k v hm _ =>
    intro ht hpre
    simp only [Ex.mapTree] at ht
    exact ⟨[], by simp [(pathJoin_data pre k hpre).1], by simp,
      (mapTreeEntries_mem kvs ht k v hm).1⟩
  | inMap kvs pre k0 sub k P v hm _ _ ih =>
    intro ht hpre
    simp only [Ex.mapTree] at ht
    obtain ⟨hk0, hsub⟩ := mapTreeEntries_mem kvs ht k0 sub hm
    obtain ⟨r, hr, hb, hk⟩ := ih hsub (pathJoin_data pre k0 hpre).2
    refine ⟨'.' :: k0.data ++ r, ?_, ?_, hk⟩
    · rw [hr, (pathJoin_data pre k0 hpre).1]; simp
    · intro c hc
      rcases List.mem_append.mp hc with h1 | h1
      · rcases List.mem_cons.mp h1 with e | e
        · subst e; exact ⟨by decide, by decide⟩
        · exact ((plainKey_chars k0 hk0).2 c e).2
      · exact hb c h1
  | inArr x rest pre k P v _ _ =>
    intro ht _
    simp [Ex.mapTree] at ht

theorem lastSegmentChars_snoc (q k : List Char) (hk : ∀ c ∈ k, c ≠ '.') :
    lastSegmentChars (q ++ '.' :: k) = k := by
  have hn : '.' ∉ k := fun h => hk '.' h rfl
  induction q with
  | nil =>
    have h1 : k.contains '.' = false := by simpa using hn
    simp only [List.nil_append, lastSegmentChars, h1]
    simp
  | cons c q ih =>
    have h1 : (q ++ '.' :: k).contains '.' = true := by simp
    have e : (c :: q) ++ '.' :: k = c :: (q ++ '.' :: k) := rfl
    rw [e]
    simp only [lastSegmentChars, h1, if_true, ih]

/-- The facts about the path of a leaf of a map tree under `data` that the two
filters look at. -/
theorem leafAt_data_facts (d : Ex) (k P : String) (v : Ex) (h : LeafAt d "data" k P v)
    (ht : d.mapTree = true) :
    plainKey k = true ∧ ReplaceAll P "[]." "[]" = P ∧ ReplaceAll P "[]" "" = P ∧
      hasPrefix P "data" = true ∧ lastSegment P = k ∧
      (∀ a : String, hasPrefix P (a ++ "[]") = false) ∧
      P ≠ "code" ∧ P ≠ "message" ∧ P ≠ "data" := by
  obtain ⟨r, hr, hb, hk⟩ := leafAt_mapTree_path d "data" k P v h ht (by decide)
  obtain ⟨_, hkc⟩ := plainKey_chars k hk
  have hno : ∀ c ∈ P.data, c ≠ '[' := by
    intro c hc
    rw [hr] at hc
    rcases List.mem_append.mp hc with h1 | h1
    · rcases List.mem_append.mp h1 with h3 | h3
      · have h2 : ∀ x ∈ "data".data, x ≠ '[' := by decide
        exact h2 c h3
      · exact (hb c h3).1
    · rcases List.mem_cons.mp h1 with h3 | h3
      · subst h3; decide
      · exact (hkc c h3).2.1
  have hdot : '.' ∈ P.data := by rw [hr]; simp
  refine ⟨hk, ?_, ?_, ?_, ?_, ?_, ?_, ?_, ?_⟩
  · unfold ReplaceAll
    rw [replaceScan_no_dot "[].".data "[]".data '[' _ rfl P.data hno]
  · unfold ReplaceAll
    rw [replaceScan_no_dot "[]".data "".data '[' _ rfl P.data hno]
  · unfold hasPrefix
    rw [hr, List.isPrefixOf_iff_prefix]
    exact ⟨r ++ '.' :: k.data, by simp⟩
  · unfold lastSegment
    rw [hr, lastSegmentChars_snoc _ _ (fun c hc => (hkc c hc).1)]
  · intro a
    rw [Bool.eq_false_iff]
    intro hp
    obtain ⟨rest, e⟩ := (hasPrefix_iff _ _).mp hp
    have : '[' ∈ P.data := by rw [e]; simp [String.data_append]
    exact hno _ this rfl
  · rintro rfl; revert hdot; decide
  · rintro rfl; revert hdot; decide
  · rintro rfl; revert hdot; decide


theorem leafIn_filter_iff (allowed : List String) (m : List (String × Ex)) (d : Ex)
    (hd : lookup "data" m = some d) (k P : String) (v : Ex) :
    LeafIn (filterExampleDataLeaves (.map m) allowed) k P v ↔
      LeafAt (filterValueLeaves (normalizeAllowed allowed) d "data") "data" k P v := by
  have hl : lookup "data" (m.map (filterTopEntry (normalizeAllowed allowed))) =
      some (filterValueLeaves (normalizeAllowed allowed) d "data") := by
    rw [lookup_filterTopEntry, hd]; simp
  constructor
  · rintro ⟨m', d', e, hd', hleaf⟩
    simp only [filterExampleDataLeaves, Ex.map.injEq] at e
    subst e
    rw [hl] at hd'
    cases hd'
    exact hleaf
  · intro h
    exact ⟨_, _, rfl, hl, h⟩

/-- Claim C35, counterexample: with the allow-list of `data.x` the descriptor
at `data.x.y` is kept, its path going on from the pattern by a `.`, and the
leaf `y` is not: the example keeps an empty `data`.  With the allow-list of
`a.b` the leaf at the key `a.b` under `data` is kept, the key being listed, and
the descriptor at `data.a.b` is not.  With the pattern `.items`, whose normal
form is empty, the leaf at the empty key is kept and the descriptor at `data.`
is not. -/
theorem filters_disagree :
    (filterFieldInfos [{ Path := "data.x.y", Required := false, Typ := "string", Desc := "" }]
        ["data.x"] = [{ Path := "data.x.y", Required := false, Typ := "string", Desc := "" }] ∧
      filterExampleDataLeaves (.map [("data", .map [("x", .map [("y", .str "string")])])])
        ["data.x"] = .map [("data", .map [])]) ∧
    (filterFieldInfos [{ Path := "data.a.b", Required := false, Typ := "string", Desc := "" }]
        ["a.b"] = [] ∧
      filterExampleDataLeaves (.map [("data", .map [("a.b", .str "string")])]) ["a.b"] =
        .map [("data", .map [("a.b", .str "string")])]) ∧
    (filterFieldInfos [{ Path := "data.", Required := false, Typ := "string", Desc := "" }]
        [".items"] = [] ∧
      filterExampleDataLeaves (.map [("data", .map [("", .str "string")])]) [".items"] =
        .map [("data", .map [("", .str "string")])]) :=
  ⟨⟨by decide, rfl⟩, ⟨by decide, rfl⟩, ⟨by decide, rfl⟩⟩

/-- Claim C35, amended: for a non-empty allow-list, an example whose `data` is
a map tree with plain keys, a leaf at key k and path P under `data` and a
scalar-typed descriptor at the path P: the leaf is in the filtered example
exactly when k or P is a normal form of a pattern of the list; the descriptor
is in the filtered field list exactly when k or P is one, or P goes on from one
by a `.`; so the descriptor of every leaf that is kept is kept, and the leaf of
a descriptor that is kept is kept unless P only goes on from a pattern. -/
theorem filters_on_leaves (allowed : List String) (hne : allowed ≠ [])
    (m : List (String × Ex)) (d : Ex) (hd : lookup "data" m = some d)
    (htree : d.mapTree = true) (k P : String) (v : Ex) (hleaf : LeafAt d "data" k P v)
    (fields : List FieldInfo) (f : FieldInfo) (hf : f ∈ fields) (hP : f.Path = P)
    (hty : f.Typ ∈ ["string", "integer", "number", "boolean"]) :
    (LeafIn (filterExampleDataLeaves (.map m) allowed) k P v ↔
      (k ∈ normalizeAllowed allowed ∨ P ∈ normalizeAllowed allowed)) ∧
    (f ∈ filterFieldInfos fields allowed ↔
      (k ∈ normalizeAllowed allowed ∨ P ∈ normalizeAllowed allowed ∨
        ∃ a ∈ normalizeAllowed allowed, hasPrefix P (a ++ ".") = true)) ∧
    (LeafIn (filterExampleDataLeaves (.map m) allowed) k P v →
      f ∈ filterFieldInfos fields allowed) ∧
    (f ∈ filterFieldInfos fields allowed →
      (¬ ∃ a ∈ normalizeAllowed allowed, hasPrefix P (a ++ ".") = true) →
      LeafIn (filterExampleDataLeaves (.map m) allowed) k P v) := by
  obtain ⟨hk, hr1, hr2, hdata, hlast, hbr, hc1, hc2, hc3⟩ :=
    leafAt_data_facts d k P v hleaf htree
  obtain ⟨hkne, hkc⟩ := plainKey_chars k hk
  have hbare : ContainsAny k ".[]" = false := by
    simp only [plainKey, Bool.and_eq_true, Bool.not_eq_true'] at hk
    exact hk.2
  have hPne : P ≠ "" := by
    rintro rfl
    revert hdata; decide
  have hlen : allowed.length ≠ 0 := by simpa using hne
  have hty2 : f.Typ ≠ "object" ∧ hasPrefix f.Typ "object(" = false := by
    revert hty; generalize f.Typ = t; revert t; decide
  have hA : LeafIn (filterExampleDataLeaves (.map m) allowed) k P v ↔
      (k ∈ normalizeAllowed allowed ∨ P ∈ normalizeAllowed allowed) := by
    rw [leafIn_filter_iff allowed m d hd]
    have hal : ((normalizeAllowed allowed).contains k ||
        matchAllowedPath (normalizeAllowed allowed) P) = true ↔
        (k ∈ normalizeAllowed allowed ∨ P ∈ normalizeAllowed allowed) := by
      simp [matchAllowedPath, hr1, hr2]
    constructor
    · intro h
      exact hal.mp (leafAt_of_filter _ _ "data" k P v h d rfl).2
    · intro h
      exact leafAt_filter_of _ d "data" k P v hleaf (hal.mpr h)
  have hB : f ∈ filterFieldInfos fields allowed ↔
      (k ∈ normalizeAllowed allowed ∨ P ∈ normalizeAllowed allowed ∨
        ∃ a ∈ normalizeAllowed allowed, hasPrefix P (a ++ ".") = true) := by
    rw [mem_filterFieldInfos fields allowed hlen f, keepField_iff]
    have henv : isEnvelope f = false := by
      rw [Bool.eq_false_iff, Ne, isEnvelope_iff, hP]
      rintro (h | h | h)
      · exact hc1 h
      · exact hc2 h
      · exact hc3 h
    constructor
    · rintro ⟨_, h | ⟨a, ha, hane, h | h⟩⟩
      · rw [henv] at h; cases h
      · rw [hP, matchesPath_iff] at h
        rcases h with h | h | h
        · exact Or.inr (Or.inl (h ▸ ha))
        · exact Or.inr (Or.inr ⟨a, ha, h⟩)
        · rw [hbr a] at h; cases h
      · simp only [matchesLeaf, hP, hr2, hlast, Bool.and_eq_true, decide_eq_true_eq] at h
        exact Or.inl (h.1.1.2 ▸ ha)
    · intro h
      refine ⟨hf, Or.inr ?_⟩
      rcases h with h | h | ⟨a, ha, h⟩
      · refine ⟨k, h, hkne, Or.inr ?_⟩
        simp [matchesLeaf, hP, hr2, hlast, hdata, hbare, hty2.1, hty2.2]
      · exact ⟨P, h, hPne, Or.inl (by rw [hP, matchesPath_iff]; exact Or.inl rfl)⟩
      · refine ⟨a, ha, ?_, Or.inl (by rw [hP, matchesPath_iff]; exact Or.inr (Or.inl h))⟩
        rintro rfl
        obtain ⟨r1, e1⟩ := (hasPrefix_iff _ _).mp h
        obtain ⟨r2, e2⟩ := (hasPrefix_iff _ _).mp hdata
        rw [e1] at e2
        have := congrArg String.data e2
        simp [String.data_append] at this
  refine ⟨hA, hB, ?_, ?_⟩
  · intro h
    rcases hA.mp h with h1 | h1
    · exact hB.mpr (Or.inl h1)
    · exact hB.mpr (Or.inr (Or.inl h1))
  · intro h hno
    rcases hB.mp h with h1 | h1 | h1
    · exact hA.mpr (Or.inl h1)
    · exact hA.mpr (Or.inr h1)
    · exact absurd h1 hno

theorem filters_on_leaves_witness :
    LeafAt (.map [("x", .map [("y", .str "string")])]) "data" "y" "data.x.y" (.str "string") ∧
      (LeafIn (filterExampleDataLeaves
          (.map [("data", .map [("x", .map [("y", .str "string")])])]) ["y"])
          "y" "data.x.y" (.str "string") ↔
        ("y" ∈ normalizeAllowed ["y"] ∨ "data.x.y" ∈ normalizeAllowed ["y"])) :=
  have hl : LeafAt (.map [("x", .map [("y", .str "string")])]) "data" "y" "data.x.y"
      (.str "string") :=
    LeafAt.inMap _ "data" "x" (.map [("y", .str "string")]) "y" "data.x.y" (.str "string")
      (by simp) rfl (LeafAt.leaf _ "data.x" "y" (.str "string") (by simp) rfl)
  ⟨hl, (filters_on_leaves ["y"] (by simp)
    [("data", .map [("x", .map [("y", .str "string")])])]
    (.map [("x", .map [("y", .str "string")])]) rfl rfl "y" "data.x.y" (.str "string") hl
    [{ Path := "data.x.y", Required := false, Typ := "string", Desc := "" }]
    { Path := "data.x.y", Required := false, Typ := "string", Desc := "" }
    (by simp) rfl (by simp)).1⟩

end ApiDocs
